import Mathlib

/-!
Verification of the miniOS kernel.

A shallow embedding of `kernel/memory/memory.c`: the heap allocator
(`init_heap`, `malloc`, `free`), the physical page allocator
(`init_physical_memory`, `allocate_physical_page`, `free_physical_page`) and
the paging code (`init_paging`, `map_page`, `unmap_page`); of the scheduler, the
message queue and the system-call dispatcher of `kernel/core/syscall.c`; of the
interrupt handlers of `kernel/core/interrupt.c`; and of `strncpy`, `itoa` and
`atoi` of the C library.

Conventions of the embedding:

* `unsigned int` values and addresses are natural numbers; every C operation
  that can wrap is written with an explicit reduction modulo `2^32`
  (`4294967296`).  The target is 32-bit x86, so a pointer is an `unsigned int`.
* Kernel memory holding `HeapBlock` headers is a map from the header address to
  the record stored there; every C field assignment is one update of that map,
  in the order of the source, and every field read goes through the map as it is
  at that point of the execution.
* The `while(current)` loop of `malloc` carries a fuel argument; `none` means the
  fuel ran out before the loop finished.  On every reachable heap the loop
  finishes (`malloc_total`) and its result does not depend on the fuel
  (`malloc_fuel_unique`).
* Headers are addressed as whole records.  The invariant `HeapInv` shows that in
  every reachable heap the headers of the block list tile the arena, so no two
  of them overlap and the new header written by a split lies inside the payload
  of the block being split.
-/

namespace MiniOS

/-! ## Constants -/

/-- Bytes per page frame, `#define PAGE_SIZE 4096`. -/
def PAGE_SIZE : Nat := 4096

/-- First byte of the heap arena, `#define HEAP_START 0x100000`. -/
def HEAP_START : Nat := 0x100000

/-- Bytes in the heap arena, `#define HEAP_SIZE 0x1000000`. -/
def HEAP_SIZE : Nat := 0x1000000

/-- The value of `sizeof(HeapBlock)` on the 32-bit target: two 4-byte integers and
two 4-byte pointers. -/
def SIZEOF_HEAPBLOCK : Nat := 16

/-! ## Machine arithmetic on `unsigned int` -/

/-- Unsigned 32-bit addition. -/
def add32 (a b : Nat) : Nat := (a + b) % 4294967296

/-- Unsigned 32-bit subtraction. -/
def sub32 (a b : Nat) : Nat := (a % 4294967296 + 4294967296 - b % 4294967296) % 4294967296

/-- Unsigned 32-bit multiplication. -/
def mul32 (a b : Nat) : Nat := (a * b) % 4294967296

/-- Bitwise complement of a 32-bit word, the C operator `~`. -/
def not32 (a : Nat) : Nat := 4294967295 ^^^ (a % 4294967296)

/-! ## Heap data model -/

/-- The C `struct heap_block`: payload size, free flag (a C `int` used as a
truth value), and the addresses of the neighbouring headers (0 is the null
pointer). -/
structure HeapBlock where
  size : Nat
  free : Nat
  next : Nat
  prev : Nat
deriving DecidableEq, Repr

/-- The C `HeapManager`. -/
structure HeapManager where
  first_block : Nat
  total_size : Nat
  used_size : Nat
deriving DecidableEq, Repr

/-- Kernel memory seen as block headers, indexed by header address. -/
abbrev Mem := Nat → HeapBlock

/-- The global `heap` together with the memory its block headers live in. -/
structure HeapState where
  heap : HeapManager
  mem : Mem

/-- The assignment `p->size = v`. -/
def setSize (m : Mem) (p v : Nat) : Mem :=
  fun x => if x = p then { m p with size := v } else m x

/-- The assignment `p->free = v`. -/
def setFree (m : Mem) (p v : Nat) : Mem :=
  fun x => if x = p then { m p with free := v } else m x

/-- The assignment `p->next = v`. -/
def setNext (m : Mem) (p v : Nat) : Mem :=
  fun x => if x = p then { m p with next := v } else m x

/-- The assignment `p->prev = v`. -/
def setPrev (m : Mem) (p v : Nat) : Mem :=
  fun x => if x = p then { m p with prev := v } else m x

/-! ## Heap operations -/

/-- The function `init_heap`: one free block spanning the arena. -/
def init_heap (s : HeapState) : HeapState :=
  let first := HEAP_START
  let m := s.mem
  let m := setSize m first (sub32 HEAP_SIZE SIZEOF_HEAPBLOCK)
  let m := setFree m first 1
  let m := setNext m first 0
  let m := setPrev m first 0
  { heap := { first_block := first, total_size := HEAP_SIZE, used_size := SIZEOF_HEAPBLOCK },
    mem := m }

/-- The body of the split branch of `malloc` (the block `current` is much larger
than the aligned request `size`). -/
def malloc_split (m : Mem) (current size : Nat) : Mem :=
  let new_block := add32 (add32 current SIZEOF_HEAPBLOCK) size
  let m := setSize m new_block (sub32 (sub32 (m current).size size) SIZEOF_HEAPBLOCK)
  let m := setFree m new_block 1
  let m := setNext m new_block (m current).next
  let m := setPrev m new_block current
  let m := if (m current).next ≠ 0 then setPrev m (m current).next new_block else m
  let m := setNext m current new_block
  setSize m current size

/-- The `while(current)` loop of `malloc`, on the aligned `size`.  The result is
the new state and the returned pointer; `none` when the fuel is used up. -/
def malloc_loop : Nat → HeapState → Nat → Nat → Option (HeapState × Nat)
  | 0, _, _, _ => none
  | fuel + 1, s, current, size =>
    if current = 0 then some (s, 0)
    else if (s.mem current).free ≠ 0 ∧ (s.mem current).size ≥ size then
      let m := s.mem
      let m :=
        if (m current).size > add32 (add32 size SIZEOF_HEAPBLOCK) 16 then
          malloc_split m current size
        else m
      let m := setFree m current 0
      let used := add32 s.heap.used_size (m current).size
      some ({ heap := { s.heap with used_size := used }, mem := m },
            add32 current SIZEOF_HEAPBLOCK)
    else malloc_loop fuel s (s.mem current).next size

/-- The function `malloc`. -/
def malloc (fuel : Nat) (s : HeapState) (size : Nat) : Option (HeapState × Nat) :=
  if size = 0 then some (s, 0)
  else
    let size := add32 size 3 &&& not32 3
    malloc_loop fuel s s.heap.first_block size

/-- The function `free`. -/
def free (s : HeapState) (ptr : Nat) : HeapState :=
  if ptr = 0 then s
  else
    let block := sub32 ptr SIZEOF_HEAPBLOCK
    let m := s.mem
    let m := setFree m block 1
    let used := sub32 s.heap.used_size (m block).size
    let m :=
      if (m block).next ≠ 0 ∧ (m (m block).next).free ≠ 0 then
        let m := setSize m block
          (add32 (m block).size (add32 (m (m block).next).size SIZEOF_HEAPBLOCK))
        let m :=
          if (m (m block).next).next ≠ 0 then setPrev m (m (m block).next).next block else m
        setNext m block (m (m block).next).next
      else m
    let m :=
      if (m block).prev ≠ 0 ∧ (m (m block).prev).free ≠ 0 then
        let m := setSize m (m block).prev
          (add32 (m (m block).prev).size (add32 (m block).size SIZEOF_HEAPBLOCK))
        let m :=
          if (m block).next ≠ 0 then setPrev m (m block).next (m block).prev else m
        setNext m (m block).prev (m block).next
      else m
    { heap := { s.heap with used_size := used }, mem := m }

/-- The function `get_heap_usage`. -/
def get_heap_usage (s : HeapState) : Nat := s.heap.used_size

/-! ## Physical page allocator -/

/-- The C `PhysicalMemoryManager`; `bitmap` maps a word index to the 32-bit word
stored there. -/
structure PhysicalMemoryManager where
  bitmap : Nat → Nat
  total_pages : Nat
  free_pages : Nat
  used_pages : Nat

/-- The `for` loop of `allocate_physical_page`: the first argument counts the
iterations left (`total_pages - i`), the second is `i`. -/
def allocate_physical_page_loop (pmm : PhysicalMemoryManager) :
    Nat → Nat → PhysicalMemoryManager × Nat
  | 0, _ => (pmm, 0)
  | n + 1, i =>
    let byte_index := i / 32
    let bit_index := i % 32
    if pmm.bitmap byte_index &&& (1 <<< bit_index) = 0 then
      ({ pmm with
          bitmap := fun w =>
            if w = byte_index then pmm.bitmap byte_index ||| (1 <<< bit_index)
            else pmm.bitmap w
          free_pages := sub32 pmm.free_pages 1
          used_pages := add32 pmm.used_pages 1 },
        mul32 i PAGE_SIZE)
    else allocate_physical_page_loop pmm n (i + 1)

/-- The function `allocate_physical_page`: the new state and the returned
address. -/
def allocate_physical_page (pmm : PhysicalMemoryManager) : PhysicalMemoryManager × Nat :=
  allocate_physical_page_loop pmm pmm.total_pages 0

/-- The function `free_physical_page`. -/
def free_physical_page (pmm : PhysicalMemoryManager) (page : Nat) : PhysicalMemoryManager :=
  let page_index := page / PAGE_SIZE
  let byte_index := page_index / 32
  let bit_index := page_index % 32
  { pmm with
    bitmap := fun w =>
      if w = byte_index then pmm.bitmap byte_index &&& not32 (1 <<< bit_index)
      else pmm.bitmap w
    free_pages := add32 pmm.free_pages 1
    used_pages := sub32 pmm.used_pages 1 }

/-- The bitmap-clearing loop of `init_physical_memory`: words `0 .. n-1` are set
to zero, in increasing order. -/
def clear_bitmap (bitmap : Nat → Nat) : Nat → Nat → Nat
  | 0 => bitmap
  | n + 1 => fun w => if w = n then 0 else clear_bitmap bitmap n w

/-- The loop `for(i = 0; i < n; i++) allocate_physical_page();` whose results are
discarded. -/
def allocate_many (pmm : PhysicalMemoryManager) : Nat → PhysicalMemoryManager
  | 0 => pmm
  | n + 1 => (allocate_physical_page (allocate_many pmm n)).1

/-- The function `init_physical_memory`. -/
def init_physical_memory (pmm : PhysicalMemoryManager) : PhysicalMemoryManager :=
  let total := (128 * 1024 * 1024) / PAGE_SIZE
  let pmm : PhysicalMemoryManager :=
    { bitmap := clear_bitmap pmm.bitmap (total / 32 + 1)
      total_pages := total
      free_pages := total
      used_pages := 0 }
  allocate_many pmm 256

/-! ## Specification vocabulary: heap -/

/-- Following `next` pointers from address `a` visits exactly the headers at the
addresses `bs`, in this order, and then reaches the null pointer. -/
def IsBlockList (m : Mem) : Nat → List Nat → Prop
  | a, [] => a = 0
  | a, b :: bs => a ≠ 0 ∧ a = b ∧ IsBlockList m (m a).next bs

/-- The header at address `a` is marked free (its `free` field is a true C value). -/
def marked_free (m : Mem) (a : Nat) : Bool := (m a).free != 0

/-- No two neighbours in the block list `bs` are both marked free. -/
def NoAdjacentFree (m : Mem) (bs : List Nat) : Prop :=
  List.Chain' (fun a b => ¬ (marked_free m a = true ∧ marked_free m b = true)) bs

/-- Sum of the recorded sizes of the blocks of `bs` that are marked used. -/
def used_sum (m : Mem) (bs : List Nat) : Nat :=
  ((bs.filter fun a => !marked_free m a).map fun a => (m a).size).sum

/-- Sum of the recorded sizes of the blocks of `bs` that are marked free. -/
def free_capacity (m : Mem) (bs : List Nat) : Nat :=
  ((bs.filter fun a => marked_free m a).map fun a => (m a).size).sum

/-- The request `size` rounded up to a multiple of 4, as a natural number. -/
def round_up4 (size : Nat) : Nat := (size + 3) / 4 * 4

/-- The block at `a` can serve a request of `r` bytes. -/
def fits (m : Mem) (r a : Nat) : Prop := marked_free m a = true ∧ r ≤ (m a).size

/-- Reachability `Reach s live`: the heap state `s` is reached from `init_heap` by calls of
`malloc` (with any 32-bit argument) and calls of `free` on the null pointer or on
a pointer that `malloc` returned and that has not been freed since; `live` lists
those pointers. -/
inductive Reach : HeapState → List Nat → Prop
  | init (s : HeapState) : Reach (init_heap s) []
  | malloc_ptr {s s1 : HeapState} {live : List Nat} {fuel size p : Nat} :
      Reach s live → size < 4294967296 → malloc fuel s size = some (s1, p) → p ≠ 0 →
      Reach s1 (p :: live)
  | malloc_null {s s1 : HeapState} {live : List Nat} {fuel size : Nat} :
      Reach s live → size < 4294967296 → malloc fuel s size = some (s1, 0) →
      Reach s1 live
  | free_ptr {s : HeapState} {live : List Nat} {p : Nat} :
      Reach s live → p ∈ live → Reach (free s p) (live.erase p)
  | free_null {s : HeapState} {live : List Nat} :
      Reach s live → Reach (free s 0) live

/-! ## Specification vocabulary: physical page allocator -/

/-- Frame `i` is marked used: its bitmap bit is set. -/
def frame_used (pmm : PhysicalMemoryManager) (i : Nat) : Bool :=
  pmm.bitmap (i / 32) &&& (1 <<< (i % 32)) != 0

/-- Number of set bits among the first `total_pages` bitmap bits. -/
def set_bits (pmm : PhysicalMemoryManager) : Nat :=
  (List.range pmm.total_pages).countP fun i => frame_used pmm i

/-- Number of clear bits among the first `total_pages` bitmap bits. -/
def clear_bits (pmm : PhysicalMemoryManager) : Nat :=
  (List.range pmm.total_pages).countP fun i => !frame_used pmm i

/-- States reached from `init_physical_memory` by `allocate_physical_page` and by
`free_physical_page` on an address inside a frame that is currently used. -/
inductive PReach : PhysicalMemoryManager → Prop
  | init (pmm : PhysicalMemoryManager) : PReach (init_physical_memory pmm)
  | alloc {pmm : PhysicalMemoryManager} :
      PReach pmm → PReach (allocate_physical_page pmm).1
  | release {pmm : PhysicalMemoryManager} {page : Nat} :
      PReach pmm → page / PAGE_SIZE < pmm.total_pages →
      frame_used pmm (page / PAGE_SIZE) = true →
      PReach (free_physical_page pmm page)

/-! ## Virtual memory manager -/

/-- The C `VirtualMemoryManager`: the address of the page directory and the array
of 1024 page-table addresses. -/
structure VirtualMemoryManager where
  page_directory : Nat
  page_tables : Nat → Nat

/-- The state the paging code works on: `ram` holds the words reached through
`unsigned int*` pointers (the page directory and the page tables), keyed by
byte address; `vmm` and `pmm` are the C globals; `early_malloc_ptr` is the
bump pointer of `kmalloc_early`.  The allocator bitmap, which the C code keeps
at the fixed address 0x200000, is the component `pmm.bitmap` and not a part of
`ram`: the state agrees with the single memory of the machine as long as the
page directory and the page tables do not overlap the bitmap (`BitmapApart`),
and the theorems whose conclusions depend on this carry it as a hypothesis. -/
structure PagingState where
  ram : Nat → Nat
  vmm : VirtualMemoryManager
  pmm : PhysicalMemoryManager
  early_malloc_ptr : Nat

/-- Address of `p[i]` for an `unsigned int* p`, in 32-bit arithmetic. -/
def word_addr (p i : Nat) : Nat := add32 p (mul32 4 i)

/-- The assignment `p[i] = v` for an `unsigned int* p`. -/
def write_word (ram : Nat → Nat) (p i v : Nat) : Nat → Nat :=
  fun a => if a = word_addr p i then v else ram a

/-- The loop `for(i = 0; i < n; i++) table[i] = 0;` of `map_page`. -/
def clear_table (ram : Nat → Nat) (table : Nat) : Nat → Nat → Nat
  | 0 => ram
  | n + 1 => write_word (clear_table ram table n) table n 0

/-- The function `map_page`.  Its writes go to words of the page directory and of
the page table that serves `virtual_addr`; the allocator call in between works
on `pmm` (see `PagingState` for the bitmap). -/
def map_page (s : PagingState) (virtual_addr physical_addr flags : Nat) : PagingState :=
  let page_dir_index := virtual_addr >>> 22
  let page_table_index := (virtual_addr >>> 12) &&& 0x3FF
  let s :=
    if s.ram (word_addr s.vmm.page_directory page_dir_index) &&& 0x01 = 0 then
      let r := allocate_physical_page s.pmm
      let page_table_phys := r.2
      let vmm : VirtualMemoryManager :=
        { s.vmm with
          page_tables := fun i =>
            if i = page_dir_index then page_table_phys else s.vmm.page_tables i }
      let ram := write_word s.ram vmm.page_directory page_dir_index (page_table_phys ||| 0x03)
      let ram := clear_table ram (vmm.page_tables page_dir_index) 1024
      { s with ram := ram, vmm := vmm, pmm := r.1 }
    else s
  { s with
    ram := write_word s.ram (s.vmm.page_tables page_dir_index) page_table_index
      (physical_addr ||| flags) }

/-- The function `unmap_page`.  The `invlpg` instruction acts on the TLB, which is
not part of the state.  The one write goes to a word of the page table that
serves `virtual_addr` (see `PagingState` for the bitmap). -/
def unmap_page (s : PagingState) (virtual_addr : Nat) : PagingState :=
  let page_dir_index := virtual_addr >>> 22
  let page_table_index := (virtual_addr >>> 12) &&& 0x3FF
  if s.ram (word_addr s.vmm.page_directory page_dir_index) &&& 0x01 ≠ 0 then
    { s with
      ram := write_word s.ram (s.vmm.page_tables page_dir_index) page_table_index 0 }
  else s

/-- The function `kmalloc_early`: the new state and the returned address. -/
def kmalloc_early (s : PagingState) (size : Nat) : PagingState × Nat :=
  ({ s with early_malloc_ptr := add32 s.early_malloc_ptr (add32 size 3 &&& not32 3) },
    s.early_malloc_ptr)

/-- The loop of `init_paging` that clears the first `n` entries of the page
directory and of `page_tables`. -/
def clear_directory (s : PagingState) : Nat → PagingState
  | 0 => s
  | n + 1 =>
    let s1 := clear_directory s n
    { s1 with
      ram := write_word s1.ram s1.vmm.page_directory n 0
      vmm := { s1.vmm with page_tables := fun i => if i = n then 0 else s1.vmm.page_tables i } }

/-- The first `n` iterations of the identity-mapping loop of `init_paging`:
`map_page(addr, addr, 0x03)` for `addr = 0, 4096, ...`. -/
def identity_map (s : PagingState) : Nat → PagingState
  | 0 => s
  | n + 1 => map_page (identity_map s n) (mul32 n PAGE_SIZE) (mul32 n PAGE_SIZE) 0x03

/-- The function `init_paging`.  The final `enable_paging` only loads CPU control
registers, which are not part of the state. -/
def init_paging (s : PagingState) : PagingState :=
  let r := kmalloc_early s PAGE_SIZE
  let s := { r.1 with vmm := { r.1.vmm with page_directory := r.2 } }
  let s := clear_directory s 1024
  identity_map s (0x400000 / PAGE_SIZE)

/-! ## Specification vocabulary: virtual memory manager -/

/-- Entry `i` of the page directory. -/
def dir_entry (s : PagingState) (i : Nat) : Nat :=
  s.ram (word_addr s.vmm.page_directory i)

/-- Entry `j` of the page table that `page_tables[i]` points to. -/
def leaf_entry (s : PagingState) (i j : Nat) : Nat :=
  s.ram (word_addr (s.vmm.page_tables i) j)

/-- The present bit (bit 0) of a directory or page-table entry. -/
def present (entry : Nat) : Bool := entry &&& 0x01 != 0

/-- Directory index of a virtual address. -/
def dir_index (v : Nat) : Nat := v >>> 22

/-- Page-table index of a virtual address. -/
def table_index (v : Nat) : Nat := (v >>> 12) &&& 0x3FF

/-- The 1024 words of the table at `t` are all different from the 1024 words of
the directory at `d`. -/
def Apart (t d : Nat) : Prop :=
  ∀ i j, i < 1024 → j < 1024 → word_addr t i ≠ word_addr d j

/-- The fixed address of the allocator bitmap,
`pmm.bitmap = (unsigned int*)0x200000` in `init_physical_memory`. -/
def PMM_BITMAP : Nat := 0x200000

/-- The 1024 words of the table at `t` are all different from the words of the
allocator bitmap.  While `total_pages <= 2^20` the words `bitmap[w]` with
`w <= 32768` are all the words that `init_physical_memory`,
`allocate_physical_page` and `free_physical_page` (with any 32-bit argument)
read or write. -/
def BitmapApart (t : Nat) : Prop :=
  ∀ i w, i < 1024 → w < 32769 → word_addr t i ≠ word_addr PMM_BITMAP w

/-- The address of the page table that `map_page` uses for `v`: the existing one
when the directory entry is present, else the frame the allocator hands out. -/
def table_for (s : PagingState) (v : Nat) : Nat :=
  if present (dir_entry s (dir_index v)) then s.vmm.page_tables (dir_index v)
  else (allocate_physical_page s.pmm).2

/-- The directory invariant of the data model: an entry is present exactly when
its page-table pointer is non-null, and every entry of a present table is 0 or
present. -/
def DirectoryInvariant (s : PagingState) : Prop :=
  ∀ i, i < 1024 →
    ((present (dir_entry s i) = true ↔ s.vmm.page_tables i ≠ 0)
      ∧ (present (dir_entry s i) = true →
          ∀ j, j < 1024 → leaf_entry s i j = 0 ∨ present (leaf_entry s i j) = true))

/-- States reached from `init_paging` by `map_page` and `unmap_page` calls with
32-bit arguments, the physical allocator being free to change between calls. -/
inductive VReach : PagingState → Prop
  | init (s : PagingState) : VReach (init_paging s)
  | map {s : PagingState} {v p f : Nat} :
      VReach s → v < 4294967296 → p < 4294967296 → f < 4294967296 →
      VReach (map_page s v p f)
  | unmap {s : PagingState} {v : Nat} :
      VReach s → v < 4294967296 → VReach (unmap_page s v)
  | allocator {s : PagingState} (pmm : PhysicalMemoryManager) :
      VReach s → VReach { s with pmm := pmm }

/-- The restriction of `VReach` to calls of `map_page` whose flags carry the
present bit and whose page table (a non-null address) lies apart from the page
directory and from the allocator bitmap; the page directory lies apart from the
bitmap as well, and the allocator changes between calls only to states with
`total_pages <= 2^20`, so that its own writes stay inside the bitmap. -/
inductive VReachApart : PagingState → Prop
  | init (s : PagingState) :
      (allocate_physical_page s.pmm).2 ≠ 0 →
      Apart (allocate_physical_page s.pmm).2 s.early_malloc_ptr →
      BitmapApart (allocate_physical_page s.pmm).2 →
      BitmapApart s.early_malloc_ptr →
      s.pmm.total_pages ≤ 1048576 →
      VReachApart (init_paging s)
  | map {s : PagingState} {v p f : Nat} :
      VReachApart s → v < 4294967296 → p < 4294967296 → f < 4294967296 →
      f &&& 0x01 ≠ 0 → table_for s v ≠ 0 → Apart (table_for s v) s.vmm.page_directory →
      BitmapApart (table_for s v) →
      VReachApart (map_page s v p f)
  | unmap {s : PagingState} {v : Nat} :
      VReachApart s → v < 4294967296 → VReachApart (unmap_page s v)
  | allocator {s : PagingState} (pmm : PhysicalMemoryManager) :
      VReachApart s → pmm.total_pages ≤ 1048576 → VReachApart { s with pmm := pmm }

/-! ## Scheduler -/

/-- Process state `#define PROC_RUNNING 1`. -/
def PROC_RUNNING : Nat := 1

/-- Process state `#define PROC_READY 2`. -/
def PROC_READY : Nat := 2

/-- Process state `#define PROC_BLOCKED 3`. -/
def PROC_BLOCKED : Nat := 3

/-- Process state `#define PROC_TERMINATED 4`. -/
def PROC_TERMINATED : Nat := 4

/-- The value of `sizeof(Process)` on the 32-bit target: five 4-byte integers, one
4-byte pointer and the 64-byte name. -/
def SIZEOF_PROCESS : Nat := 88

/-- The C `Process` control block; `next` is the address of the next control
block (0 is the null pointer) and `name` holds the characters that `strcpy`
stored, without the terminator. -/
structure Process where
  pid : Nat
  state : Nat
  esp : Nat
  ebp : Nat
  page_directory : Nat
  next : Nat
  name : List Nat
deriving DecidableEq, Repr

/-- The scheduler's view of the machine: the kernel heap, the process control
blocks indexed by address, and the three statics `process_list`,
`current_process` and `next_pid` (a C `int`, kept as a number that is not
wrapped: `next_pid++` at `INT_MAX` is undefined). -/
structure SchedState where
  heap : HeapState
  procs : Nat → Process
  process_list : Nat
  current_process : Nat
  next_pid : Nat

/-- The function `kmalloc`, which forwards to `malloc`. -/
def kmalloc (fuel : Nat) (s : HeapState) (size : Nat) : Option (HeapState × Nat) :=
  malloc fuel s size

/-- The function `kfree`, which forwards to `free`. -/
def kfree (s : HeapState) (ptr : Nat) : HeapState := free s ptr

/-- The assignment `p->state = v`. -/
def setProcState (procs : Nat → Process) (p v : Nat) : Nat → Process :=
  fun a => if a = p then { procs p with state := v } else procs a

/-- The assignment `p->next = v`. -/
def setProcNext (procs : Nat → Process) (p v : Nat) : Nat → Process :=
  fun a => if a = p then { procs p with next := v } else procs a

/-- The function `create_process`; the result is the new state and the returned
pointer, `none` when the fuel of `kmalloc` is used up.  The conversion of
`next_pid` to the `uint32_t` field `pid` is the reduction modulo 2^32. -/
def create_process (fuel : Nat) (s : SchedState) (name : List Nat) (_entry_point : Nat) :
    Option (SchedState × Nat) :=
  match kmalloc fuel s.heap SIZEOF_PROCESS with
  | none => none
  | some (h, proc) =>
    if proc = 0 then some ({ s with heap := h }, 0)
    else
      let block : Process :=
        { pid := s.next_pid % 4294967296, state := PROC_READY, esp := 0, ebp := 0,
          page_directory := 0, next := s.process_list, name := name }
      some ({ heap := h
              procs := fun a => if a = proc then block else s.procs a
              process_list := proc
              current_process := s.current_process
              next_pid := s.next_pid + 1 }, proc)

/-- The characters of the string literal "kernel". -/
def kernel_name : List Nat := [107, 101, 114, 110, 101, 108]

/-- The function `init_scheduler`. -/
def init_scheduler (fuel : Nat) (s : SchedState) : Option SchedState :=
  let s := { s with process_list := 0, current_process := 0 }
  match create_process fuel s kernel_name 0 with
  | none => none
  | some (s, kernel_proc) =>
    some { s with
      procs := setProcState s.procs kernel_proc PROC_RUNNING
      current_process := kernel_proc }

/-- The `while(current)` loop of `destroy_process`; `none` when the fuel is used
up. -/
def destroy_process_loop : Nat → SchedState → Nat → Nat → Nat → Option SchedState
  | 0, _, _, _, _ => none
  | fuel + 1, s, pid, current, prev =>
    if current = 0 then some s
    else if (s.procs current).pid = pid then
      let s :=
        if prev ≠ 0 then { s with procs := setProcNext s.procs prev (s.procs current).next }
        else { s with process_list := (s.procs current).next }
      some { s with heap := kfree s.heap current }
    else destroy_process_loop fuel s pid (s.procs current).next current

/-- The function `destroy_process`. -/
def destroy_process (fuel : Nat) (s : SchedState) (pid : Nat) : Option SchedState :=
  destroy_process_loop fuel s pid s.process_list 0

/-- The `while` loop of `schedule`, returning the final value of `next`; `none`
when the fuel is used up. -/
def schedule_loop : Nat → SchedState → Nat → Option Nat
  | 0, _, _ => none
  | fuel + 1, s, next =>
    if next ≠ 0 ∧ (s.procs next).state ≠ PROC_READY ∧ next ≠ s.current_process then
      let next := (s.procs next).next
      let next := if next = 0 then s.process_list else next
      schedule_loop fuel s next
    else some next

/-- The function `schedule`. -/
def schedule (fuel : Nat) (s : SchedState) : Option SchedState :=
  if s.current_process = 0 ∨ s.process_list = 0 then some s
  else
    let next := (s.procs s.current_process).next
    let next := if next = 0 then s.process_list else next
    match schedule_loop fuel s next with
    | none => none
    | some next =>
      if next ≠ 0 ∧ next ≠ s.current_process then
        let s := { s with procs := setProcState s.procs s.current_process PROC_READY }
        let s := { s with current_process := next }
        some { s with procs := setProcState s.procs s.current_process PROC_RUNNING }
      else some s

/-- The function `get_current_process`. -/
def get_current_process (s : SchedState) : Nat := s.current_process

/-- The function `yield`. -/
def yield (fuel : Nat) (s : SchedState) : Option SchedState := schedule fuel s

/-- The function `sys_exit`, with its return value. -/
def sys_exit (fuel : Nat) (s : SchedState) (_status : Int) : Option (SchedState × Int) :=
  let current := get_current_process s
  if current ≠ 0 then
    match destroy_process fuel s (s.procs current).pid with
    | none => none
    | some s => some (s, 0)
  else some (s, 0)

/-! ## Specification vocabulary: scheduler -/

/-- Following `next` pointers from address `a` visits exactly the control blocks
at the addresses `ps`, in this order, and then reaches the null pointer. -/
def IsProcList (procs : Nat → Process) : Nat → List Nat → Prop
  | a, [] => a = 0
  | a, p :: ps => a ≠ 0 ∧ a = p ∧ IsProcList procs (procs a).next ps

/-- Exactly one process of the process list is Running, and it is the one
`current_process` designates. -/
def SingleRunning (s : SchedState) : Prop :=
  ∃ ps, IsProcList s.procs s.process_list ps ∧ s.current_process ∈ ps
    ∧ ∀ p, p ∈ ps → ((s.procs p).state = PROC_RUNNING ↔ p = s.current_process)

/-- The scheduler statics as the C initialisers leave them, over a heap `h` and
control-block memory `procs`. -/
def sched_static (h : HeapState) (procs : Nat → Process) : SchedState :=
  { heap := h, procs := procs, process_list := 0, current_process := 0, next_pid := 1 }

/-- The pids handed out by an `init_scheduler` call that ended in state `s`. -/
def init_pids (s : SchedState) : List Nat :=
  if s.current_process = 0 then [] else [(s.procs s.current_process).pid]

/-- Reachability `SReach s pids`: the state `s` is reached from `init_scheduler` (run on a
heap reached from `init_heap`) by calls of `create_process` (with a name that
fits the 64-byte field, while `next_pid` is below `INT_MAX`), `destroy_process`,
`schedule` and `yield`; `pids` lists the pids assigned so far, latest first. -/
inductive SReach : SchedState → List Nat → Prop
  | init {h : HeapState} {live : List Nat} {procs : Nat → Process} {fuel : Nat}
      {s : SchedState} :
      Reach h live → init_scheduler fuel (sched_static h procs) = some s →
      SReach s (init_pids s)
  | create_ptr {s s1 : SchedState} {pids : List Nat} {fuel p entry : Nat} {name : List Nat} :
      SReach s pids → s.next_pid < 2147483647 → name.length < 64 →
      create_process fuel s name entry = some (s1, p) → p ≠ 0 →
      SReach s1 ((s1.procs p).pid :: pids)
  | create_null {s s1 : SchedState} {pids : List Nat} {fuel entry : Nat} {name : List Nat} :
      SReach s pids → s.next_pid < 2147483647 → name.length < 64 →
      create_process fuel s name entry = some (s1, 0) →
      SReach s1 pids
  | destroy {s s1 : SchedState} {pids : List Nat} {fuel pid : Nat} :
      SReach s pids → pid < 4294967296 → destroy_process fuel s pid = some s1 →
      SReach s1 pids
  | schedule {s s1 : SchedState} {pids : List Nat} {fuel : Nat} :
      SReach s pids → schedule fuel s = some s1 → SReach s1 pids
  | yield {s s1 : SchedState} {pids : List Nat} {fuel : Nat} :
      SReach s pids → yield fuel s = some s1 → SReach s1 pids

/-- The pids of the processes at the addresses `ps`. -/
def pids_of (s : SchedState) (ps : List Nat) : List Nat := ps.map fun p => (s.procs p).pid

/-- Test driver: `n` consecutive calls of `schedule`, keeping the value of
`current_process` after each call, in call order. -/
def schedule_trace (fuel : Nat) : Nat → SchedState → Option (List Nat)
  | 0, _ => some []
  | n + 1, s =>
    match schedule fuel s with
    | none => none
    | some s1 => (schedule_trace fuel n s1).map fun t => s1.current_process :: t

/-! ## Inter-process communication -/

/-- The C `Message` node; `data` is the address of the payload and `next` the
address of the next node (0 is the null pointer). -/
structure Message where
  sender_pid : Nat
  receiver_pid : Nat
  type : Nat
  length : Nat
  data : Nat
  next : Nat
deriving DecidableEq, Repr

/-- The value of `sizeof(Message)` on the 32-bit target: four 4-byte integers and
two 4-byte pointers. -/
def SIZEOF_MESSAGE : Nat := 24

/-- The machine as the IPC code sees it: the scheduler state (kernel heap, control
blocks, `current_process`), the message nodes indexed by address, the byte
memory `bytes` that holds the payloads, the sender's data, the receiver's buffer
and the `uint32_t` locations behind the two output parameters, and the static
`message_queue`.  The message nodes and the heap headers are kept as records of
their own: the state agrees with the single memory of the machine as long as
the output locations and the buffer lie outside the heap arena, where the
nodes, the headers and the payloads are (`OutputsApart`), and the theorems about
`receive_message` that report a delivery carry this as a hypothesis. -/
structure IpcState where
  sched : SchedState
  msgs : Nat → Message
  bytes : Nat → Nat
  message_queue : Nat

/-- The function `memcpy`, a forward byte-by-byte copy; only the memory is
returned.  The two pointers step through their objects without wrapping. -/
def memcpy (bytes : Nat → Nat) : Nat → Nat → Nat → Nat → Nat
  | _, _, 0 => bytes
  | dest, src, n + 1 =>
    memcpy (fun a => if a = dest then bytes src else bytes a) (dest + 1) (src + 1) n

/-- The assignment `*p = v` through a `uint32_t* p`: the four bytes of `v`, least
significant first (the target is little-endian). -/
def store32 (bytes : Nat → Nat) (p v : Nat) : Nat → Nat :=
  fun a =>
    if a = p then v % 256
    else if a = p + 1 then v / 256 % 256
    else if a = p + 2 then v / 65536 % 256
    else if a = p + 3 then v / 16777216 % 256
    else bytes a

/-- Conversion of a `uint32_t` value to the `int` a function returns. -/
def to_int (x : Nat) : Int := if x < 2147483648 then (x : Int) else (x : Int) - 4294967296

/-- The function `send_message`, with its return value; `none` when the fuel of
`kmalloc` is used up. -/
def send_message (fuel : Nat) (s : IpcState) (dest_pid type data length : Nat) :
    Option (IpcState × Int) :=
  match kmalloc fuel s.sched.heap SIZEOF_MESSAGE with
  | none => none
  | some (h1, msg) =>
    if msg = 0 then some ({ s with sched := { s.sched with heap := h1 } }, -1)
    else
      let node : Message :=
        { s.msgs msg with
          sender_pid := (s.sched.procs (get_current_process s.sched)).pid
          receiver_pid := dest_pid
          type := type
          length := length }
      match kmalloc fuel h1 length with
      | none => none
      | some (h2, payload) =>
        let node : Message := { node with data := payload }
        if payload = 0 then
          some ({ s with
                  sched := { s.sched with heap := kfree h2 msg }
                  msgs := fun a => if a = msg then node else s.msgs a }, -1)
        else
          let bytes := memcpy s.bytes payload data length
          let node : Message := { node with next := s.message_queue }
          some ({ sched := { s.sched with heap := h2 }
                  msgs := fun a => if a = msg then node else s.msgs a
                  bytes := bytes
                  message_queue := msg }, 0)

/-- The `while(msg)` loop of `receive_message`, with the return value; `none`
when the fuel is used up.  The three writes of the found branch go to the one
byte memory in the order of the source: `*sender_pid`, `*type`, then the copy
into the buffer, which overwrites the output words where it overlaps them. -/
def receive_message_loop :
    Nat → IpcState → Nat → Nat → Nat → Nat → Nat → Nat → Nat → Option (IpcState × Int)
  | 0, _, _, _, _, _, _, _, _ => none
  | fuel + 1, s, current_pid, sender_pid, type, buffer, buffer_size, msg, prev =>
    if msg = 0 then some (s, -1)
    else if (s.msgs msg).receiver_pid = current_pid then
      let bytes := store32 s.bytes sender_pid (s.msgs msg).sender_pid
      let bytes := store32 bytes type (s.msgs msg).type
      let copy_size :=
        if (s.msgs msg).length < buffer_size then (s.msgs msg).length else buffer_size
      let bytes := memcpy bytes buffer (s.msgs msg).data copy_size
      let msgs :=
        if prev ≠ 0 then
          fun a => if a = prev then { s.msgs prev with next := (s.msgs msg).next } else s.msgs a
        else s.msgs
      let queue := if prev ≠ 0 then s.message_queue else (s.msgs msg).next
      let heap := kfree s.sched.heap (s.msgs msg).data
      let heap := kfree heap msg
      some ({ sched := { s.sched with heap := heap }
              msgs := msgs
              bytes := bytes
              message_queue := queue }, to_int copy_size)
    else
      receive_message_loop fuel s current_pid sender_pid type buffer buffer_size
        (s.msgs msg).next msg

/-- The function `receive_message`. -/
def receive_message (fuel : Nat) (s : IpcState) (sender_pid type buffer buffer_size : Nat) :
    Option (IpcState × Int) :=
  let current_pid := (s.sched.procs (get_current_process s.sched)).pid
  receive_message_loop fuel s current_pid sender_pid type buffer buffer_size
    s.message_queue 0

/-! ## Specification vocabulary: inter-process communication -/

/-- Following `next` pointers from address `a` visits exactly the message nodes
at the addresses `ms`, in this order, and then reaches the null pointer. -/
def IsMsgList (msgs : Nat → Message) : Nat → List Nat → Prop
  | a, [] => a = 0
  | a, m :: ms => a ≠ 0 ∧ a = m ∧ IsMsgList msgs (msgs a).next ms

/-- The value `*p` read through a `uint32_t* p`: four bytes, least significant
first. -/
def load32 (bytes : Nat → Nat) (p : Nat) : Nat :=
  bytes p + 256 * bytes (p + 1) + 65536 * bytes (p + 2) + 16777216 * bytes (p + 3)

/-- The locations that `receive_message` writes lie apart: the four bytes behind
`sender_pid`, the four bytes behind `type` and the `k` bytes of the buffer that
are filled are pairwise disjoint, and each of them lies outside the heap arena,
which holds the message nodes, the payloads and the heap headers. -/
def OutputsApart (sender_pid type buffer k : Nat) : Prop :=
  (sender_pid + 4 ≤ type ∨ type + 4 ≤ sender_pid)
    ∧ (buffer + k ≤ sender_pid ∨ sender_pid + 4 ≤ buffer)
    ∧ (buffer + k ≤ type ∨ type + 4 ≤ buffer)
    ∧ (sender_pid + 4 ≤ HEAP_START ∨ HEAP_START + HEAP_SIZE ≤ sender_pid)
    ∧ (type + 4 ≤ HEAP_START ∨ HEAP_START + HEAP_SIZE ≤ type)
    ∧ (buffer + k ≤ HEAP_START ∨ HEAP_START + HEAP_SIZE ≤ buffer)

/-- Test driver: `send_message` by the current process, then `receive_message`
with the process at address `receiver` current; the result is the two return
values and the final state. -/
def send_then_receive (fuel : Nat) (s : IpcState) (dest_pid type data length : Nat)
    (receiver sender_pid type_out buffer buffer_size : Nat) : Option (Int × Int × IpcState) :=
  match send_message fuel s dest_pid type data length with
  | none => none
  | some (s1, r1) =>
    match receive_message fuel
        { s1 with sched := { s1.sched with current_process := receiver } }
        sender_pid type_out buffer buffer_size with
    | none => none
    | some (s2, r2) => some (r1, r2, s2)

/-! ## Interrupt dispatcher, console and keyboard buffer -/

/-- Columns of the VGA text screen, `#define VGA_WIDTH 80`. -/
def VGA_WIDTH : Int := 80

/-- Rows of the VGA text screen, `#define VGA_HEIGHT 25`. -/
def VGA_HEIGHT : Int := 25

/-- Colour code `#define VGA_COLOR_WHITE 15`. -/
def VGA_COLOR_WHITE : Nat := 15

/-- The C `IDTEntry`: a packed interrupt-gate descriptor. -/
structure IDTEntry where
  offset_low : Nat
  selector : Nat
  zero : Nat
  type_attr : Nat
  offset_high : Nat
deriving DecidableEq, Repr

/-- The statics of interrupt.c and of the console of kernel.c, with the scheduler
state that the timer tick hands to `schedule`.  Arrays indexed by a C `int` are
functions on the integers.  Three fields are bookkeeping that the C code does not
have: `port_writes` logs every `outb(port, val)` in call order, `key_accesses`
logs every index used with `key_buffer` in access order, and `schedule_calls`
counts the calls of `schedule_processes`. -/
structure InterruptState where
  idt : Int → IDTEntry
  timer_ticks : Nat
  key_buffer : Int → Nat
  key_buffer_pos : Int
  vga_buffer : Int → Nat
  cursor_x : Int
  cursor_y : Int
  sched : SchedState
  port_writes : List (Nat × Nat)
  key_accesses : List Int
  schedule_calls : Nat

/-- The function `outb`: the write is appended to the port log. -/
def outb (s : InterruptState) (port val : Nat) : InterruptState :=
  { s with port_writes := s.port_writes ++ [(port, val)] }

/-- The function `update_cursor`; the casts to `unsigned char` keep the low byte. -/
def update_cursor (s : InterruptState) : InterruptState :=
  let pos := s.cursor_y * VGA_WIDTH + s.cursor_x
  let s := outb s 0x3D4 0x0F
  let s := outb s 0x3D5 (pos % 256).toNat
  let s := outb s 0x3D4 0x0E
  outb s 0x3D5 ((pos >>> 8) % 256).toNat

/-- The first `n` iterations of the loop of `print_colored` that moves the screen
up by one row: `vga_buffer[i] = vga_buffer[i + VGA_WIDTH * 2]`. -/
def scroll_rows (vga : Int → Nat) : Nat → Int → Nat
  | 0 => vga
  | n + 1 =>
    fun a => if a = (n : Int) then scroll_rows vga n ((n : Int) + VGA_WIDTH * 2)
      else scroll_rows vga n a

/-- The first `n` iterations of the loop of `print_colored` that blanks the last
row, two bytes per iteration. -/
def clear_last_row (vga : Int → Nat) : Nat → Int → Nat
  | 0 => vga
  | n + 1 =>
    fun a =>
      if a = (VGA_HEIGHT - 1) * VGA_WIDTH * 2 + 2 * (n : Int) + 1 then VGA_COLOR_WHITE
      else if a = (VGA_HEIGHT - 1) * VGA_WIDTH * 2 + 2 * (n : Int) then 32
      else clear_last_row vga n a

/-- One iteration of the `while(*str)` loop of `print_colored`, for the character
`c`. -/
def print_char (s : InterruptState) (c color : Nat) : InterruptState :=
  let s :=
    if c = 10 then { s with cursor_x := 0, cursor_y := s.cursor_y + 1 }
    else
      let index := (s.cursor_y * VGA_WIDTH + s.cursor_x) * 2
      { s with
        vga_buffer := fun a =>
          if a = index + 1 then color % 256 else if a = index then c else s.vga_buffer a
        cursor_x := s.cursor_x + 1 }
  let s :=
    if s.cursor_x ≥ VGA_WIDTH then { s with cursor_x := 0, cursor_y := s.cursor_y + 1 } else s
  if s.cursor_y ≥ VGA_HEIGHT then
    let vga := scroll_rows s.vga_buffer ((VGA_HEIGHT - 1) * VGA_WIDTH * 2).toNat
    let vga := clear_last_row vga VGA_WIDTH.toNat
    { s with vga_buffer := vga, cursor_y := VGA_HEIGHT - 1 }
  else s

/-- The function `print_colored` on the characters of `str` (the bytes before the
terminator). -/
def print_colored (s : InterruptState) (str : List Nat) (color : Nat) : InterruptState :=
  update_cursor (str.foldl (fun s c => print_char s c color) s)

/-- The function `print`. -/
def print (s : InterruptState) (str : List Nat) : InterruptState :=
  print_colored s str VGA_COLOR_WHITE

/-- The function `set_idt_gate`. -/
def set_idt_gate (s : InterruptState) (n : Int) (handler : Nat) : InterruptState :=
  { s with
    idt := fun i =>
      if i = n then
        { offset_low := handler &&& 0xFFFF
          selector := 0x08
          zero := 0
          type_attr := 0x8E
          offset_high := (handler >>> 16) &&& 0xFFFF }
      else s.idt i }

/-- The function `schedule_processes` of syscall.c, which forwards to `schedule`;
`none` when the fuel of `schedule` is used up. -/
def schedule_processes (fuel : Nat) (s : InterruptState) : Option InterruptState :=
  match schedule fuel s.sched with
  | none => none
  | some k => some { s with sched := k, schedule_calls := s.schedule_calls + 1 }

/-- The function `timer_handler`. -/
def timer_handler (fuel : Nat) (s : InterruptState) : Option InterruptState :=
  let s := { s with timer_ticks := add32 s.timer_ticks 1 }
  if s.timer_ticks % 10 = 0 then schedule_processes fuel s else some s

/-- The initialised part of the table `keymap` of `keyboard_handler`; the other
entries of the 128-entry array are 0. -/
def keymap : List Nat :=
  [0, 27, 49, 50, 51, 52, 53, 54, 55, 56, 57, 48, 45, 61, 8,
   9, 113, 119, 101, 114, 116, 121, 117, 105, 111, 112, 91, 93, 10,
   0, 97, 115, 100, 102, 103, 104, 106, 107, 108, 59, 39, 96, 0,
   92, 122, 120, 99, 118, 98, 110, 109, 44, 46, 47, 0, 42, 0, 32]

/-- The assignment `key_buffer[i] = v`. -/
def key_store (s : InterruptState) (i : Int) (v : Nat) : InterruptState :=
  { s with
    key_buffer := fun a => if a = i then v else s.key_buffer a
    key_accesses := s.key_accesses ++ [i] }

/-- The read of `key_buffer[i]`. -/
def key_load (s : InterruptState) (i : Int) : InterruptState × Nat :=
  ({ s with key_accesses := s.key_accesses ++ [i] }, s.key_buffer i)

/-- The function `keyboard_handler`; `scancode` is the byte that `inb(0x60)`
returns. -/
def keyboard_handler (s : InterruptState) (scancode : Nat) : InterruptState :=
  if scancode < 128 ∧ keymap.getD scancode 0 ≠ 0 then
    let key := keymap.getD scancode 0
    let s :=
      if s.key_buffer_pos < 255 then
        let s := key_store s s.key_buffer_pos key
        let s := { s with key_buffer_pos := s.key_buffer_pos + 1 }
        key_store s s.key_buffer_pos 0
      else s
    if key ≥ 32 ∧ key ≤ 126 then print s [key]
    else if key = 10 then print s [10]
    else if key = 8 then
      if s.key_buffer_pos > 0 then
        let s := { s with key_buffer_pos := s.key_buffer_pos - 1 }
        key_store s s.key_buffer_pos 0
      else s
    else s
  else s

/-- The first `n` iterations of the shifting loop of `getchar`:
`key_buffer[i] = key_buffer[i + 1]`. -/
def getchar_shift (s : InterruptState) : Nat → InterruptState
  | 0 => s
  | n + 1 =>
    let r := key_load (getchar_shift s n) ((n : Int) + 1)
    key_store r.1 (n : Int) r.2

/-- The function `getchar`: the new state and the returned character.  On an
empty buffer the function waits in its `hlt` loop for an interrupt; this is the
result `none`. -/
def getchar (s : InterruptState) : Option (InterruptState × Nat) :=
  if s.key_buffer_pos = 0 then none
  else
    let r := key_load s 0
    let c := r.2
    let s := getchar_shift r.1 (s.key_buffer_pos - 1).toNat
    let s := { s with key_buffer_pos := s.key_buffer_pos - 1 }
    let s := key_store s s.key_buffer_pos 0
    some (s, c)

/-- The function `irq_handler`; `scancode` is the byte the keyboard controller
holds. -/
def irq_handler (fuel : Nat) (s : InterruptState) (irq_num : Int) (scancode : Nat) :
    Option InterruptState :=
  let r :=
    if irq_num = 0 then timer_handler fuel s
    else if irq_num = 1 then some (keyboard_handler s scancode)
    else if irq_num = 12 then some s
    else some s
  match r with
  | none => none
  | some s =>
    let s := if irq_num ≥ 8 then outb s 0xA0 0x20 else s
    some (outb s 0x20 0x20)

/-! ## System-call dispatch -/

/-- A system-call handler `int f(int, int, int)` acting on a kernel state of type
`σ`; `none` stands for a call that does not return. -/
abbrev Handler (σ : Type) : Type := σ → Int → Int → Int → Option (σ × Int)

/-- The eleven functions that `syscall_table` names. -/
structure Syscalls (σ : Type) where
  sys_exit : Handler σ
  sys_write : Handler σ
  sys_read : Handler σ
  sys_open : Handler σ
  sys_close : Handler σ
  sys_fork : Handler σ
  sys_exec : Handler σ
  sys_getpid : Handler σ
  sys_sleep : Handler σ
  sys_malloc : Handler σ
  sys_free : Handler σ

/-- The array `syscall_table`. -/
def syscall_table {σ : Type} (f : Syscalls σ) : List (Handler σ) :=
  [f.sys_exit, f.sys_write, f.sys_read, f.sys_open, f.sys_close, f.sys_fork, f.sys_exec,
   f.sys_getpid, f.sys_sleep, f.sys_malloc, f.sys_free]

/-- The constant `NUM_SYSCALLS`, `sizeof(syscall_table) / sizeof(syscall_func_t)`. -/
def NUM_SYSCALLS {σ : Type} (f : Syscalls σ) : Nat := (syscall_table f).length

/-- The function `syscall_handler`. -/
def syscall_handler {σ : Type} (f : Syscalls σ) (s : σ) (num arg1 arg2 arg3 : Int) :
    Option (σ × Int) :=
  if h : num ≥ 0 ∧ num < (NUM_SYSCALLS f : Int) then
    (syscall_table f).get ⟨num.toNat, by unfold NUM_SYSCALLS at h; omega⟩ s arg1 arg2 arg3
  else some (s, -1)

/-! ## Boot sequence -/

/-- The function `get_free_memory`. -/
def get_free_memory (pmm : PhysicalMemoryManager) : Nat := mul32 pmm.free_pages PAGE_SIZE

/-- The memory managers and the scheduler side by side. -/
structure KernelState where
  paging : PagingState
  sched : SchedState

/-- The function `init_memory` of kernel.c without its console output:
`init_physical_memory`, `init_paging`, `init_heap`. -/
def init_memory (k : KernelState) : KernelState :=
  let paging := { k.paging with pmm := init_physical_memory k.paging.pmm }
  let paging := init_paging paging
  { paging := paging, sched := { k.sched with heap := init_heap k.sched.heap } }

/-- The boot order of the memory figure: `init_memory`, then `init_scheduler`,
which creates the first process. -/
def boot (fuel : Nat) (k : KernelState) : Option KernelState :=
  let k := init_memory k
  match init_scheduler fuel k.sched with
  | none => none
  | some sched => some { k with sched := sched }

/-! ## Specification vocabulary: interrupts, keyboard, system calls -/

/-- Number of entries of the port log `ws` that write to `port`. -/
def port_count (ws : List (Nat × Nat)) (port : Nat) : Nat :=
  (ws.filter fun w => w.1 = port).length

/-- Test driver: `n` consecutive calls of `timer_handler`. -/
def timer_calls (fuel : Nat) : Nat → InterruptState → Option InterruptState
  | 0, s => some s
  | n + 1, s =>
    match timer_calls fuel n s with
    | none => none
    | some s1 => timer_handler fuel s1

/-- The first `k` characters of the key buffer. -/
def buffered (s : InterruptState) (k : Nat) : List Nat :=
  (List.range k).map fun (i : Nat) => s.key_buffer (i : Int)

/-- Test driver: `n` consecutive calls of `getchar`, keeping the returned
characters in call order. -/
def getchar_calls : Nat → InterruptState → Option (InterruptState × List Nat)
  | 0, s => some (s, [])
  | n + 1, s =>
    match getchar s with
    | none => none
    | some (s1, c) =>
      match getchar_calls n s1 with
      | none => none
      | some (s2, cs) => some (s2, c :: cs)

/-- Test driver: `keyboard_handler` called once for each scancode of `codes`, in
list order. -/
def type_keys (s : InterruptState) (codes : List Nat) : InterruptState :=
  codes.foldl keyboard_handler s

/-- States of the key buffer reached from the zero-initialised statics by calls of
`keyboard_handler` (any scancode byte) and calls of `getchar` on a non-empty
buffer. -/
inductive KReach : InterruptState → Prop
  | init (s : InterruptState) :
      s.key_buffer_pos = 0 → (∀ i, s.key_buffer i = 0) → s.key_accesses = [] → KReach s
  | key {s : InterruptState} {scancode : Nat} :
      KReach s → scancode < 256 → KReach (keyboard_handler s scancode)
  | read {s s1 : InterruptState} {c : Nat} :
      KReach s → getchar s = some (s1, c) → KReach s1

/-- The scheduler state lets `schedule` return within `fuel` steps: a static is
still null, or the process list is a finite list of at most `fuel` entries that
contains the current process. -/
def Schedulable (fuel : Nat) (k : SchedState) : Prop :=
  k.current_process = 0 ∨ k.process_list = 0
    ∨ ∃ ps, IsProcList k.procs k.process_list ps ∧ k.current_process ∈ ps
        ∧ ps.length ≤ fuel

/-! ## C library: `strncpy`, `itoa`, `atoi`

Memory is a map `bytes` from byte addresses to character codes; `char*`
pointers are addresses that step through memory without wrapping. -/

/-- The first loop of `strncpy`, `while(n-- && (*dest++ = *src++));`: the memory,
the final `dest` and the final `n`.  The test `n--` decrements the `size_t`
counter also when it finds it 0, so the loop then ends with `n` wrapped around
to 2^32 - 1. -/
def strncpy_copy (bytes : Nat → Nat) : Nat → Nat → Nat → (Nat → Nat) × Nat × Nat
  | dest, _, 0 => (bytes, dest, 4294967295)
  | dest, src, n + 1 =>
    if bytes src ≠ 0 then
      strncpy_copy (fun a => if a = dest then bytes src else bytes a) (dest + 1) (src + 1) n
    else (fun a => if a = dest then bytes src else bytes a, dest + 1, n)

/-- The second loop of `strncpy`, `while(n-- > 0) *dest++ = 0;`. -/
def strncpy_pad (bytes : Nat → Nat) : Nat → Nat → Nat → Nat
  | _, 0 => bytes
  | dest, n + 1 => strncpy_pad (fun a => if a = dest then 0 else bytes a) (dest + 1) n

/-- The function `strncpy`; only the memory is returned (the return value is
`dest`). -/
def strncpy (bytes : Nat → Nat) (dest src n : Nat) : Nat → Nat :=
  strncpy_pad (strncpy_copy bytes dest src n).1 (strncpy_copy bytes dest src n).2.1
    (strncpy_copy bytes dest src n).2.2

/-- The result of an `int` operation, reduced to 32 bits in two's complement (what
the x86 instructions compute where C leaves signed overflow undefined). -/
def wrap_int (x : Int) : Int := (x + 2147483648) % 4294967296 - 2147483648

/-- The string literal "0123456789abcdef" that `itoa` indexes, with its
terminator: 17 bytes. -/
def itoa_table : List Nat :=
  [48, 49, 50, 51, 52, 53, 54, 55, 56, 57, 97, 98, 99, 100, 101, 102, 0]

/-- The `do ... while(value)` loop of `itoa`: `none` when the fuel is used up,
`Except.error i` when the digit table is indexed at `i` outside its 17 bytes,
else the memory and the final `ptr`.  The division truncates toward zero, as in
C; a zero `base` is not modelled. -/
def itoa_digits :
    Nat → (Nat → Nat) → Int → Nat → Int → Option (Except Int ((Nat → Nat) × Nat))
  | 0, _, _, _, _ => none
  | fuel + 1, bytes, value, ptr, base =>
    let tmp_value := value
    let value := wrap_int (Int.tdiv value base)
    let index := tmp_value - value * base
    if 0 ≤ index ∧ index < 17 then
      let bytes := fun a => if a = ptr then itoa_table.getD index.toNat 0 else bytes a
      if value ≠ 0 then itoa_digits fuel bytes value (ptr + 1) base
      else some (Except.ok (bytes, ptr + 1))
    else some (Except.error index)

/-- The string-reversal loop of `itoa`, `while(ptr1 < ptr)`; `none` when the fuel
is used up. -/
def itoa_reverse : Nat → (Nat → Nat) → Nat → Nat → Option (Nat → Nat)
  | 0, _, _, _ => none
  | fuel + 1, bytes, ptr1, ptr =>
    if ptr1 < ptr then
      let tmp_char := bytes ptr
      let bytes := fun a => if a = ptr then bytes ptr1 else bytes a
      let bytes := fun a => if a = ptr1 then tmp_char else bytes a
      itoa_reverse fuel bytes (ptr1 + 1) (ptr - 1)
    else some bytes

/-- The part of `itoa` after the sign has been handled: the digit loop, the
terminator and the reversal. -/
def itoa_convert (fuel : Nat) (bytes : Nat → Nat) (value : Int) (ptr ptr1 : Nat) (base : Int) :
    Option (Except Int (Nat → Nat)) :=
  match itoa_digits fuel bytes value ptr base with
  | none => none
  | some (Except.error index) => some (Except.error index)
  | some (Except.ok (bytes, ptr)) =>
    let bytes := fun a => if a = ptr then 0 else bytes a
    let ptr := ptr - 1
    match itoa_reverse fuel bytes ptr1 ptr with
    | none => none
    | some bytes => some (Except.ok bytes)

/-- The function `itoa`; the string is left at `str` in the returned memory (the
return value is `str`).  `none` when the fuel is used up, `Except.error i` when
the digit table is indexed out of bounds at `i`. -/
def itoa (fuel : Nat) (bytes : Nat → Nat) (value : Int) (str : Nat) (base : Int) :
    Option (Except Int (Nat → Nat)) :=
  if value < 0 ∧ base = 10 then
    itoa_convert fuel (fun a => if a = str then 45 else bytes a) (wrap_int (-value))
      (str + 1) (str + 1) base
  else itoa_convert fuel bytes value str str base

/-- The whitespace loop of `atoi`: the address of the first character that is
neither a blank nor a tab; `none` when the fuel is used up. -/
def atoi_skip : Nat → (Nat → Nat) → Nat → Option Nat
  | 0, _, _ => none
  | fuel + 1, bytes, str =>
    if bytes str = 32 ∨ bytes str = 9 then atoi_skip fuel bytes (str + 1) else some str

/-- The digit loop of `atoi`; `none` when the fuel is used up. -/
def atoi_digits : Nat → (Nat → Nat) → Nat → Int → Option Int
  | 0, _, _, _ => none
  | fuel + 1, bytes, str, result =>
    if 48 ≤ bytes str ∧ bytes str ≤ 57 then
      atoi_digits fuel bytes (str + 1) (wrap_int (result * 10 + ((bytes str : Int) - 48)))
    else some result

/-- The function `atoi`; `none` when the fuel is used up. -/
def atoi (fuel : Nat) (bytes : Nat → Nat) (str : Nat) : Option Int :=
  match atoi_skip fuel bytes str with
  | none => none
  | some str =>
    let sign : Int := if bytes str = 45 then -1 else 1
    let str := if bytes str = 45 then str + 1 else if bytes str = 43 then str + 1 else str
    match atoi_digits fuel bytes str 0 with
    | none => none
    | some result => some (wrap_int (result * sign))

/-! ## Specification vocabulary: process creation and scheduling -/

/-- Reachability `CReach s`: the state `s` is reached from `init_scheduler` (run
on a heap reached from `init_heap`) by calls of `create_process` (with a name
that fits the 64-byte field, while `next_pid` is below `INT_MAX`) and of
`schedule`. -/
inductive CReach : SchedState → Prop
  | init {h : HeapState} {live : List Nat} {procs : Nat → Process} {fuel : Nat}
      {s : SchedState} :
      Reach h live → init_scheduler fuel (sched_static h procs) = some s → CReach s
  | create {s s1 : SchedState} {fuel p entry : Nat} {name : List Nat} :
      CReach s → s.next_pid < 2147483647 → name.length < 64 →
      create_process fuel s name entry = some (s1, p) → CReach s1
  | schedule {s s1 : SchedState} {fuel : Nat} :
      CReach s → schedule fuel s = some s1 → CReach s1

/-- Test driver: `create_process`, keeping the state only (the state stays as it
is when the fuel of `kmalloc` is used up). -/
def after_create (fuel : Nat) (s : SchedState) (name : List Nat) (entry_point : Nat) :
    SchedState :=
  match create_process fuel s name entry_point with
  | none => s
  | some (s1, _) => s1

/-- Test driver: `schedule`, keeping the state as it is when the fuel of the loop
is used up. -/
def after_schedule (fuel : Nat) (s : SchedState) : SchedState :=
  match schedule fuel s with
  | none => s
  | some s1 => s1

/-! ## Definitions used by the proofs -/

/-- Abstract view of one heap block: header address, payload size, free flag. -/
structure Blk where
  addr : Nat
  size : Nat
  free : Bool
deriving DecidableEq, Repr

/-- The C value stored in the `free` field for a flag. -/
def flag (b : Bool) : Nat := if b then 1 else 0

/-- Linked segment `Seg m prev a bs nxt`: in memory `m` the headers of the blocks `bs` form a
doubly linked segment entered at address `a`, whose first header points back to
`prev` and whose last header points on to `nxt`. -/
def Seg (m : Mem) : Nat → Nat → List Blk → Nat → Prop
  | _, a, [], nxt => a = nxt
  | prev, a, b :: bs, nxt =>
    a = b.addr ∧ (m b.addr).size = b.size ∧ (m b.addr).free = flag b.free
      ∧ (m b.addr).prev = prev ∧ Seg m b.addr (m b.addr).next bs nxt

/-- Tiling `Contig a bs e`: the blocks `bs` tile the address range from `a` to `e`, each
header followed by its payload. -/
def Contig : Nat → List Blk → Nat → Prop
  | a, [], e => a = e
  | a, b :: bs, e => b.addr = a ∧ Contig (a + 16 + b.size) bs e

/-- Address of the last block of `bs`, or `p` when `bs` is empty. -/
def lastAddr : Nat → List Blk → Nat
  | p, [] => p
  | _, b :: bs => lastAddr b.addr bs

/-- No two neighbouring abstract blocks are both free. -/
def NoAdj (bs : List Blk) : Prop :=
  List.Chain' (fun a b => ¬ (a.free = true ∧ b.free = true)) bs

/-- Sum of the sizes of the used abstract blocks. -/
def usedSum (bs : List Blk) : Nat :=
  ((bs.filter fun b => !b.free).map Blk.size).sum

/-- Sum of the sizes of the free abstract blocks. -/
def freeSum (bs : List Blk) : Nat :=
  ((bs.filter fun b => b.free).map Blk.size).sum

/-- The representation invariant of the heap: the block list is the abstract list
`bs`, which tiles the arena, has no two free neighbours, accounts for `used_size`,
and contains a used block for every live pointer. -/
structure HeapInv (s : HeapState) (live : List Nat) (bs : List Blk) : Prop where
  first : s.heap.first_block = HEAP_START
  seg : Seg s.mem 0 HEAP_START bs 0
  contig : Contig HEAP_START bs (HEAP_START + HEAP_SIZE)
  noadj : NoAdj bs
  used : s.heap.used_size = 16 + usedSum bs
  nodup : live.Nodup
  live_used : ∀ p, p ∈ live → ∃ b, b ∈ bs ∧ b.free = false ∧ p = b.addr + 16

/-- A concrete memory with every header zero, standing for memory before
initialisation. -/
def heap_zero : HeapState :=
  { heap := { first_block := 0, total_size := 0, used_size := 0 },
    mem := fun _ => { size := 0, free := 0, next := 0, prev := 0 } }

/-- End address of a tiling that starts at `a`. -/
def endOf : Nat → List Blk → Nat
  | a, [] => a
  | a, b :: bs => endOf (a + 16 + b.size) bs

/-- Address of the first block of `bs`, or the null pointer. -/
def headAddr : List Blk → Nat
  | [] => 0
  | b :: _ => b.addr

/-- The blocks that replace a free block `b` chosen for a request of `r` bytes. -/
def allocBlocks (r : Nat) (b : Blk) : List Blk :=
  if b.size > r + 32 then
    [{ addr := b.addr, size := r, free := false },
     { addr := b.addr + 16 + r, size := b.size - r - 16, free := true }]
  else [{ addr := b.addr, size := b.size, free := false }]

/-- The state produced by the allocation branch of the `malloc` loop at block
`current`. -/
def malloc_take (s : HeapState) (current size : Nat) : HeapState :=
  let m := s.mem
  let m :=
    if (m current).size > add32 (add32 size SIZEOF_HEAPBLOCK) 16 then
      malloc_split m current size
    else m
  let m := setFree m current 0
  { heap := { s.heap with used_size := add32 s.heap.used_size (m current).size }, mem := m }

/-- The forward-merge step of `free`: the first `if` of the function body. -/
def free_merge_next (m : Mem) (block : Nat) : Mem :=
  if (m block).next ≠ 0 ∧ (m (m block).next).free ≠ 0 then
    let m := setSize m block
      (add32 (m block).size (add32 (m (m block).next).size SIZEOF_HEAPBLOCK))
    let m :=
      if (m (m block).next).next ≠ 0 then setPrev m (m (m block).next).next block else m
    setNext m block (m (m block).next).next
  else m

/-- The backward-merge step of `free`: the second `if` of the function body. -/
def free_merge_prev (m : Mem) (block : Nat) : Mem :=
  if (m block).prev ≠ 0 ∧ (m (m block).prev).free ≠ 0 then
    let m := setSize m (m block).prev
      (add32 (m (m block).prev).size (add32 (m block).size SIZEOF_HEAPBLOCK))
    let m :=
      if (m block).next ≠ 0 then setPrev m (m block).next (m block).prev else m
    setNext m (m block).prev (m block).next
  else m

/-- Abstract forward merge: the freed block `b` absorbs a free successor. -/
def mergeNext (b : Blk) (post : List Blk) : Blk × List Blk :=
  match post with
  | c :: post1 =>
    if c.free then ({ addr := b.addr, size := b.size + c.size + 16, free := b.free }, post1)
    else (b, post)
  | [] => (b, [])

/-- Abstract backward merge: a free predecessor absorbs the freed block `b`. -/
def mergePrev (pre : List Blk) (b : Blk) (post : List Blk) : List Blk :=
  match pre.getLast? with
  | some z =>
    if z.free then
      pre.dropLast ++ { addr := z.addr, size := z.size + b.size + 16, free := z.free } :: post
    else pre ++ b :: post
  | none => pre ++ b :: post

/-- The abstract block list after `free` of the used block `b`. -/
def freeBlocks (pre : List Blk) (b : Blk) (post : List Blk) : List Blk :=
  mergePrev pre (mergeNext { b with free := true } post).1
    (mergeNext { b with free := true } post).2

instance decidable_isBlockList (m : Mem) :
    (a : Nat) → (bs : List Nat) → Decidable (IsBlockList m a bs)
  | a, [] => inferInstanceAs (Decidable (a = 0))
  | a, b :: bs =>
    have := decidable_isBlockList m (m a).next bs
    inferInstanceAs (Decidable (a ≠ 0 ∧ a = b ∧ IsBlockList m (m a).next bs))

instance decidable_fits (m : Mem) (r a : Nat) : Decidable (fits m r a) := by
  unfold fits
  infer_instance

/-- The heap after `init_heap` on zeroed memory followed by `malloc(8)`. -/
def heap_after_malloc : HeapState := malloc_take (init_heap heap_zero) HEAP_START 8

/-- State after marking frame `i` used, as the allocation branch does. -/
def mark_used (pmm : PhysicalMemoryManager) (i : Nat) : PhysicalMemoryManager :=
  { pmm with
    bitmap := fun w =>
      if w = i / 32 then pmm.bitmap (i / 32) ||| (1 <<< (i % 32))
      else pmm.bitmap w
    free_pages := sub32 pmm.free_pages 1
    used_pages := add32 pmm.used_pages 1 }

/-- The counters agree with the bitmap and every frame has a 32-bit address. -/
def Consistent (pmm : PhysicalMemoryManager) : Prop :=
  pmm.total_pages ≤ 1048576 ∧ pmm.used_pages = set_bits pmm ∧ pmm.free_pages = clear_bits pmm

instance decidable_consistent (pmm : PhysicalMemoryManager) : Decidable (Consistent pmm) := by
  unfold Consistent
  infer_instance

/-- Test driver: `n` consecutive calls of `allocate_physical_page`, keeping the
returned addresses in call order. -/
def allocate_calls (pmm : PhysicalMemoryManager) : Nat → PhysicalMemoryManager × List Nat
  | 0 => (pmm, [])
  | n + 1 =>
    ((allocate_physical_page (allocate_calls pmm n).1).1,
      (allocate_calls pmm n).2 ++ [(allocate_physical_page (allocate_calls pmm n).1).2])

/-- Frames below `k` are used and frames from `k` up to `total_pages` are free. -/
def Filled (pmm : PhysicalMemoryManager) (k : Nat) : Prop :=
  (∀ j, j < k → frame_used pmm j = true) ∧
    (∀ j, k ≤ j → j < pmm.total_pages → frame_used pmm j = false)

/-- No frame below `total_pages` is free. -/
def no_frame_free (pmm : PhysicalMemoryManager) : Prop :=
  ∀ i, i < pmm.total_pages → frame_used pmm i = true

instance decidable_no_frame_free (pmm : PhysicalMemoryManager) : Decidable (no_frame_free pmm) := by
  unfold no_frame_free
  infer_instance

/-- A concrete allocator with every field zero, standing for memory before
initialisation. -/
def pmm_zero : PhysicalMemoryManager :=
  { bitmap := fun _ => 0, total_pages := 0, free_pages := 0, used_pages := 0 }

/-- A concrete two-frame allocator: frame 0 is used, frame 1 is free. -/
def pmm_two : PhysicalMemoryManager :=
  { bitmap := fun _ => 1, total_pages := 2, free_pages := 1, used_pages := 1 }

/-- A concrete three-frame allocator with every frame used. -/
def pmm_three_full : PhysicalMemoryManager :=
  { bitmap := fun _ => 7, total_pages := 3, free_pages := 0, used_pages := 3 }

/-- A concrete three-frame allocator with every frame free. -/
def pmm_three_empty : PhysicalMemoryManager :=
  { bitmap := fun _ => 0, total_pages := 3, free_pages := 3, used_pages := 0 }

/-- The state of `init_physical_memory` after the bitmap is cleared and before
the 256 reserving allocations. -/
def init_cleared (pmm : PhysicalMemoryManager) : PhysicalMemoryManager :=
  { bitmap := clear_bitmap pmm.bitmap ((128 * 1024 * 1024) / PAGE_SIZE / 32 + 1)
    total_pages := (128 * 1024 * 1024) / PAGE_SIZE
    free_pages := (128 * 1024 * 1024) / PAGE_SIZE
    used_pages := 0 }

/-- The invariant used for the amended directory claim: present entries have
non-null tables, tables lie apart from the directory, and every word of a table
is 0 or present. -/
structure VMInv (s : PagingState) : Prop where
  dir : ∀ i, i < 1024 → (present (dir_entry s i) = true ↔ s.vmm.page_tables i ≠ 0)
  apart : ∀ i, i < 1024 → s.vmm.page_tables i ≠ 0 →
    Apart (s.vmm.page_tables i) s.vmm.page_directory
  leaf : ∀ i, i < 1024 → s.vmm.page_tables i ≠ 0 →
    ∀ j, j < 1024 → leaf_entry s i j = 0 ∨ present (leaf_entry s i j) = true

/-- The paging state at boot, before `init_paging`: zeroed memory and globals, the
allocator as `init_physical_memory` leaves it, and the initial `early_malloc_ptr`. -/
def boot_state : PagingState :=
  { ram := fun _ => 0
    vmm := { page_directory := 0, page_tables := fun _ => 0 }
    pmm := init_physical_memory pmm_zero
    early_malloc_ptr := 0x300000 }

/-- The paging state after boot, `init_paging` and `n` further calls of
`allocate_physical_page`. -/
def paging_after (n : Nat) : PagingState :=
  { init_paging boot_state with pmm := allocate_many (init_paging boot_state).pmm n }

/-- A small paging state: empty directory at 0x300000 and the two-frame
allocator `pmm_two`. -/
def paging_small : PagingState :=
  { ram := fun _ => 0
    vmm := { page_directory := 0x300000, page_tables := fun _ => 0 }
    pmm := pmm_two
    early_malloc_ptr := 0x301000 }

/-- The successor used by `schedule`: the `next` pointer, or the list head after
the last control block. -/
def cyc_next (s : SchedState) (p : Nat) : Nat :=
  if (s.procs p).next = 0 then s.process_list else (s.procs p).next

/-- The processes in the order `schedule` visits them: `ring` starts at the
successor of the current process, follows `cyc_next`, and ends with the current
process. -/
structure Ring (s : SchedState) (ring : List Nat) : Prop where
  nz : ∀ x, x ∈ ring → x ≠ 0
  nodup : ring.Nodup
  chain : List.Chain' (fun x y => cyc_next s x = y) ring
  last : ring.getLast? = some s.current_process
  wrap : ring.head? = some (cyc_next s s.current_process)
  list_nz : s.process_list ≠ 0

/-- The setting of the round-robin claim: `ring` is the visiting order, it has at
least two entries, the current process is Running and every other one is
Ready. -/
structure RoundRobin (s : SchedState) (ring : List Nat) : Prop where
  cycle : Ring s ring
  running : (s.procs s.current_process).state = PROC_RUNNING
  ready : ∀ x, x ∈ ring → x ≠ s.current_process → (s.procs x).state = PROC_READY
  two : 2 ≤ ring.length

instance decidable_isProcList (procs : Nat → Process) :
    (a : Nat) → (ps : List Nat) → Decidable (IsProcList procs a ps)
  | a, [] => inferInstanceAs (Decidable (a = 0))
  | a, p :: ps =>
    have := decidable_isProcList procs (procs a).next ps
    inferInstanceAs (Decidable (a ≠ 0 ∧ a = p ∧ IsProcList procs (procs a).next ps))

/-- A control block with the given pid, state and `next` pointer and every other
field zero. -/
def proc_of (pid state next : Nat) : Process :=
  { pid := pid, state := state, esp := 0, ebp := 0, page_directory := 0, next := next,
    name := [] }

/-- A concrete scheduler state with three processes at the addresses 100, 200 and
300, linked in this order; the second one is current and Running, the others
are Ready. -/
def sched_three : SchedState :=
  { heap := heap_zero
    procs := fun a =>
      if a = 100 then proc_of 3 PROC_READY 200
      else if a = 200 then proc_of 2 PROC_RUNNING 300
      else if a = 300 then proc_of 1 PROC_READY 0
      else proc_of 0 0 0
    process_list := 100
    current_process := 200
    next_pid := 4 }

/-- Control-block memory with every field zero, standing for memory before
initialisation. -/
def procs_zero : Nat → Process := fun _ => proc_of 0 0 0

/-- The scheduler state at boot: the statics as initialised, over the heap that
`init_heap` leaves on zeroed memory. -/
def sched_boot : SchedState := sched_static (init_heap heap_zero) procs_zero

/-- The state after `init_scheduler` at boot: the kernel process, pid 1, in the
first heap block (control block at 0x100010), current and Running. -/
def sched_after_init : SchedState :=
  { heap := malloc_take (init_heap heap_zero) HEAP_START SIZEOF_PROCESS
    procs := setProcState
      (fun a =>
        if a = 1048592 then
          { pid := 1, state := PROC_READY, esp := 0, ebp := 0, page_directory := 0, next := 0,
            name := kernel_name }
        else procs_zero a)
      1048592 PROC_RUNNING
    process_list := 1048592
    current_process := 1048592
    next_pid := 2 }

/-- The state after `init_scheduler` at boot followed by `sys_exit`: the control
block of the kernel process has been unlinked and freed. -/
def sched_after_exit : SchedState :=
  { sched_after_init with
    heap := free sched_after_init.heap 1048592
    process_list := 0 }

/-- The invariant behind the pid claims: the process list is `ps`, its control
blocks are live heap allocations, its pids are pairwise distinct and, like the
pids assigned so far, below `next_pid`, which has not passed `INT_MAX`. -/
structure PidInv (s : SchedState) (pids ps live : List Nat) : Prop where
  list : IsProcList s.procs s.process_list ps
  heap : Reach s.heap live
  alive : ∀ p, p ∈ ps → p ∈ live
  distinct : (pids_of s ps).Nodup
  below : ∀ p, p ∈ ps → (s.procs p).pid < s.next_pid
  assigned : ∀ q, q ∈ pids → q < s.next_pid
  bound : s.next_pid ≤ 2147483647

instance decidable_outputsApart (sender_pid type buffer k : Nat) :
    Decidable (OutputsApart sender_pid type buffer k) := by
  unfold OutputsApart
  infer_instance

instance decidable_isMsgList (msgs : Nat → Message) :
    (a : Nat) → (ms : List Nat) → Decidable (IsMsgList msgs a ms)
  | a, [] => inferInstanceAs (Decidable (a = 0))
  | a, m :: ms =>
    have := decidable_isMsgList msgs (msgs a).next ms
    inferInstanceAs (Decidable (a ≠ 0 ∧ a = m ∧ IsMsgList msgs (msgs a).next ms))

/-- Message memory with every field zero. -/
def msgs_zero : Nat → Message :=
  fun _ => { sender_pid := 0, receiver_pid := 0, type := 0, length := 0, data := 0, next := 0 }

/-- A concrete IPC state: the heap as `init_heap` leaves it, process A (pid 1) at
address 100 and current, process B (pid 2) at address 200, an empty message
queue, and the bytes 11, 22, 33 at the addresses 5000, 5001, 5002. -/
def ipc_boot : IpcState :=
  { sched :=
      { heap := init_heap heap_zero
        procs := fun a =>
          if a = 100 then proc_of 1 PROC_RUNNING 200
          else if a = 200 then proc_of 2 PROC_READY 0
          else proc_of 0 0 0
        process_list := 100
        current_process := 100
        next_pid := 3 }
    msgs := msgs_zero
    bytes := fun a => if a = 5000 then 11 else if a = 5001 then 22 else if a = 5002 then 33 else 0
    message_queue := 0 }

/-- A concrete IPC state whose queue holds one message, from pid 1 to pid 2, while
process A (pid 1) is current. -/
def ipc_one_message : IpcState :=
  { ipc_boot with
    msgs := fun a =>
      if a = 700 then
        { sender_pid := 1, receiver_pid := 2, type := 7, length := 3, data := 5000, next := 0 }
      else msgs_zero a
    message_queue := 700 }

/-- An interrupt state with every static zero, over the scheduler state `k`. -/
def interrupt_zero (k : SchedState) : InterruptState :=
  { idt := fun _ => { offset_low := 0, selector := 0, zero := 0, type_attr := 0, offset_high := 0 }
    timer_ticks := 0
    key_buffer := fun _ => 0
    key_buffer_pos := 0
    vga_buffer := fun _ => 0
    cursor_x := 0
    cursor_y := 0
    sched := k
    port_writes := []
    key_accesses := []
    schedule_calls := 0 }

/-- The scheduler statics as the C initialisers leave them, on zeroed memory. -/
def sched_zero : SchedState := sched_static heap_zero procs_zero

/-- The append step of `keyboard_handler`: the body of `if(key_buffer_pos < 255)`
under its guard. -/
def key_append (s : InterruptState) (key : Nat) : InterruptState :=
  if s.key_buffer_pos < 255 then
    key_store
      { key_store s s.key_buffer_pos key with key_buffer_pos := s.key_buffer_pos + 1 }
      (s.key_buffer_pos + 1) 0
  else s

/-- The backspace step of `keyboard_handler`: the body of the `'\b'` branch. -/
def key_backspace (s : InterruptState) : InterruptState :=
  if s.key_buffer_pos > 0 then
    key_store { s with key_buffer_pos := s.key_buffer_pos - 1 } (s.key_buffer_pos - 1) 0
  else s

/-- The invariant of the key buffer: the position is between 0 and 255, the byte
at the position is the terminator, and every index used so far is between 0 and
255. -/
def KInv (s : InterruptState) : Prop :=
  0 ≤ s.key_buffer_pos ∧ s.key_buffer_pos ≤ 255 ∧ s.key_buffer s.key_buffer_pos = 0
    ∧ ∀ i, i ∈ s.key_accesses → 0 ≤ i ∧ i ≤ 255

/-- A key buffer that holds the characters `cs` (and zeros elsewhere), over
otherwise zero statics. -/
def keys_of (cs : List Nat) : InterruptState :=
  { interrupt_zero sched_zero with
    key_buffer := fun i => if 0 ≤ i then cs.getD i.toNat 0 else 0
    key_buffer_pos := (cs.length : Int) }

/-- Number of ticks among the `n` ticks after counter value `t` that bring the
32-bit counter to a multiple of ten. -/
def due (t : Nat) : Nat → Nat
  | 0 => 0
  | n + 1 => due t n + if (t + n + 1) % 4294967296 % 10 = 0 then 1 else 0

/-- The kernel state before boot: zeroed memory and globals, the scheduler
statics and `early_malloc_ptr` as their C initialisers leave them. -/
def kernel_zero : KernelState :=
  { paging :=
      { ram := fun _ => 0
        vmm := { page_directory := 0, page_tables := fun _ => 0 }
        pmm := pmm_zero
        early_malloc_ptr := 0x300000 }
    sched := sched_zero }

/-- The `next` pointers of the message nodes, seen as a process list. -/
def msg_links (msgs : Nat → Message) : Nat → Process :=
  fun a => proc_of 0 0 (msgs a).next

/-- Test driver: `send_message`, keeping the state only (the state stays as it
is when the fuel of `kmalloc` is used up). -/
def after_send (fuel : Nat) (s : IpcState) (dest_pid type data length : Nat) : IpcState :=
  match send_message fuel s dest_pid type data length with
  | none => s
  | some (s1, _) => s1

/-- The heap after `init_heap` on zeroed memory, `malloc(8)`, `malloc(8)` and
`free` of the first pointer: a free block of 8 bytes at 1048576, a used block
of 8 bytes at 1048600, and the free rest of the arena at 1048624. -/
def heap_free_used_free : HeapState :=
  free (malloc_take heap_after_malloc 1048600 8) 1048592

/-- A scheduler state with three processes at the addresses 100, 200 and 300,
linked in this order, none of them Ready: the second one is current and Running,
the others are Blocked. -/
def sched_blocked : SchedState :=
  { heap := heap_zero
    procs := fun a =>
      if a = 100 then proc_of 3 PROC_BLOCKED 200
      else if a = 200 then proc_of 2 PROC_RUNNING 300
      else if a = 300 then proc_of 1 PROC_BLOCKED 0
      else proc_of 0 0 0
    process_list := 100
    current_process := 200
    next_pid := 4 }

/-- The scheduler state after boot, `create_process("A")` and `schedule`: the
list holds process A (pid 2, control block at 1048696), which is current, and
then the kernel process (pid 1, at 1048592), which is Ready. -/
def sched_two : SchedState :=
  after_schedule 4 (after_create 4 sched_after_init [65] 0)

/-- A byte memory that holds the string "ab" with its terminator at the
addresses 100, 101, 102 and the byte 7 everywhere else. -/
def bytes_ab : Nat → Nat :=
  fun a => if a = 100 then 97 else if a = 101 then 98 else if a = 102 then 0 else 7

/-! ## Proofs -/

/-! ### Segments and tilings -/

theorem seg_frame (m m1 : Mem) :
    ∀ (bs : List Blk) (p a n : Nat), (∀ x, x ∈ bs → m1 x.addr = m x.addr) →
      Seg m p a bs n → Seg m1 p a bs n := by
  intro bs
  induction bs with
  | nil => intro p a n _ h; exact h
  | cons b bs ih =>
    intro p a n hm h
    obtain ⟨h1, h2, h3, h4, h5⟩ := h
    have hb := hm b (List.mem_cons_self _ _)
    refine ⟨h1, by rw [hb]; exact h2, by rw [hb]; exact h3, by rw [hb]; exact h4, ?_⟩
    rw [hb]
    exact ih _ _ _ (fun x hx => hm x (List.mem_cons_of_mem _ hx)) h5

theorem seg_nil (m : Mem) (p a n : Nat) : Seg m p a [] n ↔ a = n := Iff.rfl

theorem seg_cons (m : Mem) (p a n : Nat) (b : Blk) (bs : List Blk) :
    Seg m p a (b :: bs) n ↔
      (a = b.addr ∧ (m b.addr).size = b.size ∧ (m b.addr).free = flag b.free
        ∧ (m b.addr).prev = p ∧ Seg m b.addr (m b.addr).next bs n) := Iff.rfl

theorem contig_nil (a e : Nat) : Contig a [] e ↔ a = e := Iff.rfl

theorem contig_cons (a e : Nat) (b : Blk) (bs : List Blk) :
    Contig a (b :: bs) e ↔ (b.addr = a ∧ Contig (a + 16 + b.size) bs e) := Iff.rfl

theorem seg_append_cons (m : Mem) (y : Blk) (ys : List Blk) (n : Nat) :
    ∀ (xs : List Blk) (p a : Nat),
      Seg m p a (xs ++ y :: ys) n ↔
        (Seg m p a xs y.addr ∧ Seg m (lastAddr p xs) y.addr (y :: ys) n) := by
  intro xs
  induction xs with
  | nil =>
    intro p a
    rw [List.nil_append, seg_nil]
    constructor
    · intro h
      have h1 : a = y.addr := h.1
      subst h1
      exact ⟨rfl, h⟩
    · rintro ⟨h1, h2⟩
      subst h1
      exact h2
  | cons x xs ih =>
    intro p a
    rw [List.cons_append, seg_cons, seg_cons, ih]
    constructor
    · rintro ⟨h1, h2, h3, h4, h5, h6⟩
      exact ⟨⟨h1, h2, h3, h4, h5⟩, h6⟩
    · rintro ⟨⟨h1, h2, h3, h4, h5⟩, h6⟩
      exact ⟨h1, h2, h3, h4, h5, h6⟩

theorem seg_entry (m : Mem) (p a n : Nat) (b : Blk) (bs : List Blk)
    (h : Seg m p a (b :: bs) n) : a = b.addr := h.1

theorem lastAddr_append_cons (p : Nat) (xs : List Blk) (y : Blk) (ys : List Blk) :
    lastAddr p (xs ++ y :: ys) = lastAddr y.addr ys := by
  induction xs generalizing p with
  | nil => rfl
  | cons x xs ih => exact ih x.addr

theorem contig_end : ∀ (bs : List Blk) (a e : Nat), Contig a bs e → endOf a bs = e := by
  intro bs
  induction bs with
  | nil => intro a e h; exact h
  | cons b bs ih => intro a e h; exact ih _ _ h.2

theorem le_endOf : ∀ (bs : List Blk) (a : Nat), a ≤ endOf a bs := by
  intro bs
  induction bs with
  | nil => intro a; exact le_refl _
  | cons b bs ih =>
    intro a
    have := ih (a + 16 + b.size)
    simp only [endOf]
    omega

theorem contig_le (bs : List Blk) (a e : Nat) (h : Contig a bs e) : a ≤ e := by
  rw [← contig_end bs a e h]
  exact le_endOf bs a

theorem contig_append (ys : List Blk) (e : Nat) :
    ∀ (xs : List Blk) (a : Nat),
      Contig a (xs ++ ys) e ↔ (Contig a xs (endOf a xs) ∧ Contig (endOf a xs) ys e) := by
  intro xs
  induction xs with
  | nil =>
    intro a
    rw [List.nil_append]
    exact ⟨fun h => ⟨rfl, h⟩, fun h => h.2⟩
  | cons x xs ih =>
    intro a
    rw [List.cons_append, contig_cons, contig_cons, ih]
    show _ ↔ (_ ∧ Contig _ xs (endOf (a + 16 + x.size) xs)) ∧ Contig (endOf (a + 16 + x.size) xs) ys e
    constructor
    · rintro ⟨h1, h2, h3⟩
      exact ⟨⟨h1, h2⟩, h3⟩
    · rintro ⟨⟨h1, h2⟩, h3⟩
      exact ⟨h1, h2, h3⟩

theorem contig_mem : ∀ (bs : List Blk) (a e : Nat), Contig a bs e →
    ∀ x, x ∈ bs → a ≤ x.addr ∧ x.addr + 16 + x.size ≤ e := by
  intro bs
  induction bs with
  | nil => intro a e _ x hx; cases hx
  | cons b bs ih =>
    intro a e h x hx
    obtain ⟨h1, h2⟩ := h
    rcases List.mem_cons.1 hx with hxb | hxs
    · subst hxb
      have := contig_le bs _ _ h2
      omega
    · have := ih _ _ h2 x hxs
      omega

/-- The geometric facts about a block `b` inside a tiling `pre ++ b :: post`. -/
theorem contig_split (pre post : List Blk) (b : Blk) (a e : Nat)
    (h : Contig a (pre ++ b :: post) e) :
    Contig a pre b.addr ∧ Contig (b.addr + 16 + b.size) post e
      ∧ a ≤ b.addr ∧ b.addr + 16 + b.size ≤ e
      ∧ (∀ x, x ∈ pre → a ≤ x.addr ∧ x.addr + 16 + x.size ≤ b.addr)
      ∧ (∀ x, x ∈ post → b.addr + 16 + b.size ≤ x.addr ∧ x.addr + 16 + x.size ≤ e) := by
  rw [contig_append] at h
  obtain ⟨h1, h2, h3⟩ := h
  rw [← h2] at h1 h3
  have h4 := contig_le _ _ _ h1
  have h5 := contig_le _ _ _ h3
  exact ⟨h1, h3, h4, by omega, contig_mem _ _ _ h1, contig_mem _ _ _ h3⟩

theorem contig_join (pre post : List Blk) (b : Blk) (a e : Nat)
    (h1 : Contig a pre b.addr) (h2 : Contig (b.addr + 16 + b.size) post e) :
    Contig a (pre ++ b :: post) e := by
  rw [contig_append]
  have := contig_end _ _ _ h1
  rw [this]
  exact ⟨h1, rfl, h2⟩

/-! ### Effect of the split branch on memory -/

theorem malloc_split_spec (m : Mem) (c r nb : Nat)
    (hnb : add32 (add32 c SIZEOF_HEAPBLOCK) r = nb) (h1 : nb ≠ c)
    (h2 : (m c).next ≠ c) (h3 : (m c).next ≠ nb) :
    malloc_split m c r c = { size := r, free := (m c).free, next := nb, prev := (m c).prev }
      ∧ malloc_split m c r nb
          = { size := sub32 (sub32 (m c).size r) SIZEOF_HEAPBLOCK, free := 1,
              next := (m c).next, prev := c }
      ∧ ((m c).next ≠ 0 →
          malloc_split m c r (m c).next = { m (m c).next with prev := nb })
      ∧ (∀ x, x ≠ c → x ≠ nb → (x ≠ (m c).next ∨ (m c).next = 0) →
          malloc_split m c r x = m x) := by
  have h1' : c ≠ nb := fun h => h1 h.symm
  have h2' : c ≠ (m c).next := fun h => h2 h.symm
  have h3' : nb ≠ (m c).next := fun h => h3 h.symm
  by_cases hz : (m c).next = 0
  · refine ⟨?_, ?_, ?_, ?_⟩
    · simp [malloc_split, hnb, setSize, setFree, setNext, setPrev, h1, h1', hz]
    · simp [malloc_split, hnb, setSize, setFree, setNext, setPrev, h1, h1', hz]
    · intro h; exact absurd hz h
    · intro x hx1 hx2 _
      simp [malloc_split, hnb, setSize, setFree, setNext, setPrev, h1, h1', hz, hx1, hx2]
  · refine ⟨?_, ?_, ?_, ?_⟩
    · simp [malloc_split, hnb, setSize, setFree, setNext, setPrev, h1, h1', hz, h2, h2', h3, h3']
    · simp [malloc_split, hnb, setSize, setFree, setNext, setPrev, h1, h1', hz, h2, h2', h3, h3']
    · intro _
      simp [malloc_split, hnb, setSize, setFree, setNext, setPrev, h1, h1', hz, h2, h2', h3, h3']
    · intro x hx1 hx2 hx3
      have hx3' : x ≠ (m c).next := by
        rcases hx3 with h | h
        · exact h
        · exact absurd h hz
      simp [malloc_split, hnb, setSize, setFree, setNext, setPrev, h1, h1', hz, h2, h2', h3, h3',
        hx1, hx2, hx3']

theorem seg_append (m : Mem) (ys : List Blk) (n : Nat) :
    ∀ (xs : List Blk) (p a : Nat),
      Seg m p a (xs ++ ys) n ↔
        ∃ mid, Seg m p a xs mid ∧ Seg m (lastAddr p xs) mid ys n := by
  intro xs
  induction xs with
  | nil =>
    intro p a
    rw [List.nil_append]
    constructor
    · intro h; exact ⟨a, rfl, h⟩
    · rintro ⟨mid, h1, h2⟩
      have h1' : a = mid := h1
      subst h1'
      exact h2
  | cons x xs ih =>
    intro p a
    rw [List.cons_append, seg_cons, ih]
    constructor
    · rintro ⟨h1, h2, h3, h4, mid, h5, h6⟩
      exact ⟨mid, ⟨h1, h2, h3, h4, h5⟩, h6⟩
    · rintro ⟨mid, ⟨h1, h2, h3, h4, h5⟩, h6⟩
      exact ⟨h1, h2, h3, h4, mid, h5, h6⟩

theorem seg_set_prev_cons (m m1 : Mem) (p p1 a n : Nat) (y : Blk) (ys : List Blk)
    (hseg : Seg m p a (y :: ys) n)
    (hhead : m1 y.addr = { m y.addr with prev := p1 })
    (hrest : ∀ x, x ∈ ys → m1 x.addr = m x.addr) :
    Seg m1 p1 a (y :: ys) n := by
  obtain ⟨h1, h2, h3, _, h5⟩ := hseg
  refine ⟨h1, by rw [hhead]; exact h2, by rw [hhead]; exact h3, by rw [hhead], ?_⟩
  have : (m1 y.addr).next = (m y.addr).next := by rw [hhead]
  rw [this]
  exact seg_frame m m1 ys _ _ _ hrest h5

theorem seg_head (m : Mem) (p a : Nat) (bs : List Blk) (h : Seg m p a bs 0) :
    a = headAddr bs := by
  cases bs with
  | nil => exact h
  | cons b bs => exact h.1

theorem malloc_loop_take (fuel : Nat) (s : HeapState) (c r : Nat) (hc : c ≠ 0)
    (hf : (s.mem c).free ≠ 0) (hs : r ≤ (s.mem c).size) :
    malloc_loop (fuel + 1) s c r = some (malloc_take s c r, add32 c SIZEOF_HEAPBLOCK) := by
  unfold malloc_loop
  rw [if_neg hc, if_pos ⟨hf, hs⟩]
  rfl

theorem malloc_loop_next (fuel : Nat) (s : HeapState) (c r : Nat) (hc : c ≠ 0)
    (hn : ¬ ((s.mem c).free ≠ 0 ∧ r ≤ (s.mem c).size)) :
    malloc_loop (fuel + 1) s c r = malloc_loop fuel s (s.mem c).next r := by
  conv => lhs; unfold malloc_loop
  rw [if_neg hc, if_neg hn]

theorem malloc_loop_null (fuel : Nat) (s : HeapState) (r : Nat) :
    malloc_loop (fuel + 1) s 0 r = some (s, 0) := by
  unfold malloc_loop
  rfl

theorem flag_ne_zero (b : Bool) : flag b ≠ 0 ↔ b = true := by
  cases b <;> simp [flag]

theorem malloc_loop_skip (s : HeapState) (r : Nat) :
    ∀ (pre : List Blk) (p a n fuel : Nat), Seg s.mem p a pre n →
      (∀ x, x ∈ pre → x.addr ≠ 0) →
      (∀ x, x ∈ pre → ¬ (x.free = true ∧ r ≤ x.size)) →
      malloc_loop (fuel + pre.length) s a r = malloc_loop fuel s n r := by
  intro pre
  induction pre with
  | nil =>
    intro p a n fuel h _ _
    have : a = n := h
    subst this
    rfl
  | cons x xs ih =>
    intro p a n fuel h hnz hnf
    obtain ⟨h1, h2, h3, _, h5⟩ := h
    subst h1
    have hx := hnf x (List.mem_cons_self _ _)
    have hcond : ¬ ((s.mem x.addr).free ≠ 0 ∧ r ≤ (s.mem x.addr).size) := by
      rw [h2, h3, flag_ne_zero]
      exact hx
    rw [List.length_cons, ← Nat.add_assoc,
      malloc_loop_next _ s x.addr r (hnz x (List.mem_cons_self _ _)) hcond]
    exact ih _ _ _ _ h5 (fun y hy => hnz y (List.mem_cons_of_mem _ hy))
      (fun y hy => hnf y (List.mem_cons_of_mem _ hy))

theorem malloc_take_mem (s : HeapState) (c r : Nat) :
    (malloc_take s c r).mem
      = setFree (if (s.mem c).size > add32 (add32 r SIZEOF_HEAPBLOCK) 16
          then malloc_split s.mem c r else s.mem) c 0 := rfl

theorem setFree_same (m : Mem) (c v : Nat) : setFree m c v c = { m c with free := v } := by
  simp [setFree]

theorem setFree_other (m : Mem) (c v x : Nat) (h : x ≠ c) : setFree m c v x = m x := by
  simp [setFree, h]

theorem malloc_take_seg (s : HeapState) (pre post : List Blk) (b : Blk) (r : Nat)
    (hseg : Seg s.mem 0 HEAP_START (pre ++ b :: post) 0)
    (hcontig : Contig HEAP_START (pre ++ b :: post) (HEAP_START + HEAP_SIZE))
    (hr : r ≤ b.size) :
    Seg (malloc_take s b.addr r).mem 0 HEAP_START (pre ++ (allocBlocks r b ++ post)) 0
      ∧ ((malloc_take s b.addr r).mem b.addr).size = (if b.size > r + 32 then r else b.size) := by
  obtain ⟨hc1, hc2, hc3, hc4, hcpre, hcpost⟩ := contig_split pre post b _ _ hcontig
  have hHS : HEAP_START = 1048576 := rfl
  have hHZ : HEAP_SIZE = 16777216 := rfl
  rw [hHS] at hc3
  rw [hHS, hHZ] at hc4
  rw [seg_append] at hseg
  obtain ⟨mid, hs1, hs2⟩ := hseg
  obtain ⟨hmid, hsz, hfl, hpv, hs3⟩ := hs2
  subst hmid
  have hnx := seg_head _ _ _ _ hs3
  have hcond : ((s.mem b.addr).size > add32 (add32 r SIZEOF_HEAPBLOCK) 16) ↔ b.size > r + 32 := by
    rw [hsz]
    unfold add32 SIZEOF_HEAPBLOCK
    omega
  rw [malloc_take_mem]
  by_cases hsp : b.size > r + 32
  · -- the block is split
    rw [if_pos (hcond.2 hsp)]
    have hnb : add32 (add32 b.addr SIZEOF_HEAPBLOCK) r = b.addr + 16 + r := by
      unfold add32 SIZEOF_HEAPBLOCK
      omega
    have hnxfacts : (s.mem b.addr).next = 0 ∨ b.addr + 16 + b.size ≤ (s.mem b.addr).next := by
      rw [hnx]
      cases post with
      | nil => left; rfl
      | cons c post1 => right; exact (hcpost c (List.mem_cons_self _ _)).1
    obtain ⟨e1, e2, e3, e4⟩ := malloc_split_spec s.mem b.addr r (b.addr + 16 + r) hnb
      (by omega) (by omega) (by omega)
    have hsub : sub32 (sub32 (s.mem b.addr).size r) SIZEOF_HEAPBLOCK = b.size - r - 16 := by
      rw [hsz]
      unfold sub32 SIZEOF_HEAPBLOCK
      omega
    have hal : allocBlocks r b
        = [{ addr := b.addr, size := r, free := false },
           { addr := b.addr + 16 + r, size := b.size - r - 16, free := true }] := by
      unfold allocBlocks
      rw [if_pos hsp]
    rw [hal, if_pos hsp, seg_append]
    refine ⟨⟨b.addr, ?_, ?_⟩, ?_⟩
    · apply seg_frame s.mem _ pre _ _ _ _ hs1
      intro x hx
      have := hcpre x hx
      rw [setFree_other _ _ _ _ (by omega)]
      exact e4 x.addr (by omega) (by omega) (by omega)
    · rw [List.cons_append, List.cons_append, List.nil_append, seg_cons, seg_cons]
      have hne : b.addr + 16 + r ≠ b.addr := by omega
      have m1b : setFree (malloc_split s.mem b.addr r) b.addr 0 b.addr
          = { size := r, free := 0, next := b.addr + 16 + r, prev := (s.mem b.addr).prev } := by
        rw [setFree_same, e1]
      have m1n : setFree (malloc_split s.mem b.addr r) b.addr 0 (b.addr + 16 + r)
          = { size := b.size - r - 16, free := 1, next := (s.mem b.addr).next,
              prev := b.addr } := by
        rw [setFree_other _ _ _ _ hne, e2, hsub]
      dsimp only
      rw [m1b]
      dsimp only
      rw [m1n]
      refine ⟨rfl, rfl, rfl, hpv, rfl, rfl, rfl, rfl, ?_⟩
      show Seg _ (b.addr + 16 + r) (s.mem b.addr).next post 0
      cases post with
      | nil => exact hs3
      | cons c post1 =>
        have hcn : (s.mem b.addr).next = c.addr := hnx
        have hcb := hcpost c (List.mem_cons_self _ _)
        have hcc := contig_split [] post1 c _ _ hc2
        apply seg_set_prev_cons s.mem _ _ _ _ _ _ _ hs3
        · rw [setFree_other _ _ _ _ (by omega)]
          have := e3 (by omega)
          rw [hcn] at this
          exact this
        · intro x hx
          have hx1 := hcc.2.2.2.2.2 x hx
          rw [setFree_other _ _ _ _ (by omega)]
          exact e4 x.addr (by omega) (by omega) (by omega)
    · rw [setFree_same, e1]
  · -- the block is taken whole
    rw [if_neg (fun h => hsp (hcond.1 h))]
    have hal : allocBlocks r b = [{ addr := b.addr, size := b.size, free := false }] := by
      unfold allocBlocks
      rw [if_neg hsp]
    rw [hal, if_neg hsp, seg_append]
    refine ⟨⟨b.addr, ?_, ?_⟩, ?_⟩
    · apply seg_frame s.mem _ pre _ _ _ _ hs1
      intro x hx
      have := hcpre x hx
      exact setFree_other _ _ _ _ (by omega)
    · rw [List.cons_append, List.nil_append, seg_cons]
      dsimp only
      rw [setFree_same]
      refine ⟨rfl, hsz, rfl, hpv, ?_⟩
      apply seg_frame s.mem _ post _ _ _ _ hs3
      intro x hx
      have := hcpost x hx
      exact setFree_other _ _ _ _ (by omega)
    · rw [setFree_same]
      exact hsz

/-! ### Facts about abstract block lists -/

theorem noadj_append_cons (pre post : List Blk) (b : Blk) :
    NoAdj (pre ++ b :: post) ↔
      (NoAdj pre ∧ (∀ x, x ∈ pre.getLast? → ¬ (x.free = true ∧ b.free = true))
        ∧ (∀ y, y ∈ post.head? → ¬ (b.free = true ∧ y.free = true)) ∧ NoAdj post) := by
  unfold NoAdj
  rw [List.chain'_append, List.chain'_cons']
  constructor
  · rintro ⟨h1, ⟨h2, h3⟩, h4⟩
    exact ⟨h1, fun x hx => h4 x hx b (by simp), h2, h3⟩
  · rintro ⟨h1, h2, h3, h4⟩
    refine ⟨h1, ⟨h3, h4⟩, ?_⟩
    intro x hx y hy
    simp only [List.head?_cons, Option.mem_def, Option.some.injEq] at hy
    subst hy
    exact h2 x hx

theorem usedSum_append (xs ys : List Blk) : usedSum (xs ++ ys) = usedSum xs + usedSum ys := by
  simp [usedSum, List.filter_append]

theorem usedSum_cons (b : Blk) (bs : List Blk) :
    usedSum (b :: bs) = (if b.free then 0 else b.size) + usedSum bs := by
  cases h : b.free <;> simp [usedSum, List.filter_cons, h]

theorem freeSum_append (xs ys : List Blk) : freeSum (xs ++ ys) = freeSum xs + freeSum ys := by
  simp [freeSum, List.filter_append]

theorem freeSum_cons (b : Blk) (bs : List Blk) :
    freeSum (b :: bs) = (if b.free then b.size else 0) + freeSum bs := by
  cases h : b.free <;> simp [freeSum, List.filter_cons, h]

theorem usedSum_nil : usedSum [] = 0 := rfl

theorem usedSum_le_endOf : ∀ (bs : List Blk) (a : Nat), a + usedSum bs ≤ endOf a bs := by
  intro bs
  induction bs with
  | nil => intro a; simp [usedSum, endOf]
  | cons b bs ih =>
    intro a
    have := ih (a + 16 + b.size)
    rw [usedSum_cons]
    simp only [endOf]
    split <;> omega

theorem usedSum_le (bs : List Blk) (a e : Nat) (h : Contig a bs e) : a + usedSum bs ≤ e := by
  rw [← contig_end bs a e h]
  exact usedSum_le_endOf bs a

theorem first_fit_split (r : Nat) :
    ∀ bs : List Blk,
      (∀ x, x ∈ bs → ¬ (x.free = true ∧ r ≤ x.size)) ∨
      ∃ pre b post, bs = pre ++ b :: post ∧ (b.free = true ∧ r ≤ b.size)
        ∧ ∀ x, x ∈ pre → ¬ (x.free = true ∧ r ≤ x.size) := by
  intro bs
  induction bs with
  | nil => left; intro x hx; cases hx
  | cons b bs ih =>
    by_cases hb : b.free = true ∧ r ≤ b.size
    · right
      exact ⟨[], b, bs, rfl, hb, fun x hx => by cases hx⟩
    · rcases ih with h | ⟨pre, c, post, h1, h2, h3⟩
      · left
        intro x hx
        rcases List.mem_cons.1 hx with e | e
        · rw [e]; exact hb
        · exact h x e
      · right
        refine ⟨b :: pre, c, post, by rw [h1]; rfl, h2, ?_⟩
        intro x hx
        rcases List.mem_cons.1 hx with e | e
        · rw [e]; exact hb
        · exact h3 x e

/-- In a tiling, a block is determined by its address. -/
theorem contig_mem_cases (pre post : List Blk) (b x : Blk) (a e : Nat)
    (h : Contig a (pre ++ b :: post) e) (hx : x ∈ pre ++ b :: post) :
    (x ∈ pre ∧ x.addr < b.addr) ∨ x = b ∨ (x ∈ post ∧ b.addr < x.addr) := by
  obtain ⟨_, _, _, _, hpre, hpost⟩ := contig_split pre post b a e h
  rcases List.mem_append.1 hx with h1 | h1
  · left
    have := hpre x h1
    exact ⟨h1, by omega⟩
  · rcases List.mem_cons.1 h1 with h2 | h2
    · right; left; exact h2
    · right; right
      have := hpost x h2
      exact ⟨h2, by omega⟩

theorem allocBlocks_contig (r : Nat) (b : Blk) (post : List Blk) (e : Nat)
    (h : Contig (b.addr + 16 + b.size) post e) :
    Contig b.addr (allocBlocks r b ++ post) e := by
  unfold allocBlocks
  by_cases hsp : b.size > r + 32
  · rw [if_pos hsp]
    refine ⟨rfl, rfl, ?_⟩
    have e1 : b.addr + 16 + r + 16 + (b.size - r - 16) = b.addr + 16 + b.size := by omega
    show Contig (b.addr + 16 + r + 16 + (b.size - r - 16)) post e
    rw [e1]
    exact h
  · rw [if_neg hsp]
    exact ⟨rfl, h⟩

theorem contig_append_of (xs ys : List Blk) (a mid e : Nat) (h1 : Contig a xs mid)
    (h2 : Contig mid ys e) : Contig a (xs ++ ys) e := by
  rw [contig_append, contig_end _ _ _ h1]
  exact ⟨h1, h2⟩

theorem malloc_take_inv (s : HeapState) (live : List Nat) (pre post : List Blk) (b : Blk)
    (r : Nat) (hinv : HeapInv s live (pre ++ b :: post)) (hfree : b.free = true)
    (hr : r ≤ b.size) :
    HeapInv (malloc_take s b.addr r) ((b.addr + 16) :: live) (pre ++ (allocBlocks r b ++ post))
      ∧ ((malloc_take s b.addr r).mem b.addr).free = 0
      ∧ (malloc_take s b.addr r).heap.used_size
          = s.heap.used_size + ((malloc_take s b.addr r).mem b.addr).size := by
  obtain ⟨hfirst, hseg, hcontig, hnoadj, hused, hnodup, hlive⟩ := hinv
  obtain ⟨hsg, hsize⟩ := malloc_take_seg s pre post b r hseg hcontig hr
  obtain ⟨hc1, hc2, hc3, hc4, hcpre, hcpost⟩ := contig_split pre post b _ _ hcontig
  have hcontig1 : Contig HEAP_START (pre ++ (allocBlocks r b ++ post))
      (HEAP_START + HEAP_SIZE) :=
    contig_append_of _ _ _ _ _ hc1 (allocBlocks_contig r b post _ hc2)
  have hus : usedSum (pre ++ (allocBlocks r b ++ post))
      = usedSum (pre ++ b :: post) + (if b.size > r + 32 then r else b.size) := by
    rw [usedSum_append, usedSum_append, usedSum_append, usedSum_cons, hfree]
    unfold allocBlocks
    by_cases hsp : b.size > r + 32
    · rw [if_pos hsp, if_pos hsp]
      simp [usedSum_cons, usedSum_nil]
      omega
    · rw [if_neg hsp, if_neg hsp]
      simp [usedSum_cons, usedSum_nil]
      omega
  have hbound := usedSum_le _ _ _ hcontig1
  have hHS : HEAP_START = 1048576 := rfl
  have hHZ : HEAP_SIZE = 16777216 := rfl
  have hfree0 : ((malloc_take s b.addr r).mem b.addr).free = 0 := by
    rw [malloc_take_mem, setFree_same]
  have husz : (malloc_take s b.addr r).heap.used_size
      = s.heap.used_size + ((malloc_take s b.addr r).mem b.addr).size := by
    show add32 s.heap.used_size ((malloc_take s b.addr r).mem b.addr).size = _
    rw [hsize]
    unfold add32
    rw [hus] at hbound
    omega
  refine ⟨⟨hfirst, hsg, hcontig1, ?_, ?_, ?_, ?_⟩, hfree0, husz⟩
  · -- no two free neighbours
    rw [noadj_append_cons] at hnoadj
    obtain ⟨hn1, hn2, hn3, hn4⟩ := hnoadj
    unfold allocBlocks
    by_cases hsp : b.size > r + 32
    · rw [if_pos hsp, List.cons_append, noadj_append_cons]
      refine ⟨hn1, fun x _ h => by simp at h, ?_, ?_⟩
      · intro y hy h
        simp at h
      · have := (noadj_append_cons [] post
          { addr := b.addr + 16 + r, size := b.size - r - 16, free := true }).2
          ⟨List.chain'_nil, fun x hx => by simp at hx,
            fun y hy h => hn3 y hy ⟨hfree, h.2⟩, hn4⟩
        exact this
    · rw [if_neg hsp, List.cons_append, noadj_append_cons]
      exact ⟨hn1, fun x _ h => by simp at h, fun y _ h => by simp at h, hn4⟩
  · rw [husz, hsize, hused, hus]
    omega
  · -- the new pointer is not live yet
    rw [List.nodup_cons]
    refine ⟨?_, hnodup⟩
    intro hmem
    obtain ⟨x, hx1, hx2, hx3⟩ := hlive _ hmem
    rcases contig_mem_cases pre post b x _ _ hcontig hx1 with h | h | h
    · omega
    · rw [h, hfree] at hx2
      exact Bool.noConfusion hx2
    · omega
  · intro p hp
    rcases List.mem_cons.1 hp with h | h
    · refine ⟨{ addr := b.addr, size := if b.size > r + 32 then r else b.size, free := false },
        ?_, rfl, h⟩
      apply List.mem_append_right
      apply List.mem_append_left
      unfold allocBlocks
      by_cases hsp : b.size > r + 32
      · rw [if_pos hsp, if_pos hsp]
        exact List.mem_cons_self _ _
      · rw [if_neg hsp, if_neg hsp]
        exact List.mem_cons_self _ _
    · obtain ⟨x, hx1, hx2, hx3⟩ := hlive _ h
      refine ⟨x, ?_, hx2, hx3⟩
      rcases contig_mem_cases pre post b x _ _ hcontig hx1 with h1 | h1 | h1
      · exact List.mem_append_left _ h1.1
      · rw [h1, hfree] at hx2
        exact Bool.noConfusion hx2
      · exact List.mem_append_right _ (List.mem_append_right _ h1.1)

theorem free_eq (s : HeapState) (ptr : Nat) (h : ptr ≠ 0) :
    free s ptr =
      { heap := { s.heap with
          used_size := sub32 s.heap.used_size
            (setFree s.mem (sub32 ptr SIZEOF_HEAPBLOCK) 1 (sub32 ptr SIZEOF_HEAPBLOCK)).size },
        mem := free_merge_prev
          (free_merge_next (setFree s.mem (sub32 ptr SIZEOF_HEAPBLOCK) 1)
            (sub32 ptr SIZEOF_HEAPBLOCK))
          (sub32 ptr SIZEOF_HEAPBLOCK) } := by
  unfold free
  rw [if_neg h]
  rfl

theorem free_null_eq (s : HeapState) : free s 0 = s := by
  unfold free
  rw [if_pos rfl]

theorem free_merge_next_spec (m : Mem) (blk : Nat)
    (hcond : (m blk).next ≠ 0 ∧ (m (m blk).next).free ≠ 0)
    (h1 : (m blk).next ≠ blk) (h2 : (m (m blk).next).next ≠ blk)
    (h4 : (m (m blk).next).next ≠ (m blk).next) :
    free_merge_next m blk blk
        = { size := add32 (m blk).size (add32 (m (m blk).next).size SIZEOF_HEAPBLOCK),
            free := (m blk).free, next := (m (m blk).next).next, prev := (m blk).prev }
      ∧ ((m (m blk).next).next ≠ 0 →
          free_merge_next m blk (m (m blk).next).next
            = { m (m (m blk).next).next with prev := blk })
      ∧ (∀ x, x ≠ blk → (x ≠ (m (m blk).next).next ∨ (m (m blk).next).next = 0) →
          free_merge_next m blk x = m x) := by
  have h1' : blk ≠ (m blk).next := fun h => h1 h.symm
  have h2' : blk ≠ (m (m blk).next).next := fun h => h2 h.symm
  have h4' : (m blk).next ≠ (m (m blk).next).next := fun h => h4 h.symm
  unfold free_merge_next
  rw [if_pos hcond]
  by_cases hz : (m (m blk).next).next = 0
  · refine ⟨?_, ?_, ?_⟩
    · simp [setSize, setNext, setPrev, h1, h1', hz]
    · intro h; exact absurd hz h
    · intro x hx1 _
      simp [setSize, setNext, setPrev, h1, h1', hz, hx1]
  · refine ⟨?_, ?_, ?_⟩
    · simp [setSize, setNext, setPrev, h1, h1', hz, h2, h2', h4, h4']
    · intro _
      simp [setSize, setNext, setPrev, h1, h1', hz, h2, h2', h4, h4']
    · intro x hx1 hx2
      have hx2' : x ≠ (m (m blk).next).next := by
        rcases hx2 with h | h
        · exact h
        · exact absurd h hz
      simp [setSize, setNext, setPrev, h1, h1', hz, h2, h2', h4, h4', hx1, hx2']

theorem free_merge_prev_spec (m : Mem) (blk : Nat)
    (hcond : (m blk).prev ≠ 0 ∧ (m (m blk).prev).free ≠ 0)
    (h1 : (m blk).prev ≠ blk) (h2 : (m blk).next ≠ (m blk).prev) (h3 : (m blk).next ≠ blk) :
    free_merge_prev m blk (m blk).prev
        = { size := add32 (m (m blk).prev).size (add32 (m blk).size SIZEOF_HEAPBLOCK),
            free := (m (m blk).prev).free, next := (m blk).next,
            prev := (m (m blk).prev).prev }
      ∧ ((m blk).next ≠ 0 →
          free_merge_prev m blk (m blk).next = { m (m blk).next with prev := (m blk).prev })
      ∧ (∀ x, x ≠ (m blk).prev → (x ≠ (m blk).next ∨ (m blk).next = 0) →
          free_merge_prev m blk x = m x) := by
  have h1' : blk ≠ (m blk).prev := fun h => h1 h.symm
  have h2' : (m blk).prev ≠ (m blk).next := fun h => h2 h.symm
  have h3' : blk ≠ (m blk).next := fun h => h3 h.symm
  unfold free_merge_prev
  rw [if_pos hcond]
  by_cases hz : (m blk).next = 0
  · refine ⟨?_, ?_, ?_⟩
    · simp [setSize, setNext, setPrev, h1, h1', hz]
    · intro h; exact absurd hz h
    · intro x hx1 _
      simp [setSize, setNext, setPrev, h1, h1', hz, hx1]
  · refine ⟨?_, ?_, ?_⟩
    · simp [setSize, setNext, setPrev, h1, h1', hz, h2, h2', h3, h3']
    · intro _
      simp [setSize, setNext, setPrev, h1, h1', hz, h2, h2', h3, h3']
    · intro x hx1 hx2
      have hx2' : x ≠ (m blk).next := by
        rcases hx2 with h | h
        · exact h
        · exact absurd h hz
      simp [setSize, setNext, setPrev, h1, h1', hz, h2, h2', h3, h3', hx1, hx2']

/-- A block `x` absorbs its successor `y`: the abstract list after the header
updates of a merge. -/
theorem seg_absorb (m m1 : Mem) (pre post : List Blk) (x y : Blk) (a0 e : Nat)
    (hseg : Seg m 0 a0 (pre ++ x :: y :: post) 0)
    (hcontig : Contig a0 (pre ++ x :: y :: post) e)
    (hx : m1 x.addr = { size := x.size + y.size + 16, free := (m x.addr).free,
                        next := (m y.addr).next, prev := (m x.addr).prev })
    (hn : (m y.addr).next ≠ 0 →
      m1 (m y.addr).next = { m (m y.addr).next with prev := x.addr })
    (ho : ∀ a, a ≠ x.addr → (a ≠ (m y.addr).next ∨ (m y.addr).next = 0) → m1 a = m a) :
    Seg m1 0 a0 (pre ++ { addr := x.addr, size := x.size + y.size + 16, free := x.free } :: post) 0
      ∧ Contig a0
          (pre ++ { addr := x.addr, size := x.size + y.size + 16, free := x.free } :: post) e := by
  obtain ⟨hc1, hc2, _, _, hcpre, hcrest⟩ := contig_split pre (y :: post) x _ _ hcontig
  obtain ⟨hy, hc3⟩ := hc2
  have hc3' : Contig (y.addr + 16 + y.size) post e := by rw [hy]; exact hc3
  obtain ⟨_, _, _, _, _, hcpost⟩ := contig_split [] post y _ _
    (show Contig y.addr ([] ++ y :: post) e from ⟨rfl, hc3'⟩)
  rw [seg_append] at hseg
  obtain ⟨mid, hs1, hs2⟩ := hseg
  obtain ⟨hmid, hsz, hfl, hpv, hs3⟩ := hs2
  subst hmid
  obtain ⟨hnx, hysz, hyfl, hypv, hs4⟩ := hs3
  have hnn := seg_head _ _ _ _ hs4
  have hnnfacts : (m y.addr).next = 0 ∨ y.addr + 16 + y.size ≤ (m y.addr).next := by
    rw [hnn]
    cases post with
    | nil => left; rfl
    | cons c post1 => right; exact (hcpost c (List.mem_cons_self _ _)).1
  constructor
  · rw [seg_append]
    refine ⟨x.addr, ?_, ?_⟩
    · apply seg_frame m m1 pre _ _ _ _ hs1
      intro z hz
      have := hcpre z hz
      exact ho z.addr (by omega) (by omega)
    · rw [seg_cons]
      dsimp only
      rw [hx]
      refine ⟨rfl, rfl, hfl, hpv, ?_⟩
      show Seg m1 x.addr (m y.addr).next post 0
      cases post with
      | nil => exact hs4
      | cons c post1 =>
        have hcn : (m y.addr).next = c.addr := hnn
        have hcb := hcpost c (List.mem_cons_self _ _)
        have hcc := contig_split [] post1 c _ _ hc3'
        apply seg_set_prev_cons m m1 _ _ _ _ _ _ hs4
        · have := hn (by omega)
          rw [hcn] at this
          exact this
        · intro z hz
          have hz1 := hcc.2.2.2.2.2 z hz
          exact ho z.addr (by omega) (by omega)
  · apply contig_join pre post
      { addr := x.addr, size := x.size + y.size + 16, free := x.free } a0 e hc1
    have e1 : x.addr + 16 + (x.size + y.size + 16) = x.addr + 16 + x.size + 16 + y.size := by
      omega
    show Contig (x.addr + 16 + (x.size + y.size + 16)) post e
    rw [e1]
    exact hc3

theorem free_phase1 (m : Mem) (pre post : List Blk) (b : Blk) (hf : b.free = true)
    (hseg : Seg m 0 HEAP_START (pre ++ b :: post) 0)
    (hcontig : Contig HEAP_START (pre ++ b :: post) (HEAP_START + HEAP_SIZE))
    (hn : NoAdj post) :
    Seg (free_merge_next m b.addr) 0 HEAP_START
        (pre ++ (mergeNext b post).1 :: (mergeNext b post).2) 0
      ∧ Contig HEAP_START (pre ++ (mergeNext b post).1 :: (mergeNext b post).2)
          (HEAP_START + HEAP_SIZE)
      ∧ (mergeNext b post).1.addr = b.addr
      ∧ (mergeNext b post).1.free = true
      ∧ NoAdj (mergeNext b post).2
      ∧ (∀ y, y ∈ (mergeNext b post).2.head? → y.free = false)
      ∧ usedSum (mergeNext b post).2 = usedSum post
      ∧ (∀ x, x ∈ post → x.free = false → x ∈ (mergeNext b post).2) := by
  have hHS : HEAP_START = 1048576 := rfl
  have hHZ : HEAP_SIZE = 16777216 := rfl
  obtain ⟨hc1, hc2, hc3, hc4, hcpre, hcpost⟩ := contig_split pre post b _ _ hcontig
  have hseg0 := hseg
  rw [seg_append] at hseg
  obtain ⟨mid, hs1, hs2⟩ := hseg
  obtain ⟨hmid, hsz, hfl, hpv, hs3⟩ := hs2
  subst hmid
  cases post with
  | nil =>
    have hnx : (m b.addr).next = 0 := hs3
    have hm : free_merge_next m b.addr = m := by
      unfold free_merge_next
      rw [if_neg (fun h => h.1 hnx)]
    rw [hm]
    exact ⟨hseg0, hcontig, rfl, hf, hn, (fun y hy => by cases hy), rfl,
      (fun x hx => by cases hx)⟩
  | cons c post1 =>
    obtain ⟨hnx, hcsz, hcfl, hcpv, hs4⟩ := hs3
    have hcb := hcpost c (List.mem_cons_self _ _)
    by_cases hcf : c.free = true
    · -- the successor is free and is absorbed
      have hmn : mergeNext b (c :: post1)
          = ({ addr := b.addr, size := b.size + c.size + 16, free := b.free }, post1) := by
        simp [mergeNext, hcf]
      rw [hmn]
      dsimp only
      have hcc := contig_split [] post1 c _ _ hc2
      have hnn := seg_head _ _ _ _ hs4
      have hnnfacts : (m c.addr).next = 0 ∨ c.addr + 16 + c.size ≤ (m c.addr).next := by
        rw [hnn]
        cases post1 with
        | nil => left; rfl
        | cons d post2 => right; exact (hcc.2.2.2.2.2 d (List.mem_cons_self _ _)).1
      have hcond : (m b.addr).next ≠ 0 ∧ (m (m b.addr).next).free ≠ 0 := by
        rw [hnx, hcfl, flag_ne_zero]
        exact ⟨by omega, hcf⟩
      have hspec := free_merge_next_spec m b.addr hcond (by rw [hnx]; omega)
        (by rw [hnx]; omega) (by rw [hnx]; omega)
      rw [hnx] at hspec
      obtain ⟨e1, e2, e3⟩ := hspec
      have hsize : add32 (m b.addr).size (add32 (m c.addr).size SIZEOF_HEAPBLOCK)
          = b.size + c.size + 16 := by
        rw [hsz, hcsz]
        unfold add32 SIZEOF_HEAPBLOCK
        omega
      rw [hsize] at e1
      obtain ⟨r1, r2⟩ := seg_absorb m (free_merge_next m b.addr) pre post1 b c _ _ hseg0 hcontig
        e1 e2 e3
      have hn := (noadj_append_cons [] post1 c).1 hn
      refine ⟨r1, r2, rfl, hf, hn.2.2.2, ?_, ?_, ?_⟩
      · intro y hy
        have := hn.2.2.1 y hy
        cases hyf : y.free
        · rfl
        · exact absurd ⟨hcf, hyf⟩ this
      · rw [usedSum_cons, hcf]
        simp
      · intro x hx hxf
        rcases List.mem_cons.1 hx with h | h
        · rw [h, hcf] at hxf
          exact Bool.noConfusion hxf
        · exact h
    · -- the successor is used: nothing to merge
      have hcf' : c.free = false := by
        cases h : c.free
        · rfl
        · exact absurd h hcf
      have hmn : mergeNext b (c :: post1) = (b, c :: post1) := by
        simp [mergeNext, hcf']
      have hm : free_merge_next m b.addr = m := by
        unfold free_merge_next
        rw [if_neg]
        rw [hnx, hcfl, flag_ne_zero]
        exact fun h => hcf h.2
      rw [hm, hmn]
      refine ⟨hseg0, hcontig, rfl, hf, hn, ?_, rfl, fun x hx _ => hx⟩
      intro y hy
      simp only [List.head?_cons, Option.mem_def, Option.some.injEq] at hy
      rw [← hy]
      exact hcf'

theorem mergePrev_keep (pre post : List Blk) (b : Blk)
    (h : ∀ x, x ∈ pre.getLast? → x.free = false) :
    mergePrev pre b post = pre ++ b :: post := by
  unfold mergePrev
  cases hl : pre.getLast? with
  | none => rfl
  | some z =>
    have := h z (by rw [hl]; rfl)
    simp [this]

theorem mergePrev_concat_free (pre1 post : List Blk) (z b : Blk) (hz : z.free = true) :
    mergePrev (pre1 ++ [z]) b post
      = pre1 ++ { addr := z.addr, size := z.size + b.size + 16, free := z.free } :: post := by
  unfold mergePrev
  simp [hz]

theorem free_phase2 (m : Mem) (pre post : List Blk) (b : Blk) (hf : b.free = true)
    (hseg : Seg m 0 HEAP_START (pre ++ b :: post) 0)
    (hcontig : Contig HEAP_START (pre ++ b :: post) (HEAP_START + HEAP_SIZE))
    (hnpre : NoAdj pre) (hnpost : NoAdj post)
    (hhead : ∀ y, y ∈ post.head? → y.free = false) :
    Seg (free_merge_prev m b.addr) 0 HEAP_START (mergePrev pre b post) 0
      ∧ Contig HEAP_START (mergePrev pre b post) (HEAP_START + HEAP_SIZE)
      ∧ NoAdj (mergePrev pre b post)
      ∧ usedSum (mergePrev pre b post) = usedSum pre + usedSum post
      ∧ (∀ x, (x ∈ pre ∨ x ∈ post) → x.free = false → x ∈ mergePrev pre b post) := by
  have hHS : HEAP_START = 1048576 := rfl
  have hHZ : HEAP_SIZE = 16777216 := rfl
  have hheadb : ∀ y, y ∈ post.head? → ¬ (b.free = true ∧ y.free = true) := by
    intro y hy h
    rw [hhead y hy] at h
    exact Bool.noConfusion h.2
  rcases List.eq_nil_or_concat pre with hp | ⟨pre1, z, hp⟩
  · -- no predecessor
    subst hp
    have hpv : (m b.addr).prev = 0 := hseg.2.2.2.1
    have hm : free_merge_prev m b.addr = m := by
      unfold free_merge_prev
      rw [if_neg (fun h => h.1 hpv)]
    rw [hm, mergePrev_keep [] post b (fun x hx => by cases hx)]
    refine ⟨hseg, hcontig, ?_, ?_, ?_⟩
    · rw [noadj_append_cons]
      exact ⟨hnpre, (fun x hx => by cases hx), hheadb, hnpost⟩
    · rw [usedSum_append, usedSum_cons, hf]
      simp
    · intro x hx _
      rcases hx with h | h
      · cases h
      · exact List.mem_append_right _ (List.mem_cons_of_mem _ h)
  · rw [List.concat_eq_append] at hp
    subst hp
    have hassoc : pre1 ++ [z] ++ b :: post = pre1 ++ z :: b :: post := by simp
    rw [hassoc] at hseg hcontig
    have hseg0 := hseg
    obtain ⟨hc1, hc2, hc3, hc4, hcpre, hcrest⟩ := contig_split pre1 (b :: post) z _ _ hcontig
    obtain ⟨hb, hc5⟩ := hc2
    rw [seg_append] at hseg
    obtain ⟨mid, hs1, hs2⟩ := hseg
    obtain ⟨hmid, hzsz, hzfl, hzpv, hs3⟩ := hs2
    subst hmid
    obtain ⟨hznx, hbsz, hbfl, hbpv, hs4⟩ := hs3
    have hnn := seg_head _ _ _ _ hs4
    have hnnfacts : (m b.addr).next = 0 ∨ b.addr + 16 + b.size ≤ (m b.addr).next := by
      rw [hnn]
      cases post with
      | nil => left; rfl
      | cons d post2 =>
        right
        have := hcrest d (List.mem_cons_of_mem _ (List.mem_cons_self _ _))
        have h5 : Contig (b.addr + 16 + b.size) (d :: post2) (HEAP_START + HEAP_SIZE) := by
          rw [hb]; exact hc5
        have h6 : d.addr = b.addr + 16 + b.size := h5.1
        show b.addr + 16 + b.size ≤ d.addr
        omega
    have hnpre' := (noadj_append_cons pre1 [] z).1 hnpre
    have hbb := hcrest b (List.mem_cons_self _ _)
    by_cases hzf : z.free = true
    · -- the predecessor is free and absorbs the block
      rw [mergePrev_concat_free pre1 post z b hzf]
      have hcond : (m b.addr).prev ≠ 0 ∧ (m (m b.addr).prev).free ≠ 0 := by
        rw [hbpv, hzfl, flag_ne_zero]
        exact ⟨by omega, hzf⟩
      have hspec := free_merge_prev_spec m b.addr hcond (by rw [hbpv]; omega)
        (by rw [hbpv]; omega) (by omega)
      rw [hbpv] at hspec
      obtain ⟨e1, e2, e3⟩ := hspec
      have hsize : add32 (m z.addr).size (add32 (m b.addr).size SIZEOF_HEAPBLOCK)
          = z.size + b.size + 16 := by
        rw [hzsz, hbsz]
        unfold add32 SIZEOF_HEAPBLOCK
        omega
      rw [hsize] at e1
      obtain ⟨r1, r2⟩ := seg_absorb m (free_merge_prev m b.addr) pre1 post z b _ _ hseg0
        hcontig e1 e2 e3
      refine ⟨r1, r2, ?_, ?_, ?_⟩
      · rw [noadj_append_cons]
        refine ⟨hnpre'.1, ?_, ?_, hnpost⟩
        · intro x hx h
          exact hnpre'.2.1 x hx ⟨h.1, hzf⟩
        · intro y hy h
          rw [hhead y hy] at h
          exact Bool.noConfusion h.2
      · rw [usedSum_append, usedSum_append, usedSum_cons, usedSum_cons]
        dsimp only
        rw [hzf]
        simp [usedSum_nil]
      · intro x hx hxf
        rcases hx with h | h
        · rcases List.mem_append.1 h with h1 | h1
          · exact List.mem_append_left _ h1
          · rw [List.mem_singleton] at h1
            rw [h1, hzf] at hxf
            exact Bool.noConfusion hxf
        · exact List.mem_append_right _ (List.mem_cons_of_mem _ h)
    · -- the predecessor is used: nothing to merge
      have hzf' : z.free = false := by
        cases h : z.free
        · rfl
        · exact absurd h hzf
      have hm : free_merge_prev m b.addr = m := by
        unfold free_merge_prev
        rw [if_neg]
        rw [hbpv, hzfl, flag_ne_zero]
        exact fun h => hzf h.2
      rw [hm, mergePrev_keep (pre1 ++ [z]) post b (fun x hx => by
        simp only [List.getLast?_append, List.getLast?_singleton, Option.mem_def] at hx
        simp at hx
        rw [← hx]
        exact hzf'), hassoc]
      refine ⟨hseg0, hcontig, ?_, ?_, ?_⟩
      · rw [← hassoc, noadj_append_cons]
        refine ⟨hnpre, ?_, hheadb, hnpost⟩
        intro x hx h
        simp only [List.getLast?_append, List.getLast?_singleton, Option.mem_def] at hx
        simp at hx
        rw [← hx, hzf'] at h
        exact Bool.noConfusion h.1
      · rw [usedSum_append, usedSum_append, usedSum_cons, usedSum_cons, usedSum_cons, hf, hzf']
        simp only [usedSum_nil, if_true, Bool.false_eq_true, if_false]
        omega
      · intro x hx _
        rcases hx with h | h
        · rcases List.mem_append.1 h with h1 | h1
          · exact List.mem_append_left _ h1
          · rw [List.mem_singleton] at h1
            rw [h1]
            exact List.mem_append_right _ (List.mem_cons_self _ _)
        · exact List.mem_append_right _
            (List.mem_cons_of_mem _ (List.mem_cons_of_mem _ h))

theorem free_inv (s : HeapState) (live : List Nat) (pre post : List Blk) (b : Blk)
    (hinv : HeapInv s live (pre ++ b :: post)) (hb : b.free = false) :
    HeapInv (free s (b.addr + 16)) (live.erase (b.addr + 16)) (freeBlocks pre b post) := by
  obtain ⟨hfirst, hseg, hcontig, hnoadj, hused, hnodup, hlive⟩ := hinv
  obtain ⟨hc1, hc2, hc3, hc4, hcpre, hcpost⟩ := contig_split pre post b _ _ hcontig
  have hHS : HEAP_START = 1048576 := rfl
  have hHZ : HEAP_SIZE = 16777216 := rfl
  have hptr : b.addr + 16 ≠ 0 := by omega
  have hblk : sub32 (b.addr + 16) SIZEOF_HEAPBLOCK = b.addr := by
    unfold sub32 SIZEOF_HEAPBLOCK
    omega
  rw [free_eq s _ hptr, hblk]
  obtain ⟨hn1, _, _, hn4⟩ := (noadj_append_cons pre post b).1 hnoadj
  -- the block is marked free
  have hseg1 : Seg (setFree s.mem b.addr 1) 0 HEAP_START
      (pre ++ { b with free := true } :: post) 0 := by
    rw [seg_append] at hseg ⊢
    obtain ⟨mid, hs1, hs2⟩ := hseg
    obtain ⟨hmid, hsz, hfl, hpv, hs3⟩ := hs2
    subst hmid
    refine ⟨b.addr, ?_, ?_⟩
    · apply seg_frame s.mem _ pre _ _ _ _ hs1
      intro x hx
      have := hcpre x hx
      exact setFree_other _ _ _ _ (by omega)
    · rw [seg_cons]
      dsimp only
      rw [setFree_same]
      refine ⟨rfl, hsz, rfl, hpv, ?_⟩
      apply seg_frame s.mem _ post _ _ _ _ hs3
      intro x hx
      have := hcpost x hx
      exact setFree_other _ _ _ _ (by omega)
  have hcontig1 : Contig HEAP_START (pre ++ { b with free := true } :: post)
      (HEAP_START + HEAP_SIZE) :=
    contig_join pre post { b with free := true } _ _ hc1 hc2
  have hsz1 : (setFree s.mem b.addr 1 b.addr).size = b.size := by
    rw [setFree_same]
    rw [seg_append] at hseg
    obtain ⟨mid, _, hs2⟩ := hseg
    exact hs2.2.1
  obtain ⟨p1, p2, p3, p4, p5, p6, p7, p8⟩ :=
    free_phase1 (setFree s.mem b.addr 1) pre post { b with free := true } rfl hseg1 hcontig1 hn4
  have p3' : (mergeNext { b with free := true } post).1.addr = b.addr := p3
  obtain ⟨q1, q2, q3, q4, q5⟩ :=
    free_phase2 (free_merge_next (setFree s.mem b.addr 1) b.addr) pre
      (mergeNext { b with free := true } post).2 (mergeNext { b with free := true } post).1
      p4 p1 p2 hn1 p5 p6
  rw [p3'] at q1
  have hus0 : usedSum (pre ++ b :: post) = usedSum pre + b.size + usedSum post := by
    rw [usedSum_append, usedSum_cons, hb]
    simp only [Bool.false_eq_true, if_false]
    omega
  have hbound := usedSum_le _ _ _ hcontig
  refine ⟨hfirst, q1, q2, q3, ?_, hnodup.erase _, ?_⟩
  · show sub32 s.heap.used_size (setFree s.mem b.addr 1 b.addr).size
      = 16 + usedSum (freeBlocks pre b post)
    unfold freeBlocks
    rw [q4, p7, hsz1, hused, hus0]
    unfold sub32
    rw [hus0] at hbound
    omega
  · intro p hp
    rw [hnodup.mem_erase_iff] at hp
    obtain ⟨x, hx1, hx2, hx3⟩ := hlive p hp.2
    refine ⟨x, ?_, hx2, hx3⟩
    apply q5 x _ hx2
    rcases contig_mem_cases pre post b x _ _ hcontig hx1 with h | h | h
    · left; exact h.1
    · exfalso
      apply hp.1
      rw [hx3, h]
    · right; exact p8 x h.1 hx2

theorem init_heap_inv (s : HeapState) :
    HeapInv (init_heap s) [] [{ addr := HEAP_START, size := HEAP_SIZE - 16, free := true }] := by
  have hm : (init_heap s).mem HEAP_START
      = { size := HEAP_SIZE - 16, free := 1, next := 0, prev := 0 } := by
    simp [init_heap, setSize, setFree, setNext, setPrev, sub32, HEAP_SIZE, SIZEOF_HEAPBLOCK]
  refine ⟨rfl, ?_, ?_, ?_, ?_, List.nodup_nil, ?_⟩
  · rw [seg_cons]
    dsimp only
    rw [hm]
    exact ⟨rfl, rfl, rfl, rfl, rfl⟩
  · refine ⟨rfl, ?_⟩
    show HEAP_START + 16 + (HEAP_SIZE - 16) = HEAP_START + HEAP_SIZE
    unfold HEAP_START HEAP_SIZE
    rfl
  · exact List.chain'_singleton _
  · rfl
  · intro p hp
    cases hp

/-! ### The aligned request size -/

theorem and_not3 (x : Nat) (hx : x < 4294967296) : x &&& not32 3 = x / 4 * 4 := by
  have hn : not32 3 = 2 ^ 2 * (2 ^ 30 - 1) := by decide
  have hd : x / 4 * 4 = 2 ^ 2 * (x / 2 ^ 2) := by
    rw [Nat.mul_comm]
    rfl
  rw [hn, hd]
  apply Nat.eq_of_testBit_eq
  intro i
  rw [Nat.testBit_and, Nat.testBit_mul_pow_two, Nat.testBit_mul_pow_two,
    Nat.testBit_two_pow_sub_one, ← Nat.shiftRight_eq_div_pow, Nat.testBit_shiftRight]
  by_cases h2 : i ≥ 2
  · have e : 2 + (i - 2) = i := by omega
    rw [e]
    by_cases h32 : i - 2 < 30
    · simp [h2, h32]
    · have hlt : x < 2 ^ i := by
        have : (2:Nat) ^ 32 ≤ 2 ^ i := Nat.pow_le_pow_right (by decide) (by omega)
        have h232 : (2:Nat) ^ 32 = 4294967296 := by norm_num
        omega
      simp [h2, h32, Nat.testBit_lt_two_pow hlt]
  · simp [h2]

theorem aligned_size (size : Nat) (hs : size + 3 < 4294967296) :
    add32 size 3 &&& not32 3 = round_up4 size := by
  have h : add32 size 3 = size + 3 := by
    unfold add32
    omega
  rw [h, and_not3 _ hs]
  rfl

theorem aligned_lt (size : Nat) : add32 size 3 &&& not32 3 < 4294967296 := by
  have h1 : add32 size 3 &&& not32 3 ≤ add32 size 3 := Nat.and_le_left
  have h2 : add32 size 3 < 4294967296 := by
    unfold add32
    omega
  omega

/-! ### Fuel -/

theorem malloc_loop_mono (s : HeapState) (r : Nat) (x : HeapState × Nat) :
    ∀ (f a k : Nat), malloc_loop f s a r = some x → malloc_loop (f + k) s a r = some x := by
  intro f
  induction f with
  | zero =>
    intro a k h
    simp [malloc_loop] at h
  | succ f ih =>
    intro a k h
    have e : f + 1 + k = (f + k) + 1 := by omega
    rw [e]
    by_cases ha : a = 0
    · subst ha
      rw [malloc_loop_null] at h ⊢
      exact h
    · by_cases hc : (s.mem a).free ≠ 0 ∧ r ≤ (s.mem a).size
      · rw [malloc_loop_take _ _ _ _ ha hc.1 hc.2] at h ⊢
        exact h
      · rw [malloc_loop_next _ _ _ _ ha hc] at h ⊢
        exact ih _ _ h

theorem malloc_fuel_unique (s : HeapState) (size f1 f2 : Nat) (x y : HeapState × Nat)
    (h1 : malloc f1 s size = some x) (h2 : malloc f2 s size = some y) : x = y := by
  unfold malloc at h1 h2
  by_cases h0 : size = 0
  · rw [if_pos h0] at h1 h2
    rw [← Option.some.inj h1, ← Option.some.inj h2]
  · rw [if_neg h0] at h1 h2
    have a1 := malloc_loop_mono s _ x f1 _ f2 h1
    have a2 := malloc_loop_mono s _ y f2 _ f1 h2
    rw [Nat.add_comm f2 f1] at a2
    rw [a1] at a2
    exact Option.some.inj a2

/-! ### `malloc` on a heap that satisfies the invariant -/

theorem inv_addr_ne_zero (s : HeapState) (live : List Nat) (bs : List Blk)
    (hinv : HeapInv s live bs) : ∀ x, x ∈ bs → x.addr ≠ 0 := by
  intro x hx
  have := (contig_mem _ _ _ hinv.contig x hx).1
  have hHS : HEAP_START = 1048576 := rfl
  omega

theorem malloc_hit (s : HeapState) (live : List Nat) (pre post : List Blk) (b : Blk)
    (size fuel : Nat) (hinv : HeapInv s live (pre ++ b :: post)) (h0 : size ≠ 0)
    (hfit : b.free = true ∧ add32 size 3 &&& not32 3 ≤ b.size)
    (hpre : ∀ x, x ∈ pre → ¬ (x.free = true ∧ add32 size 3 &&& not32 3 ≤ x.size))
    (hfuel : pre.length + 1 ≤ fuel) :
    malloc fuel s size
      = some (malloc_take s b.addr (add32 size 3 &&& not32 3), b.addr + 16) := by
  have hnz := inv_addr_ne_zero s live _ hinv
  have hseg := hinv.seg
  rw [seg_append] at hseg
  obtain ⟨mid, hs1, hs2⟩ := hseg
  obtain ⟨hmid, hsz, hfl, _, _⟩ := hs2
  subst hmid
  unfold malloc
  rw [if_neg h0, hinv.first]
  dsimp only
  have e : fuel = (fuel - pre.length - 1 + 1) + pre.length := by omega
  rw [e, malloc_loop_skip s _ pre 0 HEAP_START b.addr _ hs1
    (fun x hx => hnz x (List.mem_append_left _ hx)) hpre]
  rw [malloc_loop_take _ s b.addr _
    (hnz b (List.mem_append_right _ (List.mem_cons_self _ _)))
    (by rw [hfl, flag_ne_zero]; exact hfit.1) (by rw [hsz]; exact hfit.2)]
  have hb := (contig_split pre post b _ _ hinv.contig).2.2.2.1
  have hHS : HEAP_START = 1048576 := rfl
  have hHZ : HEAP_SIZE = 16777216 := rfl
  have : add32 b.addr SIZEOF_HEAPBLOCK = b.addr + 16 := by
    unfold add32 SIZEOF_HEAPBLOCK
    omega
  rw [this]

theorem malloc_miss (s : HeapState) (live : List Nat) (bs : List Blk) (size fuel : Nat)
    (hinv : HeapInv s live bs)
    (hnone : ∀ x, x ∈ bs → ¬ (x.free = true ∧ add32 size 3 &&& not32 3 ≤ x.size))
    (hfuel : bs.length + 1 ≤ fuel) :
    malloc fuel s size = some (s, 0) := by
  unfold malloc
  by_cases h0 : size = 0
  · rw [if_pos h0]
  · rw [if_neg h0, hinv.first]
    dsimp only
    have e : fuel = (fuel - bs.length - 1 + 1) + bs.length := by omega
    rw [e, malloc_loop_skip s _ bs 0 HEAP_START 0 _ hinv.seg
      (inv_addr_ne_zero s live bs hinv) hnone, malloc_loop_null]

/-- Every reachable heap state satisfies the representation invariant. -/
theorem reach_inv (s : HeapState) (live : List Nat) (h : Reach s live) :
    ∃ bs, HeapInv s live bs := by
  induction h with
  | init s0 => exact ⟨_, init_heap_inv s0⟩
  | @malloc_ptr s s1 live fuel size p _ _ hm hp ih =>
    obtain ⟨bs, hinv⟩ := ih
    rcases first_fit_split (add32 size 3 &&& not32 3) bs with hnone | ⟨pre, b, post, e, hfit, hpre⟩
    · have h2 := malloc_miss s live bs size (bs.length + 1) hinv hnone (le_refl _)
      have := malloc_fuel_unique s size _ _ _ _ hm h2
      exact absurd (congrArg Prod.snd this) hp
    · subst e
      have h0 : size ≠ 0 := by
        intro h0
        subst h0
        have : malloc fuel s 0 = some (s, 0) := by unfold malloc; rw [if_pos rfl]
        rw [this] at hm
        exact hp (congrArg Prod.snd (Option.some.inj hm)).symm
      have h2 := malloc_hit s live pre post b size (pre.length + 1) hinv h0 hfit hpre (le_refl _)
      have := malloc_fuel_unique s size _ _ _ _ hm h2
      have e1 : s1 = malloc_take s b.addr (add32 size 3 &&& not32 3) := congrArg Prod.fst this
      have e2 : p = b.addr + 16 := congrArg Prod.snd this
      rw [e1, e2]
      exact ⟨_, (malloc_take_inv s live pre post b _ hinv hfit.1 hfit.2).1⟩
  | @malloc_null s s1 live fuel size _ _ hm ih =>
    obtain ⟨bs, hinv⟩ := ih
    rcases first_fit_split (add32 size 3 &&& not32 3) bs with hnone | ⟨pre, b, post, e, hfit, hpre⟩
    · have h2 := malloc_miss s live bs size (bs.length + 1) hinv hnone (le_refl _)
      have := malloc_fuel_unique s size _ _ _ _ hm h2
      have e1 : s1 = s := congrArg Prod.fst this
      rw [e1]
      exact ⟨bs, hinv⟩
    · subst e
      by_cases h0 : size = 0
      · subst h0
        have : malloc fuel s 0 = some (s, 0) := by unfold malloc; rw [if_pos rfl]
        rw [this] at hm
        have e1 : s = s1 := congrArg Prod.fst (Option.some.inj hm)
        rw [← e1]
        exact ⟨_, hinv⟩
      · have h2 := malloc_hit s live pre post b size (pre.length + 1) hinv h0 hfit hpre
          (le_refl _)
        have := malloc_fuel_unique s size _ _ _ _ hm h2
        have e2 : 0 = b.addr + 16 := congrArg Prod.snd this
        omega
  | @free_ptr s live p _ hp ih =>
    obtain ⟨bs, hinv⟩ := ih
    obtain ⟨b, hb1, hb2, hb3⟩ := hinv.live_used p hp
    obtain ⟨pre, post, e⟩ := List.append_of_mem hb1
    subst e
    rw [hb3]
    exact ⟨_, free_inv s live pre post b hinv hb2⟩
  | @free_null s live _ ih =>
    rw [free_null_eq]
    exact ih

theorem isBlockList_nil (m : Mem) (a : Nat) : IsBlockList m a [] ↔ a = 0 := Iff.rfl

theorem isBlockList_cons (m : Mem) (a b : Nat) (bs : List Nat) :
    IsBlockList m a (b :: bs) ↔ (a ≠ 0 ∧ a = b ∧ IsBlockList m (m a).next bs) := Iff.rfl

theorem isBlockList_unique (m : Mem) :
    ∀ (l1 l2 : List Nat) (a : Nat), IsBlockList m a l1 → IsBlockList m a l2 → l1 = l2 := by
  intro l1
  induction l1 with
  | nil =>
    intro l2 a h1 h2
    cases l2 with
    | nil => rfl
    | cons b bs => exact absurd h1 h2.1
  | cons c cs ih =>
    intro l2 a h1 h2
    cases l2 with
    | nil => exact absurd h2 h1.1
    | cons b bs =>
      obtain ⟨_, e1, t1⟩ := h1
      obtain ⟨_, e2, t2⟩ := h2
      rw [← e1, ← e2, ih bs _ t1 t2]

theorem marked_free_flag (m : Mem) (a : Nat) (f : Bool) (h : (m a).free = flag f) :
    marked_free m a = f := by
  unfold marked_free
  rw [h]
  cases f <;> rfl

theorem seg_pointwise (m : Mem) :
    ∀ (bs : List Blk) (p a n : Nat), Seg m p a bs n →
      ∀ x, x ∈ bs → (m x.addr).size = x.size ∧ marked_free m x.addr = x.free := by
  intro bs
  induction bs with
  | nil => intro p a n _ x hx; cases hx
  | cons b bs ih =>
    intro p a n h x hx
    obtain ⟨_, h2, h3, _, h5⟩ := h
    rcases List.mem_cons.1 hx with e | e
    · rw [e]
      exact ⟨h2, marked_free_flag m _ _ h3⟩
    · exact ih _ _ _ h5 x e

theorem seg_blocklist (m : Mem) :
    ∀ (bs : List Blk) (p a : Nat), Seg m p a bs 0 → (∀ x, x ∈ bs → x.addr ≠ 0) →
      IsBlockList m a (bs.map Blk.addr) := by
  intro bs
  induction bs with
  | nil => intro p a h _; exact h
  | cons b bs ih =>
    intro p a h hnz
    obtain ⟨h1, _, _, _, h5⟩ := h
    rw [List.map_cons, isBlockList_cons]
    refine ⟨by rw [h1]; exact hnz b (List.mem_cons_self _ _), h1, ?_⟩
    rw [h1]
    exact ih _ _ h5 (fun x hx => hnz x (List.mem_cons_of_mem _ hx))

theorem used_sum_map (m : Mem) (bs : List Blk)
    (h : ∀ x, x ∈ bs → (m x.addr).size = x.size ∧ marked_free m x.addr = x.free) :
    used_sum m (bs.map Blk.addr) = usedSum bs := by
  induction bs with
  | nil => rfl
  | cons b bs ih =>
    have hb := h b (List.mem_cons_self _ _)
    have ih' := ih (fun x hx => h x (List.mem_cons_of_mem _ hx))
    rw [usedSum_cons, ← ih']
    unfold used_sum
    rw [List.map_cons, List.filter_cons, hb.2]
    cases hf : b.free
    · simp [hb.1]
    · simp

theorem free_capacity_map (m : Mem) (bs : List Blk)
    (h : ∀ x, x ∈ bs → (m x.addr).size = x.size ∧ marked_free m x.addr = x.free) :
    free_capacity m (bs.map Blk.addr) = freeSum bs := by
  induction bs with
  | nil => rfl
  | cons b bs ih =>
    have hb := h b (List.mem_cons_self _ _)
    have ih' := ih (fun x hx => h x (List.mem_cons_of_mem _ hx))
    rw [freeSum_cons, ← ih']
    unfold free_capacity
    rw [List.map_cons, List.filter_cons, hb.2]
    cases hf : b.free
    · simp
    · simp [hb.1]

theorem noadj_map (m : Mem) (bs : List Blk)
    (h : ∀ x, x ∈ bs → (m x.addr).size = x.size ∧ marked_free m x.addr = x.free)
    (hn : NoAdj bs) : NoAdjacentFree m (bs.map Blk.addr) := by
  unfold NoAdjacentFree
  unfold NoAdj at hn
  induction bs with
  | nil => exact List.chain'_nil
  | cons b bs ih =>
    cases bs with
    | nil => exact List.chain'_singleton _
    | cons c cs =>
      rw [List.chain'_cons] at hn
      rw [List.map_cons, List.map_cons, List.chain'_cons]
      refine ⟨?_, ih (fun x hx => h x (List.mem_cons_of_mem _ hx)) hn.2⟩
      rw [(h b (List.mem_cons_self _ _)).2,
        (h c (List.mem_cons_of_mem _ (List.mem_cons_self _ _))).2]
      exact hn.1

/-- The concrete reading of the invariant. -/
theorem inv_concrete (s : HeapState) (live : List Nat) (bs : List Blk)
    (hinv : HeapInv s live bs) :
    IsBlockList s.mem s.heap.first_block (bs.map Blk.addr)
      ∧ NoAdjacentFree s.mem (bs.map Blk.addr)
      ∧ used_sum s.mem (bs.map Blk.addr) = usedSum bs
      ∧ free_capacity s.mem (bs.map Blk.addr) = freeSum bs := by
  have hp := seg_pointwise s.mem bs _ _ _ hinv.seg
  refine ⟨?_, noadj_map s.mem bs hp hinv.noadj, used_sum_map s.mem bs hp,
    free_capacity_map s.mem bs hp⟩
  rw [hinv.first]
  exact seg_blocklist s.mem bs _ _ hinv.seg (inv_addr_ne_zero s live bs hinv)

/-! ### Claims about the heap allocator -/

theorem heap_after_malloc_eq :
    malloc 2 (init_heap heap_zero) 8 = some (heap_after_malloc, 1048592) := by
  rfl

theorem reach_after_malloc : Reach heap_after_malloc [1048592] :=
  Reach.malloc_ptr (Reach.init heap_zero) (by decide) heap_after_malloc_eq (by decide)

/-- C1: in every heap state reached from `init_heap` by `malloc` calls and by `free`
calls on live pointers, the block list is a finite null-terminated list in which
no two neighbours are both marked free. -/
theorem heap_no_adjacent_free (s : HeapState) (live : List Nat) (h : Reach s live) :
    ∃ bs, IsBlockList s.mem s.heap.first_block bs ∧ NoAdjacentFree s.mem bs := by
  obtain ⟨bs, hinv⟩ := reach_inv s live h
  obtain ⟨h1, h2, _, _⟩ := inv_concrete s live bs hinv
  exact ⟨_, h1, h2⟩

/-- C1 witness: the heap after `init_heap`, `malloc(8)` and `free` of that
pointer. -/
theorem heap_no_adjacent_free_witness :
    ∃ bs, IsBlockList (free heap_after_malloc 1048592).mem
        (free heap_after_malloc 1048592).heap.first_block bs
      ∧ NoAdjacentFree (free heap_after_malloc 1048592).mem bs :=
  heap_no_adjacent_free _ _ (Reach.free_ptr reach_after_malloc (by decide))

/-- C2 counterexample: right after `init_heap` (the empty sequence of calls) the
block list is the single free block at `HEAP_START`, the sum of the sizes of used
blocks is 0, and `get_heap_usage` reports 16. -/
theorem used_size_counterexample :
    Reach (init_heap heap_zero) []
      ∧ IsBlockList (init_heap heap_zero).mem (init_heap heap_zero).heap.first_block [1048576]
      ∧ used_sum (init_heap heap_zero).mem [1048576] = 0
      ∧ get_heap_usage (init_heap heap_zero) = 16 := by
  exact ⟨Reach.init heap_zero, by decide, by decide, rfl⟩

/-- C2 (amended): in every reachable heap state `get_heap_usage` equals
`sizeof(HeapBlock)` plus the sum of the recorded sizes of the blocks marked
used. -/
theorem used_size_accounting (s : HeapState) (live : List Nat) (h : Reach s live) :
    ∃ bs, IsBlockList s.mem s.heap.first_block bs
      ∧ get_heap_usage s = SIZEOF_HEAPBLOCK + used_sum s.mem bs := by
  obtain ⟨bs, hinv⟩ := reach_inv s live h
  obtain ⟨h1, _, h3, _⟩ := inv_concrete s live bs hinv
  refine ⟨_, h1, ?_⟩
  rw [h3]
  exact hinv.used

/-- C2 witness: the heap after `init_heap` and `malloc(8)`. -/
theorem used_size_accounting_witness :
    ∃ bs, IsBlockList heap_after_malloc.mem heap_after_malloc.heap.first_block bs
      ∧ get_heap_usage heap_after_malloc = SIZEOF_HEAPBLOCK + used_sum heap_after_malloc.mem bs :=
  used_size_accounting _ _ reach_after_malloc

theorem freeBlocks_after_alloc (pre post : List Blk) (b : Blk) (r : Nat)
    (hnoadj : NoAdj (pre ++ b :: post)) (hfree : b.free = true) (hr : r ≤ b.size) :
    ∃ b1 rest, allocBlocks r b ++ post = b1 :: rest ∧ b1.addr = b.addr ∧ b1.free = false
      ∧ freeBlocks pre b1 rest = pre ++ b :: post := by
  obtain ⟨_, hn2, hn3, _⟩ := (noadj_append_cons pre post b).1 hnoadj
  have hlast : ∀ x, x ∈ pre.getLast? → x.free = false := by
    intro x hx
    have := hn2 x hx
    cases hxf : x.free
    · rfl
    · exact absurd ⟨hxf, hfree⟩ this
  have hb : b = { addr := b.addr, size := b.size, free := true } := by
    cases b
    simp only [Blk.mk.injEq, true_and]
    exact hfree
  by_cases hsp : b.size > r + 32
  · refine ⟨{ addr := b.addr, size := r, free := false },
      { addr := b.addr + 16 + r, size := b.size - r - 16, free := true } :: post, ?_, rfl, rfl, ?_⟩
    · unfold allocBlocks
      rw [if_pos hsp]
      rfl
    · unfold freeBlocks
      have hm : mergeNext { addr := b.addr, size := r, free := true }
          ({ addr := b.addr + 16 + r, size := b.size - r - 16, free := true } :: post)
          = ({ addr := b.addr, size := r + (b.size - r - 16) + 16, free := true }, post) := by
        simp [mergeNext]
      dsimp only
      rw [hm]
      dsimp only
      rw [mergePrev_keep pre post _ hlast]
      have e : r + (b.size - r - 16) + 16 = b.size := by omega
      rw [e, ← hb]
  · refine ⟨{ addr := b.addr, size := b.size, free := false }, post, ?_, rfl, rfl, ?_⟩
    · unfold allocBlocks
      rw [if_neg hsp]
      rfl
    · unfold freeBlocks
      have hm : mergeNext { addr := b.addr, size := b.size, free := true } post
          = ({ addr := b.addr, size := b.size, free := true }, post) := by
        cases post with
        | nil => rfl
        | cons c post1 =>
          have hc : c.free = false := by
            have := hn3 c (by simp)
            cases hcf : c.free
            · rfl
            · exact absurd ⟨hfree, hcf⟩ this
          simp [mergeNext, hc]
      dsimp only
      rw [hm]
      dsimp only
      rw [mergePrev_keep pre post _ hlast, ← hb]

/-- C3: in a reachable heap state, when `malloc(N)` with `N > 0` returns a non-null
pointer `p`, calling `free(p)` next gives a heap with the same number of blocks,
the same total free capacity and the same `used_size` as before the `malloc`. -/
theorem heap_round_trip (s s1 : HeapState) (live : List Nat) (fuel size p : Nat)
    (hr : Reach s live) (h0 : 0 < size) (h32 : size < 4294967296)
    (hm : malloc fuel s size = some (s1, p)) (hp : p ≠ 0) :
    ∃ bs bs2, IsBlockList s.mem s.heap.first_block bs
      ∧ IsBlockList (free s1 p).mem (free s1 p).heap.first_block bs2
      ∧ bs2.length = bs.length
      ∧ free_capacity (free s1 p).mem bs2 = free_capacity s.mem bs
      ∧ (free s1 p).heap.used_size = s.heap.used_size := by
  obtain ⟨bs, hinv⟩ := reach_inv s live hr
  have h0' : size ≠ 0 := by omega
  rcases first_fit_split (add32 size 3 &&& not32 3) bs with hnone | ⟨pre, b, post, e, hfit, hpre⟩
  · have h2 := malloc_miss s live bs size (bs.length + 1) hinv hnone (le_refl _)
    have := malloc_fuel_unique s size _ _ _ _ hm h2
    exact absurd (congrArg Prod.snd this) hp
  · subst e
    have h2 := malloc_hit s live pre post b size (pre.length + 1) hinv h0' hfit hpre (le_refl _)
    have hu := malloc_fuel_unique s size _ _ _ _ hm h2
    have e1 : s1 = malloc_take s b.addr (add32 size 3 &&& not32 3) := congrArg Prod.fst hu
    have e2 : p = b.addr + 16 := congrArg Prod.snd hu
    obtain ⟨hinv1, _, _⟩ := malloc_take_inv s live pre post b _ hinv hfit.1 hfit.2
    obtain ⟨b1, rest, ha, hb1, hb2, hfb⟩ :=
      freeBlocks_after_alloc pre post b _ hinv.noadj hfit.1 hfit.2
    rw [ha] at hinv1
    have hinv2 := free_inv _ _ pre rest b1 hinv1 hb2
    rw [hfb, hb1, ← e1, ← e2] at hinv2
    obtain ⟨c1, _, _, c4⟩ := inv_concrete s live _ hinv
    obtain ⟨d1, _, _, d4⟩ := inv_concrete _ _ _ hinv2
    refine ⟨_, _, c1, d1, rfl, ?_, ?_⟩
    · rw [c4, d4]
    · rw [hinv2.used, hinv.used]

/-- C3 witness: `malloc(8)` on the freshly initialised heap, then `free`. -/
theorem heap_round_trip_witness :
    ∃ bs bs2, IsBlockList (init_heap heap_zero).mem (init_heap heap_zero).heap.first_block bs
      ∧ IsBlockList (free heap_after_malloc 1048592).mem
          (free heap_after_malloc 1048592).heap.first_block bs2
      ∧ bs2.length = bs.length
      ∧ free_capacity (free heap_after_malloc 1048592).mem bs2
          = free_capacity (init_heap heap_zero).mem bs
      ∧ (free heap_after_malloc 1048592).heap.used_size = (init_heap heap_zero).heap.used_size :=
  heap_round_trip (init_heap heap_zero) heap_after_malloc [] 2 8 1048592
    (Reach.init heap_zero) (by decide) (by decide) heap_after_malloc_eq (by decide)

/-- C4: in a reachable heap state, for a request `size > 0` with `r` the request
rounded up to a multiple of 4, if `a` is the first block in list order that is
free with recorded size at least `r`, then `malloc` (with enough fuel to reach
that block) returns `a + sizeof(HeapBlock)`, marks the block at `a` used, and
increases `used_size` by the size recorded in that block after the call. -/
theorem malloc_first_fit (s : HeapState) (live : List Nat) (size a : Nat)
    (pre post : List Nat) (hr : Reach s live) (h0 : 0 < size) (h32 : size < 4294967296)
    (hlist : IsBlockList s.mem s.heap.first_block (pre ++ a :: post))
    (hfit : fits s.mem (round_up4 size) a)
    (hfirst : ∀ b, b ∈ pre → ¬ fits s.mem (round_up4 size) b) :
    ∃ s1, (∀ fuel, pre.length + 1 ≤ fuel →
          malloc fuel s size = some (s1, a + SIZEOF_HEAPBLOCK))
      ∧ marked_free s1.mem a = false
      ∧ s1.heap.used_size = s.heap.used_size + (s1.mem a).size := by
  obtain ⟨bs, hinv⟩ := reach_inv s live hr
  obtain ⟨c1, _, _, _⟩ := inv_concrete s live _ hinv
  have hmap := isBlockList_unique s.mem _ _ _ c1 hlist
  obtain ⟨pre1, rest, e, hpre1, hrest⟩ := List.map_eq_append_iff.1 hmap
  obtain ⟨b, post1, e', hb, _⟩ := List.map_eq_cons_iff.1 hrest
  subst e'
  subst e
  have hpw := seg_pointwise s.mem _ _ _ _ hinv.seg
  have hbb := hpw b (List.mem_append_right _ (List.mem_cons_self _ _))
  have hbound := (contig_split pre1 post1 b _ _ hinv.contig).2.2.2.1
  have hHS : HEAP_START = 1048576 := rfl
  have hHZ : HEAP_SIZE = 16777216 := rfl
  subst hb
  obtain ⟨hf1, hf2⟩ := hfit
  rw [hbb.2] at hf1
  rw [hbb.1] at hf2
  have hsz : size + 3 < 4294967296 := by
    unfold round_up4 at hf2
    omega
  have hal := aligned_size size hsz
  have hfit' : b.free = true ∧ add32 size 3 &&& not32 3 ≤ b.size := by
    rw [hal]
    exact ⟨hf1, hf2⟩
  have hpre' : ∀ x, x ∈ pre1 → ¬ (x.free = true ∧ add32 size 3 &&& not32 3 ≤ x.size) := by
    intro x hx hxf
    have hxx := hpw x (List.mem_append_left _ hx)
    apply hfirst x.addr
    · rw [← hpre1]
      exact List.mem_map_of_mem _ hx
    · unfold fits
      rw [hxx.1, hxx.2, ← hal]
      exact hxf
  obtain ⟨_, i2, i3⟩ := malloc_take_inv s live pre1 post1 b _ hinv hfit'.1 hfit'.2
  refine ⟨malloc_take s b.addr (add32 size 3 &&& not32 3), ?_, ?_, i3⟩
  · intro fuel hfuel
    rw [← hpre1, List.length_map] at hfuel
    exact malloc_hit s live pre1 post1 b size fuel hinv (by omega) hfit' hpre' hfuel
  · unfold marked_free
    rw [i2]
    rfl

/-- C5 at the failing input: on the freshly initialised heap, whose only block
holds 16777200 bytes, `malloc(0xFFFFFFFF)` returns the non-null pointer 1048592 and
turns the only block into a used block of size 0. -/
theorem malloc_huge_request_not_null :
    IsBlockList (init_heap heap_zero).mem (init_heap heap_zero).heap.first_block [1048576]
      ∧ ((init_heap heap_zero).mem 1048576).size = 16777200
      ∧ ∃ s1, malloc 2 (init_heap heap_zero) 4294967295 = some (s1, 1048592)
          ∧ marked_free s1.mem 1048576 = false ∧ (s1.mem 1048576).size = 0 :=
  ⟨by decide, by decide, _, rfl, by decide, by decide⟩

/-- Support for C5: when the rounding of the request does not wrap, a reachable heap
without a fitting free block makes `malloc` return the null pointer and leaves the
state as it is. -/
theorem malloc_exhausted_returns_null (s : HeapState) (live : List Nat) (size : Nat)
    (bs : List Nat) (hr : Reach s live) (hs : size + 3 < 4294967296)
    (hlist : IsBlockList s.mem s.heap.first_block bs)
    (hnone : ∀ b, b ∈ bs → ¬ fits s.mem (round_up4 size) b) :
    ∀ fuel, bs.length + 1 ≤ fuel → malloc fuel s size = some (s, 0) := by
  obtain ⟨abs, hinv⟩ := reach_inv s live hr
  obtain ⟨c1, _, _, _⟩ := inv_concrete s live _ hinv
  have hmap := isBlockList_unique s.mem _ _ _ c1 hlist
  have hpw := seg_pointwise s.mem _ _ _ _ hinv.seg
  have hal := aligned_size size hs
  intro fuel hfuel
  rw [← hmap, List.length_map] at hfuel
  apply malloc_miss s live abs size fuel hinv _ hfuel
  intro x hx hxf
  have hxx := hpw x hx
  apply hnone x.addr
  · rw [← hmap]
    exact List.mem_map_of_mem _ hx
  · unfold fits
    rw [hxx.1, hxx.2, ← hal]
    exact hxf

/-! ### The bitmap of the physical page allocator -/

theorem frame_used_eq_testBit (pmm : PhysicalMemoryManager) (i : Nat) :
    frame_used pmm i = (pmm.bitmap (i / 32)).testBit (i % 32) := by
  unfold frame_used
  rw [Nat.one_shiftLeft, Nat.and_two_pow]
  cases h : (pmm.bitmap (i / 32)).testBit (i % 32) <;> simp

theorem and_bit_eq_zero_iff (pmm : PhysicalMemoryManager) (i : Nat) :
    pmm.bitmap (i / 32) &&& (1 <<< (i % 32)) = 0 ↔ frame_used pmm i = false := by
  unfold frame_used
  simp

theorem index_split (i j : Nat) : (j / 32 = i / 32 ∧ j % 32 = i % 32) ↔ j = i := by
  omega

theorem frame_used_mark_used (pmm : PhysicalMemoryManager) (i j : Nat) :
    frame_used (mark_used pmm i) j = (decide (j = i) || frame_used pmm j) := by
  rw [frame_used_eq_testBit, frame_used_eq_testBit]
  simp only [mark_used]
  by_cases hw : j / 32 = i / 32
  · rw [if_pos hw, Nat.testBit_or, Nat.one_shiftLeft, Nat.testBit_two_pow, hw]
    by_cases hb : i % 32 = j % 32
    · have : j = i := by omega
      simp [this]
    · have : j ≠ i := by omega
      simp [hb, this, Bool.or_comm]
  · rw [if_neg hw]
    have : j ≠ i := by intro h; exact hw (by rw [h])
    simp [this]

theorem frame_used_free (pmm : PhysicalMemoryManager) (page j : Nat) :
    frame_used (free_physical_page pmm page) j
      = (!decide (j = page / PAGE_SIZE) && frame_used pmm j) := by
  rw [frame_used_eq_testBit, frame_used_eq_testBit]
  simp only [free_physical_page]
  generalize page / PAGE_SIZE = i
  by_cases hw : j / 32 = i / 32
  · rw [if_pos hw, Nat.testBit_and, hw]
    have hlt : i % 32 < 32 := Nat.mod_lt _ (by decide)
    have hpow : (1 <<< (i % 32)) % 4294967296 = 2 ^ (i % 32) := by
      rw [Nat.one_shiftLeft]
      apply Nat.mod_eq_of_lt
      calc 2 ^ (i % 32) < 2 ^ 32 := Nat.pow_lt_pow_right (by decide) hlt
        _ = 4294967296 := by norm_num
    have h1 : (4294967295 : Nat) = 2 ^ 32 - 1 := by norm_num
    unfold not32
    rw [hpow, Nat.testBit_xor, h1, Nat.testBit_two_pow_sub_one, Nat.testBit_two_pow]
    have hj : j % 32 < 32 := Nat.mod_lt _ (by decide)
    by_cases hb : i % 32 = j % 32
    · have : j = i := by omega
      simp [this, hlt]
    · have : j ≠ i := by omega
      simp [hb, this, hj]
  · rw [if_neg hw]
    have : j ≠ i := by intro h; exact hw (by rw [h])
    simp [this]

theorem alloc_loop_found (pmm : PhysicalMemoryManager) (i : Nat) (hfree : frame_used pmm i = false) :
    ∀ (n i0 : Nat), i0 ≤ i → i < i0 + n →
      (∀ j, i0 ≤ j → j < i → frame_used pmm j = true) →
      allocate_physical_page_loop pmm n i0 = (mark_used pmm i, mul32 i PAGE_SIZE) := by
  intro n
  induction n with
  | zero => intro i0 h1 h2; omega
  | succ n ih =>
    intro i0 h1 h2 hused
    unfold allocate_physical_page_loop
    by_cases heq : i0 = i
    · subst heq
      simp only [(and_bit_eq_zero_iff pmm i0).2 hfree, if_true, mark_used]
    · have hu := hused i0 (le_refl _) (by omega)
      have hne : ¬ (pmm.bitmap (i0 / 32) &&& (1 <<< (i0 % 32)) = 0) := by
        rw [and_bit_eq_zero_iff]; simp [hu]
      simp only [hne, if_false]
      exact ih (i0 + 1) (by omega) (by omega) (fun j hj1 hj2 => hused j (by omega) hj2)

theorem alloc_loop_full (pmm : PhysicalMemoryManager) :
    ∀ (n i0 : Nat), (∀ j, i0 ≤ j → j < i0 + n → frame_used pmm j = true) →
      allocate_physical_page_loop pmm n i0 = (pmm, 0) := by
  intro n
  induction n with
  | zero => intro i0 _; rfl
  | succ n ih =>
    intro i0 hused
    unfold allocate_physical_page_loop
    have hu := hused i0 (le_refl _) (by omega)
    have hne : ¬ (pmm.bitmap (i0 / 32) &&& (1 <<< (i0 % 32)) = 0) := by
      rw [and_bit_eq_zero_iff]; simp [hu]
    simp only [hne, if_false]
    exact ih (i0 + 1) (fun j hj1 hj2 => hused j (by omega) (by omega))

theorem allocate_found (pmm : PhysicalMemoryManager) (i : Nat) (hi : i < pmm.total_pages)
    (hfree : frame_used pmm i = false) (hmin : ∀ j, j < i → frame_used pmm j = true) :
    allocate_physical_page pmm = (mark_used pmm i, mul32 i PAGE_SIZE) :=
  alloc_loop_found pmm i hfree pmm.total_pages 0 (Nat.zero_le _) (by omega)
    (fun j _ hj => hmin j hj)

theorem allocate_full (pmm : PhysicalMemoryManager)
    (hall : ∀ j, j < pmm.total_pages → frame_used pmm j = true) :
    allocate_physical_page pmm = (pmm, 0) :=
  alloc_loop_full pmm pmm.total_pages 0 (fun j _ hj => hall j (by omega))

theorem countP_range_flip (p q : Nat → Bool) (i : Nat) (hp : p i = false) (hq : q i = true)
    (hother : ∀ j, j ≠ i → q j = p j) :
    ∀ n, i < n → (List.range n).countP q = (List.range n).countP p + 1 := by
  intro n
  induction n with
  | zero => intro h; omega
  | succ n ih =>
    intro hi
    rw [List.range_succ, List.countP_append, List.countP_append]
    by_cases h : i = n
    · subst h
      have hc : (List.range i).countP q = (List.range i).countP p := by
        apply List.countP_congr
        intro j hj
        have : j ≠ i := by
          have := List.mem_range.1 hj
          omega
        rw [hother j this]
      simp [hc, hp, hq]
    · have := ih (by omega)
      have hn : q n = p n := hother n (fun e => h e.symm)
      rw [this, List.countP_singleton, List.countP_singleton, hn]
      omega

theorem set_add_clear (pmm : PhysicalMemoryManager) :
    set_bits pmm + clear_bits pmm = pmm.total_pages := by
  unfold set_bits clear_bits
  have := List.length_eq_countP_add_countP (fun i => frame_used pmm i) (List.range pmm.total_pages)
  simp only [List.length_range] at this
  have h2 : (List.range pmm.total_pages).countP (fun a => decide ¬frame_used pmm a = true)
      = (List.range pmm.total_pages).countP (fun i => !frame_used pmm i) := by
    apply List.countP_congr
    intro j _
    simp
  omega

theorem set_bits_mark_used (pmm : PhysicalMemoryManager) (i : Nat) (hi : i < pmm.total_pages)
    (hfree : frame_used pmm i = false) :
    set_bits (mark_used pmm i) = set_bits pmm + 1 := by
  unfold set_bits
  have ht : (mark_used pmm i).total_pages = pmm.total_pages := rfl
  rw [ht]
  apply countP_range_flip _ _ i hfree
  · simp [frame_used_mark_used]
  · intro j hj
    simp [frame_used_mark_used, hj]
  · exact hi

theorem set_bits_free (pmm : PhysicalMemoryManager) (page : Nat)
    (hi : page / PAGE_SIZE < pmm.total_pages)
    (hused : frame_used pmm (page / PAGE_SIZE) = true) :
    set_bits (free_physical_page pmm page) + 1 = set_bits pmm := by
  unfold set_bits
  have ht : (free_physical_page pmm page).total_pages = pmm.total_pages := rfl
  rw [ht]
  symm
  apply countP_range_flip _ _ (page / PAGE_SIZE)
  · simp [frame_used_free]
  · exact hused
  · intro j hj
    simp [frame_used_free, hj]
  · exact hi

theorem consistent_mark_used (pmm : PhysicalMemoryManager) (i : Nat) (hc : Consistent pmm)
    (hi : i < pmm.total_pages) (hfree : frame_used pmm i = false) :
    Consistent (mark_used pmm i) ∧ (mark_used pmm i).free_pages + 1 = pmm.free_pages
      ∧ (mark_used pmm i).used_pages = pmm.used_pages + 1 := by
  obtain ⟨hT, hu, hf⟩ := hc
  have h1 := set_bits_mark_used pmm i hi hfree
  have h2 := set_add_clear pmm
  have h3 := set_add_clear (mark_used pmm i)
  have ht : (mark_used pmm i).total_pages = pmm.total_pages := rfl
  have hu2 : (mark_used pmm i).used_pages = add32 pmm.used_pages 1 := rfl
  have hf2 : (mark_used pmm i).free_pages = sub32 pmm.free_pages 1 := rfl
  rw [ht] at h3
  unfold add32 at hu2
  unfold sub32 at hf2
  refine ⟨⟨by rw [ht]; exact hT, ?_, ?_⟩, ?_, ?_⟩ <;> omega

theorem consistent_allocate (pmm : PhysicalMemoryManager) (hc : Consistent pmm) :
    Consistent (allocate_physical_page pmm).1 := by
  by_cases hall : ∀ j, j < pmm.total_pages → frame_used pmm j = true
  · rw [allocate_full pmm hall]; exact hc
  · have hex : ∃ i, i < pmm.total_pages ∧ frame_used pmm i = false := by
      by_contra hne
      apply hall
      intro j hj
      by_contra hjf
      exact hne ⟨j, hj, by simpa using hjf⟩
    classical
    let i := Nat.find hex
    have hi : i < pmm.total_pages ∧ frame_used pmm i = false := Nat.find_spec hex
    have hmin : ∀ j, j < i → frame_used pmm j = true := by
      intro j hj
      by_contra hjf
      exact Nat.find_min hex hj ⟨by omega, by simpa using hjf⟩
    rw [allocate_found pmm i hi.1 hi.2 hmin]
    exact (consistent_mark_used pmm i hc hi.1 hi.2).1

theorem consistent_free (pmm : PhysicalMemoryManager) (page : Nat) (hc : Consistent pmm)
    (hi : page / PAGE_SIZE < pmm.total_pages)
    (hused : frame_used pmm (page / PAGE_SIZE) = true) :
    Consistent (free_physical_page pmm page)
      ∧ (free_physical_page pmm page).free_pages = pmm.free_pages + 1
      ∧ (free_physical_page pmm page).used_pages + 1 = pmm.used_pages := by
  obtain ⟨hT, hu, hf⟩ := hc
  have h1 := set_bits_free pmm page hi hused
  have h2 := set_add_clear pmm
  have h3 := set_add_clear (free_physical_page pmm page)
  have ht : (free_physical_page pmm page).total_pages = pmm.total_pages := rfl
  have hu2 : (free_physical_page pmm page).used_pages = sub32 pmm.used_pages 1 := rfl
  have hf2 : (free_physical_page pmm page).free_pages = add32 pmm.free_pages 1 := rfl
  rw [ht] at h3
  unfold sub32 at hu2
  unfold add32 at hf2
  refine ⟨⟨by rw [ht]; exact hT, ?_, ?_⟩, ?_, ?_⟩ <;> omega

theorem allocate_many_eq (pmm : PhysicalMemoryManager) (n : Nat) :
    allocate_many pmm n = (allocate_calls pmm n).1 := by
  induction n with
  | zero => rfl
  | succ n ih => simp only [allocate_many, allocate_calls, ih]

theorem mul32_page (i : Nat) (hi : i < 1048576) : mul32 i PAGE_SIZE = 4096 * i := by
  unfold mul32 PAGE_SIZE
  omega

theorem filled_step (pmm : PhysicalMemoryManager) (k : Nat) (hf : Filled pmm k)
    (hk : k < pmm.total_pages) :
    allocate_physical_page pmm = (mark_used pmm k, mul32 k PAGE_SIZE)
      ∧ Filled (mark_used pmm k) (k + 1) := by
  refine ⟨allocate_found pmm k hk (hf.2 k (le_refl _) hk) hf.1, ?_, ?_⟩
  · intro j hj
    rw [frame_used_mark_used]
    by_cases h : j = k
    · simp [h]
    · simp [h, hf.1 j (by omega)]
  · intro j hj1 hj2
    rw [frame_used_mark_used]
    have h : j ≠ k := by omega
    simp [h, hf.2 j (by omega) hj2]

theorem allocate_calls_filled (pmm : PhysicalMemoryManager) (k : Nat) (hf : Filled pmm k)
    (hT : pmm.total_pages ≤ 1048576) :
    ∀ n, k + n ≤ pmm.total_pages →
      Filled (allocate_calls pmm n).1 (k + n)
        ∧ (allocate_calls pmm n).1.total_pages = pmm.total_pages
        ∧ (allocate_calls pmm n).2 = (List.range n).map (fun t => 4096 * (k + t)) := by
  intro n
  induction n with
  | zero => intro _; exact ⟨hf, rfl, rfl⟩
  | succ n ih =>
    intro hn
    obtain ⟨h1, h2, h3⟩ := ih (by omega)
    have hk : k + n < (allocate_calls pmm n).1.total_pages := by rw [h2]; omega
    obtain ⟨e, hf2⟩ := filled_step (allocate_calls pmm n).1 (k + n) h1 hk
    simp only [allocate_calls, e]
    refine ⟨hf2, h2, ?_⟩
    rw [h3, List.range_succ, List.map_append, mul32_page (k + n) (by omega)]
    rfl

theorem clear_bitmap_apply (bitmap : Nat → Nat) (n w : Nat) :
    clear_bitmap bitmap n w = if w < n then 0 else bitmap w := by
  induction n with
  | zero => simp [clear_bitmap]
  | succ n ih =>
    simp only [clear_bitmap]
    by_cases h : w = n
    · simp [h]
    · rw [if_neg h, ih]
      by_cases h2 : w < n
      · simp [h2, Nat.lt_succ_of_lt h2]
      · have : ¬ w < n + 1 := by omega
        simp [h2, this]

theorem init_eq (pmm : PhysicalMemoryManager) :
    init_physical_memory pmm = (allocate_calls (init_cleared pmm) 256).1 := by
  rw [← allocate_many_eq]
  rfl

theorem init_cleared_total (pmm : PhysicalMemoryManager) :
    (init_cleared pmm).total_pages = 32768 := by
  simp [init_cleared, PAGE_SIZE]

theorem init_cleared_free (pmm : PhysicalMemoryManager) (j : Nat) (hj : j < 32768) :
    frame_used (init_cleared pmm) j = false := by
  rw [frame_used_eq_testBit]
  have : (init_cleared pmm).bitmap (j / 32) = 0 := by
    simp only [init_cleared, clear_bitmap_apply, PAGE_SIZE]
    rw [if_pos]
    omega
  rw [this]
  simp

theorem init_cleared_filled (pmm : PhysicalMemoryManager) : Filled (init_cleared pmm) 0 := by
  refine ⟨fun j hj => by omega, fun j _ hj => ?_⟩
  rw [init_cleared_total] at hj
  exact init_cleared_free pmm j hj

theorem init_cleared_consistent (pmm : PhysicalMemoryManager) :
    Consistent (init_cleared pmm) := by
  have hs : set_bits (init_cleared pmm) = 0 := by
    unfold set_bits
    rw [List.countP_eq_zero]
    intro j hj
    rw [init_cleared_total] at hj
    simp [init_cleared_free pmm j (List.mem_range.1 hj)]
  have h := set_add_clear (init_cleared pmm)
  have ht := init_cleared_total pmm
  have hu : (init_cleared pmm).used_pages = 0 := rfl
  have hf : (init_cleared pmm).free_pages = 32768 := by simp [init_cleared, PAGE_SIZE]
  refine ⟨by omega, by omega, by omega⟩

theorem consistent_allocate_calls (pmm : PhysicalMemoryManager) (hc : Consistent pmm) (n : Nat) :
    Consistent (allocate_calls pmm n).1 := by
  induction n with
  | zero => exact hc
  | succ n ih => exact consistent_allocate _ ih

theorem init_filled (pmm : PhysicalMemoryManager) :
    Filled (init_physical_memory pmm) 256 ∧ (init_physical_memory pmm).total_pages = 32768 := by
  rw [init_eq]
  have h := allocate_calls_filled (init_cleared pmm) 0 (init_cleared_filled pmm)
    (by rw [init_cleared_total]; omega) 256 (by rw [init_cleared_total]; omega)
  rw [init_cleared_total] at h
  simpa using ⟨h.1, h.2.1⟩

theorem init_consistent (pmm : PhysicalMemoryManager) :
    Consistent (init_physical_memory pmm) := by
  rw [init_eq]
  exact consistent_allocate_calls _ (init_cleared_consistent pmm) 256

theorem free_total (pmm : PhysicalMemoryManager) (page : Nat) :
    (free_physical_page pmm page).total_pages = pmm.total_pages := rfl

theorem allocate_total (pmm : PhysicalMemoryManager) :
    (allocate_physical_page pmm).1.total_pages = pmm.total_pages := by
  by_cases hall : ∀ j, j < pmm.total_pages → frame_used pmm j = true
  · rw [allocate_full pmm hall]
  · have hex : ∃ i, i < pmm.total_pages ∧ frame_used pmm i = false := by
      by_contra hne
      apply hall
      intro j hj
      by_contra hjf
      exact hne ⟨j, hj, by simpa using hjf⟩
    classical
    have hi : Nat.find hex < pmm.total_pages ∧ frame_used pmm (Nat.find hex) = false :=
      Nat.find_spec hex
    have hmin : ∀ j, j < Nat.find hex → frame_used pmm j = true := by
      intro j hj
      by_contra hjf
      exact Nat.find_min hex hj ⟨by omega, by simpa using hjf⟩
    rw [allocate_found pmm _ hi.1 hi.2 hmin]
    rfl

theorem preach_consistent (pmm : PhysicalMemoryManager) (h : PReach pmm) :
    Consistent pmm ∧ pmm.total_pages = 32768 := by
  induction h with
  | init p => exact ⟨init_consistent p, (init_filled p).2⟩
  | alloc _ ih => exact ⟨consistent_allocate _ ih.1, by rw [allocate_total]; exact ih.2⟩
  | release _ hi hu ih => exact ⟨(consistent_free _ _ ih.1 hi hu).1, ih.2⟩

/-! ### Claims about the physical page allocator -/

/-- C6: In a consistent allocator state where frame `i` is the lowest frame below
`total_pages` with a clear bit, `allocate_physical_page` returns `4096 * i`, sets
the bit of frame `i` and changes no other bit, decrements `free_pages` by one and
increments `used_pages` by one. -/
theorem allocate_physical_page_lowest_free (pmm : PhysicalMemoryManager) (i : Nat)
    (hc : Consistent pmm) (hi : i < pmm.total_pages)
    (hclear : frame_used pmm i = false)
    (hleast : ∀ j, j < i → frame_used pmm j = true) :
    (allocate_physical_page pmm).2 = 4096 * i
      ∧ frame_used (allocate_physical_page pmm).1 i = true
      ∧ (∀ j, j ≠ i →
          frame_used (allocate_physical_page pmm).1 j = frame_used pmm j)
      ∧ (allocate_physical_page pmm).1.free_pages + 1 = pmm.free_pages
      ∧ (allocate_physical_page pmm).1.used_pages = pmm.used_pages + 1
      ∧ (allocate_physical_page pmm).1.total_pages = pmm.total_pages := by
  rw [allocate_found pmm i hi hclear hleast]
  obtain ⟨_, h2, h3⟩ := consistent_mark_used pmm i hc hi hclear
  refine ⟨mul32_page i (by have := hc.1; omega), ?_, ?_, h2, h3, rfl⟩
  · simp [frame_used_mark_used]
  · intro j hj
    simp [frame_used_mark_used, hj]

/-- C6 witness: the two-frame allocator whose frame 0 is used hands out frame 1. -/
theorem allocate_physical_page_lowest_free_witness :
    (allocate_physical_page pmm_two).2 = 4096 * 1
      ∧ frame_used (allocate_physical_page pmm_two).1 1 = true
      ∧ (∀ j, j ≠ 1 →
          frame_used (allocate_physical_page pmm_two).1 j = frame_used pmm_two j)
      ∧ (allocate_physical_page pmm_two).1.free_pages + 1 = pmm_two.free_pages
      ∧ (allocate_physical_page pmm_two).1.used_pages = pmm_two.used_pages + 1
      ∧ (allocate_physical_page pmm_two).1.total_pages = pmm_two.total_pages :=
  allocate_physical_page_lowest_free pmm_two 1 (by decide) (by decide) (by decide) (by decide)

/-- C7 counterexample: after `init_physical_memory`, releasing the used frame 0
gives a reachable state in which `allocate_physical_page` returns 0 although a
frame is free. -/
theorem allocate_sentinel_counterexample :
    PReach (free_physical_page (init_physical_memory pmm_zero) 0)
      ∧ (allocate_physical_page (free_physical_page (init_physical_memory pmm_zero) 0)).2 = 0
      ∧ ¬ no_frame_free (free_physical_page (init_physical_memory pmm_zero) 0) := by
  obtain ⟨hf, ht⟩ := init_filled pmm_zero
  have h0 : frame_used (free_physical_page (init_physical_memory pmm_zero) 0) 0 = false := by
    rw [frame_used_free]
    have e : decide (0 = 0 / PAGE_SIZE) = true := by decide
    rw [e]
    rfl
  have htot : (free_physical_page (init_physical_memory pmm_zero) 0).total_pages = 32768 := by
    rw [free_total]
    exact ht
  refine ⟨PReach.release (PReach.init pmm_zero) ?_ ?_, ?_, ?_⟩
  · rw [ht]; decide
  · exact hf.1 _ (by decide)
  · rw [allocate_found _ 0 (by rw [htot]; decide) h0 (fun j hj => by omega)]
    rfl
  · intro h
    have := h 0 (by rw [htot]; decide)
    rw [h0] at this
    exact Bool.noConfusion this

/-- C7 (amended): in every state reachable from `init_physical_memory` in which
frame 0 is still marked used, `allocate_physical_page` returns 0 exactly when no
frame is free. -/
theorem allocate_sentinel_iff_exhausted (pmm : PhysicalMemoryManager) (hr : PReach pmm)
    (h0 : frame_used pmm 0 = true) :
    (allocate_physical_page pmm).2 = 0 ↔ no_frame_free pmm := by
  obtain ⟨hc, ht⟩ := preach_consistent pmm hr
  constructor
  · intro hret
    by_contra hnot
    have hex : ∃ i, i < pmm.total_pages ∧ frame_used pmm i = false := by
      by_contra hne
      apply hnot
      intro j hj
      by_contra hjf
      exact hne ⟨j, hj, by simpa using hjf⟩
    classical
    have hi : Nat.find hex < pmm.total_pages ∧ frame_used pmm (Nat.find hex) = false :=
      Nat.find_spec hex
    have hmin : ∀ j, j < Nat.find hex → frame_used pmm j = true := by
      intro j hj
      by_contra hjf
      exact Nat.find_min hex hj ⟨by omega, by simpa using hjf⟩
    rw [allocate_found pmm _ hi.1 hi.2 hmin, mul32_page _ (by omega)] at hret
    have hz : Nat.find hex = 0 := by
      simp only at hret
      omega
    rw [hz, h0] at hi
    exact Bool.noConfusion hi.2
  · intro hall
    rw [allocate_full pmm hall]

/-- C7 witness: the state right after `init_physical_memory`. -/
theorem allocate_sentinel_iff_exhausted_witness :
    (allocate_physical_page (init_physical_memory pmm_zero)).2 = 0
      ↔ no_frame_free (init_physical_memory pmm_zero) :=
  allocate_sentinel_iff_exhausted (init_physical_memory pmm_zero) (PReach.init pmm_zero)
    ((init_filled pmm_zero).1.1 0 (by decide))

/-- C8: in every state reachable from `init_physical_memory`, `used_pages` is the
number of set bits and `free_pages` the number of clear bits among the first
`total_pages` bitmap bits, and the two counters add up to `total_pages`. -/
theorem counters_match_bitmap (pmm : PhysicalMemoryManager) (hr : PReach pmm) :
    pmm.used_pages = set_bits pmm ∧ pmm.free_pages = clear_bits pmm
      ∧ pmm.free_pages + pmm.used_pages = pmm.total_pages := by
  obtain ⟨⟨_, hu, hf⟩, _⟩ := preach_consistent pmm hr
  have := set_add_clear pmm
  exact ⟨hu, hf, by omega⟩

/-- C8 witness: the state after `init_physical_memory` followed by one allocation. -/
theorem counters_match_bitmap_witness :
    (allocate_physical_page (init_physical_memory pmm_zero)).1.used_pages
        = set_bits (allocate_physical_page (init_physical_memory pmm_zero)).1
      ∧ (allocate_physical_page (init_physical_memory pmm_zero)).1.free_pages
        = clear_bits (allocate_physical_page (init_physical_memory pmm_zero)).1
      ∧ (allocate_physical_page (init_physical_memory pmm_zero)).1.free_pages
          + (allocate_physical_page (init_physical_memory pmm_zero)).1.used_pages
        = (allocate_physical_page (init_physical_memory pmm_zero)).1.total_pages :=
  counters_match_bitmap _ (PReach.alloc (PReach.init pmm_zero))

/-- C9: from an allocator whose `total_pages` frames are all free (each with a
32-bit address), `total_pages` consecutive calls of `allocate_physical_page`
return `total_pages` pairwise distinct addresses and the next call returns 0. -/
theorem allocate_until_exhausted (pmm : PhysicalMemoryManager)
    (hT : pmm.total_pages ≤ 1048576)
    (hfree : ∀ i, i < pmm.total_pages → frame_used pmm i = false) :
    (allocate_calls pmm pmm.total_pages).2.length = pmm.total_pages
      ∧ (allocate_calls pmm pmm.total_pages).2.Nodup
      ∧ (allocate_physical_page (allocate_calls pmm pmm.total_pages).1).2 = 0 := by
  have hf : Filled pmm 0 := ⟨fun j hj => by omega, fun j _ hj => hfree j hj⟩
  obtain ⟨h1, h2, h3⟩ := allocate_calls_filled pmm 0 hf hT pmm.total_pages (by omega)
  refine ⟨by rw [h3]; simp, ?_, ?_⟩
  · rw [h3]
    apply List.Nodup.map _ (List.nodup_range _)
    intro a b hab
    simp only at hab
    omega
  · rw [allocate_full _ (fun j hj => h1.1 j (by rw [h2] at hj; omega))]

/-- C9 witness: a three-frame allocator with every frame free. -/
theorem allocate_until_exhausted_witness :
    (allocate_calls pmm_three_empty 3).2.length = 3
      ∧ (allocate_calls pmm_three_empty 3).2.Nodup
      ∧ (allocate_physical_page (allocate_calls pmm_three_empty 3).1).2 = 0 :=
  allocate_until_exhausted pmm_three_empty (by decide) (by decide)

/-- C10: in a consistent state where every frame is used, releasing frame `i`
(address `4096 * i`) and allocating again marks frame `i` used again, returns
`4096 * i`, leaves both counters as they were before the release, and one more
allocation fails: it returns 0 and changes nothing. -/
theorem release_then_allocate (pmm : PhysicalMemoryManager) (i : Nat)
    (hc : Consistent pmm) (hfull : no_frame_free pmm) (hi : i < pmm.total_pages) :
    frame_used (free_physical_page pmm (4096 * i)) i = false
      ∧ (allocate_physical_page (free_physical_page pmm (4096 * i))).2 = 4096 * i
      ∧ frame_used (allocate_physical_page (free_physical_page pmm (4096 * i))).1 i = true
      ∧ (allocate_physical_page (free_physical_page pmm (4096 * i))).1.free_pages
          = pmm.free_pages
      ∧ (allocate_physical_page (free_physical_page pmm (4096 * i))).1.used_pages
          = pmm.used_pages
      ∧ allocate_physical_page (allocate_physical_page (free_physical_page pmm (4096 * i))).1
          = ((allocate_physical_page (free_physical_page pmm (4096 * i))).1, 0) := by
  have hidx : 4096 * i / PAGE_SIZE = i := by unfold PAGE_SIZE; omega
  have hi2 : 4096 * i / PAGE_SIZE < pmm.total_pages := by rw [hidx]; exact hi
  have hu : frame_used pmm (4096 * i / PAGE_SIZE) = true := by rw [hidx]; exact hfull i hi
  obtain ⟨hc1, hf1, hu1⟩ := consistent_free pmm (4096 * i) hc hi2 hu
  have hclr : frame_used (free_physical_page pmm (4096 * i)) i = false := by
    simp [frame_used_free, hidx]
  have hleast : ∀ j, j < i → frame_used (free_physical_page pmm (4096 * i)) j = true := by
    intro j hj
    have hne : j ≠ i := by omega
    simp [frame_used_free, hidx, hne, hfull j (by omega)]
  have hfound := allocate_found (free_physical_page pmm (4096 * i)) i hi hclr hleast
  obtain ⟨_, hf2, hu2⟩ := consistent_mark_used (free_physical_page pmm (4096 * i)) i hc1 hi hclr
  have hT := hc.1
  rw [hfound]
  dsimp only
  refine ⟨hclr, mul32_page i (by omega), by simp [frame_used_mark_used], by omega, by omega, ?_⟩
  apply allocate_full
  intro j hj
  rw [frame_used_mark_used]
  by_cases hji : j = i
  · simp [hji]
  · simp [hji, frame_used_free, hidx, hfull j hj]

/-- C10 witness: releasing and re-allocating frame 1 of a full three-frame
allocator. -/
theorem release_then_allocate_witness :
    frame_used (free_physical_page pmm_three_full (4096 * 1)) 1 = false
      ∧ (allocate_physical_page (free_physical_page pmm_three_full (4096 * 1))).2 = 4096 * 1
      ∧ frame_used
          (allocate_physical_page (free_physical_page pmm_three_full (4096 * 1))).1 1 = true
      ∧ (allocate_physical_page (free_physical_page pmm_three_full (4096 * 1))).1.free_pages
          = pmm_three_full.free_pages
      ∧ (allocate_physical_page (free_physical_page pmm_three_full (4096 * 1))).1.used_pages
          = pmm_three_full.used_pages
      ∧ allocate_physical_page
            (allocate_physical_page (free_physical_page pmm_three_full (4096 * 1))).1
          = ((allocate_physical_page (free_physical_page pmm_three_full (4096 * 1))).1, 0) :=
  release_then_allocate pmm_three_full 1 (by decide) (by decide) (by decide)

/-! ### Paging: addresses, bits and the effect of `map_page` on memory -/

theorem word_addr_eq (p i : Nat) :
    word_addr p i = (p + 4 * i) % 4294967296 := by
  unfold word_addr add32 mul32
  omega

theorem word_addr_inj (p i j : Nat) (hi : i < 1024) (hj : j < 1024)
    (h : word_addr p i = word_addr p j) : i = j := by
  rw [word_addr_eq p i, word_addr_eq p j] at h
  omega

theorem dir_index_lt (v : Nat) (hv : v < 4294967296) : dir_index v < 1024 := by
  unfold dir_index
  rw [Nat.shiftRight_eq_div_pow]
  have : (2:Nat) ^ 22 = 4194304 := by norm_num
  rw [this]
  omega

theorem table_index_lt (v : Nat) : table_index v < 1024 := by
  unfold table_index
  exact Nat.and_lt_two_pow _ (by norm_num : 1023 < 2 ^ 10)

theorem present_eq_testBit (x : Nat) : present x = x.testBit 0 := by
  unfold present
  have h := Nat.and_two_pow x 0
  simp only [pow_zero, mul_one] at h
  rw [h]
  cases x.testBit 0 <;> rfl

theorem present_zero : present 0 = false := rfl

theorem present_or_flags (p f : Nat) (hf : f &&& 0x01 ≠ 0) : present (p ||| f) = true := by
  have hp : present f = true := by
    unfold present
    simpa using hf
  rw [present_eq_testBit] at hp ⊢
  rw [Nat.testBit_or, hp]
  simp

theorem present_or_three (t : Nat) : present (t ||| 0x03) = true :=
  present_or_flags t 3 (by decide)

theorem absent_iff (x : Nat) : x &&& 0x01 = 0 ↔ present x = false := by
  unfold present
  simp

theorem write_word_same (ram : Nat → Nat) (p i v : Nat) :
    write_word ram p i v (word_addr p i) = v := by
  simp [write_word]

theorem write_word_other (ram : Nat → Nat) (p i v a : Nat) (h : a ≠ word_addr p i) :
    write_word ram p i v a = ram a := by
  simp [write_word, h]

theorem clear_table_hit (ram : Nat → Nat) (t : Nat) :
    ∀ n i, i < n → clear_table ram t n (word_addr t i) = 0 := by
  intro n
  induction n with
  | zero => intro i hi; omega
  | succ n ih =>
    intro i hi
    simp only [clear_table]
    by_cases h : word_addr t i = word_addr t n
    · rw [h, write_word_same]
    · rw [write_word_other _ _ _ _ _ h]
      by_cases hin : i = n
      · subst hin; exact absurd rfl h
      · exact ih i (by omega)

theorem clear_table_miss (ram : Nat → Nat) (t a : Nat) :
    ∀ n, (∀ i, i < n → a ≠ word_addr t i) → clear_table ram t n a = ram a := by
  intro n
  induction n with
  | zero => intro _; rfl
  | succ n ih =>
    intro h
    simp only [clear_table]
    rw [write_word_other _ _ _ _ _ (h n (by omega))]
    exact ih (fun i hi => h i (by omega))

theorem map_page_present (s : PagingState) (v p f : Nat)
    (h : present (dir_entry s (dir_index v)) = true) :
    map_page s v p f
      = { s with
          ram := write_word s.ram (s.vmm.page_tables (dir_index v)) (table_index v) (p ||| f) } := by
  have hc : ¬ (s.ram (word_addr s.vmm.page_directory (v >>> 22)) &&& 0x01 = 0) := by
    rw [absent_iff]
    unfold dir_entry dir_index at h
    rw [h]
    exact Bool.noConfusion
  unfold map_page
  simp only [hc, if_false]
  rfl

theorem map_page_absent (s : PagingState) (v p f : Nat)
    (h : present (dir_entry s (dir_index v)) = false) :
    map_page s v p f
      = { ram := write_word
            (clear_table
              (write_word s.ram s.vmm.page_directory (dir_index v)
                ((allocate_physical_page s.pmm).2 ||| 0x03))
              (allocate_physical_page s.pmm).2 1024)
            (allocate_physical_page s.pmm).2 (table_index v) (p ||| f)
          vmm := { s.vmm with
            page_tables := fun i =>
              if i = dir_index v then (allocate_physical_page s.pmm).2
              else s.vmm.page_tables i }
          pmm := (allocate_physical_page s.pmm).1
          early_malloc_ptr := s.early_malloc_ptr } := by
  have hc : s.ram (word_addr s.vmm.page_directory (v >>> 22)) &&& 0x01 = 0 := by
    rw [absent_iff]
    exact h
  unfold map_page
  simp only [hc, if_true]
  simp [dir_index, table_index]

/-- After `map_page` the slot of `v` points to `table_for s v`, the directory stays
where it was, and the other slots keep their tables. -/
theorem map_page_vmm (s : PagingState) (v p f : Nat) :
    (map_page s v p f).vmm.page_directory = s.vmm.page_directory
      ∧ (map_page s v p f).vmm.page_tables (dir_index v) = table_for s v
      ∧ (∀ i, i ≠ dir_index v →
          (map_page s v p f).vmm.page_tables i = s.vmm.page_tables i)
      ∧ (map_page s v p f).early_malloc_ptr = s.early_malloc_ptr := by
  cases h : present (dir_entry s (dir_index v))
  · rw [map_page_absent s v p f h]
    refine ⟨rfl, ?_, ?_, rfl⟩
    · simp [table_for, h]
    · intro i hi
      simp [hi]
  · rw [map_page_present s v p f h]
    refine ⟨rfl, ?_, fun i _ => rfl, rfl⟩
    simp [table_for, h]

/-- The word written last by `map_page` is the leaf entry of `v`. -/
theorem map_page_leaf (s : PagingState) (v p f : Nat) :
    leaf_entry (map_page s v p f) (dir_index v) (table_index v) = p ||| f := by
  unfold leaf_entry
  rw [(map_page_vmm s v p f).2.1]
  cases h : present (dir_entry s (dir_index v))
  · rw [map_page_absent s v p f h]
    simp only [table_for, h]
    exact write_word_same _ _ _ _
  · rw [map_page_present s v p f h]
    simp only [table_for, h]
    exact write_word_same _ _ _ _

/-- Memory after `map_page`, word by word. -/
theorem map_page_ram (s : PagingState) (v p f a : Nat) :
    (map_page s v p f).ram a =
      if a = word_addr (table_for s v) (table_index v) then p ||| f
      else if present (dir_entry s (dir_index v)) = true then s.ram a
      else if ∃ i, i < 1024 ∧ a = word_addr (table_for s v) i then 0
      else if a = word_addr s.vmm.page_directory (dir_index v) then table_for s v ||| 0x03
      else s.ram a := by
  cases h : present (dir_entry s (dir_index v))
  · rw [map_page_absent s v p f h]
    have ht : table_for s v = (allocate_physical_page s.pmm).2 := by simp [table_for, h]
    rw [ht]
    simp only [Bool.false_eq_true, if_false]
    by_cases h1 : a = word_addr (allocate_physical_page s.pmm).2 (table_index v)
    · rw [if_pos h1, h1]
      exact write_word_same _ _ _ _
    · rw [if_neg h1, write_word_other _ _ _ _ _ h1]
      by_cases h2 : ∃ i, i < 1024 ∧ a = word_addr (allocate_physical_page s.pmm).2 i
      · rw [if_pos h2]
        obtain ⟨i, hi, e⟩ := h2
        rw [e]
        exact clear_table_hit _ _ _ _ hi
      · rw [if_neg h2, clear_table_miss _ _ _ _ (fun i hi e => h2 ⟨i, hi, e⟩)]
        by_cases h3 : a = word_addr s.vmm.page_directory (dir_index v)
        · rw [if_pos h3, h3]
          exact write_word_same _ _ _ _
        · rw [if_neg h3]
          exact write_word_other _ _ _ _ _ h3
  · rw [map_page_present s v p f h]
    have ht : table_for s v = s.vmm.page_tables (dir_index v) := by simp [table_for, h]
    rw [ht]
    simp only [if_true]
    by_cases h1 : a = word_addr (s.vmm.page_tables (dir_index v)) (table_index v)
    · rw [if_pos h1, h1]
      exact write_word_same _ _ _ _
    · rw [if_neg h1]
      exact write_word_other _ _ _ _ _ h1

/-! ### Paging: the postcondition of `map_page` and the directory invariant -/

theorem apart_of_le (t d : Nat) (h1 : t + 4096 ≤ d) (h2 : d + 4096 ≤ 4294967296) : Apart t d := by
  intro i j hi hj
  rw [word_addr_eq, word_addr_eq]
  omega

theorem apart_of_ge (t d : Nat) (h1 : d + 4096 ≤ t) (h2 : t + 4096 ≤ 4294967296) : Apart t d := by
  intro i j hi hj
  rw [word_addr_eq, word_addr_eq]
  omega

theorem bitmap_apart_of_le (t : Nat) (h : t + 4096 ≤ 2097152) : BitmapApart t := by
  intro i w hi hw
  rw [word_addr_eq, word_addr_eq]
  unfold PMM_BITMAP
  omega

theorem bitmap_apart_of_ge (t : Nat) (h1 : 2228228 ≤ t) (h2 : t + 4096 ≤ 4294967296) :
    BitmapApart t := by
  intro i w hi hw
  rw [word_addr_eq, word_addr_eq]
  unfold PMM_BITMAP
  omega

/-- The directory entry of `v` is present after `map_page` when the table used
for `v` lies apart from the directory. -/
theorem map_page_dir_present (s : PagingState) (v p f : Nat) (hv : v < 4294967296)
    (hsep : Apart (table_for s v) s.vmm.page_directory) :
    present (dir_entry (map_page s v p f) (dir_index v)) = true := by
  have hd := dir_index_lt v hv
  have ht := table_index_lt v
  unfold dir_entry
  rw [(map_page_vmm s v p f).1, map_page_ram]
  rw [if_neg (fun e => hsep _ _ ht hd e.symm)]
  cases h : present (dir_entry s (dir_index v))
  · rw [if_neg Bool.false_ne_true,
      if_neg (fun ⟨i, hi, e⟩ => hsep _ _ hi hd e.symm), if_pos rfl]
    exact present_or_three _
  · rw [if_pos rfl]
    exact h

/-- Directory entries of other slots are not touched by `map_page` when the table
used for `v` lies apart from the directory. -/
theorem map_page_dir_other (s : PagingState) (v p f i : Nat) (hv : v < 4294967296)
    (hi : i < 1024) (hne : i ≠ dir_index v)
    (hsep : Apart (table_for s v) s.vmm.page_directory) :
    dir_entry (map_page s v p f) i = dir_entry s i := by
  have hd := dir_index_lt v hv
  have ht := table_index_lt v
  unfold dir_entry
  rw [(map_page_vmm s v p f).1, map_page_ram]
  rw [if_neg (fun e => hsep _ _ ht hi e.symm)]
  cases h : present (dir_entry s (dir_index v))
  · rw [if_neg Bool.false_ne_true,
      if_neg (fun ⟨j, hj, e⟩ => hsep _ _ hj hi e.symm),
      if_neg (fun e => hne (word_addr_inj _ _ _ hi hd e))]
  · rw [if_pos rfl]

theorem vminv_directory (s : PagingState) (h : VMInv s) : DirectoryInvariant s := by
  intro i hi
  refine ⟨h.dir i hi, fun hp j hj => h.leaf i hi ((h.dir i hi).1 hp) j hj⟩

theorem vminv_table_for (s : PagingState) (v : Nat) (hv : v < 4294967296) (h : VMInv s)
    (hok : table_for s v ≠ 0 ∧ Apart (table_for s v) s.vmm.page_directory
      ∨ present (dir_entry s (dir_index v)) = true) :
    table_for s v ≠ 0 ∧ Apart (table_for s v) s.vmm.page_directory := by
  rcases hok with h1 | h1
  · exact h1
  · have hd := dir_index_lt v hv
    have e : table_for s v = s.vmm.page_tables (dir_index v) := by simp [table_for, h1]
    rw [e]
    exact ⟨(h.dir _ hd).1 h1, h.apart _ hd ((h.dir _ hd).1 h1)⟩

theorem map_page_inv (s : PagingState) (v p f : Nat) (hv : v < 4294967296)
    (hf : f &&& 0x01 ≠ 0) (h : VMInv s)
    (hok : table_for s v ≠ 0 ∧ Apart (table_for s v) s.vmm.page_directory
      ∨ present (dir_entry s (dir_index v)) = true) :
    VMInv (map_page s v p f) := by
  obtain ⟨hnz, hsep⟩ := vminv_table_for s v hv h hok
  have hd := dir_index_lt v hv
  have ht := table_index_lt v
  obtain ⟨e1, e2, e3, _⟩ := map_page_vmm s v p f
  have hpt : ∀ i, (map_page s v p f).vmm.page_tables i
      = if i = dir_index v then table_for s v else s.vmm.page_tables i := by
    intro i
    by_cases hi : i = dir_index v
    · rw [if_pos hi, hi, e2]
    · rw [if_neg hi, e3 i hi]
  have hpresent : present (dir_entry s (dir_index v)) = true →
      table_for s v = s.vmm.page_tables (dir_index v) := by
    intro hp
    simp [table_for, hp]
  refine ⟨?_, ?_, ?_⟩
  · intro i hi
    by_cases hid : i = dir_index v
    · subst hid
      rw [map_page_dir_present s v p f hv hsep, e2]
      exact ⟨fun _ => hnz, fun _ => rfl⟩
    · rw [map_page_dir_other s v p f i hv hi hid hsep, e3 i hid]
      exact h.dir i hi
  · intro i hi hne
    rw [e1]
    rw [hpt] at hne ⊢
    by_cases hid : i = dir_index v
    · rw [if_pos hid]
      exact hsep
    · rw [if_neg hid] at hne ⊢
      exact h.apart i hi hne
  · intro i hi hne j hj
    unfold leaf_entry
    rw [map_page_ram]
    by_cases h1 : word_addr ((map_page s v p f).vmm.page_tables i) j
        = word_addr (table_for s v) (table_index v)
    · rw [if_pos h1]
      right
      exact present_or_flags p f hf
    · rw [if_neg h1]
      have hold : s.vmm.page_tables i ≠ 0 → i ≠ dir_index v →
          s.ram (word_addr ((map_page s v p f).vmm.page_tables i) j) = 0
            ∨ present (s.ram (word_addr ((map_page s v p f).vmm.page_tables i) j)) = true := by
        intro hn hid
        rw [e3 i hid]
        exact h.leaf i hi hn j hj
      cases hp : present (dir_entry s (dir_index v))
      · rw [if_neg Bool.false_ne_true]
        by_cases h2 : ∃ k, k < 1024 ∧ word_addr ((map_page s v p f).vmm.page_tables i) j
            = word_addr (table_for s v) k
        · rw [if_pos h2]
          left; rfl
        · rw [if_neg h2]
          have hid : i ≠ dir_index v := by
            intro hid
            apply h2
            refine ⟨j, hj, ?_⟩
            rw [hid, e2]
          have hn : s.vmm.page_tables i ≠ 0 := by
            rw [hpt, if_neg hid] at hne
            exact hne
          rw [if_neg]
          · exact hold hn hid
          · rw [e3 i hid]
            exact h.apart i hi hn j (dir_index v) hj hd
      · rw [if_pos rfl]
        by_cases hid : i = dir_index v
        · have hn : s.vmm.page_tables (dir_index v) ≠ 0 := (h.dir _ hd).1 hp
          rw [hid, e2, hpresent hp]
          exact h.leaf _ hd hn j hj
        · have hn : s.vmm.page_tables i ≠ 0 := by
            rw [hpt, if_neg hid] at hne
            exact hne
          exact hold hn hid

theorem unmap_page_fields (s : PagingState) (v : Nat) :
    (unmap_page s v).vmm = s.vmm ∧ (unmap_page s v).pmm = s.pmm
      ∧ (unmap_page s v).early_malloc_ptr = s.early_malloc_ptr := by
  unfold unmap_page
  dsimp only
  split <;> exact ⟨rfl, rfl, rfl⟩

theorem unmap_page_absent (s : PagingState) (v : Nat)
    (h : present (dir_entry s (dir_index v)) = false) : unmap_page s v = s := by
  have hc : ¬ (s.ram (word_addr s.vmm.page_directory (v >>> 22)) &&& 0x01 ≠ 0) := by
    intro hne
    apply hne
    rw [absent_iff]
    exact h
  unfold unmap_page
  simp only [hc, if_false]

theorem unmap_page_present (s : PagingState) (v : Nat)
    (h : present (dir_entry s (dir_index v)) = true) :
    unmap_page s v
      = { s with
          ram := write_word s.ram (s.vmm.page_tables (dir_index v)) (table_index v) 0 } := by
  have hc : s.ram (word_addr s.vmm.page_directory (v >>> 22)) &&& 0x01 ≠ 0 := by
    intro hne
    rw [absent_iff] at hne
    unfold dir_entry dir_index at h
    rw [h] at hne
    exact Bool.noConfusion hne
  unfold unmap_page
  dsimp only
  rw [if_pos hc]
  rfl

theorem unmap_page_ram (s : PagingState) (v a : Nat) :
    (unmap_page s v).ram a =
      if present (dir_entry s (dir_index v)) = true
          ∧ a = word_addr (s.vmm.page_tables (dir_index v)) (table_index v) then 0
      else s.ram a := by
  cases h : present (dir_entry s (dir_index v))
  · rw [unmap_page_absent s v h, if_neg (fun e => Bool.false_ne_true e.1)]
  · rw [unmap_page_present s v h]
    by_cases h2 : a = word_addr (s.vmm.page_tables (dir_index v)) (table_index v)
    · rw [if_pos ⟨rfl, h2⟩, h2]
      exact write_word_same _ _ _ _
    · rw [if_neg (fun e => h2 e.2)]
      exact write_word_other _ _ _ _ _ h2

theorem unmap_page_inv (s : PagingState) (v : Nat) (hv : v < 4294967296) (h : VMInv s) :
    VMInv (unmap_page s v) := by
  have hd := dir_index_lt v hv
  have ht := table_index_lt v
  obtain ⟨e1, _, _⟩ := unmap_page_fields s v
  cases hp : present (dir_entry s (dir_index v))
  · rw [unmap_page_absent s v hp]
    exact h
  · have hn := (h.dir _ hd).1 hp
    have hsep := h.apart _ hd hn
    refine ⟨?_, ?_, ?_⟩
    · intro i hi
      have : dir_entry (unmap_page s v) i = dir_entry s i := by
        unfold dir_entry
        rw [e1, unmap_page_ram, if_neg]
        exact fun e => hsep _ _ ht hi e.2.symm
      rw [this, e1]
      exact h.dir i hi
    · rw [e1]
      exact h.apart
    · intro i hi hne j hj
      rw [e1] at hne
      unfold leaf_entry
      rw [e1, unmap_page_ram]
      by_cases h1 : present (dir_entry s (dir_index v)) = true
          ∧ word_addr (s.vmm.page_tables i) j
            = word_addr (s.vmm.page_tables (dir_index v)) (table_index v)
      · rw [if_pos h1]
        left; rfl
      · rw [if_neg h1]
        exact h.leaf i hi hne j hj

/-! ### Paging: `init_paging` and reachable states -/

theorem map_page_pmm (s : PagingState) (v p f : Nat) :
    (map_page s v p f).pmm =
      if present (dir_entry s (dir_index v)) = true then s.pmm
      else (allocate_physical_page s.pmm).1 := by
  cases h : present (dir_entry s (dir_index v))
  · rw [map_page_absent s v p f h, if_neg Bool.false_ne_true]
  · rw [map_page_present s v p f h, if_pos rfl]

theorem clear_directory_fields (s : PagingState) (n : Nat) :
    (clear_directory s n).vmm.page_directory = s.vmm.page_directory
      ∧ (clear_directory s n).pmm = s.pmm
      ∧ (clear_directory s n).early_malloc_ptr = s.early_malloc_ptr := by
  induction n with
  | zero => exact ⟨rfl, rfl, rfl⟩
  | succ n ih => exact ih

theorem clear_directory_entries (s : PagingState) :
    ∀ n, n ≤ 1024 → ∀ i, i < n →
      dir_entry (clear_directory s n) i = 0 ∧ (clear_directory s n).vmm.page_tables i = 0 := by
  intro n
  induction n with
  | zero => intro _ i hi; omega
  | succ n ih =>
    intro hn i hi
    have hd := (clear_directory_fields s n).1
    by_cases hin : i = n
    · subst hin
      constructor
      · unfold dir_entry
        show write_word _ _ _ 0 (word_addr (clear_directory s i).vmm.page_directory i) = 0
        exact write_word_same _ _ _ _
      · show (if i = i then 0 else _) = 0
        rw [if_pos rfl]
    · obtain ⟨h1, h2⟩ := ih (by omega) i (by omega)
      constructor
      · unfold dir_entry at h1 ⊢
        show write_word _ _ _ 0 (word_addr (clear_directory s n).vmm.page_directory i) = 0
        rw [write_word_other _ _ _ _ _
          (fun e => hin (word_addr_inj _ _ _ (by omega) (by omega) e))]
        exact h1
      · show (if i = n then 0 else _) = 0
        rw [if_neg hin]
        exact h2

theorem clear_directory_inv (s : PagingState) : VMInv (clear_directory s 1024) := by
  have h := clear_directory_entries s 1024 (le_refl _)
  refine ⟨?_, ?_, ?_⟩
  · intro i hi
    rw [(h i hi).1, (h i hi).2]
    simp [present_zero]
  · intro i hi hne
    exact absurd (h i hi).2 hne
  · intro i hi hne
    exact absurd (h i hi).2 hne

theorem dir_index_identity (n : Nat) (hn : n < 1024) : dir_index (mul32 n PAGE_SIZE) = 0 := by
  unfold dir_index mul32 PAGE_SIZE
  rw [Nat.shiftRight_eq_div_pow]
  have : (2:Nat) ^ 22 = 4194304 := by norm_num
  rw [this]
  omega

theorem mul32_page_lt (n : Nat) : mul32 n PAGE_SIZE < 4294967296 := by
  unfold mul32
  omega

/-- The identity-mapping loop keeps the invariant when its one allocation gives a
non-null table apart from the directory. -/
theorem identity_map_inv (s : PagingState) (hinv : VMInv s)
    (h0 : ∀ i, i < 1024 → s.vmm.page_tables i = 0)
    (hnz : (allocate_physical_page s.pmm).2 ≠ 0)
    (hsep : Apart (allocate_physical_page s.pmm).2 s.vmm.page_directory) :
    ∀ n, n ≤ 1024 →
      VMInv (identity_map s n)
        ∧ (identity_map s n).vmm.page_directory = s.vmm.page_directory
        ∧ (∀ i, i < 1024 → i ≠ 0 → (identity_map s n).vmm.page_tables i = 0)
        ∧ (1 ≤ n → present (dir_entry (identity_map s n) 0) = true) := by
  intro n
  induction n with
  | zero => intro _; exact ⟨hinv, rfl, fun i hi _ => h0 i hi, fun h => by omega⟩
  | succ n ih =>
    intro hn
    obtain ⟨i1, i2, i3, i4⟩ := ih (by omega)
    have hdi := dir_index_identity n (by omega)
    have hv := mul32_page_lt n
    have hok : table_for (identity_map s n) (mul32 n PAGE_SIZE) ≠ 0
        ∧ Apart (table_for (identity_map s n) (mul32 n PAGE_SIZE))
            (identity_map s n).vmm.page_directory
        ∨ present (dir_entry (identity_map s n) (dir_index (mul32 n PAGE_SIZE))) = true := by
      by_cases hn0 : n = 0
      · left
        subst hn0
        have hp : present (dir_entry s (dir_index (mul32 0 PAGE_SIZE))) = false := by
          cases hpe : present (dir_entry s (dir_index (mul32 0 PAGE_SIZE)))
          · rfl
          · rw [hdi] at hpe
            exact absurd (h0 0 (by omega)) ((hinv.dir 0 (by omega)).1 hpe)
        have e : table_for s (mul32 0 PAGE_SIZE) = (allocate_physical_page s.pmm).2 := by
          simp [table_for, hp]
        show table_for s (mul32 0 PAGE_SIZE) ≠ 0
          ∧ Apart (table_for s (mul32 0 PAGE_SIZE)) s.vmm.page_directory
        rw [e]
        exact ⟨hnz, hsep⟩
      · right
        rw [hdi]
        exact i4 (by omega)
    obtain ⟨_, hsep'⟩ := vminv_table_for _ _ hv i1 hok
    obtain ⟨e1, _, e3, _⟩ := map_page_vmm (identity_map s n) (mul32 n PAGE_SIZE)
      (mul32 n PAGE_SIZE) 0x03
    refine ⟨map_page_inv _ _ _ _ hv (by decide) i1 hok, ?_, ?_, ?_⟩
    · show (map_page _ _ _ _).vmm.page_directory = _
      rw [e1, i2]
    · intro i hi hne
      show (map_page _ _ _ _).vmm.page_tables i = 0
      rw [e3 i (by rw [hdi]; exact hne)]
      exact i3 i hi hne
    · intro _
      have := map_page_dir_present (identity_map s n) (mul32 n PAGE_SIZE)
        (mul32 n PAGE_SIZE) 0x03 hv hsep'
      rw [hdi] at this
      exact this

theorem init_paging_eq (s : PagingState) :
    init_paging s
      = identity_map
          (clear_directory
            { ram := s.ram
              vmm := { page_directory := s.early_malloc_ptr, page_tables := s.vmm.page_tables }
              pmm := s.pmm
              early_malloc_ptr := add32 s.early_malloc_ptr (add32 PAGE_SIZE 3 &&& not32 3) }
            1024)
          1024 := by
  have e : (0x400000 : Nat) / PAGE_SIZE = 1024 := by decide
  unfold init_paging kmalloc_early
  dsimp only
  rw [e]

/-- What `init_paging` establishes when its one allocation gives a non-null table
apart from the directory. -/
theorem init_paging_inv (s : PagingState)
    (hnz : (allocate_physical_page s.pmm).2 ≠ 0)
    (hsep : Apart (allocate_physical_page s.pmm).2 s.early_malloc_ptr) :
    VMInv (init_paging s)
      ∧ (init_paging s).vmm.page_directory = s.early_malloc_ptr
      ∧ (∀ i, i < 1024 → i ≠ 0 → (init_paging s).vmm.page_tables i = 0)
      ∧ present (dir_entry (init_paging s) 0) = true := by
  rw [init_paging_eq]
  generalize hs1 : ({ ram := s.ram
                      vmm := { page_directory := s.early_malloc_ptr,
                               page_tables := s.vmm.page_tables }
                      pmm := s.pmm
                      early_malloc_ptr :=
                        add32 s.early_malloc_ptr (add32 PAGE_SIZE 3 &&& not32 3) }
                    : PagingState) = s1
  have hd1 : s1.vmm.page_directory = s.early_malloc_ptr := by rw [← hs1]
  have hp1 : s1.pmm = s.pmm := by rw [← hs1]
  obtain ⟨f1, f2, _⟩ := clear_directory_fields s1 1024
  have h := identity_map_inv (clear_directory s1 1024) (clear_directory_inv s1)
    (fun i hi => (clear_directory_entries s1 1024 (le_refl _) i hi).2)
    (by rw [f2, hp1]; exact hnz) (by rw [f2, f1, hp1, hd1]; exact hsep) 1024 (le_refl _)
  obtain ⟨a1, a2, a3, a4⟩ := h
  exact ⟨a1, by rw [a2, f1, hd1], a3, a4 (by omega)⟩

/-- The identity-mapping loop allocates exactly once. -/
theorem identity_map_pmm (s : PagingState) (hinv : VMInv s)
    (h0 : ∀ i, i < 1024 → s.vmm.page_tables i = 0)
    (hnz : (allocate_physical_page s.pmm).2 ≠ 0)
    (hsep : Apart (allocate_physical_page s.pmm).2 s.vmm.page_directory) :
    ∀ n, 1 ≤ n → n ≤ 1024 → (identity_map s n).pmm = (allocate_physical_page s.pmm).1 := by
  intro n
  induction n with
  | zero => intro h; omega
  | succ n ih =>
    intro _ hn
    have hdi := dir_index_identity n (by omega)
    show (map_page (identity_map s n) (mul32 n PAGE_SIZE) (mul32 n PAGE_SIZE) 0x03).pmm = _
    rw [map_page_pmm, hdi]
    by_cases hn0 : n = 0
    · subst hn0
      have hp : present (dir_entry s 0) = false := by
        cases hpe : present (dir_entry s 0)
        · rfl
        · exact absurd (h0 0 (by omega)) ((hinv.dir 0 (by omega)).1 hpe)
      show (if present (dir_entry s 0) = true then s.pmm else _) = _
      rw [hp, if_neg Bool.false_ne_true]
      rfl
    · have hp := (identity_map_inv s hinv h0 hnz hsep n (by omega)).2.2.2 (by omega)
      rw [hp, if_pos rfl]
      exact ih (by omega) (by omega)

theorem init_paging_pmm (s : PagingState)
    (hnz : (allocate_physical_page s.pmm).2 ≠ 0)
    (hsep : Apart (allocate_physical_page s.pmm).2 s.early_malloc_ptr) :
    (init_paging s).pmm = (allocate_physical_page s.pmm).1 := by
  rw [init_paging_eq]
  generalize hs1 : ({ ram := s.ram
                      vmm := { page_directory := s.early_malloc_ptr,
                               page_tables := s.vmm.page_tables }
                      pmm := s.pmm
                      early_malloc_ptr :=
                        add32 s.early_malloc_ptr (add32 PAGE_SIZE 3 &&& not32 3) }
                    : PagingState) = s1
  have hd1 : s1.vmm.page_directory = s.early_malloc_ptr := by rw [← hs1]
  have hp1 : s1.pmm = s.pmm := by rw [← hs1]
  obtain ⟨f1, f2, _⟩ := clear_directory_fields s1 1024
  have h := identity_map_pmm (clear_directory s1 1024) (clear_directory_inv s1)
    (fun i hi => (clear_directory_entries s1 1024 (le_refl _) i hi).2)
    (by rw [f2, hp1]; exact hnz) (by rw [f2, f1, hp1, hd1]; exact hsep) 1024 (by omega)
    (le_refl _)
  rw [h, f2, hp1]

/-- The identity-mapping loop uses the table it allocated in its first step. -/
theorem identity_map_table (s : PagingState) (hinv : VMInv s)
    (h0 : ∀ i, i < 1024 → s.vmm.page_tables i = 0)
    (hnz : (allocate_physical_page s.pmm).2 ≠ 0)
    (hsep : Apart (allocate_physical_page s.pmm).2 s.vmm.page_directory) :
    ∀ n, 1 ≤ n → n ≤ 1024 →
      (identity_map s n).vmm.page_tables 0 = (allocate_physical_page s.pmm).2 := by
  intro n
  induction n with
  | zero => intro h; omega
  | succ n ih =>
    intro _ hn
    have hdi := dir_index_identity n (by omega)
    have hv := map_page_vmm (identity_map s n) (mul32 n PAGE_SIZE) (mul32 n PAGE_SIZE) 0x03
    rw [hdi] at hv
    show (map_page (identity_map s n) (mul32 n PAGE_SIZE) (mul32 n PAGE_SIZE)
      0x03).vmm.page_tables 0 = _
    rw [hv.2.1]
    unfold table_for
    rw [hdi]
    by_cases hn0 : n = 0
    · subst hn0
      have hp : present (dir_entry s 0) = false := by
        cases hpe : present (dir_entry s 0)
        · rfl
        · exact absurd (h0 0 (by omega)) ((hinv.dir 0 (by omega)).1 hpe)
      show (if present (dir_entry s 0) = true then _ else (allocate_physical_page s.pmm).2) = _
      rw [hp, if_neg Bool.false_ne_true]
    · have hp := (identity_map_inv s hinv h0 hnz hsep n (by omega)).2.2.2 (by omega)
      rw [hp, if_pos rfl]
      exact ih (by omega) (by omega)

theorem init_paging_table (s : PagingState)
    (hnz : (allocate_physical_page s.pmm).2 ≠ 0)
    (hsep : Apart (allocate_physical_page s.pmm).2 s.early_malloc_ptr) :
    (init_paging s).vmm.page_tables 0 = (allocate_physical_page s.pmm).2 := by
  rw [init_paging_eq]
  generalize hs1 : ({ ram := s.ram
                      vmm := { page_directory := s.early_malloc_ptr,
                               page_tables := s.vmm.page_tables }
                      pmm := s.pmm
                      early_malloc_ptr :=
                        add32 s.early_malloc_ptr (add32 PAGE_SIZE 3 &&& not32 3) }
                    : PagingState) = s1
  have hd1 : s1.vmm.page_directory = s.early_malloc_ptr := by rw [← hs1]
  have hp1 : s1.pmm = s.pmm := by rw [← hs1]
  obtain ⟨f1, f2, _⟩ := clear_directory_fields s1 1024
  have h := identity_map_table (clear_directory s1 1024) (clear_directory_inv s1)
    (fun i hi => (clear_directory_entries s1 1024 (le_refl _) i hi).2)
    (by rw [f2, hp1]; exact hnz) (by rw [f2, f1, hp1, hd1]; exact hsep) 1024 (by omega)
    (le_refl _)
  rw [h, f2, hp1]

theorem vminv_allocator (s : PagingState) (pmm : PhysicalMemoryManager) (h : VMInv s) :
    VMInv { s with pmm := pmm } :=
  ⟨h.dir, h.apart, h.leaf⟩

theorem vreach_apart_inv (s : PagingState) (h : VReachApart s) : VMInv s := by
  induction h with
  | init s0 hnz hsep _ _ _ => exact (init_paging_inv s0 hnz hsep).1
  | map _ hv _ _ hf hnz hsep _ ih =>
    exact map_page_inv _ _ _ _ hv hf ih (Or.inl ⟨hnz, hsep⟩)
  | unmap _ hv ih => exact unmap_page_inv _ _ hv ih
  | allocator pmm _ _ ih => exact vminv_allocator _ pmm ih

/-! ### Claims about the virtual memory manager -/

theorem allocate_boot :
    allocate_physical_page (init_physical_memory pmm_zero)
        = (mark_used (init_physical_memory pmm_zero) 256, 1048576)
      ∧ Filled (mark_used (init_physical_memory pmm_zero) 256) 257 := by
  obtain ⟨hf, ht⟩ := init_filled pmm_zero
  obtain ⟨h1, h2⟩ := filled_step _ 256 hf (by rw [ht]; omega)
  refine ⟨?_, h2⟩
  rw [h1]
  rfl

theorem boot_state_pmm : boot_state.pmm = init_physical_memory pmm_zero := by
  unfold boot_state
  dsimp only

theorem boot_apart :
    (allocate_physical_page boot_state.pmm).2 ≠ 0
      ∧ Apart (allocate_physical_page boot_state.pmm).2 boot_state.early_malloc_ptr := by
  have e2 : boot_state.early_malloc_ptr = 3145728 := rfl
  rw [boot_state_pmm, allocate_boot.1, e2]
  exact ⟨by decide, apart_of_le 1048576 3145728 (by omega) (by omega)⟩

theorem boot_paging_facts :
    VMInv (init_paging boot_state)
      ∧ (init_paging boot_state).vmm.page_directory = 3145728
      ∧ (∀ i, i < 1024 → i ≠ 0 → (init_paging boot_state).vmm.page_tables i = 0)
      ∧ present (dir_entry (init_paging boot_state) 0) = true :=
  init_paging_inv boot_state boot_apart.1 boot_apart.2

theorem mark_used_total (pmm : PhysicalMemoryManager) (i : Nat) :
    (mark_used pmm i).total_pages = pmm.total_pages :=
  rfl

theorem boot_paging_pmm :
    (init_paging boot_state).pmm = mark_used (init_physical_memory pmm_zero) 256 := by
  rw [init_paging_pmm boot_state boot_apart.1 boot_apart.2, boot_state_pmm, allocate_boot.1]

/-- After boot, `init_paging` and `n` further allocations, the frames below
`257 + n` are used and the others are free. -/
theorem boot_allocate_many (n : Nat) (hn : 257 + n ≤ 32768) :
    Filled (allocate_many (init_paging boot_state).pmm n) (257 + n)
      ∧ (allocate_many (init_paging boot_state).pmm n).total_pages = 32768 := by
  have ht : (mark_used (init_physical_memory pmm_zero) 256).total_pages = 32768 := by
    rw [mark_used_total]
    exact (init_filled pmm_zero).2
  rw [boot_paging_pmm, allocate_many_eq]
  have h := allocate_calls_filled _ 257 allocate_boot.2 (by rw [ht]; omega) n
    (by rw [ht]; exact hn)
  exact ⟨h.1, by rw [h.2.1, ht]⟩

theorem allocate_after_511 :
    (allocate_physical_page (allocate_many (init_paging boot_state).pmm 511)).2 = 3145728 := by
  obtain ⟨hf, ht⟩ := boot_allocate_many 511 (by omega)
  rw [allocate_found _ 768 (by rw [ht]; omega) (hf.2 768 (by omega) (by rw [ht]; omega))
    (fun j hj => hf.1 j (by omega))]
  decide

theorem allocate_after_32511 :
    allocate_physical_page (allocate_many (init_paging boot_state).pmm 32511)
      = (allocate_many (init_paging boot_state).pmm 32511, 0) := by
  obtain ⟨hf, ht⟩ := boot_allocate_many 32511 (by omega)
  exact allocate_full _ (fun j hj => hf.1 j (by rw [ht] at hj; omega))

theorem map_page_overlap (s : PagingState) (v p f : Nat) (hv : v < 4294967296)
    (habs : present (dir_entry s (dir_index v)) = false)
    (htf : (allocate_physical_page s.pmm).2 = s.vmm.page_directory)
    (hne : dir_index v ≠ table_index v) :
    present (dir_entry (map_page s v p f) (dir_index v)) = false := by
  have ht : table_for s v = s.vmm.page_directory := by
    unfold table_for
    rw [habs, if_neg Bool.false_ne_true, htf]
  have hne2 : word_addr s.vmm.page_directory (dir_index v)
      ≠ word_addr s.vmm.page_directory (table_index v) :=
    fun e => hne (word_addr_inj _ _ _ (dir_index_lt v hv) (table_index_lt v) e)
  unfold dir_entry
  rw [(map_page_vmm _ _ _ _).1, map_page_ram, ht, habs, if_neg hne2,
    if_neg Bool.false_ne_true, if_pos ⟨dir_index v, dir_index_lt v hv, rfl⟩]
  rfl

theorem with_pmm_ram (s0 : PagingState) (pmm : PhysicalMemoryManager) :
    ({ s0 with pmm := pmm } : PagingState).ram = s0.ram :=
  rfl

theorem with_pmm_vmm (s0 : PagingState) (pmm : PhysicalMemoryManager) :
    ({ s0 with pmm := pmm } : PagingState).vmm = s0.vmm :=
  rfl

theorem with_pmm_pmm (s0 : PagingState) (pmm : PhysicalMemoryManager) :
    ({ s0 with pmm := pmm } : PagingState).pmm = pmm :=
  rfl

theorem paging_after_ram (n : Nat) : (paging_after n).ram = (init_paging boot_state).ram := by
  unfold paging_after
  exact with_pmm_ram (init_paging boot_state) (allocate_many (init_paging boot_state).pmm n)

theorem paging_after_vmm (n : Nat) : (paging_after n).vmm = (init_paging boot_state).vmm := by
  unfold paging_after
  exact with_pmm_vmm (init_paging boot_state) (allocate_many (init_paging boot_state).pmm n)

theorem paging_after_pmm (n : Nat) :
    (paging_after n).pmm = allocate_many (init_paging boot_state).pmm n := by
  unfold paging_after
  exact with_pmm_pmm (init_paging boot_state) (allocate_many (init_paging boot_state).pmm n)

theorem vminv_congr (s t : PagingState) (hr : t.ram = s.ram) (hv : t.vmm = s.vmm)
    (h : VMInv s) : VMInv t := by
  obtain ⟨h1, h2, h3⟩ := h
  unfold dir_entry at h1
  unfold leaf_entry at h3
  refine ⟨?_, ?_, ?_⟩
  · unfold dir_entry
    rw [hr, hv]
    exact h1
  · rw [hv]
    exact h2
  · unfold leaf_entry
    rw [hr, hv]
    exact h3

/-- The facts about the state after boot, `init_paging` and `n` allocations that
the counterexamples use. -/
theorem paging_after_facts (n : Nat) :
    VMInv (paging_after n)
      ∧ (paging_after n).vmm.page_directory = 3145728
      ∧ (∀ i, i < 1024 → i ≠ 0 → (paging_after n).vmm.page_tables i = 0)
      ∧ (paging_after n).pmm = allocate_many (init_paging boot_state).pmm n := by
  refine ⟨vminv_congr _ _ (paging_after_ram n) (paging_after_vmm n) boot_paging_facts.1,
    ?_, ?_, paging_after_pmm n⟩
  · rw [paging_after_vmm]
    exact boot_paging_facts.2.1
  · rw [paging_after_vmm]
    exact boot_paging_facts.2.2.1

theorem paging_after_reach (n : Nat) : VReach (paging_after n) := by
  unfold paging_after
  exact VReach.allocator _ (VReach.init boot_state)

theorem entry_absent (s : PagingState) (i : Nat) (hi : i < 1024) (hinv : VMInv s)
    (hpt : s.vmm.page_tables i = 0) : present (dir_entry s i) = false := by
  cases hp : present (dir_entry s i)
  · rfl
  · exact absurd hpt ((hinv.dir i hi).1 hp)

/-- C11 counterexample: boot, `init_paging`, then 511 further calls of
`allocate_physical_page` leave the frames 0 to 767 used, so the lowest free frame
is the one at 0x300000, where `kmalloc_early` put the page directory.
`map_page(0xFFC00000, 0x5000, 0x03)` then takes the directory's own frame as the
new page table and clears it, so the directory entry of that address is not
present after the call. -/
theorem map_page_directory_counterexample :
    VReach (map_page (paging_after 511) 4290772992 20480 3)
      ∧ (paging_after 511).vmm.page_directory = 3145728
      ∧ (allocate_physical_page (paging_after 511).pmm).2 = 3145728
      ∧ present (dir_entry (map_page (paging_after 511) 4290772992 20480 3)
          (dir_index 4290772992)) = false := by
  obtain ⟨hinv, hd, hpt, hpmm⟩ := paging_after_facts 511
  have halloc : (allocate_physical_page (paging_after 511).pmm).2 = 3145728 := by
    rw [hpmm]
    exact allocate_after_511
  have hdi : dir_index 4290772992 = 1023 := by decide
  have hti : table_index 4290772992 = 0 := by decide
  refine ⟨VReach.map (paging_after_reach 511) (by norm_num) (by norm_num) (by norm_num),
    hd, halloc, ?_⟩
  apply map_page_overlap _ _ _ _ (by norm_num)
  · rw [hdi]
    exact entry_absent _ 1023 (by norm_num) hinv (hpt 1023 (by norm_num) (by norm_num))
  · rw [halloc, hd]
  · rw [hdi, hti]
    norm_num

/-- C11 (amended): for every 32-bit virtual address `v`, when the page table that
serves `v` (the existing one, or the frame the allocator hands out) does not
overlap the page directory, after `map_page(v, p, f)` the directory entry at index
`v >> 22` is present and the leaf entry at index `(v >> 12) & 0x3FF` of its page
table is `p | f`, whatever it held before; a second `map_page(v, p2, f2)` keeps
the same page table and leaves `p2 | f2` in that leaf entry. -/
theorem map_page_postcondition (s : PagingState) (v p f p2 f2 : Nat) (hv : v < 4294967296)
    (hsep : Apart (table_for s v) s.vmm.page_directory) :
    present (dir_entry (map_page s v p f) (dir_index v)) = true
      ∧ leaf_entry (map_page s v p f) (dir_index v) (table_index v) = p ||| f
      ∧ (map_page (map_page s v p f) v p2 f2).vmm.page_tables (dir_index v)
          = (map_page s v p f).vmm.page_tables (dir_index v)
      ∧ present (dir_entry (map_page (map_page s v p f) v p2 f2) (dir_index v)) = true
      ∧ leaf_entry (map_page (map_page s v p f) v p2 f2) (dir_index v) (table_index v)
          = p2 ||| f2 := by
  have h1 := map_page_dir_present s v p f hv hsep
  obtain ⟨e1, e2, _, _⟩ := map_page_vmm s v p f
  have htf : table_for (map_page s v p f) v = table_for s v := by
    unfold table_for
    rw [h1, if_pos rfl, e2]
    rfl
  have hsep2 : Apart (table_for (map_page s v p f) v) (map_page s v p f).vmm.page_directory := by
    rw [htf, e1]
    exact hsep
  refine ⟨h1, map_page_leaf s v p f, ?_, map_page_dir_present _ v p2 f2 hv hsep2,
    map_page_leaf _ v p2 f2⟩
  rw [(map_page_vmm (map_page s v p f) v p2 f2).2.1, htf, e2]

/-- C11 witness: mapping 0x00403000 in a small state whose allocator hands out the
frame at 0x1000. -/
theorem map_page_postcondition_witness :
    present (dir_entry (map_page paging_small 4206592 20480 3) (dir_index 4206592)) = true
      ∧ leaf_entry (map_page paging_small 4206592 20480 3) (dir_index 4206592)
          (table_index 4206592) = 20480 ||| 3
      ∧ (map_page (map_page paging_small 4206592 20480 3) 4206592 24576 3).vmm.page_tables
            (dir_index 4206592)
          = (map_page paging_small 4206592 20480 3).vmm.page_tables (dir_index 4206592)
      ∧ present (dir_entry (map_page (map_page paging_small 4206592 20480 3) 4206592 24576 3)
          (dir_index 4206592)) = true
      ∧ leaf_entry (map_page (map_page paging_small 4206592 20480 3) 4206592 24576 3)
          (dir_index 4206592) (table_index 4206592) = 24576 ||| 3 :=
  map_page_postcondition paging_small 4206592 20480 3 24576 3 (by decide)
    (apart_of_le _ _ (by decide) (by decide))

/-- A new page table on an allocator that returns 0: the directory entry becomes
present while the page-table pointer stays null. -/
theorem map_page_null_table (s : PagingState) (hinv : VMInv s)
    (hd : s.vmm.page_directory = 3145728)
    (hpt : ∀ i, i < 1024 → i ≠ 0 → s.vmm.page_tables i = 0)
    (hpmm : (allocate_physical_page s.pmm).2 = 0) :
    present (dir_entry (map_page s 4194304 20480 3) 1) = true
      ∧ table_for s 4194304 = 0
      ∧ (map_page s 4194304 20480 3).vmm.page_tables 1 = 0 := by
  have hdi : dir_index 4194304 = 1 := by decide
  have habs : present (dir_entry s (dir_index 4194304)) = false := by
    rw [hdi]
    exact entry_absent s 1 (by norm_num) hinv (hpt 1 (by norm_num) (by norm_num))
  have htf : table_for s 4194304 = 0 := by
    unfold table_for
    rw [habs, if_neg Bool.false_ne_true]
    exact hpmm
  have h1 := map_page_dir_present s 4194304 20480 3 (by norm_num)
    (by rw [htf, hd]; exact apart_of_le 0 3145728 (by omega) (by omega))
  have h2 := (map_page_vmm s 4194304 20480 3).2.1
  rw [hdi] at h1 h2
  rw [htf] at h2
  exact ⟨h1, htf, h2⟩

theorem map_page_flags_zero (s0 : PagingState) (hinv : VMInv s0)
    (hp : present (dir_entry s0 0) = true) :
    present (dir_entry (map_page s0 0 20480 0) 0) = true
      ∧ leaf_entry (map_page s0 0 20480 0) 0 0 = 20480 := by
  have hdi : dir_index 0 = 0 := by decide
  have hti : table_index 0 = 0 := by decide
  have hsep := (vminv_table_for s0 0 (by omega) hinv (Or.inr (by rw [hdi]; exact hp))).2
  have h1 := map_page_dir_present s0 0 20480 0 (by omega) hsep
  have h2 := map_page_leaf s0 0 20480 0
  rw [hdi] at h1
  rw [hdi, hti] at h2
  exact ⟨h1, h2⟩

theorem not_invariant_of_null (s : PagingState) (i : Nat) (hi : i < 1024)
    (hp : present (dir_entry s i) = true) (hn : s.vmm.page_tables i = 0) :
    ¬ DirectoryInvariant s :=
  fun h => (h i hi).1.1 hp hn

/-- C13 counterexample: two states reachable from `init_paging` in which the
invariant fails.  After boot and `init_paging`, `map_page(0, 0x5000, 0)` (flags
without the present bit) leaves the non-zero, non-present value 0x5000 in entry 0
of the present table 0.  After boot, `init_paging` and 32511 further calls of
`allocate_physical_page` every frame is used, the allocator returns 0, and
`map_page(0x400000, 0x5000, 3)` leaves directory entry 1 present while
`page_tables[1]` is null. -/
theorem directory_invariant_counterexample :
    (VReach (map_page (init_paging boot_state) 0 20480 0)
        ∧ present (dir_entry (map_page (init_paging boot_state) 0 20480 0) 0) = true
        ∧ leaf_entry (map_page (init_paging boot_state) 0 20480 0) 0 0 = 20480
        ∧ present 20480 = false
        ∧ ¬ DirectoryInvariant (map_page (init_paging boot_state) 0 20480 0))
      ∧ (VReach (map_page (paging_after 32511) 4194304 20480 3)
        ∧ (allocate_physical_page (paging_after 32511).pmm).2 = 0
        ∧ present (dir_entry (map_page (paging_after 32511) 4194304 20480 3) 1) = true
        ∧ table_for (paging_after 32511) 4194304 = 0
        ∧ ¬ DirectoryInvariant (map_page (paging_after 32511) 4194304 20480 3)) := by
  obtain ⟨hinv, hd, hpt, hpmm⟩ := paging_after_facts 32511
  have halloc : (allocate_physical_page (paging_after 32511).pmm).2 = 0 := by
    rw [hpmm, allocate_after_32511]
  obtain ⟨n1, n2, n3⟩ := map_page_null_table (paging_after 32511) hinv hd hpt halloc
  obtain ⟨z1, z2⟩ := map_page_flags_zero (init_paging boot_state) boot_paging_facts.1
    boot_paging_facts.2.2.2
  refine ⟨⟨VReach.map (VReach.init boot_state) (by norm_num) (by norm_num) (by norm_num),
      z1, z2, by decide, ?_⟩,
    ⟨VReach.map (paging_after_reach 32511) (by norm_num) (by norm_num) (by norm_num),
      halloc, n1, n2, not_invariant_of_null _ 1 (by norm_num) n1 n3⟩⟩
  intro h
  rcases (h 0 (by norm_num)).2 z1 0 (by norm_num) with h0 | h1
  · rw [z2] at h0
    exact absurd h0 (by norm_num)
  · rw [z2] at h1
    exact absurd h1 (by decide)

/-- C13 (amended): in every state reached from an `init_paging` whose page-table
allocation succeeded, by `unmap_page` calls and by `map_page` calls whose flags
carry the present bit and whose page table is a non-null frame, where the page
tables overlap neither the page directory nor the allocator bitmap at 0x200000
and the page directory does not overlap the bitmap (the allocator being free to
change in between, with `total_pages <= 2^20`), directory entry `i` is present
if and only if `page_tables[i]` is non-null, and every entry of a present table
is 0 or has its present bit set. -/
theorem directory_invariant (s : PagingState) (h : VReachApart s) : DirectoryInvariant s :=
  vminv_directory s (vreach_apart_inv s h)

theorem boot_remap_reach : VReachApart (map_page (init_paging boot_state) 4096 20480 3) := by
  have ha : (allocate_physical_page boot_state.pmm).2 = 1048576 := by
    rw [boot_state_pmm, allocate_boot.1]
  have he : boot_state.early_malloc_ptr = 3145728 := rfl
  have hb : VReachApart (init_paging boot_state) :=
    VReachApart.init boot_state boot_apart.1 boot_apart.2
      (by rw [ha]; exact bitmap_apart_of_le 1048576 (by omega))
      (by rw [he]; exact bitmap_apart_of_ge 3145728 (by omega) (by omega))
      (by rw [boot_state_pmm, (init_filled pmm_zero).2]; omega)
  have hdi : dir_index 4096 = 0 := by decide
  have ht := vminv_table_for (init_paging boot_state) 4096 (by norm_num)
    boot_paging_facts.1 (Or.inr (by rw [hdi]; exact boot_paging_facts.2.2.2))
  have htab : table_for (init_paging boot_state) 4096 = 1048576 := by
    unfold table_for
    rw [hdi, boot_paging_facts.2.2.2, if_pos rfl,
      init_paging_table boot_state boot_apart.1 boot_apart.2, ha]
  exact VReachApart.map hb (by norm_num) (by norm_num) (by norm_num) (by decide) ht.1 ht.2
    (by rw [htab]; exact bitmap_apart_of_le 1048576 (by omega))

/-- C13 witness: the state after boot, `init_paging` and a re-mapping of the page
at 0x1000 to the frame at 0x5000. -/
theorem directory_invariant_witness :
    VReachApart (map_page (init_paging boot_state) 4096 20480 3)
      ∧ DirectoryInvariant (map_page (init_paging boot_state) 4096 20480 3) :=
  ⟨boot_remap_reach, directory_invariant _ boot_remap_reach⟩

/-! ### Claims about `unmap_page` -/

/-- A new page table on an allocator that is exhausted: the table pointer is
null, the directory entry becomes present, and the allocator, the other table
pointers and the other directory entries stay as they are. -/
theorem map_page_exhausted (s : PagingState) (v p f : Nat) (hv : v < 4294967296)
    (hd : Apart 0 s.vmm.page_directory)
    (habs : present (dir_entry s (dir_index v)) = false)
    (hpmm : allocate_physical_page s.pmm = (s.pmm, 0)) :
    table_for s v = 0
      ∧ present (dir_entry (map_page s v p f) (dir_index v)) = true
      ∧ (map_page s v p f).vmm.page_tables (dir_index v) = 0
      ∧ (map_page s v p f).pmm = s.pmm
      ∧ (map_page s v p f).vmm.page_directory = s.vmm.page_directory
      ∧ (∀ i, i ≠ dir_index v → (map_page s v p f).vmm.page_tables i = s.vmm.page_tables i)
      ∧ (∀ i, i < 1024 → i ≠ dir_index v →
          dir_entry (map_page s v p f) i = dir_entry s i) := by
  have htf : table_for s v = 0 := by
    unfold table_for
    rw [habs, if_neg Bool.false_ne_true, hpmm]
  obtain ⟨e1, e2, e3, _⟩ := map_page_vmm s v p f
  have hsep : Apart (table_for s v) s.vmm.page_directory := by rw [htf]; exact hd
  refine ⟨htf, map_page_dir_present s v p f hv hsep, by rw [e2, htf], ?_, e1, e3,
    fun i hi hne => map_page_dir_other s v p f i hv hi hne hsep⟩
  rw [map_page_pmm, habs, if_neg Bool.false_ne_true, hpmm]

theorem dir_entry_def (s : PagingState) (i : Nat) :
    dir_entry s i = s.ram (word_addr s.vmm.page_directory i) :=
  rfl

theorem leaf_entry_def (s : PagingState) (i j : Nat) :
    leaf_entry s i j = s.ram (word_addr (s.vmm.page_tables i) j) :=
  rfl

theorem unmap_directory_alias :
    VReach (map_page (paging_after 511) 4294963200 20480 3)
      ∧ dir_entry (map_page (paging_after 511) 4294963200 20480 3) 1023 = 20483
      ∧ dir_entry (unmap_page (map_page (paging_after 511) 4294963200 20480 3) 4294963200)
          1023 = 0 := by
  obtain ⟨hinv, hd, hpt, hpmm⟩ := paging_after_facts 511
  have halloc : (allocate_physical_page (paging_after 511).pmm).2 = 3145728 := by
    rw [hpmm]
    exact allocate_after_511
  have hdi : dir_index 4294963200 = 1023 := by decide
  have hti : table_index 4294963200 = 1023 := by decide
  have habs : present (dir_entry (paging_after 511) (dir_index 4294963200)) = false := by
    rw [hdi]
    exact entry_absent _ 1023 (by norm_num) hinv (hpt 1023 (by norm_num) (by norm_num))
  have htf : table_for (paging_after 511) 4294963200 = 3145728 := by
    unfold table_for
    rw [habs, if_neg Bool.false_ne_true, halloc]
  obtain ⟨e1, e2, _, _⟩ := map_page_vmm (paging_after 511) 4294963200 20480 3
  rw [hdi, htf] at e2
  rw [hd] at e1
  have hw : dir_entry (map_page (paging_after 511) 4294963200 20480 3) 1023 = 20483 := by
    rw [dir_entry_def, e1, map_page_ram, htf, hti, if_pos rfl]
    rfl
  refine ⟨VReach.map (paging_after_reach 511) (by norm_num) (by norm_num) (by norm_num),
    hw, ?_⟩
  have hpw : present (dir_entry (map_page (paging_after 511) 4294963200 20480 3) 1023)
      = true := by
    rw [hw]
    decide
  rw [dir_entry_def, (unmap_page_fields _ _).1, e1, unmap_page_ram, hdi, hti, e2,
    if_pos ⟨hpw, rfl⟩]

theorem unmap_shared_table :
    VReach (map_page (map_page (paging_after 32511) 4194304 20480 3) 8388608 24576 3)
      ∧ present (dir_entry
          (map_page (map_page (paging_after 32511) 4194304 20480 3) 8388608 24576 3) 1) = true
      ∧ present (dir_entry
          (map_page (map_page (paging_after 32511) 4194304 20480 3) 8388608 24576 3) 2) = true
      ∧ leaf_entry
          (map_page (map_page (paging_after 32511) 4194304 20480 3) 8388608 24576 3) 2 0
          = 24579
      ∧ leaf_entry
          (unmap_page (map_page (map_page (paging_after 32511) 4194304 20480 3) 8388608 24576 3)
            4194304) 2 0 = 0 := by
  obtain ⟨hinv, hd, hpt, hpmm⟩ := paging_after_facts 32511
  have halloc : allocate_physical_page (paging_after 32511).pmm
      = ((paging_after 32511).pmm, 0) := by
    rw [hpmm]
    exact allocate_after_32511
  have hd1 : dir_index 4194304 = 1 := by decide
  have hd2 : dir_index 8388608 = 2 := by decide
  have ht1 : table_index 4194304 = 0 := by decide
  have ht2 : table_index 8388608 = 0 := by decide
  have hap : Apart 0 3145728 := apart_of_le 0 3145728 (by omega) (by omega)
  obtain ⟨_, a2, a3, a4, a5, a6, a7⟩ := map_page_exhausted (paging_after 32511) 4194304 20480 3
    (by norm_num) (by rw [hd]; exact hap)
    (by rw [hd1]; exact entry_absent _ 1 (by norm_num) hinv (hpt 1 (by norm_num) (by norm_num)))
    halloc
  rw [hd1] at a2 a3 a6 a7
  have habs2 : present (dir_entry (map_page (paging_after 32511) 4194304 20480 3)
      (dir_index 8388608)) = false := by
    rw [hd2, a7 2 (by norm_num) (by norm_num)]
    exact entry_absent _ 2 (by norm_num) hinv (hpt 2 (by norm_num) (by norm_num))
  obtain ⟨_, b2, b3, _, _, b6, b7⟩ := map_page_exhausted
    (map_page (paging_after 32511) 4194304 20480 3) 8388608 24576 3 (by norm_num)
    (by rw [a5, hd]; exact hap) habs2 (by rw [a4]; exact halloc)
  rw [hd2] at b2 b3 b6 b7
  have hp1 : present (dir_entry
      (map_page (map_page (paging_after 32511) 4194304 20480 3) 8388608 24576 3) 1) = true := by
    rw [b7 1 (by norm_num) (by norm_num)]
    exact a2
  have hl := map_page_leaf (map_page (paging_after 32511) 4194304 20480 3) 8388608 24576 3
  rw [hd2, ht2] at hl
  refine ⟨VReach.map (VReach.map (paging_after_reach 32511) (by norm_num) (by norm_num)
      (by norm_num)) (by norm_num) (by norm_num) (by norm_num), hp1, b2, hl, ?_⟩
  rw [leaf_entry_def, (unmap_page_fields _ _).1, unmap_page_ram, hd1, ht1, b3,
    b6 1 (by norm_num), a3, if_pos ⟨hp1, rfl⟩]

/-- C12 counterexample: two reachable states in which `unmap_page` changes an
entry other than the leaf entry of its address.  After boot, `init_paging` and
511 further allocations, `map_page(0xFFFFF000, 0x5000, 3)` makes the page
directory its own page table 1023, and `unmap_page(0xFFFFF000)` then turns
directory entry 1023 from 0x5003 into 0.  After boot, `init_paging` and 32511
further allocations the allocator returns 0, `map_page(0x400000, 0x5000, 3)` and
`map_page(0x800000, 0x6000, 3)` give the directory entries 1 and 2 the same
(null) page table, and `unmap_page(0x400000)` then turns entry 0 of table 2 from
0x6003 into 0. -/
theorem unmap_page_counterexample :
    (VReach (map_page (paging_after 511) 4294963200 20480 3)
      ∧ dir_entry (map_page (paging_after 511) 4294963200 20480 3) 1023 = 20483
      ∧ dir_entry (unmap_page (map_page (paging_after 511) 4294963200 20480 3) 4294963200)
          1023 = 0)
    ∧ (VReach (map_page (map_page (paging_after 32511) 4194304 20480 3) 8388608 24576 3)
      ∧ dir_index 4194304 = 1
      ∧ present (dir_entry
          (map_page (map_page (paging_after 32511) 4194304 20480 3) 8388608 24576 3) 1) = true
      ∧ present (dir_entry
          (map_page (map_page (paging_after 32511) 4194304 20480 3) 8388608 24576 3) 2) = true
      ∧ leaf_entry
          (map_page (map_page (paging_after 32511) 4194304 20480 3) 8388608 24576 3) 2 0
          = 24579
      ∧ leaf_entry
          (unmap_page (map_page (map_page (paging_after 32511) 4194304 20480 3) 8388608 24576 3)
            4194304) 2 0 = 0) :=
  ⟨unmap_directory_alias,
    unmap_shared_table.1, by decide, unmap_shared_table.2.1, unmap_shared_table.2.2.1,
    unmap_shared_table.2.2.2.1, unmap_shared_table.2.2.2.2⟩

/-- C12 (amended): for every 32-bit virtual address `v` whose page table overlaps
neither the page directory, nor the allocator bitmap at 0x200000, nor the page
table of another present directory entry: if the covering directory entry is
present, the leaf entry for `v` becomes
0, no directory entry changes, no other leaf entry of a present table changes,
and no other word of memory changes; if it is absent the whole state is
unchanged.  The page-directory pointer, the page-table pointers and the physical
allocator never change (its counters, and the memory words at the addresses of
its bitmap), and when `v` is not mapped (directory entry absent, or leaf entry
already 0) no word of memory changes. -/
theorem unmap_page_postcondition (s : PagingState) (v : Nat) (hv : v < 4294967296)
    (hdir : Apart (s.vmm.page_tables (dir_index v)) s.vmm.page_directory)
    (hbitmap : BitmapApart (s.vmm.page_tables (dir_index v)))
    (htab : ∀ i, i < 1024 → i ≠ dir_index v → present (dir_entry s i) = true →
      Apart (s.vmm.page_tables i) (s.vmm.page_tables (dir_index v))) :
    (present (dir_entry s (dir_index v)) = true →
        leaf_entry (unmap_page s v) (dir_index v) (table_index v) = 0
          ∧ (∀ i, i < 1024 → dir_entry (unmap_page s v) i = dir_entry s i)
          ∧ (∀ i j, i < 1024 → j < 1024 → present (dir_entry s i) = true →
              ¬ (i = dir_index v ∧ j = table_index v) →
              leaf_entry (unmap_page s v) i j = leaf_entry s i j)
          ∧ (∀ a, a ≠ word_addr (s.vmm.page_tables (dir_index v)) (table_index v) →
              (unmap_page s v).ram a = s.ram a))
      ∧ (present (dir_entry s (dir_index v)) = false → unmap_page s v = s)
      ∧ (unmap_page s v).vmm = s.vmm
      ∧ (unmap_page s v).pmm = s.pmm
      ∧ (unmap_page s v).early_malloc_ptr = s.early_malloc_ptr
      ∧ (present (dir_entry s (dir_index v)) = false
            ∨ leaf_entry s (dir_index v) (table_index v) = 0 →
          ∀ a, (unmap_page s v).ram a = s.ram a)
      ∧ (∀ w, w < 32769 →
          (unmap_page s v).ram (word_addr PMM_BITMAP w) = s.ram (word_addr PMM_BITMAP w)) := by
  obtain ⟨e1, e2, e3⟩ := unmap_page_fields s v
  have hd := dir_index_lt v hv
  have ht := table_index_lt v
  refine ⟨?_, unmap_page_absent s v, e1, e2, e3, ?_, ?_⟩
  rotate_left 2
  · intro w hw
    rw [unmap_page_ram, if_neg (fun e => hbitmap _ w ht hw e.2.symm)]
  · intro hp
    have hother : ∀ a, a ≠ word_addr (s.vmm.page_tables (dir_index v)) (table_index v) →
        (unmap_page s v).ram a = s.ram a := by
      intro a ha
      rw [unmap_page_ram, if_neg (fun e => ha e.2)]
    refine ⟨?_, ?_, ?_, hother⟩
    · unfold leaf_entry
      rw [e1, unmap_page_ram, if_pos ⟨hp, rfl⟩]
    · intro i hi
      unfold dir_entry
      rw [e1]
      exact hother _ (fun e => hdir _ _ ht hi e.symm)
    · intro i j hi hj hpi hne
      unfold leaf_entry
      rw [e1]
      apply hother
      by_cases hid : i = dir_index v
      · subst hid
        intro e
        exact hne ⟨rfl, word_addr_inj _ _ _ hj ht e⟩
      · exact htab i hi hid hpi _ _ hj ht
  · intro h a
    rcases h with h | h
    · rw [unmap_page_absent s v h]
    · rw [unmap_page_ram]
      by_cases hc : present (dir_entry s (dir_index v)) = true
          ∧ a = word_addr (s.vmm.page_tables (dir_index v)) (table_index v)
      · rw [if_pos hc, hc.2]
        exact h.symm
      · rw [if_neg hc]

theorem paging_small_mapped :
    Apart ((map_page paging_small 4206592 20480 3).vmm.page_tables (dir_index 4206592))
        (map_page paging_small 4206592 20480 3).vmm.page_directory
      ∧ ∀ i, i < 1024 → i ≠ dir_index 4206592 →
          present (dir_entry (map_page paging_small 4206592 20480 3) i) = true →
          Apart ((map_page paging_small 4206592 20480 3).vmm.page_tables i)
            ((map_page paging_small 4206592 20480 3).vmm.page_tables (dir_index 4206592)) := by
  have htf : table_for paging_small 4206592 = 4096 := by decide
  have hsep : Apart (table_for paging_small 4206592) paging_small.vmm.page_directory := by
    rw [htf]
    exact apart_of_le 4096 3145728 (by omega) (by omega)
  obtain ⟨e1, e2, _, _⟩ := map_page_vmm paging_small 4206592 20480 3
  refine ⟨by rw [e1, e2]; exact hsep, ?_⟩
  intro i hi hne hp
  rw [map_page_dir_other paging_small 4206592 20480 3 i (by norm_num) hi hne hsep] at hp
  have hz : dir_entry paging_small i = 0 := rfl
  rw [hz] at hp
  exact absurd hp (by decide)

theorem paging_small_bitmap :
    BitmapApart ((map_page paging_small 4206592 20480 3).vmm.page_tables (dir_index 4206592)) := by
  have htf : table_for paging_small 4206592 = 4096 := by decide
  rw [(map_page_vmm paging_small 4206592 20480 3).2.1, htf]
  exact bitmap_apart_of_le 4096 (by omega)

/-- C12 witness: the small state in which 0x00403000 has been mapped to the frame
at 0x5000; `unmap_page(0x00403000)`. -/
theorem unmap_page_postcondition_witness :
    (present (dir_entry (map_page paging_small 4206592 20480 3) (dir_index 4206592)) = true →
        leaf_entry (unmap_page (map_page paging_small 4206592 20480 3) 4206592)
            (dir_index 4206592) (table_index 4206592) = 0
          ∧ (∀ i, i < 1024 →
              dir_entry (unmap_page (map_page paging_small 4206592 20480 3) 4206592) i
                = dir_entry (map_page paging_small 4206592 20480 3) i)
          ∧ (∀ i j, i < 1024 → j < 1024 →
              present (dir_entry (map_page paging_small 4206592 20480 3) i) = true →
              ¬ (i = dir_index 4206592 ∧ j = table_index 4206592) →
              leaf_entry (unmap_page (map_page paging_small 4206592 20480 3) 4206592) i j
                = leaf_entry (map_page paging_small 4206592 20480 3) i j)
          ∧ (∀ a, a ≠ word_addr
                ((map_page paging_small 4206592 20480 3).vmm.page_tables (dir_index 4206592))
                (table_index 4206592) →
              (unmap_page (map_page paging_small 4206592 20480 3) 4206592).ram a
                = (map_page paging_small 4206592 20480 3).ram a))
      ∧ (present (dir_entry (map_page paging_small 4206592 20480 3) (dir_index 4206592))
            = false →
          unmap_page (map_page paging_small 4206592 20480 3) 4206592
            = map_page paging_small 4206592 20480 3)
      ∧ (unmap_page (map_page paging_small 4206592 20480 3) 4206592).vmm
          = (map_page paging_small 4206592 20480 3).vmm
      ∧ (unmap_page (map_page paging_small 4206592 20480 3) 4206592).pmm
          = (map_page paging_small 4206592 20480 3).pmm
      ∧ (unmap_page (map_page paging_small 4206592 20480 3) 4206592).early_malloc_ptr
          = (map_page paging_small 4206592 20480 3).early_malloc_ptr
      ∧ (present (dir_entry (map_page paging_small 4206592 20480 3) (dir_index 4206592))
            = false
            ∨ leaf_entry (map_page paging_small 4206592 20480 3) (dir_index 4206592)
                (table_index 4206592) = 0 →
          ∀ a, (unmap_page (map_page paging_small 4206592 20480 3) 4206592).ram a
            = (map_page paging_small 4206592 20480 3).ram a)
      ∧ (∀ w, w < 32769 →
          (unmap_page (map_page paging_small 4206592 20480 3) 4206592).ram
              (word_addr PMM_BITMAP w)
            = (map_page paging_small 4206592 20480 3).ram (word_addr PMM_BITMAP w)) :=
  unmap_page_postcondition (map_page paging_small 4206592 20480 3) 4206592 (by norm_num)
    paging_small_mapped.1 paging_small_bitmap paging_small_mapped.2

/-! ### The process list -/

theorem islist_nil (procs : Nat → Process) (a : Nat) : IsProcList procs a [] ↔ a = 0 := by
  unfold IsProcList
  exact Iff.rfl

theorem islist_cons (procs : Nat → Process) (a p : Nat) (ps : List Nat) :
    IsProcList procs a (p :: ps) ↔ a ≠ 0 ∧ a = p ∧ IsProcList procs (procs a).next ps := by
  rw [IsProcList]

theorem islist_ne_zero (procs : Nat → Process) :
    ∀ (ps : List Nat) (a : Nat), IsProcList procs a ps → ∀ x, x ∈ ps → x ≠ 0 := by
  intro ps
  induction ps with
  | nil => intro a _ x hx; cases hx
  | cons p ps ih =>
    intro a h x hx
    rw [islist_cons] at h
    obtain ⟨h1, h2, h3⟩ := h
    rcases List.mem_cons.1 hx with e | hm
    · rw [e, ← h2]; exact h1
    · exact ih _ h3 x hm

theorem islist_unique (procs : Nat → Process) :
    ∀ (ps qs : List Nat) (a : Nat), IsProcList procs a ps → IsProcList procs a qs → ps = qs := by
  intro ps
  induction ps with
  | nil =>
    intro qs a h1 h2
    rw [islist_nil] at h1
    cases qs with
    | nil => rfl
    | cons q qs => rw [islist_cons] at h2; exact absurd h1 h2.1
  | cons p ps ih =>
    intro qs a h1 h2
    rw [islist_cons] at h1
    cases qs with
    | nil => rw [islist_nil] at h2; exact absurd h2 h1.1
    | cons q qs =>
      rw [islist_cons] at h2
      rw [ih qs _ h1.2.2 h2.2.2, ← h1.2.1, ← h2.2.1]

/-- The list entered at an element of a process list is the rest of that list. -/
theorem islist_suffix (procs : Nat → Process) :
    ∀ (xs : List Nat) (a p : Nat) (ys : List Nat),
      IsProcList procs a (xs ++ p :: ys) → IsProcList procs p (p :: ys) := by
  intro xs
  induction xs with
  | nil =>
    intro a p ys h
    rw [List.nil_append] at h
    have h2 := h
    rw [islist_cons] at h2
    rw [← h2.2.1] at h ⊢
    exact h
  | cons x xs ih =>
    intro a p ys h
    rw [List.cons_append, islist_cons] at h
    exact ih _ p ys h.2.2

theorem islist_nodup (procs : Nat → Process) :
    ∀ (ps : List Nat) (a : Nat), IsProcList procs a ps → ps.Nodup := by
  intro ps
  induction ps with
  | nil => intro _ _; exact List.nodup_nil
  | cons p ps ih =>
    intro a h
    have h0 := h
    rw [islist_cons] at h
    obtain ⟨_, h2, h3⟩ := h
    refine List.nodup_cons.2 ⟨?_, ih _ h3⟩
    intro hm
    obtain ⟨xs, ys, e⟩ := List.append_of_mem hm
    rw [e] at h3
    have hs := islist_suffix procs xs _ p ys h3
    rw [islist_cons] at hs
    rw [h2] at h3
    have := islist_unique procs _ _ _ h3 hs.2.2
    have hl := congrArg List.length this
    simp at hl
    omega

/-- Control blocks whose `next` fields agree on the list give the same list. -/
theorem islist_congr (procs procs1 : Nat → Process) :
    ∀ (ps : List Nat) (a : Nat), (∀ x, x ∈ ps → (procs1 x).next = (procs x).next) →
      IsProcList procs a ps → IsProcList procs1 a ps := by
  intro ps
  induction ps with
  | nil => intro a _ h; rw [islist_nil] at h ⊢; exact h
  | cons p ps ih =>
    intro a hagree h
    rw [islist_cons] at h ⊢
    obtain ⟨h1, h2, h3⟩ := h
    refine ⟨h1, h2, ?_⟩
    rw [h2, hagree p (List.mem_cons_self _ _), ← h2]
    exact ih _ (fun x hx => hagree x (List.mem_cons_of_mem _ hx)) h3

/-- A process list as a chain of `next` pointers that ends in the null pointer. -/
theorem islist_chain (procs : Nat → Process) :
    ∀ (ps : List Nat) (a : Nat), IsProcList procs a ps →
      (ps ++ [0]).head? = some a
        ∧ List.Chain' (fun x y => (procs x).next = y) (ps ++ [0]) := by
  intro ps
  induction ps with
  | nil =>
    intro a h
    rw [islist_nil] at h
    subst h
    exact ⟨rfl, List.chain'_singleton _⟩
  | cons p ps ih =>
    intro a h
    rw [islist_cons] at h
    obtain ⟨_, h2, h3⟩ := h
    obtain ⟨i1, i2⟩ := ih _ h3
    refine ⟨by rw [h2]; rfl, ?_⟩
    rw [List.cons_append, List.chain'_cons']
    refine ⟨?_, i2⟩
    intro y hy
    rw [i1] at hy
    rw [← h2]
    exact Option.some.inj hy

/-! ### The order in which `schedule` visits the processes -/

theorem islist_next (procs : Nat → Process) (xs : List Nat) (a p q : Nat) (ys : List Nat)
    (h : IsProcList procs a (xs ++ p :: q :: ys)) : (procs p).next = q := by
  have hs := islist_suffix procs xs a p (q :: ys) h
  rw [islist_cons, islist_cons] at hs
  exact hs.2.2.2.1

theorem islist_last (procs : Nat → Process) (xs : List Nat) (a p : Nat)
    (h : IsProcList procs a (xs ++ [p])) : (procs p).next = 0 := by
  have hs := islist_suffix procs xs a p [] h
  rw [islist_cons, islist_nil] at hs
  exact hs.2.2

theorem chain_of_split {R : Nat → Nat → Prop} :
    ∀ (l : List Nat), (∀ xs p q ys, l = xs ++ p :: q :: ys → R p q) → List.Chain' R l := by
  intro l
  induction l with
  | nil => intro _; exact List.chain'_nil
  | cons a t ih =>
    intro h
    rw [List.chain'_cons']
    refine ⟨?_, ih (fun xs p q ys e => h (a :: xs) p q ys (by rw [e]; rfl))⟩
    intro y hy
    cases t with
    | nil => cases hy
    | cons b t =>
      have : y = b := (Option.some.inj hy).symm
      subst this
      exact h [] a y t rfl

theorem cyc_next_of_next (s : SchedState) (p q : Nat) (h : (s.procs p).next = q) (hq : q ≠ 0) :
    cyc_next s p = q := by
  unfold cyc_next
  rw [h, if_neg hq]

theorem cyc_next_of_last (s : SchedState) (p : Nat) (h : (s.procs p).next = 0) :
    cyc_next s p = s.process_list := by
  unfold cyc_next
  rw [h, if_pos rfl]

/-- A process list that contains the current process gives its ring. -/
theorem ring_of_list (s : SchedState) (pre post : List Nat)
    (hl : IsProcList s.procs s.process_list (pre ++ s.current_process :: post)) :
    Ring s (post ++ (pre ++ [s.current_process])) := by
  have hnz := islist_ne_zero _ _ _ hl
  have hnd := islist_nodup _ _ _ hl
  have hperm : List.Perm (post ++ (pre ++ [s.current_process]))
      (pre ++ s.current_process :: post) := by
    have e : pre ++ s.current_process :: post = (pre ++ [s.current_process]) ++ post := by simp
    rw [e]
    exact List.perm_append_comm
  have hhead : (pre ++ [s.current_process]).head? = some s.process_list := by
    cases pre with
    | nil =>
      rw [List.nil_append, islist_cons] at hl
      rw [List.nil_append, List.head?_cons, hl.2.1]
    | cons a pre =>
      rw [List.cons_append, islist_cons] at hl
      rw [List.cons_append, List.head?_cons, hl.2.1]
  have hlist_nz : s.process_list ≠ 0 := by
    cases pre with
    | nil => rw [List.nil_append, islist_cons] at hl; exact hl.1
    | cons a pre => rw [List.cons_append, islist_cons] at hl; exact hl.1
  refine ⟨fun x hx => hnz x (hperm.subset hx), (hperm.nodup_iff).2 hnd, ?_, ?_, ?_, hlist_nz⟩
  · rw [List.chain'_append]
    refine ⟨?_, ?_, ?_⟩
    · apply chain_of_split
      intro xs p q ys e
      apply cyc_next_of_next
      · apply islist_next s.procs (pre ++ s.current_process :: xs) s.process_list p q ys
        rw [e] at hl
        simpa using hl
      · apply hnz
        rw [e]
        simp
    · apply chain_of_split
      intro xs p q ys e
      apply cyc_next_of_next
      · apply islist_next s.procs xs s.process_list p q (ys ++ post)
        have e2 : pre ++ s.current_process :: post = (pre ++ [s.current_process]) ++ post := by
          simp
        rw [e2, e] at hl
        simpa using hl
      · apply hnz
        have : q ∈ pre ++ [s.current_process] := by rw [e]; simp
        rcases List.mem_append.1 this with h1 | h1
        · exact List.mem_append_left _ h1
        · rw [List.mem_singleton] at h1
          rw [h1]
          simp
    · intro x hx y hy
      obtain ⟨xs, e⟩ := List.getLast?_eq_some_iff.1 hx
      rw [hhead] at hy
      have hy2 : y = s.process_list := (Option.some.inj hy).symm
      rw [hy2]
      apply cyc_next_of_last
      apply islist_last s.procs (pre ++ s.current_process :: xs) s.process_list x
      rw [e] at hl
      simpa using hl
  · rw [← List.append_assoc]
    exact List.getLast?_concat _
  · cases post with
    | nil =>
      rw [List.nil_append, hhead]
      congr 1
      exact (cyc_next_of_last s _ (islist_last s.procs pre s.process_list _ hl)).symm
    | cons q post =>
      rw [List.cons_append, List.head?_cons]
      congr 1
      exact (cyc_next_of_next s _ q
        (islist_next s.procs pre s.process_list _ q post hl)
        (hnz q (by simp))).symm

/-- The loop of `schedule` walks along a chain of `cyc_next` steps until the first
entry that is Ready or is the current process. -/
theorem schedule_loop_walk (s : SchedState) (q : Nat) (rest : List Nat)
    (hq : (s.procs q).state = PROC_READY ∨ q = s.current_process) :
    ∀ (skipped : List Nat) (fuel : Nat),
      List.Chain' (fun x y => cyc_next s x = y) (skipped ++ q :: rest) →
      (∀ x, x ∈ skipped →
        x ≠ 0 ∧ (s.procs x).state ≠ PROC_READY ∧ x ≠ s.current_process) →
      skipped.length + 1 ≤ fuel →
      schedule_loop fuel s ((skipped ++ q :: rest).headD 0) = some q := by
  intro skipped
  induction skipped with
  | nil =>
    intro fuel _ _ hf
    obtain ⟨f, rfl⟩ : ∃ f, fuel = f + 1 := ⟨fuel - 1, by simp at hf; omega⟩
    show schedule_loop (f + 1) s q = some q
    unfold schedule_loop
    rw [if_neg]
    intro hc
    rcases hq with h | h
    · exact hc.2.1 h
    · exact hc.2.2 h
  | cons a sk ih =>
    intro fuel hch hsk hf
    obtain ⟨f, rfl⟩ : ∃ f, fuel = f + 1 := ⟨fuel - 1, by simp at hf; omega⟩
    rw [List.cons_append, List.chain'_cons'] at hch
    show schedule_loop (f + 1) s a = some q
    unfold schedule_loop
    rw [if_pos (hsk a (List.mem_cons_self _ _))]
    have hnext : cyc_next s a = (sk ++ q :: rest).headD 0 := by
      cases hh : (sk ++ q :: rest) with
      | nil => simp at hh
      | cons b t =>
        rw [hh] at hch
        exact hch.1 b rfl
    have := ih f hch.2 (fun x hx => hsk x (List.mem_cons_of_mem _ hx))
      (by simp at hf ⊢; omega)
    rw [← hnext] at this
    exact this

theorem ring_headD (s : SchedState) (ring : List Nat) (h : Ring s ring) :
    ring.headD 0 = cyc_next s s.current_process := by
  have := h.wrap
  cases ring with
  | nil => cases this
  | cons a t => exact Option.some.inj this

theorem ring_current_ne_zero (s : SchedState) (ring : List Nat) (h : Ring s ring) :
    s.current_process ≠ 0 := by
  obtain ⟨ys, e⟩ := List.getLast?_eq_some_iff.1 h.last
  exact h.nz _ (by rw [e]; simp)

/-- What `schedule` does when it switches to `q`. -/
theorem schedule_switch (s : SchedState) (fuel q : Nat)
    (h0 : s.current_process ≠ 0) (h1 : s.process_list ≠ 0)
    (hloop : schedule_loop fuel s (cyc_next s s.current_process) = some q)
    (hq : q ≠ 0) (hne : q ≠ s.current_process) :
    schedule fuel s
      = some { heap := s.heap
               procs := setProcState (setProcState s.procs s.current_process PROC_READY)
                 q PROC_RUNNING
               process_list := s.process_list
               current_process := q
               next_pid := s.next_pid } := by
  unfold schedule
  rw [if_neg (by intro h; rcases h with h | h; exact h0 h; exact h1 h)]
  unfold cyc_next at hloop
  dsimp only
  rw [hloop]
  dsimp only
  rw [if_pos ⟨hq, hne⟩]

/-- What `schedule` does when the loop comes back to the current process. -/
theorem schedule_stay (s : SchedState) (fuel : Nat)
    (hloop : schedule_loop fuel s (cyc_next s s.current_process) = some s.current_process) :
    schedule fuel s = some s := by
  unfold schedule
  by_cases hc : s.current_process = 0 ∨ s.process_list = 0
  · rw [if_pos hc]
  · rw [if_neg hc]
    unfold cyc_next at hloop
    dsimp only
    rw [hloop]
    dsimp only
    rw [if_neg (fun h => h.2 rfl)]

/-! ### Claims about `schedule` -/

theorem not_mem_middle (pre post : List Nat) (c x : Nat) (hnd : (pre ++ c :: post).Nodup)
    (hx : x ∈ post ++ pre) : x ≠ c := by
  rw [List.nodup_middle, List.nodup_cons] at hnd
  intro e
  subst e
  apply hnd.1
  rcases List.mem_append.1 hx with h | h
  · exact List.mem_append_right _ h
  · exact List.mem_append_left _ h

theorem setProcState_next (procs : Nat → Process) (p v x : Nat) :
    (setProcState procs p v x).next = (procs x).next := by
  unfold setProcState
  by_cases h : x = p
  · rw [if_pos h, h]
  · rw [if_neg h]

theorem setProcState_pid (procs : Nat → Process) (p v x : Nat) :
    (setProcState procs p v x).pid = (procs x).pid := by
  unfold setProcState
  by_cases h : x = p
  · rw [if_pos h, h]
  · rw [if_neg h]

theorem setProcState_same (procs : Nat → Process) (p v : Nat) :
    (setProcState procs p v p).state = v := by
  unfold setProcState
  rw [if_pos rfl]

theorem setProcState_other (procs : Nat → Process) (p v x : Nat) (h : x ≠ p) :
    setProcState procs p v x = procs x := by
  unfold setProcState
  rw [if_neg h]

/-- C15: when `current_process` is a member of the process list (the list is
`pre ++ current :: post`) and the fuel covers one pass over the list, `schedule`
returns.  If `q` is the first Ready process in the cyclic order after the current
one (`post` then `pre`), `q` becomes current and Running, the old current
becomes Ready and nothing else changes; if no other process is Ready the state
is unchanged. -/
theorem schedule_selects (s : SchedState) (pre post : List Nat) (fuel : Nat)
    (hl : IsProcList s.procs s.process_list (pre ++ s.current_process :: post))
    (hfuel : pre.length + post.length + 1 ≤ fuel) :
    (∀ skipped q rest, post ++ pre = skipped ++ q :: rest →
        (s.procs q).state = PROC_READY →
        (∀ x, x ∈ skipped → (s.procs x).state ≠ PROC_READY) →
        ∃ s1, schedule fuel s = some s1
          ∧ s1.current_process = q
          ∧ (s1.procs q).state = PROC_RUNNING
          ∧ (s1.procs s.current_process).state = PROC_READY
          ∧ (∀ x, x ≠ q → x ≠ s.current_process → s1.procs x = s.procs x)
          ∧ (∀ x, (s1.procs x).pid = (s.procs x).pid ∧ (s1.procs x).next = (s.procs x).next)
          ∧ s1.process_list = s.process_list ∧ s1.heap = s.heap ∧ s1.next_pid = s.next_pid)
      ∧ ((∀ x, x ∈ post ++ pre → (s.procs x).state ≠ PROC_READY) →
          schedule fuel s = some s) := by
  have hring := ring_of_list s pre post hl
  have hnd := islist_nodup _ _ _ hl
  have hhd := ring_headD s _ hring
  have hlen : (post ++ pre).length = pre.length + post.length := by
    rw [List.length_append]; omega
  constructor
  · intro skipped q rest e hq hsk
    have hmem : ∀ x, x ∈ skipped → x ∈ post ++ pre := by
      intro x hx
      rw [e]
      exact List.mem_append_left _ hx
    have hqm : q ∈ post ++ pre := by rw [e]; simp
    have hqc : q ≠ s.current_process := not_mem_middle pre post _ q hnd hqm
    have hq0 : q ≠ 0 := hring.nz q (by
      rw [← List.append_assoc]
      exact List.mem_append_left _ hqm)
    have eW : post ++ (pre ++ [s.current_process])
        = skipped ++ q :: (rest ++ [s.current_process]) := by
      rw [← List.append_assoc, e]
      simp
    have hsl : skipped.length + 1 ≤ fuel := by
      have := congrArg List.length e
      simp at this
      omega
    have hloop := schedule_loop_walk s q (rest ++ [s.current_process]) (Or.inl hq) skipped
      fuel (by rw [← eW]; exact hring.chain)
      (fun x hx => ⟨hring.nz x (by
          rw [← List.append_assoc]
          exact List.mem_append_left _ (hmem x hx)),
        hsk x hx, not_mem_middle pre post _ x hnd (hmem x hx)⟩) hsl
    rw [← eW, hhd] at hloop
    refine ⟨_, schedule_switch s fuel q (ring_current_ne_zero s _ hring) hring.list_nz hloop
      hq0 hqc, rfl, setProcState_same _ _ _, ?_, ?_, ?_, rfl, rfl, rfl⟩
    · show (setProcState (setProcState s.procs s.current_process PROC_READY) q PROC_RUNNING
        s.current_process).state = PROC_READY
      rw [setProcState_other _ _ _ _ (Ne.symm hqc)]
      exact setProcState_same _ _ _
    · intro x hx1 hx2
      show setProcState (setProcState s.procs s.current_process PROC_READY) q PROC_RUNNING x
        = s.procs x
      rw [setProcState_other _ _ _ _ hx1, setProcState_other _ _ _ _ hx2]
    · intro x
      constructor
      · show (setProcState (setProcState s.procs s.current_process PROC_READY) q PROC_RUNNING
          x).pid = _
        rw [setProcState_pid, setProcState_pid]
      · show (setProcState (setProcState s.procs s.current_process PROC_READY) q PROC_RUNNING
          x).next = _
        rw [setProcState_next, setProcState_next]
  · intro hnone
    have eW : post ++ (pre ++ [s.current_process]) = (post ++ pre) ++ s.current_process :: [] := by
      simp
    have hloop := schedule_loop_walk s s.current_process [] (Or.inr rfl) (post ++ pre) fuel
      (by rw [← eW]; exact hring.chain)
      (fun x hx => ⟨hring.nz x (by
          rw [← List.append_assoc]
          exact List.mem_append_left _ hx),
        hnone x hx, not_mem_middle pre post _ x hnd hx⟩) (by rw [hlen]; exact hfuel)
    rw [← eW, hhd] at hloop
    exact schedule_stay s fuel hloop

theorem sched_three_list :
    IsProcList sched_three.procs sched_three.process_list
      ([100] ++ sched_three.current_process :: [300]) := by
  decide

/-- C15 witness: three processes at the addresses 100, 200 and 300, the second one
current. -/
theorem schedule_selects_witness :
    (∀ skipped q rest, [300] ++ [100] = skipped ++ q :: rest →
        (sched_three.procs q).state = PROC_READY →
        (∀ x, x ∈ skipped → (sched_three.procs x).state ≠ PROC_READY) →
        ∃ s1, schedule 3 sched_three = some s1
          ∧ s1.current_process = q
          ∧ (s1.procs q).state = PROC_RUNNING
          ∧ (s1.procs sched_three.current_process).state = PROC_READY
          ∧ (∀ x, x ≠ q → x ≠ sched_three.current_process → s1.procs x = sched_three.procs x)
          ∧ (∀ x, (s1.procs x).pid = (sched_three.procs x).pid
              ∧ (s1.procs x).next = (sched_three.procs x).next)
          ∧ s1.process_list = sched_three.process_list ∧ s1.heap = sched_three.heap
          ∧ s1.next_pid = sched_three.next_pid)
      ∧ ((∀ x, x ∈ [300] ++ [100] → (sched_three.procs x).state ≠ PROC_READY) →
          schedule 3 sched_three = some sched_three) :=
  schedule_selects sched_three [100] [300] 3 sched_three_list (by decide)

theorem cyc_next_switch (s : SchedState) (q x : Nat) :
    cyc_next
        { heap := s.heap
          procs := setProcState (setProcState s.procs s.current_process PROC_READY)
            q PROC_RUNNING
          process_list := s.process_list
          current_process := q
          next_pid := s.next_pid } x
      = cyc_next s x := by
  unfold cyc_next
  dsimp only
  rw [setProcState_next, setProcState_next]

/-- One `schedule` call in the round-robin setting moves to the head of the ring
and rotates the ring by one. -/
theorem round_robin_step (s : SchedState) (q : Nat) (t : List Nat) (fuel : Nat)
    (h : RoundRobin s (q :: t)) (hf : 1 ≤ fuel) :
    ∃ s1, schedule fuel s = some s1 ∧ s1.current_process = q ∧ RoundRobin s1 (t ++ [q]) := by
  obtain ⟨hring, hrun, hready, htwo⟩ := h
  obtain ⟨b, t1, rfl⟩ : ∃ b t1, t = b :: t1 := by
    cases t with
    | nil => simp at htwo
    | cons b t1 => exact ⟨b, t1, rfl⟩
  have hlast : (b :: t1).getLast? = some s.current_process := by
    have := hring.last
    rw [List.getLast?_cons_cons] at this
    exact this
  have hcm : s.current_process ∈ b :: t1 := by
    obtain ⟨ys, e⟩ := List.getLast?_eq_some_iff.1 hlast
    rw [e]
    simp
  have hnd := hring.nodup
  rw [List.nodup_cons] at hnd
  have hqc : q ≠ s.current_process := fun e => hnd.1 (e ▸ hcm)
  have hq0 : q ≠ 0 := hring.nz q (List.mem_cons_self _ _)
  have hqr : (s.procs q).state = PROC_READY := hready q (List.mem_cons_self _ _) hqc
  have hloop := schedule_loop_walk s q (b :: t1) (Or.inl hqr) [] fuel hring.chain
    (fun x hx => by cases hx) (by simpa using hf)
  have hhd := ring_headD s _ hring
  rw [List.nil_append, hhd] at hloop
  have hch := hring.chain
  rw [List.chain'_cons'] at hch
  refine ⟨_, schedule_switch s fuel q (ring_current_ne_zero s _ hring) hring.list_nz hloop
    hq0 hqc, rfl, ?_, ?_, ?_, ?_⟩
  · refine ⟨?_, ?_, ?_, ?_, ?_, hring.list_nz⟩
    · intro x hx
      apply hring.nz
      rcases List.mem_append.1 hx with h1 | h1
      · exact List.mem_cons_of_mem _ h1
      · rw [List.mem_singleton] at h1
        rw [h1]
        exact List.mem_cons_self _ _
    · have hp : List.Perm ((b :: t1) ++ [q]) (q :: b :: t1) := by
        have : q :: b :: t1 = [q] ++ (b :: t1) := rfl
        rw [this]
        exact List.perm_append_comm
      exact (hp.nodup_iff).2 hring.nodup
    · rw [List.chain'_append]
      refine ⟨?_, List.chain'_singleton _, ?_⟩
      · exact hch.2.imp (fun {x y} e => by rw [cyc_next_switch]; exact e)
      · intro x hx y hy
        rw [hlast] at hx
        have hx2 : x = s.current_process := (Option.some.inj hx).symm
        have hy2 : y = q := (Option.some.inj hy).symm
        rw [cyc_next_switch, hx2, hy2, ← hhd]
        rfl
    · exact List.getLast?_concat _
    · show some b = some (cyc_next _ q)
      rw [cyc_next_switch]
      congr 1
      exact (hch.1 b rfl).symm
  · exact setProcState_same _ _ _
  · intro x hx hxq
    have hxq2 : x ≠ q := hxq
    have hxt : x ∈ b :: t1 := by
      rcases List.mem_append.1 hx with h1 | h1
      · exact h1
      · rw [List.mem_singleton] at h1
        exact absurd h1 hxq2
    show (setProcState (setProcState s.procs s.current_process PROC_READY) q PROC_RUNNING
      x).state = PROC_READY
    rw [setProcState_other _ _ _ _ hxq2]
    by_cases hxc : x = s.current_process
    · rw [hxc]
      exact setProcState_same _ _ _
    · rw [setProcState_other _ _ _ _ hxc]
      exact hready x (List.mem_cons_of_mem _ hxt) hxc
  · simp

/-- In the round-robin setting, `n` calls of `schedule` visit the first `n`
entries of the ring. -/
theorem round_robin_trace (fuel : Nat) (hf : 1 ≤ fuel) :
    ∀ (n : Nat) (s : SchedState) (ring : List Nat), RoundRobin s ring → n ≤ ring.length →
      schedule_trace fuel n s = some (ring.take n) := by
  intro n
  induction n with
  | zero => intro s ring _ _; rfl
  | succ n ih =>
    intro s ring h hn
    cases ring with
    | nil => simp at hn
    | cons q t =>
      obtain ⟨s1, e1, e2, h1⟩ := round_robin_step s q t fuel h hf
      have hn2 : n ≤ t.length := by simpa using hn
      have := ih s1 (t ++ [q]) h1 (by simp; omega)
      unfold schedule_trace
      rw [e1]
      dsimp only
      rw [this, e2, List.take_append_of_le_length hn2]
      rfl

/-- C14: for a process list `pre ++ current :: post` of K >= 2 processes in which
the current process is Running and all others are Ready, K consecutive
`schedule` calls (each with at least one unit of fuel) return and make current,
in this order, the processes of `post`, then those of `pre`, then the initially
running one: every process of the list exactly once, in list order starting
after the initially running process and wrapping from the tail to the head. -/
theorem round_robin_fairness (s : SchedState) (pre post : List Nat) (fuel : Nat)
    (hl : IsProcList s.procs s.process_list (pre ++ s.current_process :: post))
    (hK : 2 ≤ (pre ++ s.current_process :: post).length)
    (hrun : (s.procs s.current_process).state = PROC_RUNNING)
    (hready : ∀ x, x ∈ pre ++ post → (s.procs x).state = PROC_READY)
    (hfuel : 1 ≤ fuel) :
    schedule_trace fuel (pre ++ s.current_process :: post).length s
        = some (post ++ (pre ++ [s.current_process]))
      ∧ List.Perm (post ++ (pre ++ [s.current_process])) (pre ++ s.current_process :: post)
      ∧ (post ++ (pre ++ [s.current_process])).Nodup := by
  have hring := ring_of_list s pre post hl
  have hlen : (post ++ (pre ++ [s.current_process])).length
      = (pre ++ s.current_process :: post).length := by
    simp
    omega
  have hrr : RoundRobin s (post ++ (pre ++ [s.current_process])) := by
    refine ⟨hring, hrun, ?_, by rw [hlen]; exact hK⟩
    intro x hx hxc
    apply hready
    rcases List.mem_append.1 hx with h1 | h1
    · exact List.mem_append_right _ h1
    · rcases List.mem_append.1 h1 with h2 | h2
      · exact List.mem_append_left _ h2
      · rw [List.mem_singleton] at h2
        exact absurd h2 hxc
  have ht := round_robin_trace fuel hfuel _ s _ hrr (le_of_eq hlen.symm)
  rw [← hlen, List.take_length] at ht
  rw [← hlen]
  refine ⟨ht, ?_, hring.nodup⟩
  have e : pre ++ s.current_process :: post = (pre ++ [s.current_process]) ++ post := by simp
  rw [e]
  exact List.perm_append_comm

/-- C14 witness: three processes at the addresses 100, 200 and 300, the second one
running; three calls visit 300, 100 and 200. -/
theorem round_robin_fairness_witness :
    schedule_trace 1 ([100] ++ sched_three.current_process :: [300]).length sched_three
        = some ([300] ++ ([100] ++ [sched_three.current_process]))
      ∧ List.Perm ([300] ++ ([100] ++ [sched_three.current_process]))
          ([100] ++ sched_three.current_process :: [300])
      ∧ ([300] ++ ([100] ++ [sched_three.current_process])).Nodup :=
  round_robin_fairness sched_three [100] [300] 1 (by decide) (by decide) (by decide)
    (by decide) (by decide)

/-! ### Claims about `destroy_process` -/

theorem islist_headD (procs : Nat → Process) (a : Nat) (ps : List Nat)
    (h : IsProcList procs a ps) : ps.headD 0 = a := by
  cases ps with
  | nil => rw [islist_nil] at h; rw [h]; rfl
  | cons p ps => rw [islist_cons] at h; rw [h.2.1]; rfl

theorem destroy_loop_succ (s : SchedState) (pid cur prev f : Nat) :
    destroy_process_loop (f + 1) s pid cur prev
      = if cur = 0 then some s
        else if (s.procs cur).pid = pid then
          some { (if prev ≠ 0 then
                    { s with procs := setProcNext s.procs prev (s.procs cur).next }
                  else { s with process_list := (s.procs cur).next } : SchedState) with
                 heap := free s.heap cur }
        else destroy_process_loop f s pid (s.procs cur).next cur := by
  rw [destroy_process_loop]
  by_cases h1 : cur = 0
  · rw [if_pos h1, if_pos h1]
  · rw [if_neg h1, if_neg h1]
    by_cases h2 : (s.procs cur).pid = pid
    · rw [if_pos h2, if_pos h2]
      unfold kfree
      by_cases h3 : prev ≠ 0
      · simp only [if_pos h3]
      · simp only [if_neg h3]
    · rw [if_neg h2, if_neg h2]

/-- The loop of `destroy_process` steps over the entries whose pid differs. -/
theorem destroy_loop_skip (s : SchedState) (pid : Nat) (tail : List Nat) :
    ∀ (skip : List Nat) (cur prev fuel : Nat),
      IsProcList s.procs cur (skip ++ tail) →
      (∀ x, x ∈ skip → (s.procs x).pid ≠ pid) →
      destroy_process_loop (skip.length + fuel) s pid cur prev
        = destroy_process_loop fuel s pid (tail.headD 0) (skip.getLastD prev) := by
  intro skip
  induction skip with
  | nil =>
    intro cur prev fuel h _
    rw [List.nil_append] at h
    rw [islist_headD _ _ _ h]
    simp
  | cons a sk ih =>
    intro cur prev fuel h hs
    rw [List.cons_append, islist_cons] at h
    obtain ⟨h1, h2, h3⟩ := h
    have e : (a :: sk).length + fuel = (sk.length + fuel) + 1 := by simp; omega
    rw [e, destroy_loop_succ]
    rw [if_neg h1, if_neg (by rw [h2]; exact hs a (List.mem_cons_self _ _))]
    rw [ih _ _ fuel h3 (fun x hx => hs x (List.mem_cons_of_mem _ hx)), h2,
      List.getLastD_cons]

theorem destroy_loop_mono (s : SchedState) (pid : Nat) (x : SchedState) :
    ∀ (f cur prev k : Nat), destroy_process_loop f s pid cur prev = some x →
      destroy_process_loop (f + k) s pid cur prev = some x := by
  intro f
  induction f with
  | zero => intro cur prev k h; simp [destroy_process_loop] at h
  | succ f ih =>
    intro cur prev k h
    have e : f + 1 + k = (f + k) + 1 := by omega
    rw [e, destroy_loop_succ]
    rw [destroy_loop_succ] at h
    by_cases h1 : cur = 0
    · rw [if_pos h1] at h ⊢
      exact h
    · rw [if_neg h1] at h ⊢
      by_cases h2 : (s.procs cur).pid = pid
      · rw [if_pos h2] at h ⊢
        exact h
      · rw [if_neg h2] at h ⊢
        exact ih _ _ k h

theorem setProcNext_same (procs : Nat → Process) (p v : Nat) :
    (setProcNext procs p v p).next = v := by
  unfold setProcNext
  rw [if_pos rfl]

theorem setProcNext_other (procs : Nat → Process) (p v x : Nat) (h : x ≠ p) :
    setProcNext procs p v x = procs x := by
  unfold setProcNext
  rw [if_neg h]

theorem setProcNext_fields (procs : Nat → Process) (p v x : Nat) :
    (setProcNext procs p v x).pid = (procs x).pid
      ∧ (setProcNext procs p v x).state = (procs x).state
      ∧ (setProcNext procs p v x).name = (procs x).name := by
  unfold setProcNext
  by_cases h : x = p
  · rw [if_pos h, h]
    exact ⟨rfl, rfl, rfl⟩
  · rw [if_neg h]
    exact ⟨rfl, rfl, rfl⟩

/-- Replacing the part of a process list after the entry `z`. -/
theorem islist_prefix_congr (procs procs1 : Nat → Process) (z : Nat) (l1 l2 : List Nat) :
    ∀ (pre : List Nat) (a : Nat), (∀ x, x ∈ pre → (procs1 x).next = (procs x).next) →
      IsProcList procs a (pre ++ z :: l1) → IsProcList procs1 z (z :: l2) →
      IsProcList procs1 a (pre ++ z :: l2) := by
  intro pre
  induction pre with
  | nil =>
    intro a _ h h2
    rw [List.nil_append, islist_cons] at h
    rw [List.nil_append, h.2.1]
    exact h2
  | cons p pre ih =>
    intro a hagree h h2
    rw [List.cons_append, islist_cons] at h ⊢
    obtain ⟨h1, he, h3⟩ := h
    refine ⟨h1, he, ?_⟩
    rw [he, hagree p (List.mem_cons_self _ _), ← he]
    exact ih _ (fun x hx => hagree x (List.mem_cons_of_mem _ hx)) h3 h2

/-- Unlinking the entry `q` that follows `z`. -/
theorem islist_unlink (procs : Nat → Process) (a z q : Nat) (pre post : List Nat)
    (h : IsProcList procs a (pre ++ z :: q :: post)) :
    IsProcList (setProcNext procs z (procs q).next) a (pre ++ z :: post) := by
  have hnd := islist_nodup _ _ _ h
  have hsuf := islist_suffix procs (pre ++ [z]) a q post (by simpa using h)
  rw [islist_cons] at hsuf
  have hz0 : z ≠ 0 := islist_ne_zero _ _ _ h z (by simp)
  have hzpost : z ∉ post := by
    intro hm
    rw [List.nodup_append] at hnd
    have := (List.nodup_cons.1 hnd.2.1).1
    exact this (List.mem_cons_of_mem _ hm)
  have hzpre : z ∉ pre := by
    intro hm
    rw [List.nodup_append] at hnd
    exact hnd.2.2 hm (List.mem_cons_self _ _)
  apply islist_prefix_congr procs _ z (q :: post) post pre a _ h
  · rw [islist_cons]
    refine ⟨hz0, rfl, ?_⟩
    rw [setProcNext_same]
    apply islist_congr procs _ post _ _ hsuf.2.2
    intro x hx
    rw [setProcNext_other _ _ _ _ (fun e => hzpost (by rw [← e]; exact hx))]
  · intro x hx
    rw [setProcNext_other _ _ _ _ (fun e => hzpre (by rw [← e]; exact hx))]

/-- What `destroy_process` does when `q` is the first entry with the given pid. -/
theorem destroy_process_found (s : SchedState) (pid fuel q : Nat) (pre post : List Nat)
    (hl : IsProcList s.procs s.process_list (pre ++ q :: post))
    (hq : (s.procs q).pid = pid) (hpre : ∀ x, x ∈ pre → (s.procs x).pid ≠ pid)
    (hfuel : pre.length + 1 ≤ fuel) :
    ∃ s1, destroy_process fuel s pid = some s1
      ∧ IsProcList s1.procs s1.process_list (pre ++ post)
      ∧ (∀ x, (s1.procs x).pid = (s.procs x).pid ∧ (s1.procs x).state = (s.procs x).state
          ∧ (s1.procs x).name = (s.procs x).name)
      ∧ s1.heap = free s.heap q
      ∧ s1.current_process = s.current_process
      ∧ s1.next_pid = s.next_pid := by
  have hnz := islist_ne_zero _ _ _ hl
  have hq0 : q ≠ 0 := hnz q (by simp)
  obtain ⟨f, rfl⟩ : ∃ f, fuel = pre.length + (f + 1) := ⟨fuel - pre.length - 1, by omega⟩
  unfold destroy_process
  rw [destroy_loop_skip s pid (q :: post) pre _ 0 (f + 1) hl hpre]
  show ∃ s1, destroy_process_loop (f + 1) s pid q (pre.getLastD 0) = some s1 ∧ _
  rw [destroy_loop_succ, if_neg hq0, if_pos hq]
  rcases List.eq_nil_or_concat pre with e | ⟨pre1, z, e⟩
  · subst e
    have hl2 := hl
    rw [List.nil_append, islist_cons] at hl2
    refine ⟨_, rfl, ?_, fun x => ⟨rfl, rfl, rfl⟩, rfl, rfl, rfl⟩
    show IsProcList s.procs (s.procs q).next post
    rw [hl2.2.1] at hl2
    exact hl2.2.2
  · rw [List.concat_eq_append] at e
    subst e
    have hz0 : z ≠ 0 := hnz z (by simp)
    have hlast : (pre1 ++ [z]).getLastD 0 = z := by simp
    rw [hlast, if_pos hz0]
    refine ⟨_, rfl, ?_, fun x => setProcNext_fields _ _ _ _, rfl, rfl, rfl⟩
    show IsProcList (setProcNext s.procs z (s.procs q).next) s.process_list
      (pre1 ++ [z] ++ post)
    have := islist_unlink s.procs s.process_list z q pre1 post (by simpa using hl)
    simpa using this

/-- What `destroy_process` does when no entry has the given pid. -/
theorem destroy_process_missing (s : SchedState) (pid fuel : Nat) (ps : List Nat)
    (hl : IsProcList s.procs s.process_list ps)
    (hnone : ∀ x, x ∈ ps → (s.procs x).pid ≠ pid) (hfuel : ps.length + 1 ≤ fuel) :
    destroy_process fuel s pid = some s := by
  obtain ⟨f, rfl⟩ : ∃ f, fuel = ps.length + (f + 1) := ⟨fuel - ps.length - 1, by omega⟩
  unfold destroy_process
  rw [destroy_loop_skip s pid [] ps _ 0 (f + 1) (by simpa using hl) hnone]
  show destroy_process_loop (f + 1) s pid 0 _ = some s
  rw [destroy_loop_succ, if_pos rfl]

/-- C18: on a process list `ps`, with fuel for one pass, `destroy_process(pid)`
returns.  If `q` is the first entry with that pid (the list is
`pre ++ q :: post`), afterwards the list is `pre ++ post`, the pid, state and
name of every control block are unchanged and the block of `q` has been passed
to `free`; if no entry has that pid the state is unchanged. -/
theorem destroy_process_unlinks (s : SchedState) (ps : List Nat) (pid fuel : Nat)
    (hl : IsProcList s.procs s.process_list ps) (hfuel : ps.length + 1 ≤ fuel) :
    (∀ pre q post, ps = pre ++ q :: post → (s.procs q).pid = pid →
        (∀ x, x ∈ pre → (s.procs x).pid ≠ pid) →
        ∃ s1, destroy_process fuel s pid = some s1
          ∧ IsProcList s1.procs s1.process_list (pre ++ post)
          ∧ (∀ x, (s1.procs x).pid = (s.procs x).pid ∧ (s1.procs x).state = (s.procs x).state
              ∧ (s1.procs x).name = (s.procs x).name)
          ∧ s1.heap = free s.heap q
          ∧ s1.current_process = s.current_process
          ∧ s1.next_pid = s.next_pid)
      ∧ ((∀ x, x ∈ ps → (s.procs x).pid ≠ pid) → destroy_process fuel s pid = some s) := by
  constructor
  · intro pre q post e hq hpre
    subst e
    exact destroy_process_found s pid fuel q pre post hl hq hpre (by
      simp at hfuel
      omega)
  · intro hnone
    exact destroy_process_missing s pid fuel ps hl hnone hfuel

/-- C18 witness: three processes with the pids 3, 2 and 1 at the addresses 100, 200
and 300; `destroy_process(2)` and `destroy_process(7)`. -/
theorem destroy_process_unlinks_witness :
    ((∀ pre q post, [100, 200, 300] = pre ++ q :: post → (sched_three.procs q).pid = 2 →
        (∀ x, x ∈ pre → (sched_three.procs x).pid ≠ 2) →
        ∃ s1, destroy_process 4 sched_three 2 = some s1
          ∧ IsProcList s1.procs s1.process_list (pre ++ post)
          ∧ (∀ x, (s1.procs x).pid = (sched_three.procs x).pid
              ∧ (s1.procs x).state = (sched_three.procs x).state
              ∧ (s1.procs x).name = (sched_three.procs x).name)
          ∧ s1.heap = free sched_three.heap q
          ∧ s1.current_process = sched_three.current_process
          ∧ s1.next_pid = sched_three.next_pid)
      ∧ ((∀ x, x ∈ [100, 200, 300] → (sched_three.procs x).pid ≠ 2) →
          destroy_process 4 sched_three 2 = some sched_three))
    ∧ ((∀ x, x ∈ [100, 200, 300] → (sched_three.procs x).pid ≠ 7) →
          destroy_process 4 sched_three 7 = some sched_three) :=
  ⟨destroy_process_unlinks sched_three [100, 200, 300] 2 4 (by decide) (by decide),
    (destroy_process_unlinks sched_three [100, 200, 300] 7 4 (by decide) (by decide)).2⟩

/-! ### Process ids -/

theorem first_split (P : Nat → Prop) [DecidablePred P] :
    ∀ (ps : List Nat), (∀ x, x ∈ ps → ¬ P x)
      ∨ ∃ pre q post, ps = pre ++ q :: post ∧ P q ∧ ∀ x, x ∈ pre → ¬ P x := by
  intro ps
  induction ps with
  | nil => left; intro x hx; cases hx
  | cons a t ih =>
    by_cases ha : P a
    · right
      exact ⟨[], a, t, rfl, ha, fun x hx => by cases hx⟩
    · rcases ih with h | ⟨pre, q, post, e, hq, hpre⟩
      · left
        intro x hx
        rcases List.mem_cons.1 hx with e | hm
        · rw [e]; exact ha
        · exact h x hm
      · right
        refine ⟨a :: pre, q, post, by rw [e]; rfl, hq, ?_⟩
        intro x hx
        rcases List.mem_cons.1 hx with e | hm
        · rw [e]; exact ha
        · exact hpre x hm

theorem create_process_ptr (fuel : Nat) (s : SchedState) (name : List Nat) (entry : Nat)
    (h : HeapState) (p : Nat) (hm : malloc fuel s.heap SIZEOF_PROCESS = some (h, p))
    (hp : p ≠ 0) :
    create_process fuel s name entry
      = some ({ heap := h
                procs := fun a =>
                  if a = p then
                    { pid := s.next_pid % 4294967296, state := PROC_READY, esp := 0, ebp := 0,
                      page_directory := 0, next := s.process_list, name := name }
                  else s.procs a
                process_list := p
                current_process := s.current_process
                next_pid := s.next_pid + 1 }, p) := by
  unfold create_process kmalloc
  rw [hm]
  dsimp only
  rw [if_neg hp]

theorem create_process_null (fuel : Nat) (s : SchedState) (name : List Nat) (entry : Nat)
    (h : HeapState) (hm : malloc fuel s.heap SIZEOF_PROCESS = some (h, 0)) :
    create_process fuel s name entry = some ({ s with heap := h }, 0) := by
  unfold create_process kmalloc
  rw [hm]
  dsimp only
  rw [if_pos rfl]

/-- The outcome of `create_process`, by the result of `kmalloc`. -/
theorem create_process_cases (fuel : Nat) (s s1 : SchedState) (name : List Nat)
    (entry p : Nat) (hc : create_process fuel s name entry = some (s1, p)) :
    ∃ h, malloc fuel s.heap SIZEOF_PROCESS = some (h, p)
      ∧ (p = 0 → s1 = { s with heap := h })
      ∧ (p ≠ 0 →
          s1 = { heap := h
                 procs := fun a =>
                   if a = p then
                     { pid := s.next_pid % 4294967296, state := PROC_READY, esp := 0, ebp := 0,
                       page_directory := 0, next := s.process_list, name := name }
                   else s.procs a
                 process_list := p
                 current_process := s.current_process
                 next_pid := s.next_pid + 1 }) := by
  cases hm : malloc fuel s.heap SIZEOF_PROCESS with
  | none =>
    unfold create_process kmalloc at hc
    rw [hm] at hc
    cases hc
  | some r =>
    obtain ⟨h, p1⟩ := r
    by_cases hp : p1 = 0
    · subst hp
      rw [create_process_null fuel s name entry h hm] at hc
      have e := Option.some.inj hc
      have e1 := congrArg Prod.fst e
      have e2 := congrArg Prod.snd e
      dsimp only at e1 e2
      subst e2
      exact ⟨h, rfl, fun _ => e1.symm, fun hne => absurd rfl hne⟩
    · rw [create_process_ptr fuel s name entry h p1 hm hp] at hc
      have e := Option.some.inj hc
      have e1 := congrArg Prod.fst e
      have e2 := congrArg Prod.snd e
      dsimp only at e1 e2
      subst e2
      exact ⟨h, rfl, fun h0 => absurd h0 hp, fun _ => e1.symm⟩

/-- The invariant after a successful `create_process`. -/
theorem pidinv_create (s : SchedState) (pids ps live : List Nat) (h : HeapState)
    (name : List Nat) (p fuel : Nat) (hinv : PidInv s pids ps live)
    (hb : s.next_pid < 2147483647)
    (hm : malloc fuel s.heap SIZEOF_PROCESS = some (h, p)) (hp : p ≠ 0) :
    PidInv { heap := h
             procs := fun a =>
               if a = p then
                 { pid := s.next_pid % 4294967296, state := PROC_READY, esp := 0, ebp := 0,
                   page_directory := 0, next := s.process_list, name := name }
               else s.procs a
             process_list := p
             current_process := s.current_process
             next_pid := s.next_pid + 1 }
      (s.next_pid :: pids) (p :: ps) (p :: live) := by
  have hreach : Reach h (p :: live) := Reach.malloc_ptr hinv.heap (by decide) hm hp
  obtain ⟨bs, hh⟩ := reach_inv _ _ hreach
  have hpl : p ∉ live := (List.nodup_cons.1 hh.nodup).1
  have hpp : p ∉ ps := fun hm => hpl (hinv.alive p hm)
  have hmod : s.next_pid % 4294967296 = s.next_pid := Nat.mod_eq_of_lt (by omega)
  have hother : ∀ x, x ∈ ps →
      (if x = p then
          ({ pid := s.next_pid % 4294967296, state := PROC_READY, esp := 0, ebp := 0,
             page_directory := 0, next := s.process_list, name := name } : Process)
        else s.procs x) = s.procs x := by
    intro x hx
    rw [if_neg (fun e => hpp (by rw [← e]; exact hx))]
  refine ⟨?_, hreach, ?_, ?_, ?_, ?_, ?_⟩
  · rw [islist_cons]
    refine ⟨hp, rfl, ?_⟩
    dsimp only
    rw [if_pos rfl]
    dsimp only
    apply islist_congr s.procs _ ps _ _ hinv.list
    intro x hx
    rw [hother x hx]
  · intro x hx
    rcases List.mem_cons.1 hx with e | hm
    · rw [e]; exact List.mem_cons_self _ _
    · exact List.mem_cons_of_mem _ (hinv.alive x hm)
  · unfold pids_of
    rw [List.map_cons, List.nodup_cons]
    dsimp only
    rw [if_pos rfl]
    dsimp only
    have e : List.map (fun q => (if q = p then
          ({ pid := s.next_pid % 4294967296, state := PROC_READY, esp := 0, ebp := 0,
             page_directory := 0, next := s.process_list, name := name } : Process)
        else s.procs q).pid) ps = pids_of s ps := by
      unfold pids_of
      apply List.map_congr_left
      intro x hx
      rw [hother x hx]
    rw [e, hmod]
    refine ⟨?_, hinv.distinct⟩
    intro hmem
    unfold pids_of at hmem
    obtain ⟨x, hx, e2⟩ := List.mem_map.1 hmem
    have := hinv.below x hx
    omega
  · intro x hx
    dsimp only
    rcases List.mem_cons.1 hx with e | hm
    · rw [e, if_pos rfl]
      dsimp only
      omega
    · rw [hother x hm]
      have := hinv.below x hm
      omega
  · intro q hq
    dsimp only
    rcases List.mem_cons.1 hq with e | hm
    · omega
    · have := hinv.assigned q hm
      omega
  · dsimp only
    omega

/-- States that differ only in the state fields of control blocks and in
`current_process` share the invariant. -/
theorem pidinv_congr (s s1 : SchedState) (pids ps live : List Nat) (hinv : PidInv s pids ps live)
    (hheap : s1.heap = s.heap) (hlist : s1.process_list = s.process_list)
    (hpid : s1.next_pid = s.next_pid)
    (hf : ∀ x, (s1.procs x).pid = (s.procs x).pid ∧ (s1.procs x).next = (s.procs x).next) :
    PidInv s1 pids ps live := by
  refine ⟨?_, by rw [hheap]; exact hinv.heap, hinv.alive, ?_, ?_, ?_, by rw [hpid]; exact hinv.bound⟩
  · rw [hlist]
    exact islist_congr s.procs _ ps _ (fun x _ => (hf x).2) hinv.list
  · have e : pids_of s1 ps = pids_of s ps := by
      unfold pids_of
      apply List.map_congr_left
      intro x _
      exact (hf x).1
    rw [e]
    exact hinv.distinct
  · intro x hx
    rw [(hf x).1, hpid]
    exact hinv.below x hx
  · intro q hq
    rw [hpid]
    exact hinv.assigned q hq

/-- The outcome of `schedule`: only state fields and `current_process` change. -/
theorem schedule_frame (fuel : Nat) (s s1 : SchedState) (h : schedule fuel s = some s1) :
    s1.heap = s.heap ∧ s1.process_list = s.process_list ∧ s1.next_pid = s.next_pid
      ∧ ∀ x, (s1.procs x).pid = (s.procs x).pid ∧ (s1.procs x).next = (s.procs x).next := by
  unfold schedule at h
  by_cases hc : s.current_process = 0 ∨ s.process_list = 0
  · rw [if_pos hc] at h
    rw [← Option.some.inj h]
    exact ⟨rfl, rfl, rfl, fun _ => ⟨rfl, rfl⟩⟩
  · rw [if_neg hc] at h
    dsimp only at h
    cases hl : schedule_loop fuel s
        (if (s.procs s.current_process).next = 0 then s.process_list
          else (s.procs s.current_process).next) with
    | none => rw [hl] at h; cases h
    | some q =>
      rw [hl] at h
      dsimp only at h
      by_cases hq : q ≠ 0 ∧ q ≠ s.current_process
      · rw [if_pos hq] at h
        rw [← Option.some.inj h]
        refine ⟨rfl, rfl, rfl, fun x => ⟨?_, ?_⟩⟩
        · show (setProcState (setProcState s.procs s.current_process PROC_READY) q
            PROC_RUNNING x).pid = _
          rw [setProcState_pid, setProcState_pid]
        · show (setProcState (setProcState s.procs s.current_process PROC_READY) q
            PROC_RUNNING x).next = _
          rw [setProcState_next, setProcState_next]
      · rw [if_neg hq] at h
        rw [← Option.some.inj h]
        exact ⟨rfl, rfl, rfl, fun _ => ⟨rfl, rfl⟩⟩

/-- The invariant after `destroy_process`. -/
theorem pidinv_destroy (s s1 : SchedState) (pids ps live : List Nat) (fuel pid : Nat)
    (hinv : PidInv s pids ps live) (hd : destroy_process fuel s pid = some s1) :
    ∃ ps1 live1, PidInv s1 pids ps1 live1 := by
  have hmono := destroy_loop_mono s pid s1 fuel s.process_list 0 (ps.length + 1) hd
  rcases first_split (fun x => (s.procs x).pid = pid) ps with hnone | ⟨pre, q, post, e, hq, hpre⟩
  · have := destroy_process_missing s pid (fuel + (ps.length + 1)) ps hinv.list hnone (by omega)
    unfold destroy_process at this
    rw [hmono] at this
    rw [Option.some.inj this]
    exact ⟨ps, live, hinv⟩
  · subst e
    obtain ⟨s2, e1, e2, e3, e4, e5, e6⟩ := destroy_process_found s pid
      (fuel + ((pre ++ q :: post).length + 1)) q pre post hinv.list hq hpre (by simp; omega)
    unfold destroy_process at e1
    rw [hmono] at e1
    have es : s1 = s2 := Option.some.inj e1
    subst es
    have hnd := islist_nodup _ _ _ hinv.list
    have hsub : ∀ x, x ∈ pre ++ post → x ∈ pre ++ q :: post := by
      intro x hx
      rcases List.mem_append.1 hx with h1 | h1
      · exact List.mem_append_left _ h1
      · exact List.mem_append_right _ (List.mem_cons_of_mem _ h1)
    have hne : ∀ x, x ∈ pre ++ post → x ≠ q := by
      intro x hx
      apply not_mem_middle pre post q x hnd
      rcases List.mem_append.1 hx with h1 | h1
      · exact List.mem_append_right _ h1
      · exact List.mem_append_left _ h1
    refine ⟨pre ++ post, live.erase q, e2, ?_, ?_, ?_, ?_, ?_, by rw [e6]; exact hinv.bound⟩
    · rw [e4]
      exact Reach.free_ptr hinv.heap (hinv.alive q (by simp))
    · intro x hx
      exact (List.mem_erase_of_ne (hne x hx)).2 (hinv.alive x (hsub x hx))
    · have e : pids_of s1 (pre ++ post) = pids_of s (pre ++ post) := by
        unfold pids_of
        apply List.map_congr_left
        intro x _
        exact (e3 x).1
      rw [e]
      have hd2 := hinv.distinct
      unfold pids_of at hd2 ⊢
      rw [List.map_append] at hd2 ⊢
      rw [List.map_cons] at hd2
      exact (List.nodup_middle.1 hd2).of_cons
    · intro x hx
      rw [(e3 x).1, e6]
      exact hinv.below x (hsub x hx)
    · intro x hx
      rw [e6]
      exact hinv.assigned x hx

/-- The outcome of `init_scheduler`, by the result of its `create_process`. -/
theorem init_scheduler_cases (fuel : Nat) (s s1 : SchedState)
    (h : init_scheduler fuel s = some s1) :
    ∃ s2 p, create_process fuel { s with process_list := 0, current_process := 0 }
          kernel_name 0 = some (s2, p)
      ∧ s1 = { s2 with procs := setProcState s2.procs p PROC_RUNNING, current_process := p } := by
  unfold init_scheduler at h
  dsimp only at h
  cases hc : create_process fuel { s with process_list := 0, current_process := 0 }
      kernel_name 0 with
  | none => rw [hc] at h; cases h
  | some r =>
    obtain ⟨s2, p⟩ := r
    rw [hc] at h
    exact ⟨s2, p, rfl, (Option.some.inj h).symm⟩

/-- The invariant after `init_scheduler`. -/
theorem pidinv_init (hp : HeapState) (live : List Nat) (procs : Nat → Process) (fuel : Nat)
    (s : SchedState) (hr : Reach hp live)
    (h : init_scheduler fuel (sched_static hp procs) = some s) :
    ∃ ps live1, PidInv s (init_pids s) ps live1 := by
  obtain ⟨s2, p, hc, e⟩ := init_scheduler_cases fuel _ s h
  have hbase : PidInv
      { sched_static hp procs with process_list := 0, current_process := 0 } [] [] live :=
    ⟨rfl, hr, (fun x hx => by cases hx), List.nodup_nil, (fun x hx => by cases hx),
      (fun x hx => by cases hx), (by show (1 : Nat) ≤ 2147483647; omega)⟩
  obtain ⟨h2, hm, e0, e1⟩ := create_process_cases fuel _ s2 kernel_name 0 p hc
  by_cases hp0 : p = 0
  · have es2 := e0 hp0
    subst hp0
    rw [es2] at e
    have hpids : init_pids s = [] := by
      rw [e]
      unfold init_pids
      rw [if_pos rfl]
    rw [hpids]
    refine ⟨[], live, ?_, ?_, (fun x hx => by cases hx), List.nodup_nil,
      (fun x hx => by cases hx), (fun x hx => by cases hx), ?_⟩
    · rw [e]
      exact rfl
    · rw [e]
      exact Reach.malloc_null hr (by decide) hm
    · rw [e]
      show (1 : Nat) ≤ 2147483647
      omega
  · have es2 := e1 hp0
    have hinv := pidinv_create _ [] [] live h2 kernel_name p fuel hbase
      (by show (1 : Nat) < 2147483647; omega) hm hp0
    rw [← es2] at hinv
    have hpids : init_pids s = [1] := by
      rw [e]
      unfold init_pids
      dsimp only
      rw [if_neg hp0, setProcState_pid, es2]
      dsimp only
      rw [if_pos rfl]
      rfl
    rw [hpids]
    refine ⟨[p], p :: live, pidinv_congr s2 s _ _ _ hinv ?_ ?_ ?_ ?_⟩
    · rw [e]
    · rw [e]
    · rw [e]
    · intro x
      rw [e]
      exact ⟨setProcState_pid _ _ _ _, setProcState_next _ _ _ _⟩

/-- Every reachable scheduler state satisfies the pid invariant. -/
theorem sreach_inv (s : SchedState) (pids : List Nat) (h : SReach s pids) :
    ∃ ps live, PidInv s pids ps live := by
  induction h with
  | init hr hi => exact pidinv_init _ _ _ _ _ hr hi
  | @create_ptr s s1 pids fuel p entry name _ hb _ hc hp ih =>
    obtain ⟨ps, live, hinv⟩ := ih
    obtain ⟨h2, hm, _, e1⟩ := create_process_cases fuel s s1 name entry p hc
    have es := e1 hp
    have hinv1 := pidinv_create s pids ps live h2 name p fuel hinv hb hm hp
    rw [← es] at hinv1
    have hpid : (s1.procs p).pid = s.next_pid := by
      rw [es]
      dsimp only
      rw [if_pos rfl]
      exact Nat.mod_eq_of_lt (by omega)
    rw [hpid]
    exact ⟨_, _, hinv1⟩
  | @create_null s s1 pids fuel entry name _ _ _ hc ih =>
    obtain ⟨ps, live, hinv⟩ := ih
    obtain ⟨h2, hm, e0, _⟩ := create_process_cases fuel s s1 name entry 0 hc
    have es := e0 rfl
    refine ⟨ps, live, ?_⟩
    rw [es]
    exact ⟨hinv.list, Reach.malloc_null hinv.heap (by decide) hm, hinv.alive, hinv.distinct,
      hinv.below, hinv.assigned, hinv.bound⟩
  | destroy _ _ hd ih =>
    obtain ⟨ps, live, hinv⟩ := ih
    exact pidinv_destroy _ _ _ _ _ _ _ hinv hd
  | schedule _ hs ih =>
    obtain ⟨ps, live, hinv⟩ := ih
    obtain ⟨f1, f2, f3, f4⟩ := schedule_frame _ _ _ hs
    exact ⟨ps, live, pidinv_congr _ _ _ _ _ hinv f1 f2 f3 f4⟩
  | yield _ hs ih =>
    obtain ⟨ps, live, hinv⟩ := ih
    obtain ⟨f1, f2, f3, f4⟩ := schedule_frame _ _ _ hs
    exact ⟨ps, live, pidinv_congr _ _ _ _ _ hinv f1 f2 f3 f4⟩

theorem islist_null (procs : Nat → Process) (ps : List Nat) (h : IsProcList procs 0 ps) :
    ps = [] :=
  islist_unique procs ps [] 0 h rfl

/-- C16 failing input: `init_heap`, `init_scheduler`, then `sys_exit(0)` on zeroed
memory.  After `init_scheduler` exactly the kernel process is Running and
current.  `sys_exit` calls `destroy_process` on the current pid, which unlinks
and frees the control block without touching `current_process`: the process
list is empty, so no process in it is Running, and `current_process` still
holds the freed address 0x100010. -/
theorem sys_exit_leaves_no_running :
    init_scheduler 2 sched_boot = some sched_after_init
      ∧ SingleRunning sched_after_init
      ∧ sys_exit 2 sched_after_init 0 = some (sched_after_exit, 0)
      ∧ SReach sched_after_exit [1]
      ∧ sched_after_exit.process_list = 0
      ∧ sched_after_exit.current_process = 1048592
      ∧ IsProcList sched_after_exit.procs sched_after_exit.process_list []
      ∧ ¬ SingleRunning sched_after_exit :=
  ⟨by rfl, ⟨[1048592], by decide, by decide, by decide⟩, by rfl,
    @SReach.destroy sched_after_init sched_after_exit [1] 2 1
      (@SReach.init (init_heap heap_zero) [] procs_zero 2 sched_after_init
        (Reach.init heap_zero) (by rfl))
      (by decide) (by rfl),
    rfl, rfl, rfl,
    fun ⟨ps, h1, h2, _⟩ => by
      have e := islist_null _ ps h1
      rw [e] at h2
      cases h2⟩

/-! ### Claims about message passing -/

theorem ismsglist_nil (msgs : Nat → Message) (a : Nat) : IsMsgList msgs a [] ↔ a = 0 := by
  unfold IsMsgList
  exact Iff.rfl

theorem ismsglist_cons (msgs : Nat → Message) (a m : Nat) (ms : List Nat) :
    IsMsgList msgs a (m :: ms) ↔ a ≠ 0 ∧ a = m ∧ IsMsgList msgs (msgs a).next ms := by
  rw [IsMsgList]

theorem receive_loop_null (s : IpcState) (pid sp tp buf c prev f : Nat) :
    receive_message_loop (f + 1) s pid sp tp buf c 0 prev = some (s, -1) := by
  rw [receive_message_loop, if_pos rfl]

theorem receive_loop_next (s : IpcState) (pid sp tp buf c msg prev f : Nat) (h0 : msg ≠ 0)
    (hne : (s.msgs msg).receiver_pid ≠ pid) :
    receive_message_loop (f + 1) s pid sp tp buf c msg prev
      = receive_message_loop f s pid sp tp buf c (s.msgs msg).next msg := by
  rw [receive_message_loop, if_neg h0, if_neg hne]

/-- The loop of `receive_message` on a queue without a message for `pid`. -/
theorem receive_loop_miss (s : IpcState) (pid sp tp buf c : Nat) :
    ∀ (ms : List Nat) (cur prev fuel : Nat), IsMsgList s.msgs cur ms →
      (∀ m, m ∈ ms → (s.msgs m).receiver_pid ≠ pid) → ms.length + 1 ≤ fuel →
      receive_message_loop fuel s pid sp tp buf c cur prev = some (s, -1) := by
  intro ms
  induction ms with
  | nil =>
    intro cur prev fuel h _ hf
    rw [ismsglist_nil] at h
    obtain ⟨f, rfl⟩ : ∃ f, fuel = f + 1 := ⟨fuel - 1, by simp at hf; omega⟩
    rw [h]
    exact receive_loop_null s pid sp tp buf c prev f
  | cons m ms ih =>
    intro cur prev fuel h hnone hf
    rw [ismsglist_cons] at h
    obtain ⟨h1, h2, h3⟩ := h
    obtain ⟨f, rfl⟩ : ∃ f, fuel = f + 1 := ⟨fuel - 1, by simp at hf; omega⟩
    rw [receive_loop_next s pid sp tp buf c cur prev f h1
      (by rw [h2]; exact hnone m (List.mem_cons_self _ _))]
    exact ih _ _ f h3 (fun x hx => hnone x (List.mem_cons_of_mem _ hx)) (by simp at hf ⊢; omega)

/-- C20: when the message queue is the list `ms`, no message of it has
`receiver_pid` equal to the pid of the current process, and the fuel covers one
pass over the queue, `receive_message` returns -1 and the whole state (the
queue, the output locations for sender and type, the buffer) is unchanged. -/
theorem receive_message_miss (s : IpcState) (ms : List Nat)
    (fuel sender_pid type buffer buffer_size : Nat)
    (hq : IsMsgList s.msgs s.message_queue ms)
    (hnone : ∀ m, m ∈ ms →
      (s.msgs m).receiver_pid ≠ (s.sched.procs s.sched.current_process).pid)
    (hfuel : ms.length + 1 ≤ fuel) :
    receive_message fuel s sender_pid type buffer buffer_size = some (s, -1) := by
  unfold receive_message get_current_process
  exact receive_loop_miss s _ sender_pid type buffer buffer_size ms _ 0 fuel hq hnone hfuel

/-- C20 witness: the queue holds one message for pid 2 while the process with
pid 1 is current. -/
theorem receive_message_miss_witness :
    receive_message 2 ipc_one_message 8000 8004 6000 16 = some (ipc_one_message, -1) :=
  receive_message_miss ipc_one_message [700] 2 8000 8004 6000 16 (by decide) (by decide)
    (by decide)

/-- The same call with the receive buffer at the sender location: the copy into
the buffer runs after the two output words have been written, so the sender
location ends up holding the three payload bytes, 11 + 22 * 256 + 33 * 65536,
and not A's pid 1. -/
theorem receive_overlap_example :
    (send_then_receive 3 ipc_boot 2 7 5000 3 200 8000 8004 8000 16).map
        (fun r => (r.1, r.2.1, load32 r.2.2.bytes 8000, load32 r.2.2.bytes 8004))
      = some (0, 3, 2168331, 7) := by
  rfl

/-! ### Interrupt gates and system-call dispatch -/

/-- The two 16-bit halves that `set_idt_gate` stores give back the handler
address. -/
theorem idt_offset_join (h : Nat) (hh : h < 4294967296) :
    (((h >>> 16) &&& 0xFFFF) <<< 16) ||| (h &&& 0xFFFF) = h := by
  have e1 : h &&& 0xFFFF = h % 2 ^ 16 := Nat.and_pow_two_sub_one_eq_mod h 16
  have e2 : (h >>> 16) &&& 0xFFFF = (h >>> 16) % 2 ^ 16 :=
    Nat.and_pow_two_sub_one_eq_mod (h >>> 16) 16
  rw [e1, e2, Nat.shiftRight_eq_div_pow, Nat.shiftLeft_eq, Nat.mul_comm,
    ← Nat.mul_add_lt_is_or (Nat.mod_lt h (by decide)) (h / 2 ^ 16 % 2 ^ 16)]
  have : h / 2 ^ 16 < 2 ^ 16 := by
    rw [Nat.div_lt_iff_lt_mul (by decide)]
    exact hh
  rw [Nat.mod_eq_of_lt this]
  exact Nat.div_add_mod h (2 ^ 16)

/-- C30: for every vector `n` and every 32-bit handler address `h`, after
`set_idt_gate(n, h)` entry `n` has selector 0x08, zero byte 0, type/attribute
0x8E (present bit set, privilege level 0, gate type 0xE, the 32-bit interrupt
gate), its two offset halves are 16-bit values with
`(offset_high << 16) | offset_low = h`, and every other IDT entry is
unchanged. -/
theorem set_idt_gate_encoding (s : InterruptState) (n : Int) (h : Nat)
    (hh : h < 4294967296) :
    ((set_idt_gate s n h).idt n).selector = 0x08
      ∧ ((set_idt_gate s n h).idt n).zero = 0
      ∧ ((set_idt_gate s n h).idt n).type_attr = 0x8E
      ∧ (((set_idt_gate s n h).idt n).type_attr.testBit 7 = true
          ∧ (((set_idt_gate s n h).idt n).type_attr >>> 5) &&& 3 = 0
          ∧ ((set_idt_gate s n h).idt n).type_attr &&& 0x1F = 0x0E)
      ∧ ((set_idt_gate s n h).idt n).offset_low < 65536
      ∧ ((set_idt_gate s n h).idt n).offset_high < 65536
      ∧ (((set_idt_gate s n h).idt n).offset_high <<< 16)
          ||| ((set_idt_gate s n h).idt n).offset_low = h
      ∧ ∀ i, i ≠ n → (set_idt_gate s n h).idt i = s.idt i := by
  have e : (set_idt_gate s n h).idt n
      = { offset_low := h &&& 0xFFFF, selector := 0x08, zero := 0, type_attr := 0x8E,
          offset_high := (h >>> 16) &&& 0xFFFF } := by
    unfold set_idt_gate
    dsimp only
    rw [if_pos rfl]
  rw [e]
  dsimp only
  refine ⟨rfl, rfl, rfl, ⟨by decide, by decide, by decide⟩, ?_, ?_, idt_offset_join h hh, ?_⟩
  · exact Nat.lt_of_le_of_lt Nat.and_le_right (by decide)
  · exact Nat.lt_of_le_of_lt Nat.and_le_right (by decide)
  · intro i hi
    unfold set_idt_gate
    dsimp only
    rw [if_neg hi]

/-- C30 witness: the system-call gate, vector 0x80, with the handler address
0x00123456. -/
theorem set_idt_gate_encoding_witness :
    (1193046 : Nat) < 4294967296
      ∧ ((set_idt_gate (interrupt_zero sched_zero) 128 1193046).idt 128).selector = 0x08
      ∧ ((set_idt_gate (interrupt_zero sched_zero) 128 1193046).idt 128).offset_low = 0x3456
      ∧ ((set_idt_gate (interrupt_zero sched_zero) 128 1193046).idt 128).offset_high = 0x12 :=
  ⟨by decide, (set_idt_gate_encoding (interrupt_zero sched_zero) 128 1193046 (by decide)).1,
    by decide, by decide⟩

/-- C24: for every call number `num < 0` or `num >= 11` `syscall_handler`
returns -1 and the kernel state it was given, whatever the eleven handlers are
(none of them is applied); for every `0 <= num <= 10` it returns what entry
`num` of `syscall_table` returns on the three arguments, and the table has the
eleven entries `sys_exit` ... `sys_free` in this order. -/
theorem syscall_dispatch_closed {σ : Type} (f : Syscalls σ) (s : σ) (num arg1 arg2 arg3 : Int) :
    NUM_SYSCALLS f = 11
      ∧ ((num < 0 ∨ num ≥ 11) → syscall_handler f s num arg1 arg2 arg3 = some (s, -1))
      ∧ (∀ h : num.toNat < (syscall_table f).length, 0 ≤ num →
          syscall_handler f s num arg1 arg2 arg3
            = (syscall_table f).get ⟨num.toNat, h⟩ s arg1 arg2 arg3)
      ∧ (num = 0 → syscall_handler f s num arg1 arg2 arg3 = f.sys_exit s arg1 arg2 arg3)
      ∧ (num = 1 → syscall_handler f s num arg1 arg2 arg3 = f.sys_write s arg1 arg2 arg3)
      ∧ (num = 2 → syscall_handler f s num arg1 arg2 arg3 = f.sys_read s arg1 arg2 arg3)
      ∧ (num = 3 → syscall_handler f s num arg1 arg2 arg3 = f.sys_open s arg1 arg2 arg3)
      ∧ (num = 4 → syscall_handler f s num arg1 arg2 arg3 = f.sys_close s arg1 arg2 arg3)
      ∧ (num = 5 → syscall_handler f s num arg1 arg2 arg3 = f.sys_fork s arg1 arg2 arg3)
      ∧ (num = 6 → syscall_handler f s num arg1 arg2 arg3 = f.sys_exec s arg1 arg2 arg3)
      ∧ (num = 7 → syscall_handler f s num arg1 arg2 arg3 = f.sys_getpid s arg1 arg2 arg3)
      ∧ (num = 8 → syscall_handler f s num arg1 arg2 arg3 = f.sys_sleep s arg1 arg2 arg3)
      ∧ (num = 9 → syscall_handler f s num arg1 arg2 arg3 = f.sys_malloc s arg1 arg2 arg3)
      ∧ (num = 10 → syscall_handler f s num arg1 arg2 arg3 = f.sys_free s arg1 arg2 arg3) := by
  have hn : NUM_SYSCALLS f = 11 := rfl
  have hl : (syscall_table f).length = 11 := rfl
  have hget : ∀ h : num.toNat < (syscall_table f).length, 0 ≤ num →
      syscall_handler f s num arg1 arg2 arg3
        = (syscall_table f).get ⟨num.toNat, h⟩ s arg1 arg2 arg3 := by
    intro h h0
    unfold syscall_handler
    rw [dif_pos]
    refine ⟨h0, ?_⟩
    unfold NUM_SYSCALLS
    omega
  have hk : ∀ k : Nat, ∀ hk : k < (syscall_table f).length, num = (k : Int) →
      syscall_handler f s num arg1 arg2 arg3
        = (syscall_table f).get ⟨k, hk⟩ s arg1 arg2 arg3 := by
    intro k hk e
    subst e
    exact hget hk (Int.ofNat_nonneg k)
  refine ⟨hn, ?_, hget, ?_, ?_, ?_, ?_, ?_, ?_, ?_, ?_, ?_, ?_, ?_⟩
  · intro h
    unfold syscall_handler
    rw [dif_neg]
    rw [hn]
    omega
  · exact fun e => hk 0 (by rw [hl]; omega) e
  · exact fun e => hk 1 (by rw [hl]; omega) e
  · exact fun e => hk 2 (by rw [hl]; omega) e
  · exact fun e => hk 3 (by rw [hl]; omega) e
  · exact fun e => hk 4 (by rw [hl]; omega) e
  · exact fun e => hk 5 (by rw [hl]; omega) e
  · exact fun e => hk 6 (by rw [hl]; omega) e
  · exact fun e => hk 7 (by rw [hl]; omega) e
  · exact fun e => hk 8 (by rw [hl]; omega) e
  · exact fun e => hk 9 (by rw [hl]; omega) e
  · exact fun e => hk 10 (by rw [hl]; omega) e

/-! ### Console output leaves the other statics alone -/

theorem print_char_fields (s : InterruptState) (c color : Nat) :
    (print_char s c color).key_buffer = s.key_buffer
      ∧ (print_char s c color).key_buffer_pos = s.key_buffer_pos
      ∧ (print_char s c color).key_accesses = s.key_accesses
      ∧ (print_char s c color).port_writes = s.port_writes
      ∧ (print_char s c color).sched = s.sched
      ∧ (print_char s c color).timer_ticks = s.timer_ticks
      ∧ (print_char s c color).schedule_calls = s.schedule_calls
      ∧ (print_char s c color).idt = s.idt := by
  unfold print_char
  dsimp only
  split_ifs <;> exact ⟨rfl, rfl, rfl, rfl, rfl, rfl, rfl, rfl⟩

theorem print_chars_fields (color : Nat) (str : List Nat) :
    ∀ s : InterruptState,
      (str.foldl (fun s c => print_char s c color) s).key_buffer = s.key_buffer
      ∧ (str.foldl (fun s c => print_char s c color) s).key_buffer_pos = s.key_buffer_pos
      ∧ (str.foldl (fun s c => print_char s c color) s).key_accesses = s.key_accesses
      ∧ (str.foldl (fun s c => print_char s c color) s).port_writes = s.port_writes
      ∧ (str.foldl (fun s c => print_char s c color) s).sched = s.sched
      ∧ (str.foldl (fun s c => print_char s c color) s).timer_ticks = s.timer_ticks
      ∧ (str.foldl (fun s c => print_char s c color) s).schedule_calls = s.schedule_calls
      ∧ (str.foldl (fun s c => print_char s c color) s).idt = s.idt := by
  induction str with
  | nil => intro s; exact ⟨rfl, rfl, rfl, rfl, rfl, rfl, rfl, rfl⟩
  | cons c t ih =>
    intro s
    rw [List.foldl_cons]
    obtain ⟨a1, a2, a3, a4, a5, a6, a7, a8⟩ := ih (print_char s c color)
    obtain ⟨b1, b2, b3, b4, b5, b6, b7, b8⟩ := print_char_fields s c color
    exact ⟨a1.trans b1, a2.trans b2, a3.trans b3, a4.trans b4, a5.trans b5, a6.trans b6,
      a7.trans b7, a8.trans b8⟩

theorem update_cursor_fields (s : InterruptState) :
    (update_cursor s).key_buffer = s.key_buffer
      ∧ (update_cursor s).key_buffer_pos = s.key_buffer_pos
      ∧ (update_cursor s).key_accesses = s.key_accesses
      ∧ (update_cursor s).sched = s.sched
      ∧ (update_cursor s).timer_ticks = s.timer_ticks
      ∧ (update_cursor s).schedule_calls = s.schedule_calls
      ∧ (update_cursor s).idt = s.idt
      ∧ ∃ a b, (update_cursor s).port_writes
          = s.port_writes ++ [(0x3D4, 0x0F), (0x3D5, a), (0x3D4, 0x0E), (0x3D5, b)] := by
  refine ⟨rfl, rfl, rfl, rfl, rfl, rfl, rfl,
    ((s.cursor_y * VGA_WIDTH + s.cursor_x) % 256).toNat,
    (((s.cursor_y * VGA_WIDTH + s.cursor_x) >>> 8) % 256).toNat, ?_⟩
  unfold update_cursor outb
  dsimp only
  rw [List.append_assoc, List.append_assoc, List.append_assoc]
  rfl

/-- The function `print` changes the screen and the cursor only, and ends with the
four cursor writes to the ports 0x3D4 and 0x3D5. -/
theorem print_fields (s : InterruptState) (str : List Nat) :
    (print s str).key_buffer = s.key_buffer
      ∧ (print s str).key_buffer_pos = s.key_buffer_pos
      ∧ (print s str).key_accesses = s.key_accesses
      ∧ (print s str).sched = s.sched
      ∧ (print s str).timer_ticks = s.timer_ticks
      ∧ (print s str).schedule_calls = s.schedule_calls
      ∧ (print s str).idt = s.idt
      ∧ ∃ a b, (print s str).port_writes
          = s.port_writes ++ [(0x3D4, 0x0F), (0x3D5, a), (0x3D4, 0x0E), (0x3D5, b)] := by
  unfold print print_colored
  obtain ⟨a1, a2, a3, a4, a5, a6, a7, a8⟩ := print_chars_fields VGA_COLOR_WHITE str s
  obtain ⟨b1, b2, b3, b5, b6, b7, b8, a, b, b4⟩ :=
    update_cursor_fields (str.foldl (fun s c => print_char s c VGA_COLOR_WHITE) s)
  refine ⟨b1.trans a1, b2.trans a2, b3.trans a3, b5.trans a5, b6.trans a6, b7.trans a7,
    b8.trans a8, a, b, ?_⟩
  rw [b4, a4]

/-! ### The keyboard handler, case by case -/

theorem keyboard_handler_eq (s : InterruptState) (scancode : Nat) :
    keyboard_handler s scancode
      = if scancode < 128 ∧ keymap.getD scancode 0 ≠ 0 then
          if keymap.getD scancode 0 ≥ 32 ∧ keymap.getD scancode 0 ≤ 126 then
            print (key_append s (keymap.getD scancode 0)) [keymap.getD scancode 0]
          else if keymap.getD scancode 0 = 10 then
            print (key_append s (keymap.getD scancode 0)) [10]
          else if keymap.getD scancode 0 = 8 then
            key_backspace (key_append s (keymap.getD scancode 0))
          else key_append s (keymap.getD scancode 0)
        else s := by
  unfold keyboard_handler key_backspace key_append
  dsimp only
  by_cases h : s.key_buffer_pos < 255
  · simp only [if_pos h]
    rfl
  · simp only [if_neg h]

theorem keymap_backspace : keymap.getD 14 0 = 8 := by decide

theorem keyboard_handler_backspace (s : InterruptState) :
    keyboard_handler s 14 = key_backspace (key_append s 8) := by
  rw [keyboard_handler_eq, keymap_backspace]
  rw [if_pos (by decide), if_neg (by decide), if_neg (by decide), if_pos rfl]

theorem buffered_congr (s t : InterruptState) (k : Nat)
    (h : ∀ i : Nat, i < k → t.key_buffer (i : Int) = s.key_buffer (i : Int)) :
    buffered t k = buffered s k := by
  unfold buffered
  apply List.map_congr_left
  intro i hi
  exact h i (List.mem_range.1 hi)

/-- C27 (fails on the code): with `k` characters buffered, `1 <= k <= 254`,
handling the backspace make-code 0x0E leaves `key_buffer_pos` at `k` and the
first `k` bytes of the buffer as they were: the handler first appends the
character `'\b'` that the scancode translates to, and the backspace branch then
removes only that byte, so the last buffered character is not removed. -/
theorem backspace_keeps_buffer (s : InterruptState) (k : Nat) (hk : 1 ≤ k) (hlt : k < 255)
    (hpos : s.key_buffer_pos = (k : Int)) :
    (keyboard_handler s 14).key_buffer_pos = (k : Int)
      ∧ buffered (keyboard_handler s 14) k = buffered s k
      ∧ (keyboard_handler s 14).key_buffer (k : Int) = 0 := by
  have e : keyboard_handler s 14
      = key_store
          { key_store
              { key_store s s.key_buffer_pos 8 with key_buffer_pos := s.key_buffer_pos + 1 }
              (s.key_buffer_pos + 1) 0 with key_buffer_pos := s.key_buffer_pos + 1 - 1 }
          (s.key_buffer_pos + 1 - 1) 0 := by
    rw [keyboard_handler_backspace]
    unfold key_append
    rw [if_pos (by rw [hpos]; omega)]
    unfold key_backspace
    rw [if_pos (by show s.key_buffer_pos + 1 > 0; rw [hpos]; omega)]
    rfl
  rw [e, hpos]
  refine ⟨by show (k : Int) + 1 - 1 = k; omega, ?_, ?_⟩
  · apply buffered_congr
    intro i hi
    unfold key_store
    dsimp only
    rw [if_neg (by omega), if_neg (by omega), if_neg (by omega)]
  · unfold key_store
    dsimp only
    rw [if_pos (by omega)]

/-- C27 failing input: the buffer holds the one character `a` and the backspace
make-code arrives; afterwards the buffer still holds `a` at position 1. -/
theorem backspace_keeps_buffer_witness :
    (1 ≤ 1 ∧ 1 < 255 ∧ (keys_of [97]).key_buffer_pos = 1)
      ∧ buffered (keys_of [97]) 1 = [97]
      ∧ (keyboard_handler (keys_of [97]) 14).key_buffer_pos = 1
      ∧ buffered (keyboard_handler (keys_of [97]) 14) 1 = buffered (keys_of [97]) 1 :=
  ⟨⟨by decide, by decide, rfl⟩, by decide,
    (backspace_keeps_buffer (keys_of [97]) 1 (by decide) (by decide) rfl).1,
    (backspace_keeps_buffer (keys_of [97]) 1 (by decide) (by decide) rfl).2.1⟩

/-! ### The key buffer: `getchar` -/

/-- The shifting loop of `getchar` after `n` iterations. -/
theorem getchar_shift_spec (s : InterruptState) :
    ∀ n : Nat,
      (getchar_shift s n).key_buffer_pos = s.key_buffer_pos
        ∧ (∀ i : Int, (getchar_shift s n).key_buffer i
            = if 0 ≤ i ∧ i < (n : Int) then s.key_buffer (i + 1) else s.key_buffer i)
        ∧ (∀ i, i ∈ (getchar_shift s n).key_accesses →
            i ∈ s.key_accesses ∨ (0 ≤ i ∧ i ≤ (n : Int))) := by
  intro n
  induction n with
  | zero =>
    refine ⟨rfl, fun i => ?_, fun i hi => Or.inl hi⟩
    rw [if_neg (by omega)]
    rfl
  | succ n ih =>
    obtain ⟨h1, h2, h3⟩ := ih
    refine ⟨h1, fun i => ?_, fun i hi => ?_⟩
    · show (if i = (n : Int) then (getchar_shift s n).key_buffer ((n : Int) + 1)
          else (getchar_shift s n).key_buffer i) = _
      rw [h2, h2]
      by_cases e : i = (n : Int)
      · rw [if_pos e, if_neg (by omega), if_pos (by omega), e]
      · rw [if_neg e]
        by_cases c : 0 ≤ i ∧ i < (n : Int)
        · rw [if_pos c, if_pos (by omega)]
        · rw [if_neg c, if_neg (by omega)]
    · have hi2 : i ∈ ((getchar_shift s n).key_accesses ++ [(n : Int) + 1]) ++ [(n : Int)] := hi
      rw [List.mem_append, List.mem_append, List.mem_singleton, List.mem_singleton] at hi2
      rcases hi2 with (hm | e) | e
      · rcases h3 i hm with h | h
        · exact Or.inl h
        · exact Or.inr ⟨h.1, by omega⟩
      · exact Or.inr (by omega)
      · exact Or.inr (by omega)

/-- What `getchar` does on a non-empty buffer. -/
theorem getchar_spec (s : InterruptState) (hpos : 0 < s.key_buffer_pos) :
    ∃ s1, getchar s = some (s1, s.key_buffer 0)
      ∧ s1.key_buffer_pos = s.key_buffer_pos - 1
      ∧ (∀ i : Int, s1.key_buffer i
          = if i = s.key_buffer_pos - 1 then 0
            else if 0 ≤ i ∧ i < s.key_buffer_pos - 1 then s.key_buffer (i + 1)
            else s.key_buffer i)
      ∧ (∀ i, i ∈ s1.key_accesses →
          i ∈ s.key_accesses ∨ (0 ≤ i ∧ i ≤ s.key_buffer_pos - 1)) := by
  obtain ⟨h1, h2, h3⟩ := getchar_shift_spec (key_load s 0).1 (s.key_buffer_pos - 1).toNat
  have hn : (((s.key_buffer_pos - 1).toNat : Nat) : Int) = s.key_buffer_pos - 1 :=
    Int.toNat_of_nonneg (by omega)
  refine ⟨key_store
      { getchar_shift (key_load s 0).1 (s.key_buffer_pos - 1).toNat with
        key_buffer_pos :=
          (getchar_shift (key_load s 0).1 (s.key_buffer_pos - 1).toNat).key_buffer_pos - 1 }
      ((getchar_shift (key_load s 0).1 (s.key_buffer_pos - 1).toNat).key_buffer_pos - 1) 0,
    ?_, ?_, ?_, ?_⟩
  · unfold getchar
    rw [if_neg (by omega)]
    rfl
  · show (getchar_shift (key_load s 0).1 (s.key_buffer_pos - 1).toNat).key_buffer_pos - 1 = _
    rw [h1]
    rfl
  · intro i
    show (if i = (getchar_shift (key_load s 0).1 (s.key_buffer_pos - 1).toNat).key_buffer_pos - 1
        then 0 else (getchar_shift (key_load s 0).1 (s.key_buffer_pos - 1).toNat).key_buffer i)
      = _
    rw [h1, h2, hn]
    rfl
  · intro i hi
    have hi2 : i ∈ (getchar_shift (key_load s 0).1 (s.key_buffer_pos - 1).toNat).key_accesses
        ++ [(getchar_shift (key_load s 0).1 (s.key_buffer_pos - 1).toNat).key_buffer_pos - 1] :=
      hi
    rw [List.mem_append, List.mem_singleton, h1] at hi2
    rcases hi2 with hm | e
    · rcases h3 i hm with h | h
      · have h4 : i ∈ s.key_accesses ++ [0] := h
        rw [List.mem_append, List.mem_singleton] at h4
        rcases h4 with h5 | h5
        · exact Or.inl h5
        · exact Or.inr (by omega)
      · rw [hn] at h
        exact Or.inr h
    · have e2 : i = s.key_buffer_pos - 1 := e
      exact Or.inr (by omega)

theorem buffered_succ (s : InterruptState) (k : Nat) :
    buffered s (k + 1)
      = s.key_buffer 0 :: (List.range k).map fun (i : Nat) => s.key_buffer ((i : Int) + 1) := by
  unfold buffered
  rw [List.range_succ_eq_map, List.map_cons, List.map_map]
  rfl

/-- Reading a buffer of `k` characters `k` times returns them in buffer order. -/
theorem getchar_calls_spec :
    ∀ (k : Nat) (s : InterruptState), s.key_buffer_pos = (k : Int) →
      ∃ s2, getchar_calls k s = some (s2, buffered s k) ∧ s2.key_buffer_pos = 0 := by
  intro k
  induction k with
  | zero => intro s h; exact ⟨s, rfl, h⟩
  | succ k ih =>
    intro s h
    obtain ⟨s1, g1, g2, g3, _⟩ := getchar_spec s (by rw [h]; omega)
    have hp1 : s1.key_buffer_pos = (k : Int) := by rw [g2, h]; omega
    obtain ⟨s2, c1, c2⟩ := ih s1 hp1
    refine ⟨s2, ?_, c2⟩
    unfold getchar_calls
    rw [g1]
    dsimp only
    rw [c1]
    dsimp only
    rw [buffered_succ]
    have : buffered s1 k = (List.range k).map fun (i : Nat) => s.key_buffer ((i : Int) + 1) := by
      unfold buffered
      apply List.map_congr_left
      intro i hi
      have hi2 := List.mem_range.1 hi
      rw [g3, if_neg (by rw [h]; omega), if_pos (by rw [h]; omega)]
    rw [this]

/-- C28: on a buffer holding the `k >= 1` characters `c0 c1 ... c(k-1)`,
`getchar` returns `c0` and leaves the buffer holding `c1 ... c(k-1)` with
position `k - 1` (and the terminator there); `k` consecutive calls return
`c0, c1, ..., c(k-1)` in this order and leave the buffer empty. -/
theorem getchar_fifo (s : InterruptState) (k : Nat) (hk : 1 ≤ k)
    (hpos : s.key_buffer_pos = (k : Int)) :
    ∃ s1, getchar s = some (s1, s.key_buffer 0)
      ∧ (buffered s k).head? = some (s.key_buffer 0)
      ∧ s1.key_buffer_pos = (k : Int) - 1
      ∧ buffered s1 (k - 1) = (buffered s k).tail
      ∧ s1.key_buffer ((k : Int) - 1) = 0
      ∧ ∃ s2, getchar_calls k s = some (s2, buffered s k) ∧ s2.key_buffer_pos = 0 := by
  obtain ⟨j, rfl⟩ : ∃ j, k = j + 1 := ⟨k - 1, by omega⟩
  obtain ⟨s1, g1, g2, g3, _⟩ := getchar_spec s (by rw [hpos]; omega)
  refine ⟨s1, g1, ?_, by rw [g2, hpos], ?_, ?_, getchar_calls_spec (j + 1) s hpos⟩
  · rw [buffered_succ]
    rfl
  · rw [buffered_succ, List.tail_cons, Nat.add_sub_cancel]
    unfold buffered
    apply List.map_congr_left
    intro i hi
    have hi2 := List.mem_range.1 hi
    rw [g3, if_neg (by rw [hpos]; omega), if_pos (by rw [hpos]; omega)]
  · rw [g3, if_pos (by rw [hpos])]

/-- C28 witness: the buffer holds `a`, `b`, `c`; the first call returns `a`, and
three calls return `a`, `b`, `c`. -/
theorem getchar_fifo_witness :
    (1 ≤ 3 ∧ (keys_of [97, 98, 99]).key_buffer_pos = 3)
      ∧ buffered (keys_of [97, 98, 99]) 3 = [97, 98, 99]
      ∧ ∃ s1, getchar (keys_of [97, 98, 99]) = some (s1, (keys_of [97, 98, 99]).key_buffer 0)
        ∧ (buffered (keys_of [97, 98, 99]) 3).head? = some ((keys_of [97, 98, 99]).key_buffer 0)
        ∧ s1.key_buffer_pos = 3 - 1
        ∧ buffered s1 (3 - 1) = (buffered (keys_of [97, 98, 99]) 3).tail
        ∧ s1.key_buffer (3 - 1) = 0
        ∧ ∃ s2, getchar_calls 3 (keys_of [97, 98, 99])
              = some (s2, buffered (keys_of [97, 98, 99]) 3)
            ∧ s2.key_buffer_pos = 0 :=
  ⟨⟨by decide, rfl⟩, by decide, getchar_fifo (keys_of [97, 98, 99]) 3 (by decide) rfl⟩

/-! ### The key buffer stays within its 256 bytes -/

theorem kinv_append (s : InterruptState) (key : Nat) (h : KInv s) : KInv (key_append s key) := by
  obtain ⟨h0, h1, h2, h3⟩ := h
  unfold key_append
  by_cases c : s.key_buffer_pos < 255
  · rw [if_pos c]
    refine ⟨?_, ?_, ?_, ?_⟩
    · show 0 ≤ s.key_buffer_pos + 1
      omega
    · show s.key_buffer_pos + 1 ≤ 255
      omega
    · show (if s.key_buffer_pos + 1 = s.key_buffer_pos + 1 then 0 else _) = 0
      rw [if_pos rfl]
    · intro i hi
      have hi2 : i ∈ (s.key_accesses ++ [s.key_buffer_pos]) ++ [s.key_buffer_pos + 1] := hi
      rw [List.mem_append, List.mem_append, List.mem_singleton, List.mem_singleton] at hi2
      rcases hi2 with (hm | e) | e
      · exact h3 i hm
      · omega
      · omega
  · rw [if_neg c]
    exact ⟨h0, h1, h2, h3⟩

theorem kinv_backspace (s : InterruptState) (h : KInv s) : KInv (key_backspace s) := by
  obtain ⟨h0, h1, h2, h3⟩ := h
  unfold key_backspace
  by_cases c : s.key_buffer_pos > 0
  · rw [if_pos c]
    refine ⟨?_, ?_, ?_, ?_⟩
    · show 0 ≤ s.key_buffer_pos - 1
      omega
    · show s.key_buffer_pos - 1 ≤ 255
      omega
    · show (if s.key_buffer_pos - 1 = s.key_buffer_pos - 1 then 0 else _) = 0
      rw [if_pos rfl]
    · intro i hi
      have hi2 : i ∈ s.key_accesses ++ [s.key_buffer_pos - 1] := hi
      rw [List.mem_append, List.mem_singleton] at hi2
      rcases hi2 with hm | e
      · exact h3 i hm
      · omega
  · rw [if_neg c]
    exact ⟨h0, h1, h2, h3⟩

theorem kinv_print (s : InterruptState) (str : List Nat) (h : KInv s) : KInv (print s str) := by
  obtain ⟨a1, a2, a3, _⟩ := print_fields s str
  unfold KInv
  rw [a1, a2, a3]
  exact h

theorem kinv_keyboard (s : InterruptState) (scancode : Nat) (h : KInv s) :
    KInv (keyboard_handler s scancode) := by
  rw [keyboard_handler_eq]
  split_ifs
  · exact kinv_print _ _ (kinv_append s _ h)
  · exact kinv_print _ _ (kinv_append s _ h)
  · exact kinv_backspace _ (kinv_append s _ h)
  · exact kinv_append s _ h
  · exact h

theorem kinv_getchar (s s1 : InterruptState) (c : Nat) (h : KInv s)
    (hg : getchar s = some (s1, c)) : KInv s1 := by
  obtain ⟨h0, h1, h2, h3⟩ := h
  have hne : s.key_buffer_pos ≠ 0 := by
    intro e
    unfold getchar at hg
    rw [if_pos e] at hg
    cases hg
  obtain ⟨s2, g1, g2, g3, g4⟩ := getchar_spec s (by omega)
  rw [g1] at hg
  have e : s2 = s1 := (Prod.mk.inj (Option.some.inj hg)).1
  subst e
  refine ⟨by rw [g2]; omega, by rw [g2]; omega, ?_, ?_⟩
  · rw [g3, g2, if_pos rfl]
  · intro i hi
    rcases g4 i hi with hm | hb
    · exact h3 i hm
    · omega

/-- Every reachable state of the key buffer satisfies the invariant. -/
theorem kreach_inv (s : InterruptState) (h : KReach s) : KInv s := by
  induction h with
  | init s hp hb ha =>
    refine ⟨by rw [hp], by rw [hp]; omega, hb _, ?_⟩
    intro i hi
    rw [ha] at hi
    cases hi
  | key _ _ ih => exact kinv_keyboard _ _ ih
  | read _ hg ih => exact kinv_getchar _ _ _ ih hg

/-- A key other than backspace that arrives on a full buffer changes nothing in
the buffer. -/
theorem keyboard_full (s : InterruptState) (scancode : Nat) (hfull : ¬ s.key_buffer_pos < 255)
    (hkey : keymap.getD scancode 0 ≠ 8) :
    (keyboard_handler s scancode).key_buffer = s.key_buffer
      ∧ (keyboard_handler s scancode).key_buffer_pos = s.key_buffer_pos
      ∧ (keyboard_handler s scancode).key_accesses = s.key_accesses := by
  have ea : ∀ key, key_append s key = s := by
    intro key
    unfold key_append
    rw [if_neg hfull]
  rw [keyboard_handler_eq]
  split_ifs
  · rw [ea]
    obtain ⟨a1, a2, a3, _⟩ := print_fields s [keymap.getD scancode 0]
    exact ⟨a1, a2, a3⟩
  · rw [ea]
    obtain ⟨a1, a2, a3, _⟩ := print_fields s [10]
    exact ⟨a1, a2, a3⟩
  · rw [ea]
    exact ⟨rfl, rfl, rfl⟩
  · exact ⟨rfl, rfl, rfl⟩

/-- C29: after any sequence of `keyboard_handler` calls (any scancode byte) and
`getchar` calls on a non-empty buffer, starting from the zero-initialised
statics, `0 <= key_buffer_pos <= 255`, every index that was used with
`key_buffer` lies in `0 .. 255`, `key_buffer[key_buffer_pos]` is 0, and a
printable key (code 32 .. 126) arriving when 255 characters are buffered leaves
buffer and position unchanged and touches no buffer byte. -/
theorem key_buffer_bounded (s : InterruptState) (h : KReach s) :
    0 ≤ s.key_buffer_pos ∧ s.key_buffer_pos ≤ 255
      ∧ (∀ i, i ∈ s.key_accesses → 0 ≤ i ∧ i < 256)
      ∧ s.key_buffer s.key_buffer_pos = 0
      ∧ (s.key_buffer_pos = 255 → ∀ scancode, scancode < 256 →
          32 ≤ keymap.getD scancode 0 → keymap.getD scancode 0 ≤ 126 →
          (keyboard_handler s scancode).key_buffer = s.key_buffer
            ∧ (keyboard_handler s scancode).key_buffer_pos = 255
            ∧ (keyboard_handler s scancode).key_accesses = s.key_accesses) := by
  obtain ⟨h0, h1, h2, h3⟩ := kreach_inv s h
  refine ⟨h0, h1, fun i hi => ⟨(h3 i hi).1, by have := (h3 i hi).2; omega⟩, h2, ?_⟩
  intro hfull scancode _ hlo _
  obtain ⟨a1, a2, a3⟩ := keyboard_full s scancode (by omega) (by omega)
  exact ⟨a1, by rw [a2, hfull], a3⟩

theorem type_keys_reach (codes : List Nat) (hc : ∀ c, c ∈ codes → c < 256) :
    ∀ s, KReach s → KReach (type_keys s codes) := by
  induction codes with
  | nil => intro s h; exact h
  | cons c t ih =>
    intro s h
    exact ih (fun x hx => hc x (List.mem_cons_of_mem _ hx)) _
      (KReach.key h (hc c (List.mem_cons_self _ _)))

theorem keymap_a : keymap.getD 30 0 = 97 := by decide

theorem keyboard_a_pos (s : InterruptState) (h : s.key_buffer_pos < 255) :
    (keyboard_handler s 30).key_buffer_pos = s.key_buffer_pos + 1 := by
  rw [keyboard_handler_eq, keymap_a, if_pos (by decide), if_pos (by decide)]
  rw [(print_fields _ _).2.1]
  unfold key_append
  rw [if_pos h]
  rfl

theorem type_a_pos (n : Nat) :
    ∀ s : InterruptState, s.key_buffer_pos + (n : Int) ≤ 255 →
      (type_keys s (List.replicate n 30)).key_buffer_pos = s.key_buffer_pos + (n : Int) := by
  induction n with
  | zero => intro s _; show s.key_buffer_pos = _; omega
  | succ n ih =>
    intro s h
    show (type_keys (keyboard_handler s 30) (List.replicate n 30)).key_buffer_pos = _
    have e := keyboard_a_pos s (by omega)
    rw [ih _ (by rw [e]; omega), e]
    omega

/-- C29 witness: the key `a` (scancode 0x1E) pressed 255 times from the initial
state; the buffer is then full, and the states on the way are all reachable. -/
theorem key_buffer_bounded_witness :
    KReach (type_keys (interrupt_zero sched_zero) (List.replicate 255 30))
      ∧ (type_keys (interrupt_zero sched_zero) (List.replicate 255 30)).key_buffer_pos = 255
      ∧ (32 ≤ keymap.getD 30 0 ∧ keymap.getD 30 0 ≤ 126)
      ∧ (type_keys (interrupt_zero sched_zero) (List.replicate 255 30)).key_buffer 255 = 0 := by
  have hr : KReach (type_keys (interrupt_zero sched_zero) (List.replicate 255 30)) :=
    type_keys_reach _ (fun c hc => by rw [List.eq_of_mem_replicate hc]; omega) _
      (KReach.init _ rfl (fun _ => rfl) rfl)
  have hp := type_a_pos 255 (interrupt_zero sched_zero) (by decide)
  have hp2 : (type_keys (interrupt_zero sched_zero) (List.replicate 255 30)).key_buffer_pos
      = 255 := by
    rw [hp]
    rfl
  have hb := (key_buffer_bounded _ hr).2.2.2.1
  rw [hp2] at hb
  exact ⟨hr, hp2, by decide, hb⟩

/-! ### The timer tick and the interrupt dispatcher -/

/-- On a well-formed process list `schedule` returns within the fuel, and the
list stays well-formed. -/
theorem schedule_returns (fuel : Nat) (k : SchedState) (h : Schedulable fuel k) :
    ∃ k1, schedule fuel k = some k1 ∧ Schedulable fuel k1 := by
  by_cases hc : k.current_process = 0 ∨ k.process_list = 0
  · refine ⟨k, ?_, h⟩
    unfold schedule
    rw [if_pos hc]
  · have h0 : k.current_process ≠ 0 := fun e => hc (Or.inl e)
    have h1 : k.process_list ≠ 0 := fun e => hc (Or.inr e)
    rcases h with e | e | ⟨ps, hl, hmem, hlen⟩
    · exact absurd e h0
    · exact absurd e h1
    obtain ⟨pre, post, hps⟩ := List.append_of_mem hmem
    rw [hps] at hl
    have hring := ring_of_list k pre post hl
    have hrl : (post ++ (pre ++ [k.current_process])).length = ps.length := by
      rw [hps]
      simp only [List.length_append, List.length_cons, List.length_nil]
      omega
    have hsub : ∀ x, x ∈ post ++ (pre ++ [k.current_process]) → x ∈ ps := by
      intro x hx
      rw [hps]
      simp only [List.mem_append, List.mem_cons, List.mem_singleton, List.not_mem_nil,
        or_false] at hx ⊢
      tauto
    rcases first_split
        (fun x => (k.procs x).state = PROC_READY ∨ x = k.current_process)
        (post ++ (pre ++ [k.current_process])) with hall | ⟨sk, q, rest, er, hq, hsk⟩
    · exact absurd (Or.inr rfl) (hall k.current_process (by simp))
    · have hqm : q ∈ post ++ (pre ++ [k.current_process]) := by rw [er]; simp
      have hloop : schedule_loop fuel k (cyc_next k k.current_process) = some q := by
        rw [← ring_headD k _ hring, er]
        apply schedule_loop_walk k q rest hq sk fuel
        · rw [← er]
          exact hring.chain
        · intro x hx
          have hxm : x ∈ post ++ (pre ++ [k.current_process]) := by
            rw [er]
            exact List.mem_append_left _ hx
          have hn := hsk x hx
          exact ⟨hring.nz x hxm, fun e => hn (Or.inl e), fun e => hn (Or.inr e)⟩
        · have : (sk ++ q :: rest).length = ps.length := by rw [← er]; exact hrl
          simp only [List.length_append, List.length_cons] at this
          omega
      by_cases hqc : q = k.current_process
      · rw [hqc] at hloop
        exact ⟨k, schedule_stay k fuel hloop, Or.inr (Or.inr ⟨ps, hps ▸ hl, hmem, hlen⟩)⟩
      · refine ⟨_, schedule_switch k fuel q h0 h1 hloop (hring.nz q hqm) hqc, ?_⟩
        refine Or.inr (Or.inr ⟨ps, ?_, hsub q hqm, hlen⟩)
        rw [hps]
        refine islist_congr k.procs _ _ _ (fun x _ => ?_) hl
        show (setProcState (setProcState k.procs k.current_process PROC_READY) q
          PROC_RUNNING x).next = _
        rw [setProcState_next, setProcState_next]

theorem due_succ (t n : Nat) :
    due t (n + 1) = due t n + if (t + n + 1) % 4294967296 % 10 = 0 then 1 else 0 :=
  rfl

/-- One timer tick. -/
theorem timer_handler_spec (fuel : Nat) (s : InterruptState) (h : Schedulable fuel s.sched) :
    ∃ s1, timer_handler fuel s = some s1
      ∧ s1.timer_ticks = add32 s.timer_ticks 1
      ∧ s1.schedule_calls
          = s.schedule_calls + (if add32 s.timer_ticks 1 % 10 = 0 then 1 else 0)
      ∧ Schedulable fuel s1.sched
      ∧ s1.port_writes = s.port_writes := by
  unfold timer_handler
  dsimp only
  by_cases c : add32 s.timer_ticks 1 % 10 = 0
  · rw [if_pos c, if_pos c]
    obtain ⟨k1, e, hk⟩ := schedule_returns fuel s.sched h
    unfold schedule_processes
    dsimp only
    rw [e]
    exact ⟨_, rfl, rfl, rfl, hk, rfl⟩
  · rw [if_neg c, if_neg c]
    exact ⟨_, rfl, rfl, rfl, h, rfl⟩

/-- The counter and the number of scheduler calls after `n` timer ticks. -/
theorem timer_calls_spec (fuel : Nat) :
    ∀ (n : Nat) (s : InterruptState), Schedulable fuel s.sched → s.timer_ticks < 4294967296 →
      ∃ s1, timer_calls fuel n s = some s1
        ∧ s1.timer_ticks = (s.timer_ticks + n) % 4294967296
        ∧ s1.schedule_calls = s.schedule_calls + due s.timer_ticks n
        ∧ Schedulable fuel s1.sched := by
  intro n
  induction n with
  | zero =>
    intro s h ht
    exact ⟨s, rfl, (Nat.mod_eq_of_lt ht).symm, rfl, h⟩
  | succ n ih =>
    intro s h ht
    obtain ⟨s1, e1, t1, c1, h1⟩ := ih s h ht
    obtain ⟨s2, e2, t2, c2, h2, _⟩ := timer_handler_spec fuel s1 h1
    refine ⟨s2, ?_, ?_, ?_, h2⟩
    · unfold timer_calls
      rw [e1]
      exact e2
    · rw [t2, t1]
      unfold add32
      omega
    · have ea : add32 s1.timer_ticks 1 = (s.timer_ticks + n + 1) % 4294967296 := by
        rw [t1]
        unfold add32
        omega
      rw [c2, c1, ea, due_succ]
      omega

theorem due_nowrap (t : Nat) :
    ∀ n, t + n < 4294967296 → due t n = (t + n) / 10 - t / 10 := by
  intro n
  induction n with
  | zero => intro _; show 0 = _; omega
  | succ n ih =>
    intro h
    rw [due_succ, ih (by omega), Nat.mod_eq_of_lt (show t + n + 1 < 4294967296 by omega)]
    by_cases c : (t + n + 1) % 10 = 0
    · rw [if_pos c]
      omega
    · rw [if_neg c]
      omega

/-- In a window of ten ticks the scheduler runs once, unless the window holds
both the tick to 4294967290 and the wrap to 0. -/
theorem due_window (t : Nat) (ht : t < 4294967296)
    (hw : t < 4294967286 ∨ 4294967290 ≤ t) : due t 10 = 1 := by
  by_cases c : t + 10 < 4294967296
  · rw [due_nowrap t 10 c]
    omega
  · have h6 : t = 4294967290 ∨ t = 4294967291 ∨ t = 4294967292 ∨ t = 4294967293
        ∨ t = 4294967294 ∨ t = 4294967295 := by omega
    rcases h6 with e | e | e | e | e | e <;> rw [e] <;> decide

theorem due_wrap : due 4294967289 10 = 2 := by decide

/-- In a window of ten ticks that holds both the tick to 4294967290 and the wrap
to 0 the scheduler runs twice. -/
theorem due_window_wrap (t : Nat) (h1 : 4294967286 ≤ t) (h2 : t ≤ 4294967289) :
    due t 10 = 2 := by
  have h4 : t = 4294967286 ∨ t = 4294967287 ∨ t = 4294967288 ∨ t = 4294967289 := by omega
  rcases h4 with e | e | e | e <;> rw [e] <;> decide

/-! ### Timer cadence and interrupt acknowledgement -/

theorem schedulable_zero (fuel : Nat) : Schedulable fuel sched_zero := Or.inl rfl

theorem schedulable_three : Schedulable 3 sched_three :=
  Or.inr (Or.inr ⟨[100, 200, 300], by decide, by decide, by decide⟩)

/-- C26 counterexample: 4294967289 timer ticks after boot the counter holds
4294967289; the next ten ticks bring it to 4294967290 and, through the 32-bit
wrap, to 0, both multiples of ten, so the scheduler is invoked twice in this
window of ten ticks. -/
theorem timer_wrap_counterexample :
    ∃ s s10, timer_calls 0 4294967289 (interrupt_zero sched_zero) = some s
      ∧ s.timer_ticks = 4294967289
      ∧ timer_calls 0 10 s = some s10
      ∧ s10.timer_ticks = 3
      ∧ s10.schedule_calls = s.schedule_calls + 2 := by
  obtain ⟨s, e1, t1, _, h1⟩ :=
    timer_calls_spec 0 4294967289 (interrupt_zero sched_zero) (schedulable_zero 0)
      (by show (0 : Nat) < 4294967296; omega)
  have ht : s.timer_ticks = 4294967289 := by
    rw [t1]
    show (0 + 4294967289) % 4294967296 = 4294967289
    omega
  obtain ⟨s10, e2, t2, c2, _⟩ := timer_calls_spec 0 10 s h1 (by rw [ht]; omega)
  refine ⟨s, s10, e1, ht, e2, ?_, ?_⟩
  · rw [t2, ht]
  · rw [c2, ht, due_wrap]

/-- C26 (amended): each `timer_handler` call returns and increases the 32-bit
tick counter by one modulo 2^32; and in every window of ten consecutive ticks
the scheduler (`schedule_processes`) is invoked exactly once, except in the
windows that hold both the tick that brings the counter to 4294967290 and the
tick that wraps it to 0, that is, when the counter before the window is one of
4294967286 .. 4294967289, in which it is invoked twice.  The process list is
assumed well-formed, so that `schedule` returns. -/
theorem timer_cadence (fuel : Nat) (s : InterruptState) (hs : Schedulable fuel s.sched)
    (ht : s.timer_ticks < 4294967296) :
    (∃ s1, timer_handler fuel s = some s1
        ∧ s1.timer_ticks = (s.timer_ticks + 1) % 4294967296)
      ∧ ∃ s10, timer_calls fuel 10 s = some s10
        ∧ s10.timer_ticks = (s.timer_ticks + 10) % 4294967296
        ∧ (s.timer_ticks < 4294967286 ∨ 4294967290 ≤ s.timer_ticks →
            s10.schedule_calls = s.schedule_calls + 1)
        ∧ (4294967286 ≤ s.timer_ticks ∧ s.timer_ticks ≤ 4294967289 →
            s10.schedule_calls = s.schedule_calls + 2) := by
  obtain ⟨s1, e1, t1, _⟩ := timer_handler_spec fuel s hs
  obtain ⟨s10, e2, t2, c2, _⟩ := timer_calls_spec fuel 10 s hs ht
  refine ⟨⟨s1, e1, t1⟩, s10, e2, t2, ?_, ?_⟩
  · intro hw
    rw [c2, due_window _ ht hw]
  · intro hw
    rw [c2, due_window_wrap _ hw.1 hw.2]

/-- C26 witness: three processes, the second one current, and the tick counter
at its initial value 0. -/
theorem timer_cadence_witness :
    Schedulable 3 (interrupt_zero sched_three).sched
      ∧ (interrupt_zero sched_three).timer_ticks < 4294967286
      ∧ ∃ s10, timer_calls 3 10 (interrupt_zero sched_three) = some s10
        ∧ s10.timer_ticks = (0 + 10) % 4294967296
        ∧ s10.schedule_calls = 0 + 1 := by
  obtain ⟨s10, h1, h2, h3, _⟩ :=
    (timer_cadence 3 (interrupt_zero sched_three) schedulable_three (by decide)).2
  exact ⟨schedulable_three, by decide, s10, h1, h2, h3 (Or.inl (by decide))⟩

theorem port_count_append (ws vs : List (Nat × Nat)) (port : Nat) :
    port_count (ws ++ vs) port = port_count ws port + port_count vs port := by
  unfold port_count
  rw [List.filter_append, List.length_append]

theorem port_count_none (ws : List (Nat × Nat)) (port : Nat)
    (h : ∀ w, w ∈ ws → w.1 ≠ port) : port_count ws port = 0 := by
  unfold port_count
  rw [List.length_eq_zero, List.filter_eq_nil_iff]
  intro w hw
  simpa using h w hw

theorem count_none (ws : List (Nat × Nat)) (port val : Nat)
    (h : ∀ w, w ∈ ws → w.1 ≠ port) : ws.count (port, val) = 0 := by
  rw [List.count_eq_zero]
  intro hm
  exact h _ hm rfl

/-- The port writes of `keyboard_handler` are cursor writes. -/
theorem keyboard_ports (s : InterruptState) (scancode : Nat) :
    ∃ ws, (keyboard_handler s scancode).port_writes = s.port_writes ++ ws
      ∧ ∀ w, w ∈ ws → w.1 = 0x3D4 ∨ w.1 = 0x3D5 := by
  have ha : ∀ key, (key_append s key).port_writes = s.port_writes := by
    intro key
    unfold key_append
    split_ifs <;> rfl
  have hb : ∀ t : InterruptState, (key_backspace t).port_writes = t.port_writes := by
    intro t
    unfold key_backspace
    split_ifs <;> rfl
  have hp : ∀ (t : InterruptState) (str : List Nat), t.port_writes = s.port_writes →
      ∃ ws, (print t str).port_writes = s.port_writes ++ ws
        ∧ ∀ w, w ∈ ws → w.1 = 0x3D4 ∨ w.1 = 0x3D5 := by
    intro t str e
    obtain ⟨_, _, _, _, _, _, _, a, b, hw⟩ := print_fields t str
    refine ⟨_, by rw [hw, e], ?_⟩
    intro w hm
    simp only [List.mem_cons, List.mem_singleton, List.not_mem_nil, or_false] at hm
    rcases hm with e | e | e | e <;> rw [e] <;> simp
  rw [keyboard_handler_eq]
  split_ifs
  · exact hp _ _ (ha _)
  · exact hp _ _ (ha _)
  · exact ⟨[], by rw [hb, ha, List.append_nil], fun w hw => by cases hw⟩
  · exact ⟨[], by rw [ha, List.append_nil], fun w hw => by cases hw⟩
  · exact ⟨[], by rw [List.append_nil], fun w hw => by cases hw⟩

/-- The acknowledgement at the end of `irq_handler`, after a handler whose port
writes `ws` go to the cursor ports only. -/
theorem irq_tail (s r : InterruptState) (irq_num : Int) (ws : List (Nat × Nat))
    (hr : r.port_writes = s.port_writes ++ ws)
    (hws : ∀ w, w ∈ ws → w.1 = 0x3D4 ∨ w.1 = 0x3D5) :
    ∃ vs, (outb (if irq_num ≥ 8 then outb r 0xA0 0x20 else r) 0x20 0x20).port_writes
        = s.port_writes ++ vs
      ∧ port_count vs 0x20 = 1
      ∧ vs.count (0x20, 0x20) = 1
      ∧ port_count vs 0xA0 = (if irq_num ≥ 8 then 1 else 0)
      ∧ vs.count (0xA0, 0x20) = (if irq_num ≥ 8 then 1 else 0)
      ∧ vs.getLast? = some (0x20, 0x20) := by
  have n1 : ∀ w, w ∈ ws → w.1 ≠ 0x20 := by
    intro w hw e
    rcases hws w hw with h | h <;> rw [h] at e <;> cases e
  have n2 : ∀ w, w ∈ ws → w.1 ≠ 0xA0 := by
    intro w hw e
    rcases hws w hw with h | h <;> rw [h] at e <;> cases e
  by_cases c : irq_num ≥ 8
  · rw [if_pos c, if_pos c]
    refine ⟨ws ++ [(0xA0, 0x20), (0x20, 0x20)], ?_, ?_, ?_, ?_, ?_, ?_⟩
    · show (r.port_writes ++ [(0xA0, 0x20)]) ++ [(0x20, 0x20)] = _
      rw [hr, List.append_assoc, List.append_assoc]
      rfl
    · rw [port_count_append, port_count_none ws _ n1]
      rfl
    · rw [List.count_append, count_none ws _ _ n1]
      rfl
    · rw [port_count_append, port_count_none ws _ n2]
      rfl
    · rw [List.count_append, count_none ws _ _ n2]
      rfl
    · rw [List.getLast?_append]
      rfl
  · rw [if_neg c, if_neg c]
    refine ⟨ws ++ [(0x20, 0x20)], ?_, ?_, ?_, ?_, ?_, ?_⟩
    · show r.port_writes ++ [(0x20, 0x20)] = _
      rw [hr, List.append_assoc]
    · rw [port_count_append, port_count_none ws _ n1]
      rfl
    · rw [List.count_append, count_none ws _ _ n1]
      rfl
    · rw [port_count_append, port_count_none ws _ n2]
      rfl
    · rw [List.count_append, count_none ws _ _ n2]
      rfl
    · rw [List.getLast?_append]
      rfl

/-- C25: for every IRQ number `n`, recognised or not, `irq_handler` returns and
the port writes `ws` it adds contain exactly one write to the master controller
port 0x20, which is the end-of-interrupt byte 0x20 and is the last write, and
exactly one write to the slave controller port 0xA0, again the byte 0x20, if
`n >= 8`, and none if `n < 8`.  For the timer (IRQ 0) the process list is
assumed well-formed, so that `schedule` returns. -/
theorem irq_acknowledged (fuel : Nat) (s : InterruptState) (irq_num : Int) (scancode : Nat)
    (hs : irq_num = 0 → Schedulable fuel s.sched) :
    ∃ s1 ws, irq_handler fuel s irq_num scancode = some s1
      ∧ s1.port_writes = s.port_writes ++ ws
      ∧ port_count ws 0x20 = 1
      ∧ ws.count (0x20, 0x20) = 1
      ∧ port_count ws 0xA0 = (if irq_num ≥ 8 then 1 else 0)
      ∧ ws.count (0xA0, 0x20) = (if irq_num ≥ 8 then 1 else 0)
      ∧ ws.getLast? = some (0x20, 0x20) := by
  have key : ∀ r : InterruptState, ∀ ws0 : List (Nat × Nat),
      (if irq_num = 0 then timer_handler fuel s
        else if irq_num = 1 then some (keyboard_handler s scancode)
        else if irq_num = 12 then some s
        else some s) = some r →
      r.port_writes = s.port_writes ++ ws0 →
      (∀ w, w ∈ ws0 → w.1 = 0x3D4 ∨ w.1 = 0x3D5) →
      ∃ s1 ws, irq_handler fuel s irq_num scancode = some s1
        ∧ s1.port_writes = s.port_writes ++ ws
        ∧ port_count ws 0x20 = 1
        ∧ ws.count (0x20, 0x20) = 1
        ∧ port_count ws 0xA0 = (if irq_num ≥ 8 then 1 else 0)
        ∧ ws.count (0xA0, 0x20) = (if irq_num ≥ 8 then 1 else 0)
        ∧ ws.getLast? = some (0x20, 0x20) := by
    intro r ws0 e hr hws
    obtain ⟨vs, h1, h2⟩ := irq_tail s r irq_num ws0 hr hws
    refine ⟨_, vs, ?_, h1, h2⟩
    unfold irq_handler
    dsimp only
    rw [e]
  by_cases c0 : irq_num = 0
  · obtain ⟨s1, e1, _, _, _, p1⟩ := timer_handler_spec fuel s (hs c0)
    exact key s1 [] (by rw [if_pos c0, e1]) (by rw [p1, List.append_nil])
      (fun w hw => by cases hw)
  · by_cases c1 : irq_num = 1
    · obtain ⟨ws0, e, hws⟩ := keyboard_ports s scancode
      exact key _ ws0 (by rw [if_neg c0, if_pos c1]) e hws
    · exact key s [] (by rw [if_neg c0, if_neg c1]; split_ifs <;> rfl)
        (by rw [List.append_nil]) (fun w hw => by cases hw)

/-- C25 witness: the timer IRQ 0 over three processes; and, evaluated, IRQ 1 with
the scancode of the key `a` on the initial statics (the echo moves the cursor,
which adds four writes to the cursor ports) and the spurious IRQ 15 of the
slave controller. -/
theorem irq_acknowledged_witness :
    ((0 : Int) = 0 → Schedulable 3 (interrupt_zero sched_three).sched)
      ∧ (∃ s1 ws, irq_handler 3 (interrupt_zero sched_three) 0 0 = some s1
        ∧ s1.port_writes = (interrupt_zero sched_three).port_writes ++ ws
        ∧ port_count ws 0x20 = 1
        ∧ ws.count (0x20, 0x20) = 1
        ∧ port_count ws 0xA0 = (if (0 : Int) ≥ 8 then 1 else 0)
        ∧ ws.count (0xA0, 0x20) = (if (0 : Int) ≥ 8 then 1 else 0)
        ∧ ws.getLast? = some (0x20, 0x20))
      ∧ (irq_handler 0 (interrupt_zero sched_zero) 1 30).map (fun s => s.port_writes)
          = some [(0x3D4, 0x0F), (0x3D5, 1), (0x3D4, 0x0E), (0x3D5, 0), (0x20, 0x20)]
      ∧ (irq_handler 0 (interrupt_zero sched_zero) 15 0).map (fun s => s.port_writes)
          = some [(0xA0, 0x20), (0x20, 0x20)] :=
  ⟨fun _ => schedulable_three,
    irq_acknowledged 3 (interrupt_zero sched_three) 0 0 (fun _ => schedulable_three),
    by decide, by decide⟩

/-! ### Boot: the first process and the free-memory figure -/

/-- The first `kmalloc` after `init_heap` takes the head of the arena. -/
theorem malloc_first (h : HeapState) (fuel : Nat) :
    malloc (fuel + 1) (init_heap h) SIZEOF_PROCESS
      = some (malloc_take (init_heap h) HEAP_START (add32 SIZEOF_PROCESS 3 &&& not32 3),
          HEAP_START + 16) :=
  malloc_hit (init_heap h) [] [] [] { addr := HEAP_START, size := HEAP_SIZE - 16, free := true }
    SIZEOF_PROCESS (fuel + 1) (init_heap_inv h) (by decide) ⟨rfl, by decide⟩
    (fun x hx => by cases hx) (by simp)

/-- The state that `init_scheduler` returns when its `kmalloc` succeeds. -/
theorem init_scheduler_ptr (s : SchedState) (h1 : HeapState) (fuel p : Nat)
    (hm : malloc fuel s.heap SIZEOF_PROCESS = some (h1, p)) (hp : p ≠ 0) :
    init_scheduler fuel s
      = some
          { heap := h1
            procs := setProcState
              (fun a =>
                if a = p then
                  { pid := s.next_pid % 4294967296, state := PROC_READY, esp := 0, ebp := 0,
                    page_directory := 0, next := 0, name := kernel_name }
                else s.procs a)
              p PROC_RUNNING
            process_list := p
            current_process := p
            next_pid := s.next_pid + 1 } := by
  unfold init_scheduler
  dsimp only
  rw [create_process_ptr fuel
    { heap := s.heap, procs := s.procs, process_list := 0, current_process := 0,
      next_pid := s.next_pid }
    kernel_name 0 h1 p hm hp]

/-- The state that `init_scheduler` returns right after `init_heap`. -/
theorem init_scheduler_first (s : SchedState) (h : HeapState) (fuel : Nat) :
    init_scheduler (fuel + 1) { s with heap := init_heap h }
      = some
          { heap := malloc_take (init_heap h) HEAP_START (add32 SIZEOF_PROCESS 3 &&& not32 3)
            procs := setProcState
              (fun a =>
                if a = HEAP_START + 16 then
                  { pid := s.next_pid % 4294967296, state := PROC_READY, esp := 0, ebp := 0,
                    page_directory := 0, next := 0, name := kernel_name }
                else s.procs a)
              (HEAP_START + 16) PROC_RUNNING
            process_list := HEAP_START + 16
            current_process := HEAP_START + 16
            next_pid := s.next_pid + 1 } :=
  init_scheduler_ptr { s with heap := init_heap h } _ (fuel + 1) (HEAP_START + 16)
    (malloc_first h fuel) (by decide)

theorem list_first (procs : Nat → Process) (b : Process) (hb : b.next = 0) :
    IsProcList
      (setProcState (fun a => if a = HEAP_START + 16 then b else procs a)
        (HEAP_START + 16) PROC_RUNNING)
      (HEAP_START + 16) [HEAP_START + 16] := by
  rw [islist_cons, islist_nil, setProcState_next]
  refine ⟨by decide, rfl, ?_⟩
  dsimp only
  rw [if_pos rfl]
  exact hb

theorem first_block (procs : Nat → Process) (b : Process) (p : Nat) :
    setProcState (fun a => if a = p then b else procs a) p PROC_RUNNING p
      = { b with state := PROC_RUNNING } := by
  unfold setProcState
  dsimp only
  rw [if_pos rfl, if_pos rfl]

/-- C23: after `init_heap` followed by `init_scheduler` from the initial statics
(`next_pid = 1`, whatever the memory held before), `init_scheduler` returns,
the process list contains exactly one entry, that entry has pid 1 and state
Running, and `get_current_process()` returns it (a non-null pointer). -/
theorem first_process (h : HeapState) (procs : Nat → Process) (fuel : Nat) :
    ∃ s, init_scheduler (fuel + 1) (sched_static (init_heap h) procs) = some s
      ∧ get_current_process s ≠ 0
      ∧ IsProcList s.procs s.process_list [get_current_process s]
      ∧ (s.procs (get_current_process s)).pid = 1
      ∧ (s.procs (get_current_process s)).state = PROC_RUNNING
      ∧ (s.procs (get_current_process s)).name = kernel_name := by
  refine ⟨_, init_scheduler_first (sched_static h procs) h fuel, ?_, ?_, ?_, ?_, ?_⟩
  · show HEAP_START + 16 ≠ 0
    decide
  · exact list_first _ _ rfl
  · exact congrArg Process.pid (first_block _ _ _)
  · exact congrArg Process.state (first_block _ _ _)
  · exact congrArg Process.name (first_block _ _ _)

theorem mark_used_free (pmm : PhysicalMemoryManager) (i : Nat) :
    (mark_used pmm i).free_pages = sub32 pmm.free_pages 1 :=
  rfl

/-- The counter `free_pages` after `n` allocations that all succeed. -/
theorem allocate_calls_free (pmm : PhysicalMemoryManager) (k : Nat) (hf : Filled pmm k)
    (hT : pmm.total_pages ≤ 1048576) (h32 : pmm.free_pages < 4294967296) :
    ∀ n, k + n ≤ pmm.total_pages → n ≤ pmm.free_pages →
      (allocate_calls pmm n).1.free_pages = pmm.free_pages - n := by
  intro n
  induction n with
  | zero => intro _ _; rfl
  | succ n ih =>
    intro hn hle
    have h1 := ih (by omega) (by omega)
    obtain ⟨g1, g2, _⟩ := allocate_calls_filled pmm k hf hT n (by omega)
    obtain ⟨e, _⟩ := filled_step (allocate_calls pmm n).1 (k + n) g1 (by rw [g2]; omega)
    simp only [allocate_calls, e]
    rw [mark_used_free, h1]
    unfold sub32
    omega

/-- After `init_physical_memory` 32512 frames are free. -/
theorem init_free (pmm : PhysicalMemoryManager) :
    (init_physical_memory pmm).free_pages = 32512 := by
  rw [init_eq]
  have hfree : (init_cleared pmm).free_pages = 32768 := by simp [init_cleared, PAGE_SIZE]
  rw [allocate_calls_free (init_cleared pmm) 0 (init_cleared_filled pmm)
    (by rw [init_cleared_total]; omega) (by rw [hfree]; omega) 256
    (by rw [init_cleared_total]; omega) (by rw [hfree]; omega), hfree]

/-- The counter `free_pages` after `init_paging` on an allocator whose first 256
frames are reserved: `init_paging` takes frame 256 for the first page table. -/
theorem init_paging_free (s0 : PagingState) (p : PhysicalMemoryManager) (hf : Filled p 256)
    (ht : p.total_pages = 32768) (hfree : p.free_pages = 32512)
    (he : s0.early_malloc_ptr = 0x300000) :
    (init_paging { s0 with pmm := p }).pmm.free_pages = 32511 := by
  obtain ⟨h1, _⟩ := filled_step p 256 hf (by rw [ht]; omega)
  have h2 : allocate_physical_page p = (mark_used p 256, 1048576) := by
    rw [h1]
    rfl
  have hpm : ({ s0 with pmm := p } : PagingState).pmm = p := rfl
  have hem : ({ s0 with pmm := p } : PagingState).early_malloc_ptr = 3145728 := he
  rw [init_paging_pmm { s0 with pmm := p }
    (by rw [hpm, h2]; show (1048576 : Nat) ≠ 0; omega)
    (by rw [hpm, h2, hem]; exact apart_of_le 1048576 3145728 (by omega) (by omega)),
    hpm, h2, mark_used_free, hfree]
  rfl

theorem init_memory_paging (k : KernelState) :
    (init_memory k).paging
      = init_paging
          { ram := k.paging.ram, vmm := k.paging.vmm, pmm := init_physical_memory k.paging.pmm,
            early_malloc_ptr := k.paging.early_malloc_ptr } := by
  unfold init_memory
  dsimp only

theorem init_memory_sched (k : KernelState) :
    (init_memory k).sched
      = { heap := init_heap k.sched.heap, procs := k.sched.procs,
          process_list := k.sched.process_list, current_process := k.sched.current_process,
          next_pid := k.sched.next_pid } := by
  unfold init_memory
  dsimp only

theorem init_memory_free (k : KernelState) (he : k.paging.early_malloc_ptr = 0x300000) :
    (init_memory k).paging.pmm.free_pages = 32511 := by
  have h1 : Filled (init_physical_memory k.paging.pmm) 256 := (init_filled k.paging.pmm).1
  have h2 : (init_physical_memory k.paging.pmm).total_pages = 32768 :=
    (init_filled k.paging.pmm).2
  have h3 : (init_physical_memory k.paging.pmm).free_pages = 32512 := init_free k.paging.pmm
  rw [init_memory_paging]
  generalize init_physical_memory k.paging.pmm = p at h1 h2 h3 ⊢
  exact init_paging_free k.paging p h1 h2 h3 he

/-- The result of `boot` when `init_scheduler` returns `sc`. -/
theorem boot_of (f : Nat) (k : KernelState) (sc : SchedState)
    (h : init_scheduler f (init_memory k).sched = some sc) :
    boot f k = some { paging := (init_memory k).paging, sched := sc } := by
  unfold boot
  dsimp only
  rw [h]

/-- The boot sequence returns; afterwards 32511 frames are free and the process
list has one entry. -/
theorem boot_spec (fuel : Nat) (k : KernelState) (he : k.paging.early_malloc_ptr = 0x300000) :
    ∃ k1, boot (fuel + 1) k = some k1
      ∧ k1.paging.pmm.free_pages = 32511
      ∧ IsProcList k1.sched.procs k1.sched.process_list [k1.sched.current_process] := by
  have hb : ∃ sc, init_scheduler (fuel + 1) (init_memory k).sched = some sc
      ∧ IsProcList sc.procs sc.process_list [sc.current_process] := by
    rw [init_memory_sched]
    exact ⟨_, init_scheduler_first k.sched k.sched.heap fuel, list_first _ _ rfl⟩
  obtain ⟨sc, h1, h2⟩ := hb
  refine ⟨{ paging := (init_memory k).paging, sched := sc }, boot_of (fuel + 1) k sc h1,
    ?_, h2⟩
  · exact init_memory_free k he

/-- C22 counterexample: booting from zeroed memory, `get_free_memory()` reports
133165056 bytes, one 4096-byte frame less than `(32768 - 256) * 4096`: the
first `map_page` of `init_paging` allocates frame 256 for page table 0. -/
theorem boot_free_memory_counterexample :
    ∃ k1, boot 1 kernel_zero = some k1
      ∧ get_free_memory k1.paging.pmm = 133165056
      ∧ get_free_memory k1.paging.pmm ≠ (32768 - 256) * 4096 := by
  obtain ⟨k1, e, hf, _⟩ := boot_spec 0 kernel_zero rfl
  have hg : get_free_memory k1.paging.pmm = 133165056 := by
    unfold get_free_memory
    rw [hf]
    rfl
  refine ⟨k1, e, hg, ?_⟩
  rw [hg]
  decide

/-- C22 (amended): after `init_physical_memory`, `init_paging`, `init_heap` and
creation of the first process, in that order from the initial state
(`early_malloc_ptr = 0x300000`, whatever the memory held before), the sequence
returns, `get_free_memory()` returns `(32768 - 257) * 4096` and the process
list contains exactly one entry. -/
theorem boot_free_memory (fuel : Nat) (k : KernelState)
    (he : k.paging.early_malloc_ptr = 0x300000) :
    ∃ k1, boot (fuel + 1) k = some k1
      ∧ get_free_memory k1.paging.pmm = (32768 - 257) * 4096
      ∧ IsProcList k1.sched.procs k1.sched.process_list [k1.sched.current_process] := by
  obtain ⟨k1, e, hf, hl⟩ := boot_spec fuel k he
  refine ⟨k1, e, ?_, hl⟩
  unfold get_free_memory
  rw [hf]
  rfl

/-- C22 witness: the boot sequence on zeroed memory. -/
theorem boot_free_memory_witness :
    kernel_zero.paging.early_malloc_ptr = 0x300000
      ∧ ∃ k1, boot 1 kernel_zero = some k1
        ∧ get_free_memory k1.paging.pmm = (32768 - 257) * 4096
        ∧ IsProcList k1.sched.procs k1.sched.process_list [k1.sched.current_process] :=
  ⟨rfl, boot_free_memory 0 kernel_zero rfl⟩

/-! ### The message queue is last-in first-out per receiver -/

theorem ismsglist_iff (msgs : Nat → Message) :
    ∀ (ms : List Nat) (a : Nat), IsMsgList msgs a ms ↔ IsProcList (msg_links msgs) a ms := by
  intro ms
  induction ms with
  | nil => intro a; rw [ismsglist_nil, islist_nil]
  | cons m ms ih =>
    intro a
    rw [ismsglist_cons, islist_cons, ih]
    rfl

theorem ismsglist_congr (msgs msgs1 : Nat → Message) (ms : List Nat) (a : Nat)
    (hagree : ∀ x, x ∈ ms → (msgs1 x).next = (msgs x).next) (h : IsMsgList msgs a ms) :
    IsMsgList msgs1 a ms := by
  rw [ismsglist_iff] at h ⊢
  refine islist_congr (msg_links msgs) _ ms a (fun x hx => ?_) h
  show (msgs1 x).next = (msgs x).next
  exact hagree x hx

/-- The outcome of `malloc` on a heap that satisfies the invariant: the null
pointer and the same state, or the first fitting block, taken. -/
theorem malloc_inv_cases (s s1 : HeapState) (live : List Nat) (bs : List Blk)
    (fuel size p : Nat) (hinv : HeapInv s live bs)
    (hm : malloc fuel s size = some (s1, p)) :
    (p = 0 ∧ s1 = s)
      ∨ (size ≠ 0 ∧ ∃ pre b post, bs = pre ++ b :: post
          ∧ b.free = true ∧ add32 size 3 &&& not32 3 ≤ b.size
          ∧ (∀ x, x ∈ pre → ¬ (x.free = true ∧ add32 size 3 &&& not32 3 ≤ x.size))
          ∧ s1 = malloc_take s b.addr (add32 size 3 &&& not32 3) ∧ p = b.addr + 16) := by
  by_cases h0 : size = 0
  · left
    subst h0
    have : malloc fuel s 0 = some (s, 0) := by unfold malloc; rw [if_pos rfl]
    rw [this] at hm
    have e := Option.some.inj hm
    exact ⟨(congrArg Prod.snd e).symm, (congrArg Prod.fst e).symm⟩
  · rcases first_fit_split (add32 size 3 &&& not32 3) bs with hnone
      | ⟨pre, b, post, e, hfit, hpre⟩
    · left
      have h2 := malloc_miss s live bs size (bs.length + 1) hinv hnone (le_refl _)
      have := malloc_fuel_unique s size _ _ _ _ hm h2
      exact ⟨congrArg Prod.snd this, congrArg Prod.fst this⟩
    · right
      subst e
      have h2 := malloc_hit s live pre post b size (pre.length + 1) hinv h0 hfit hpre
        (le_refl _)
      have := malloc_fuel_unique s size _ _ _ _ hm h2
      exact ⟨h0, pre, b, post, rfl, hfit.1, hfit.2, hpre, congrArg Prod.fst this,
        congrArg Prod.snd this⟩

/-- Blocks of a heap that satisfies the invariant lie inside the arena. -/
theorem inv_block_bounds (s : HeapState) (live : List Nat) (bs : List Blk)
    (hinv : HeapInv s live bs) (b : Blk) (hb : b ∈ bs) :
    1048576 ≤ b.addr ∧ b.addr + 16 + b.size ≤ 17825792 := by
  obtain ⟨pre, post, e⟩ := List.append_of_mem hb
  subst e
  have h := contig_split pre post b _ _ hinv.contig
  have hHS : HEAP_START = 1048576 := rfl
  have hHZ : HEAP_SIZE = 16777216 := rfl
  omega

theorem sub32_header (a : Nat) (h : a + 16 < 4294967296) :
    sub32 (a + 16) SIZEOF_HEAPBLOCK = a := by
  unfold sub32 SIZEOF_HEAPBLOCK
  omega

/-- The rounded request of a size whose rounding wraps is 0. -/
theorem aligned_wrap (size : Nat) (h32 : size < 4294967296) (hw : 4294967296 ≤ size + 3) :
    add32 size 3 &&& not32 3 = 0 := by
  have h : add32 size 3 < 3 := by
    unfold add32
    omega
  rw [and_not3 _ (by omega)]
  omega

/-- C36 (fails on the code): on every reachable heap, when `malloc(size)` with a
32-bit `size > 0` returns a non-null pointer, the payload size recorded in the
header of the returned block is at least `size` exactly when the rounding
`(size + 3) & ~3` does not wrap, that is when `size <= 0xFFFFFFFC`.  For the
sizes 0xFFFFFFFD, 0xFFFFFFFE and 0xFFFFFFFF the rounded request is 0, a block is
returned and its recorded size is smaller than `size`. -/
theorem malloc_recorded_size (s s1 : HeapState) (live : List Nat) (fuel size p : Nat)
    (hr : Reach s live) (h0 : 0 < size) (h32 : size < 4294967296)
    (hm : malloc fuel s size = some (s1, p)) (hp : p ≠ 0) :
    (size ≤ (s1.mem (sub32 p SIZEOF_HEAPBLOCK)).size ↔ size + 3 < 4294967296)
      ∧ add32 size 3 &&& not32 3 ≤ (s1.mem (sub32 p SIZEOF_HEAPBLOCK)).size := by
  obtain ⟨bs, hinv⟩ := reach_inv s live hr
  rcases malloc_inv_cases s s1 live bs fuel size p hinv hm with ⟨e, _⟩
    | ⟨_, pre, b, post, e, hfree, hfit, _, e1, e2⟩
  · exact absurd e hp
  · subst e
    have hb := inv_block_bounds s live _ hinv b (by simp)
    obtain ⟨_, hsz⟩ := malloc_take_seg s pre post b _ hinv.seg hinv.contig hfit
    rw [e2, sub32_header _ (by omega), e1, hsz]
    constructor
    · constructor
      · intro h
        by_contra hw
        have hz := aligned_wrap size h32 (by omega)
        rw [hz] at h
        split_ifs at h <;> omega
      · intro h
        have ha := aligned_size size h
        unfold round_up4 at ha
        split_ifs <;> omega
    · split_ifs <;> omega

/-- C36 at the failing input: on the freshly initialised heap `malloc(0xFFFFFFFF)`
returns the non-null pointer 1048592, and the header of that block, at 1048576,
records the payload size 0. -/
theorem malloc_recorded_size_witness :
    Reach (init_heap heap_zero) []
      ∧ malloc 2 (init_heap heap_zero) 4294967295
          = some (malloc_take (init_heap heap_zero) HEAP_START 0, 1048592)
      ∧ ((malloc_take (init_heap heap_zero) HEAP_START 0).mem
          (sub32 1048592 SIZEOF_HEAPBLOCK)).size = 0
      ∧ ¬ (4294967295
          ≤ ((malloc_take (init_heap heap_zero) HEAP_START 0).mem
              (sub32 1048592 SIZEOF_HEAPBLOCK)).size) := by
  have hm : malloc 2 (init_heap heap_zero) 4294967295
      = some (malloc_take (init_heap heap_zero) HEAP_START 0, 1048592) := by rfl
  have h := (malloc_recorded_size (init_heap heap_zero) _ [] 2 4294967295 1048592
    (Reach.init heap_zero) (by decide) (by decide) hm (by decide)).1
  exact ⟨Reach.init heap_zero, hm, by decide, fun hle => absurd (h.1 hle) (by decide)⟩

/-! ### Reading the block list off the invariant -/

/-- The header of a block in the middle of a linked segment. -/
theorem seg_at (m : Mem) (pre post : List Blk) (b : Blk) (a0 : Nat)
    (hseg : Seg m 0 a0 (pre ++ b :: post) 0) :
    (m b.addr).size = b.size ∧ (m b.addr).free = flag b.free
      ∧ (m b.addr).prev = lastAddr 0 pre ∧ (m b.addr).next = headAddr post
      ∧ Seg m b.addr (headAddr post) post 0 := by
  rw [seg_append_cons] at hseg
  obtain ⟨_, h2⟩ := hseg
  rw [seg_cons] at h2
  obtain ⟨_, h3, h4, h5, h6⟩ := h2
  have e := seg_head m _ _ _ h6
  rw [e] at h6
  exact ⟨h3, h4, h5, e, h6⟩

theorem lastAddr_concat (p : Nat) (xs : List Blk) (z : Blk) :
    lastAddr p (xs ++ [z]) = z.addr := by
  rw [lastAddr_append_cons]
  rfl

/-- The sizes of a tiling add up to the length of the tiled range. -/
theorem contig_sum :
    ∀ (bs : List Blk) (a e : Nat), Contig a bs e →
      a + (bs.map fun b => 16 + b.size).sum = e := by
  intro bs
  induction bs with
  | nil => intro a e h; simpa using h
  | cons b bs ih =>
    intro a e h
    rw [contig_cons] at h
    have := ih _ _ h.2
    rw [List.map_cons, List.sum_cons]
    omega

/-- The links and addresses around one block of a heap that satisfies the
invariant. -/
theorem inv_links (s : HeapState) (live : List Nat) (pre post : List Blk) (b : Blk)
    (hinv : HeapInv s live (pre ++ b :: post)) :
    ((s.mem b.addr).next ≠ 0 →
        (s.mem b.addr).next = b.addr + 16 + (s.mem b.addr).size
          ∧ (s.mem (s.mem b.addr).next).prev = b.addr
          ∧ (s.mem b.addr).next = headAddr post)
      ∧ ((s.mem b.addr).next = 0 →
          post = [] ∧ b.addr + 16 + (s.mem b.addr).size = HEAP_START + HEAP_SIZE)
      ∧ ((s.mem b.addr).prev ≠ 0 →
          (s.mem (s.mem b.addr).prev).next = b.addr ∧ (s.mem b.addr).prev = lastAddr 0 pre)
      ∧ ((s.mem b.addr).prev = 0 → pre = [] ∧ b.addr = HEAP_START) := by
  obtain ⟨h1, _, h3, h4, h5⟩ := seg_at s.mem pre post b _ hinv.seg
  obtain ⟨c1, c2, _⟩ := contig_split pre post b _ _ hinv.contig
  have hnz := inv_addr_ne_zero s live _ hinv
  refine ⟨?_, ?_, ?_, ?_⟩
  · intro hn
    cases post with
    | nil => exact absurd h4 hn
    | cons c post1 =>
      rw [contig_cons] at c2
      rw [seg_cons] at h5
      rw [h4, h1]
      exact ⟨c2.1, h5.2.2.2.1, rfl⟩
  · intro hn
    cases post with
    | nil =>
      rw [contig_nil] at c2
      rw [h1]
      exact ⟨rfl, c2⟩
    | cons c post1 =>
      rw [h4] at hn
      exact absurd hn (hnz c (by simp))
  · intro hp
    rcases List.eq_nil_or_concat pre with e | ⟨pre1, z, e⟩
    · subst e
      exact absurd h3 hp
    · subst e
      rw [List.concat_eq_append] at h3 hinv ⊢
      rw [lastAddr_concat] at h3
      have hs := hinv.seg
      rw [List.append_assoc, List.singleton_append] at hs
      have hz := (seg_at s.mem pre1 (b :: post) z _ hs).2.2.2.1
      rw [h3, lastAddr_concat]
      exact ⟨hz, rfl⟩
  · intro hp
    rcases List.eq_nil_or_concat pre with e | ⟨pre1, z, e⟩
    · subst e
      rw [contig_nil] at c1
      exact ⟨rfl, c1.symm⟩
    · subst e
      rw [List.concat_eq_append] at h3 hinv
      rw [lastAddr_concat] at h3
      rw [h3] at hp
      exact absurd hp (hnz z (by simp))

/-- Addresses of a tiling increase along the list. -/
theorem contig_sorted :
    ∀ (bs : List Blk) (a e : Nat), Contig a bs e → (bs.map Blk.addr).Sorted (· < ·) := by
  intro bs
  induction bs with
  | nil => intro a e _; exact List.sorted_nil
  | cons b bs ih =>
    intro a e h
    rw [List.map_cons, List.sorted_cons]
    refine ⟨?_, ih _ _ h.2⟩
    intro x hx
    obtain ⟨y, hy, rfl⟩ := List.mem_map.1 hx
    have := (contig_mem _ _ _ h.2 y hy).1
    have h1 : b.addr = a := h.1
    show b.addr < y.addr
    omega

/-- C32: starting from `init_heap`, after any sequence of `malloc` calls and of
`free` calls on live pointers, the block list `bs` is contiguous and
address-ordered: its first block is at `HEAP_START`, the addresses increase, for
every block the successor (when there is one) starts at block address + header
size + block size and its `prev` points back, the last block ends at the end of
the arena, the predecessor's `next` (when there is a predecessor) points back and
the first block has no predecessor, and the sum over all blocks of header
size + size equals `HEAP_SIZE`. -/
theorem heap_layout_invariant (s : HeapState) (live : List Nat) (h : Reach s live) :
    ∃ bs, IsBlockList s.mem s.heap.first_block bs
      ∧ bs.head? = some HEAP_START
      ∧ bs.Sorted (· < ·)
      ∧ (∀ b, b ∈ bs →
          ((s.mem b).next ≠ 0 →
              (s.mem b).next = b + SIZEOF_HEAPBLOCK + (s.mem b).size
                ∧ (s.mem (s.mem b).next).prev = b)
            ∧ ((s.mem b).next = 0 →
                b + SIZEOF_HEAPBLOCK + (s.mem b).size = HEAP_START + HEAP_SIZE)
            ∧ ((s.mem b).prev ≠ 0 → (s.mem (s.mem b).prev).next = b)
            ∧ ((s.mem b).prev = 0 → b = HEAP_START))
      ∧ (bs.map fun b => SIZEOF_HEAPBLOCK + (s.mem b).size).sum = HEAP_SIZE := by
  obtain ⟨abs, hinv⟩ := reach_inv s live h
  obtain ⟨c1, _⟩ := inv_concrete s live abs hinv
  have hpw := seg_pointwise s.mem abs _ _ _ hinv.seg
  refine ⟨abs.map Blk.addr, c1, ?_, contig_sorted _ _ _ hinv.contig, ?_, ?_⟩
  · cases habs : abs with
    | nil =>
      have hc := hinv.contig
      rw [habs, contig_nil] at hc
      have hHZ : HEAP_SIZE = 16777216 := rfl
      omega
    | cons b rest =>
      have hc := hinv.contig
      rw [habs, contig_cons] at hc
      rw [List.map_cons, List.head?_cons, hc.1]
  · intro a ha
    obtain ⟨b, hb, rfl⟩ := List.mem_map.1 ha
    obtain ⟨pre, post, e⟩ := List.append_of_mem hb
    subst e
    obtain ⟨l1, l2, l3, l4⟩ := inv_links s live pre post b hinv
    exact ⟨fun hn => ⟨(l1 hn).1, (l1 hn).2.1⟩, fun hn => (l2 hn).2, fun hp => (l3 hp).1,
      fun hp => (l4 hp).2⟩
  · have hs := contig_sum _ _ _ hinv.contig
    have e : (abs.map Blk.addr).map (fun b => SIZEOF_HEAPBLOCK + (s.mem b).size)
        = abs.map fun b => 16 + b.size := by
      rw [List.map_map]
      apply List.map_congr_left
      intro x hx
      show SIZEOF_HEAPBLOCK + (s.mem x.addr).size = 16 + x.size
      rw [(hpw x hx).1]
      rfl
    rw [e]
    omega

/-- C32 witness: the heap after `init_heap` on zeroed memory and `malloc(8)`,
which holds a used block of 8 bytes and the free rest of the arena. -/
theorem heap_layout_invariant_witness :
    Reach heap_after_malloc [1048592]
      ∧ IsBlockList heap_after_malloc.mem heap_after_malloc.heap.first_block [1048576, 1048600]
      ∧ ∃ bs, IsBlockList heap_after_malloc.mem heap_after_malloc.heap.first_block bs
        ∧ bs.head? = some HEAP_START
        ∧ bs.Sorted (· < ·)
        ∧ (∀ b, b ∈ bs →
            ((heap_after_malloc.mem b).next ≠ 0 →
                (heap_after_malloc.mem b).next
                    = b + SIZEOF_HEAPBLOCK + (heap_after_malloc.mem b).size
                  ∧ (heap_after_malloc.mem (heap_after_malloc.mem b).next).prev = b)
              ∧ ((heap_after_malloc.mem b).next = 0 →
                  b + SIZEOF_HEAPBLOCK + (heap_after_malloc.mem b).size
                    = HEAP_START + HEAP_SIZE)
              ∧ ((heap_after_malloc.mem b).prev ≠ 0 →
                  (heap_after_malloc.mem (heap_after_malloc.mem b).prev).next = b)
              ∧ ((heap_after_malloc.mem b).prev = 0 → b = HEAP_START))
        ∧ (bs.map fun b => SIZEOF_HEAPBLOCK + (heap_after_malloc.mem b).size).sum
            = HEAP_SIZE :=
  ⟨reach_after_malloc, by decide, heap_layout_invariant heap_after_malloc [1048592]
    reach_after_malloc⟩

/-! ### The split rule of `malloc` -/

theorem heapBlock_ext (x : HeapBlock) (sz fr nx pv : Nat) (h1 : x.size = sz) (h2 : x.free = fr)
    (h3 : x.next = nx) (h4 : x.prev = pv) :
    x = { size := sz, free := fr, next := nx, prev := pv } := by
  cases x
  simp only [HeapBlock.mk.injEq]
  exact ⟨h1, h2, h3, h4⟩

/-- C31: on a reachable heap, let `malloc(size)` return a non-null pointer, let `a`
be the header of the chosen block, `S` its recorded size before the call, `r`
the rounded request and `H = 16` the header size.  When `S > r + H + 16` the
size recorded at `a` becomes `r` and a new free block of size `S - r - H` is
created at `a + H + r`, with `prev = a` and `next` the old successor of `a`,
whose `prev` now points to the new block, and the new block follows `a` in the
block list.  When `S <= r + H + 16` the block at `a` keeps size `S` and its
successor, and the block list is as before.  In both cases the block is marked
used. -/
theorem malloc_split_rule (s s1 : HeapState) (live : List Nat) (fuel size p : Nat)
    (hr : Reach s live) (hm : malloc fuel s size = some (s1, p)) (hp : p ≠ 0) :
    ∃ pre post,
      IsBlockList s.mem s.heap.first_block (pre ++ sub32 p SIZEOF_HEAPBLOCK :: post)
      ∧ add32 size 3 &&& not32 3 ≤ (s.mem (sub32 p SIZEOF_HEAPBLOCK)).size
      ∧ (s1.mem (sub32 p SIZEOF_HEAPBLOCK)).free = 0
      ∧ ((s.mem (sub32 p SIZEOF_HEAPBLOCK)).size
            > (add32 size 3 &&& not32 3) + SIZEOF_HEAPBLOCK + 16 →
          (s1.mem (sub32 p SIZEOF_HEAPBLOCK)).size = add32 size 3 &&& not32 3
            ∧ (s1.mem (sub32 p SIZEOF_HEAPBLOCK)).next
                = sub32 p SIZEOF_HEAPBLOCK + SIZEOF_HEAPBLOCK + (add32 size 3 &&& not32 3)
            ∧ s1.mem (sub32 p SIZEOF_HEAPBLOCK + SIZEOF_HEAPBLOCK + (add32 size 3 &&& not32 3))
                = { size := (s.mem (sub32 p SIZEOF_HEAPBLOCK)).size
                      - (add32 size 3 &&& not32 3) - SIZEOF_HEAPBLOCK
                    free := 1
                    next := (s.mem (sub32 p SIZEOF_HEAPBLOCK)).next
                    prev := sub32 p SIZEOF_HEAPBLOCK }
            ∧ ((s.mem (sub32 p SIZEOF_HEAPBLOCK)).next ≠ 0 →
                (s1.mem (s.mem (sub32 p SIZEOF_HEAPBLOCK)).next).prev
                  = sub32 p SIZEOF_HEAPBLOCK + SIZEOF_HEAPBLOCK + (add32 size 3 &&& not32 3))
            ∧ IsBlockList s1.mem s1.heap.first_block
                (pre ++ sub32 p SIZEOF_HEAPBLOCK
                  :: (sub32 p SIZEOF_HEAPBLOCK + SIZEOF_HEAPBLOCK + (add32 size 3 &&& not32 3))
                  :: post))
      ∧ ((s.mem (sub32 p SIZEOF_HEAPBLOCK)).size
            ≤ (add32 size 3 &&& not32 3) + SIZEOF_HEAPBLOCK + 16 →
          (s1.mem (sub32 p SIZEOF_HEAPBLOCK)).size = (s.mem (sub32 p SIZEOF_HEAPBLOCK)).size
            ∧ (s1.mem (sub32 p SIZEOF_HEAPBLOCK)).next
                = (s.mem (sub32 p SIZEOF_HEAPBLOCK)).next
            ∧ IsBlockList s1.mem s1.heap.first_block
                (pre ++ sub32 p SIZEOF_HEAPBLOCK :: post)) := by
  obtain ⟨bs, hinv⟩ := reach_inv s live hr
  rcases malloc_inv_cases s s1 live bs fuel size p hinv hm with ⟨e, _⟩
    | ⟨_, pre, b, post, e, hfree, hfit, _, e1, e2⟩
  · exact absurd e hp
  subst e
  have hb := inv_block_bounds s live _ hinv b (by simp)
  have hH : SIZEOF_HEAPBLOCK = 16 := rfl
  generalize add32 size 3 &&& not32 3 = r at hfit e1 ⊢
  rw [e2, sub32_header _ (by omega), hH]
  obtain ⟨o1, _, _, o4, _⟩ := seg_at s.mem pre post b _ hinv.seg
  obtain ⟨hinv1, hfr, _⟩ := malloc_take_inv s live pre post b r hinv hfree hfit
  rw [← e1] at hinv1 hfr
  obtain ⟨c1, _⟩ := inv_concrete s live _ hinv
  obtain ⟨d1, _⟩ := inv_concrete s1 _ _ hinv1
  rw [List.map_append, List.map_cons] at c1
  refine ⟨pre.map Blk.addr, post.map Blk.addr, c1, by rw [o1]; exact hfit, hfr, ?_, ?_⟩
  · intro hgt
    rw [o1] at hgt
    have ha : allocBlocks r b
        = [{ addr := b.addr, size := r, free := false },
           { addr := b.addr + 16 + r, size := b.size - r - 16, free := true }] := by
      unfold allocBlocks
      rw [if_pos (by omega)]
    rw [ha] at hinv1 d1
    have hs1 := hinv1.seg
    rw [List.cons_append, List.cons_append, List.nil_append] at hs1
    obtain ⟨p1, _, _, p4, _⟩ := seg_at s1.mem pre _ _ _ hs1
    have hs2 : Seg s1.mem 0 HEAP_START
        ((pre ++ [{ addr := b.addr, size := r, free := false }])
          ++ { addr := b.addr + 16 + r, size := b.size - r - 16, free := true } :: post) 0 := by
      rw [List.append_assoc, List.singleton_append]
      exact hs1
    obtain ⟨q1, q2, q3, q4, q5⟩ := seg_at s1.mem _ post _ _ hs2
    rw [lastAddr_concat] at q3
    refine ⟨p1, p4, ?_, ?_, ?_⟩
    · rw [o1, o4]
      exact heapBlock_ext _ _ _ _ _ q1 q2 q4 q3
    · intro hn
      rw [o4] at hn ⊢
      cases post with
      | nil => exact absurd rfl hn
      | cons c post1 =>
        rw [seg_cons] at q5
        exact q5.2.2.2.1
    · rw [List.map_append, List.map_append, List.map_cons, List.map_cons, List.map_nil,
        List.cons_append, List.cons_append, List.nil_append] at d1
      exact d1
  · intro hle
    rw [o1] at hle
    have ha : allocBlocks r b = [{ addr := b.addr, size := b.size, free := false }] := by
      unfold allocBlocks
      rw [if_neg (by omega)]
    rw [ha] at hinv1 d1
    have hs1 := hinv1.seg
    rw [List.cons_append, List.nil_append] at hs1
    obtain ⟨p1, _, _, p4, _⟩ := seg_at s1.mem pre _ _ _ hs1
    refine ⟨by rw [o1]; exact p1, by rw [o4]; exact p4, ?_⟩
    rw [List.map_append, List.map_append, List.map_cons, List.map_nil,
      List.cons_append, List.nil_append] at d1
    exact d1

/-- C31 witness: `malloc(8)` on the freshly initialised heap splits the only
block; `malloc(16777200)` takes it whole. -/
theorem malloc_split_rule_witness :
    (Reach (init_heap heap_zero) []
        ∧ malloc 2 (init_heap heap_zero) 8 = some (heap_after_malloc, 1048592))
      ∧ (heap_after_malloc.mem 1048576).size = 8
      ∧ (heap_after_malloc.mem 1048600).size = 16777176
      ∧ ((malloc 2 (init_heap heap_zero) 16777200).map fun r => (r.1.mem 1048576).size)
          = some 16777200
      ∧ ∃ pre post,
        IsBlockList (init_heap heap_zero).mem (init_heap heap_zero).heap.first_block
          (pre ++ sub32 1048592 SIZEOF_HEAPBLOCK :: post)
        ∧ add32 8 3 &&& not32 3 ≤ ((init_heap heap_zero).mem (sub32 1048592 SIZEOF_HEAPBLOCK)).size
        ∧ (heap_after_malloc.mem (sub32 1048592 SIZEOF_HEAPBLOCK)).free = 0 := by
  obtain ⟨pre, post, h1, h2, h3, _⟩ :=
    malloc_split_rule (init_heap heap_zero) heap_after_malloc [] 2 8 1048592
      (Reach.init heap_zero) heap_after_malloc_eq (by decide)
  exact ⟨⟨Reach.init heap_zero, heap_after_malloc_eq⟩, by decide, by decide, by decide,
    pre, post, h1, h2, h3⟩

/-! ### `free` between two free neighbours -/

/-- A split of the address list of an abstract block list splits the block list. -/
theorem map_addr_split (bs : List Blk) (l1 l2 : List Nat) (x : Nat)
    (h : bs.map Blk.addr = l1 ++ x :: l2) :
    ∃ b1 b b2, bs = b1 ++ b :: b2 ∧ b1.map Blk.addr = l1 ∧ b.addr = x
      ∧ b2.map Blk.addr = l2 := by
  obtain ⟨b1, r, e1, e2, e3⟩ := List.map_eq_append_iff.1 h
  obtain ⟨b, b2, e4, e5, e6⟩ := List.map_eq_cons_iff.1 e3
  exact ⟨b1, b, b2, by rw [e1, e4], e2, e5, e6⟩

/-- The invariant ties a concrete block list to the abstract one. -/
theorem inv_list_eq (s : HeapState) (live : List Nat) (bs : List Blk) (l : List Nat)
    (hinv : HeapInv s live bs) (hl : IsBlockList s.mem s.heap.first_block l) :
    bs.map Blk.addr = l :=
  isBlockList_unique s.mem _ _ _ (inv_concrete s live bs hinv).1 hl

theorem free_of_marked (m : Mem) (b : Blk) (f : Bool) (h1 : marked_free m b.addr = b.free)
    (h2 : marked_free m b.addr = f) : b.free = f := by
  rw [← h1, h2]

/-- C33: on a reachable heap, for every used block `B` whose list predecessor `P`
and successor `N` are both free, `free(B + 16)` leaves a single free block at
`P` with size `P.size + B.size + N.size + 2 * 16`, whose `next` is the old
successor of `N` (whose `prev` points back to `P`), decreases `used_size` by
`B.size`, and the block list loses exactly the two entries `B` and `N`. -/
theorem free_merges_both (s : HeapState) (live pre post : List Nat) (P B N : Nat)
    (hr : Reach s live)
    (hl : IsBlockList s.mem s.heap.first_block (pre ++ P :: B :: N :: post))
    (hP : marked_free s.mem P = true) (hB : marked_free s.mem B = false)
    (hN : marked_free s.mem N = true) :
    IsBlockList (free s (B + SIZEOF_HEAPBLOCK)).mem
        (free s (B + SIZEOF_HEAPBLOCK)).heap.first_block (pre ++ P :: post)
      ∧ (pre ++ P :: post).length + 2 = (pre ++ P :: B :: N :: post).length
      ∧ ((free s (B + SIZEOF_HEAPBLOCK)).mem P).size
          = (s.mem P).size + (s.mem B).size + (s.mem N).size + 2 * SIZEOF_HEAPBLOCK
      ∧ marked_free (free s (B + SIZEOF_HEAPBLOCK)).mem P = true
      ∧ ((free s (B + SIZEOF_HEAPBLOCK)).mem P).next = (s.mem N).next
      ∧ ((s.mem N).next ≠ 0 →
          ((free s (B + SIZEOF_HEAPBLOCK)).mem (s.mem N).next).prev = P)
      ∧ (free s (B + SIZEOF_HEAPBLOCK)).heap.used_size + (s.mem B).size
          = s.heap.used_size := by
  obtain ⟨abs, hinv⟩ := reach_inv s live hr
  have hmap := inv_list_eq s live abs _ hinv hl
  obtain ⟨apre, bP, r1, e1, m1, aP, m2⟩ := map_addr_split abs pre _ P hmap
  obtain ⟨bB, r2, e2, aB, m3⟩ := List.map_eq_cons_iff.1 m2
  obtain ⟨bN, apost, e3, aN, m4⟩ := List.map_eq_cons_iff.1 m3
  subst e3 e2 e1
  have hpw := seg_pointwise s.mem _ _ _ _ hinv.seg
  have fP : bP.free = true := free_of_marked s.mem bP true (hpw bP (by simp)).2 (by rw [aP]; exact hP)
  have fB : bB.free = false :=
    free_of_marked s.mem bB false (hpw bB (by simp)).2 (by rw [aB]; exact hB)
  have fN : bN.free = true := free_of_marked s.mem bN true (hpw bN (by simp)).2 (by rw [aN]; exact hN)
  have sP := (hpw bP (by simp)).1
  have sB := (hpw bB (by simp)).1
  have sN := (hpw bN (by simp)).1
  have hinvA : HeapInv s live ((apre ++ [bP]) ++ bB :: (bN :: apost)) := by
    rw [List.append_assoc, List.singleton_append]
    exact hinv
  have hinv2 := free_inv s live (apre ++ [bP]) (bN :: apost) bB hinvA fB
  have hfb : freeBlocks (apre ++ [bP]) bB (bN :: apost)
      = apre ++ { addr := bP.addr, size := bP.size + (bB.size + bN.size + 16) + 16,
                  free := bP.free } :: apost := by
    have hm : mergeNext { bB with free := true } (bN :: apost)
        = ({ addr := bB.addr, size := bB.size + bN.size + 16, free := true }, apost) := by
      simp [mergeNext, fN]
    unfold freeBlocks
    rw [hm]
    exact mergePrev_concat_free apre apost bP _ fP
  rw [hfb, aB] at hinv2
  have hold : Seg s.mem 0 HEAP_START ((apre ++ [bP, bB]) ++ bN :: apost) 0 := by
    have := hinv.seg
    simpa using this
  obtain ⟨_, _, _, oN, _⟩ := seg_at s.mem _ apost bN _ hold
  obtain ⟨n1, n2, _, n4, n5⟩ := seg_at _ apre apost _ _ hinv2.seg
  dsimp only at n1 n2 n4 n5
  obtain ⟨d1, _⟩ := inv_concrete _ _ _ hinv2
  have hH : SIZEOF_HEAPBLOCK = 16 := rfl
  rw [hH]
  rw [← aP, ← aN, ← aB]
  rw [← aB] at n1 n2 n4 n5 d1 hinv2
  refine ⟨?_, ?_, ?_, ?_, ?_, ?_, ?_⟩
  · rw [List.map_append, List.map_cons, m1, m4] at d1
    exact d1
  · simp only [List.length_append, List.length_cons]
    omega
  · rw [n1, sP, sB, sN]
    omega
  · exact marked_free_flag _ _ _ (by rw [n2, fP])
  · rw [n4, oN]
  · intro hn
    rw [oN] at hn ⊢
    cases apost with
    | nil => exact absurd rfl hn
    | cons c apost1 =>
      rw [seg_cons] at n5
      exact n5.2.2.2.1
  · rw [hinv2.used, hinv.used, sB]
    simp only [usedSum_append, usedSum_cons, fP, fB, fN, if_true]
    simp
    omega

theorem reach_free_used_free : Reach heap_free_used_free [1048616] := by
  have h1 : malloc 3 heap_after_malloc 8
      = some (malloc_take heap_after_malloc 1048600 8, 1048616) := by rfl
  have h2 : Reach (malloc_take heap_after_malloc 1048600 8) [1048616, 1048592] :=
    Reach.malloc_ptr reach_after_malloc (by decide) h1 (by decide)
  have h3 := @Reach.free_ptr _ _ 1048592 h2 (by decide)
  exact h3

/-- C4 witness: in the heap with a free block of 8 bytes at 1048576, a used block
at 1048600 and the free rest of the arena at 1048624, `malloc(9)` rounds the
request to 12, passes over the free block that is too small and over the used
block, and takes the block at 1048624. -/
theorem malloc_first_fit_witness :
    (Reach heap_free_used_free [1048616]
        ∧ IsBlockList heap_free_used_free.mem heap_free_used_free.heap.first_block
            ([1048576, 1048600] ++ 1048624 :: [])
        ∧ round_up4 9 = 12
        ∧ marked_free heap_free_used_free.mem 1048576 = true
        ∧ (heap_free_used_free.mem 1048576).size = 8
        ∧ marked_free heap_free_used_free.mem 1048600 = false
        ∧ fits heap_free_used_free.mem (round_up4 9) 1048624)
      ∧ ∃ s1, (∀ fuel, [1048576, 1048600].length + 1 ≤ fuel →
            malloc fuel heap_free_used_free 9 = some (s1, 1048624 + SIZEOF_HEAPBLOCK))
        ∧ marked_free s1.mem 1048624 = false
        ∧ s1.heap.used_size = heap_free_used_free.heap.used_size + (s1.mem 1048624).size :=
  ⟨⟨reach_free_used_free, by decide, by decide, by decide, by decide, by decide, by decide⟩,
    malloc_first_fit heap_free_used_free [1048616] 9 1048624 [1048576, 1048600] []
      reach_free_used_free (by decide) (by decide) (by decide) (by decide) (by decide)⟩

/-- C33 witness: after `malloc(8)`, `malloc(8)` and `free` of the first pointer the
used block at 1048600 lies between the free block at 1048576 and the free rest
of the arena at 1048624; freeing it leaves one free block of 16777200 bytes. -/
theorem free_merges_both_witness :
    (Reach heap_free_used_free [1048616]
        ∧ IsBlockList heap_free_used_free.mem heap_free_used_free.heap.first_block
            ([] ++ 1048576 :: 1048600 :: 1048624 :: [])
        ∧ marked_free heap_free_used_free.mem 1048576 = true
        ∧ marked_free heap_free_used_free.mem 1048600 = false
        ∧ marked_free heap_free_used_free.mem 1048624 = true)
      ∧ IsBlockList (free heap_free_used_free (1048600 + SIZEOF_HEAPBLOCK)).mem
          (free heap_free_used_free (1048600 + SIZEOF_HEAPBLOCK)).heap.first_block
          ([] ++ 1048576 :: [])
      ∧ ((free heap_free_used_free (1048600 + SIZEOF_HEAPBLOCK)).mem 1048576).size
          = (heap_free_used_free.mem 1048576).size + (heap_free_used_free.mem 1048600).size
            + (heap_free_used_free.mem 1048624).size + 2 * SIZEOF_HEAPBLOCK
      ∧ ((free heap_free_used_free (1048600 + SIZEOF_HEAPBLOCK)).mem 1048576).size = 16777200 := by
  have h := free_merges_both heap_free_used_free [1048616] [] [] 1048576 1048600 1048624
    reach_free_used_free (by decide) (by decide) (by decide) (by decide)
  exact ⟨⟨reach_free_used_free, by decide, by decide, by decide, by decide⟩, h.1, h.2.2.1,
    by decide⟩

/-! ### Termination of `schedule` -/

/-- C38: on a finite, acyclic process list `ps` that contains the current
process, whatever the process states, the scan loop of `schedule` ends after at
most `ps.length` evaluations of its condition (one inspected process each), and
`schedule` returns the same state for every fuel of at least `ps.length`. -/
theorem schedule_terminates (s : SchedState) (ps : List Nat)
    (hl : IsProcList s.procs s.process_list ps) (hmem : s.current_process ∈ ps) :
    (∃ q, ∀ fuel, ps.length ≤ fuel →
        schedule_loop fuel s
          (if (s.procs s.current_process).next = 0 then s.process_list
            else (s.procs s.current_process).next) = some q)
      ∧ ∃ s1, ∀ fuel, ps.length ≤ fuel → schedule fuel s = some s1 := by
  obtain ⟨pre, post, hps⟩ := List.append_of_mem hmem
  rw [hps] at hl
  have hring := ring_of_list s pre post hl
  have h0 : s.current_process ≠ 0 := ring_current_ne_zero s _ hring
  have h1 : s.process_list ≠ 0 := hring.list_nz
  have hrl : (post ++ (pre ++ [s.current_process])).length = ps.length := by
    rw [hps]
    simp only [List.length_append, List.length_cons, List.length_nil]
    omega
  rcases first_split
      (fun x => (s.procs x).state = PROC_READY ∨ x = s.current_process)
      (post ++ (pre ++ [s.current_process])) with hall | ⟨sk, q, rest, er, hq, hsk⟩
  · exact absurd (Or.inr rfl) (hall s.current_process (by simp))
  · have hqm : q ∈ post ++ (pre ++ [s.current_process]) := by rw [er]; simp
    have hloop : ∀ fuel, ps.length ≤ fuel →
        schedule_loop fuel s (cyc_next s s.current_process) = some q := by
      intro fuel hf
      rw [← ring_headD s _ hring, er]
      apply schedule_loop_walk s q rest hq sk fuel
      · rw [← er]
        exact hring.chain
      · intro x hx
        have hxm : x ∈ post ++ (pre ++ [s.current_process]) := by
          rw [er]
          exact List.mem_append_left _ hx
        have hn := hsk x hx
        exact ⟨hring.nz x hxm, fun e => hn (Or.inl e), fun e => hn (Or.inr e)⟩
      · have : (sk ++ q :: rest).length = ps.length := by rw [← er]; exact hrl
        simp only [List.length_append, List.length_cons] at this
        omega
    refine ⟨⟨q, hloop⟩, ?_⟩
    by_cases hqc : q = s.current_process
    · refine ⟨s, fun fuel hf => ?_⟩
      have := hloop fuel hf
      rw [hqc] at this
      exact schedule_stay s fuel this
    · exact ⟨_, fun fuel hf =>
        schedule_switch s fuel q h0 h1 (hloop fuel hf) (hring.nz q hqm) hqc⟩

/-- The process list of `sched_blocked`. -/
theorem sched_blocked_list :
    IsProcList sched_blocked.procs sched_blocked.process_list [100, 200, 300] := by
  decide

/-- C38 at a concrete state: three processes, none Ready, the current one in the
middle of the list; the loop ends within three inspections. -/
theorem schedule_terminates_witness :
    IsProcList sched_blocked.procs sched_blocked.process_list [100, 200, 300]
      ∧ sched_blocked.current_process ∈ [100, 200, 300]
      ∧ (∀ x ∈ [100, 200, 300], (sched_blocked.procs x).state ≠ PROC_READY)
      ∧ ((∃ q, ∀ fuel, [100, 200, 300].length ≤ fuel →
            schedule_loop fuel sched_blocked
              (if (sched_blocked.procs sched_blocked.current_process).next = 0
                then sched_blocked.process_list
                else (sched_blocked.procs sched_blocked.current_process).next) = some q)
          ∧ ∃ s1, ∀ fuel, [100, 200, 300].length ≤ fuel →
              schedule fuel sched_blocked = some s1) :=
  ⟨sched_blocked_list, by decide, by decide,
    schedule_terminates sched_blocked [100, 200, 300] sched_blocked_list (by decide)⟩

/-! ### A failed `send_message` leaves queue and heap as they were -/

/-- Two memories that carry the same linked segment agree on its headers. -/
theorem seg_same_headers (m m1 : Mem) (bs : List Blk) (a0 a1 : Nat)
    (h : Seg m 0 a0 bs 0) (h1 : Seg m1 0 a1 bs 0) :
    ∀ b, b ∈ bs → m1 b.addr = m b.addr := by
  intro b hb
  obtain ⟨pre, post, e⟩ := List.append_of_mem hb
  subst e
  obtain ⟨c1, c2, c3, c4, _⟩ := seg_at m pre post b a0 h
  obtain ⟨d1, d2, d3, d4, _⟩ := seg_at m1 pre post b a1 h1
  rw [heapBlock_ext (m b.addr) _ _ _ _ c1 c2 c4 c3,
    heapBlock_ext (m1 b.addr) _ _ _ _ d1 d2 d4 d3]

/-- Two heap states with the same abstract block list have the same block list,
the same headers on it and the same `used_size`. -/
theorem inv_same_heap (s s1 : HeapState) (live live1 : List Nat) (bs : List Blk)
    (h : HeapInv s live bs) (h1 : HeapInv s1 live1 bs) :
    s1.heap.first_block = s.heap.first_block
      ∧ s1.heap.used_size = s.heap.used_size
      ∧ ∃ l, IsBlockList s.mem s.heap.first_block l
          ∧ IsBlockList s1.mem s1.heap.first_block l
          ∧ ∀ a, a ∈ l → s1.mem a = s.mem a := by
  refine ⟨by rw [h.first, h1.first], by rw [h.used, h1.used], bs.map Blk.addr,
    (inv_concrete s live bs h).1, (inv_concrete s1 live1 bs h1).1, ?_⟩
  intro a ha
  obtain ⟨b, hb, e⟩ := List.mem_map.1 ha
  rw [← e]
  exact seg_same_headers s.mem s1.mem bs _ _ h.seg h1.seg b hb

/-- A `malloc` that returns a pointer, followed by `free` of that pointer, gives
back the abstract block list. -/
theorem malloc_free_inv (s s1 : HeapState) (live : List Nat) (bs : List Blk)
    (fuel size p : Nat) (hinv : HeapInv s live bs)
    (hm : malloc fuel s size = some (s1, p)) (hp : p ≠ 0) :
    (∃ bs1, HeapInv s1 (p :: live) bs1) ∧ ∃ live2, HeapInv (free s1 p) live2 bs := by
  rcases malloc_inv_cases s s1 live bs fuel size p hinv hm with ⟨e, _⟩
    | ⟨_, pre, b, post, e, hfree, hfit, _, e1, e2⟩
  · exact absurd e hp
  · subst e
    obtain ⟨hinv1, _, _⟩ := malloc_take_inv s live pre post b _ hinv hfree hfit
    obtain ⟨b1, rest, ha, hb1, hb2, hfb⟩ :=
      freeBlocks_after_alloc pre post b _ hinv.noadj hfree hfit
    rw [← e1, ← e2] at hinv1
    refine ⟨⟨_, hinv1⟩, ?_⟩
    rw [ha] at hinv1
    have hinv2 := free_inv _ _ pre rest b1 hinv1 hb2
    rw [hfb, hb1, ← e2] at hinv2
    exact ⟨_, hinv2⟩

/-- A `malloc` that returns the null pointer leaves the heap state as it was. -/
theorem malloc_null_same (s s1 : HeapState) (live : List Nat) (bs : List Blk)
    (fuel size : Nat) (hinv : HeapInv s live bs)
    (hm : malloc fuel s size = some (s1, 0)) : s1 = s := by
  rcases malloc_inv_cases s s1 live bs fuel size 0 hinv hm with ⟨_, e⟩
    | ⟨_, pre, b, post, _, _, _, _, _, e2⟩
  · exact e
  · omega

/-- The outcome of a `send_message` call that returns -1. -/
theorem send_message_fail_cases (fuel : Nat) (s s1 : IpcState) (dest t data n : Nat)
    (h : send_message fuel s dest t data n = some (s1, -1)) :
    (∃ h1, malloc fuel s.sched.heap SIZEOF_MESSAGE = some (h1, 0)
        ∧ s1.sched.heap = h1 ∧ s1.msgs = s.msgs ∧ s1.bytes = s.bytes
        ∧ s1.message_queue = s.message_queue ∧ s1.sched.procs = s.sched.procs
        ∧ s1.sched.process_list = s.sched.process_list
        ∧ s1.sched.current_process = s.sched.current_process
        ∧ s1.sched.next_pid = s.sched.next_pid)
      ∨ ∃ h1 h2 msg, malloc fuel s.sched.heap SIZEOF_MESSAGE = some (h1, msg) ∧ msg ≠ 0
          ∧ malloc fuel h1 n = some (h2, 0)
          ∧ s1.sched.heap = free h2 msg ∧ (∀ x, x ≠ msg → s1.msgs x = s.msgs x)
          ∧ s1.bytes = s.bytes
          ∧ s1.message_queue = s.message_queue ∧ s1.sched.procs = s.sched.procs
          ∧ s1.sched.process_list = s.sched.process_list
          ∧ s1.sched.current_process = s.sched.current_process
          ∧ s1.sched.next_pid = s.sched.next_pid := by
  unfold send_message kmalloc at h
  cases hm1 : malloc fuel s.sched.heap SIZEOF_MESSAGE with
  | none => rw [hm1] at h; cases h
  | some r1 =>
    obtain ⟨h1, msg⟩ := r1
    rw [hm1] at h
    dsimp only at h
    by_cases hmsg : msg = 0
    · rw [if_pos hmsg] at h
      have e := (Prod.mk.inj (Option.some.inj h)).1
      left
      subst hmsg
      refine ⟨h1, rfl, ?_⟩
      rw [← e]
      exact ⟨rfl, rfl, rfl, rfl, rfl, rfl, rfl, rfl⟩
    · rw [if_neg hmsg] at h
      cases hm2 : malloc fuel h1 n with
      | none => rw [hm2] at h; cases h
      | some r2 =>
        obtain ⟨h2, payload⟩ := r2
        rw [hm2] at h
        dsimp only at h
        by_cases hpay : payload = 0
        · rw [if_pos hpay] at h
          have e := (Prod.mk.inj (Option.some.inj h)).1
          right
          subst hpay
          refine ⟨h1, h2, msg, rfl, hmsg, hm2, ?_⟩
          rw [← e]
          refine ⟨rfl, ?_, rfl, rfl, rfl, rfl, rfl, rfl⟩
          intro x hx
          dsimp only
          rw [if_neg hx]
        · rw [if_neg hpay] at h
          have := (Prod.mk.inj (Option.some.inj h)).2
          omega

/-- C37: on a reachable heap, with the queued message nodes among the live
allocations, whenever `send_message` returns -1 (the node allocation or the
payload allocation failed, for every length, 0 included) the message queue head
and the queued nodes are as before, the byte memory (which holds the buffers and
the output locations) and the scheduler statics are unchanged, and the heap has
the same `first_block`, the same `used_size` and the same block list with the
same headers as before the call. -/
theorem send_failure_atomic (fuel : Nat) (s s1 : IpcState) (dest t data n : Nat)
    (ms live : List Nat) (hr : Reach s.sched.heap live)
    (hq : IsMsgList s.msgs s.message_queue ms) (hlive : ∀ x, x ∈ ms → x ∈ live)
    (h : send_message fuel s dest t data n = some (s1, -1)) :
    s1.message_queue = s.message_queue
      ∧ IsMsgList s1.msgs s1.message_queue ms
      ∧ (∀ x, x ∈ ms → s1.msgs x = s.msgs x)
      ∧ s1.bytes = s.bytes
      ∧ s1.sched.procs = s.sched.procs
      ∧ s1.sched.current_process = s.sched.current_process
      ∧ s1.sched.heap.heap.first_block = s.sched.heap.heap.first_block
      ∧ s1.sched.heap.heap.used_size = s.sched.heap.heap.used_size
      ∧ ∃ l, IsBlockList s.sched.heap.mem s.sched.heap.heap.first_block l
          ∧ IsBlockList s1.sched.heap.mem s1.sched.heap.heap.first_block l
          ∧ ∀ a, a ∈ l → s1.sched.heap.mem a = s.sched.heap.mem a := by
  obtain ⟨bs, hinv⟩ := reach_inv _ live hr
  rcases send_message_fail_cases fuel s s1 dest t data n h with
    ⟨h1, hm1, e1, e2, e3, e5, e6, _, e8, _⟩
    | ⟨h1, h2, msg, hm1, hmsg, hm2, e1, e2, e3, e5, e6, _, e8, _⟩
  · have eh := malloc_null_same _ _ live bs fuel _ hinv hm1
    rw [eh] at e1
    rw [e5, e2, e1]
    refine ⟨rfl, hq, fun _ _ => rfl, e3, e6, e8, rfl, rfl, ?_⟩
    exact ⟨_, (inv_concrete _ live bs hinv).1, (inv_concrete _ live bs hinv).1, fun _ _ => rfl⟩
  · obtain ⟨⟨bs1, hinv1⟩, live2, hinv2⟩ := malloc_free_inv _ _ live bs fuel _ msg hinv hm1 hmsg
    have eh := malloc_null_same _ _ _ bs1 fuel _ hinv1 hm2
    rw [eh] at e1
    have hfresh : msg ∉ ms := fun hx => (List.nodup_cons.1 hinv1.nodup).1 (hlive msg hx)
    have hsame : ∀ x, x ∈ ms → s1.msgs x = s.msgs x :=
      fun x hx => e2 x (fun e => hfresh (by rw [← e]; exact hx))
    rw [e5, e1]
    obtain ⟨c1, c2, c3⟩ := inv_same_heap _ _ live live2 bs hinv hinv2
    refine ⟨rfl, ?_, hsame, e3, e6, e8, c1, c2, c3⟩
    exact ismsglist_congr s.msgs _ ms _ (fun x hx => by rw [hsame x hx]) hq

/-- C37 witness: from the boot state `send_message` of a zero-length payload
allocates the node, fails on the payload, frees the node and returns -1. -/
theorem send_failure_atomic_witness :
    (send_message 4 ipc_boot 2 7 5000 0).map Prod.snd = some (-1)
      ∧ (after_send 4 ipc_boot 2 7 5000 0).message_queue = ipc_boot.message_queue
      ∧ IsMsgList (after_send 4 ipc_boot 2 7 5000 0).msgs
          (after_send 4 ipc_boot 2 7 5000 0).message_queue []
      ∧ (∀ x, x ∈ ([] : List Nat) → (after_send 4 ipc_boot 2 7 5000 0).msgs x = ipc_boot.msgs x)
      ∧ (after_send 4 ipc_boot 2 7 5000 0).bytes = ipc_boot.bytes
      ∧ (after_send 4 ipc_boot 2 7 5000 0).sched.procs = ipc_boot.sched.procs
      ∧ (after_send 4 ipc_boot 2 7 5000 0).sched.current_process
          = ipc_boot.sched.current_process
      ∧ (after_send 4 ipc_boot 2 7 5000 0).sched.heap.heap.first_block
          = ipc_boot.sched.heap.heap.first_block
      ∧ (after_send 4 ipc_boot 2 7 5000 0).sched.heap.heap.used_size
          = ipc_boot.sched.heap.heap.used_size
      ∧ ∃ l, IsBlockList ipc_boot.sched.heap.mem ipc_boot.sched.heap.heap.first_block l
          ∧ IsBlockList (after_send 4 ipc_boot 2 7 5000 0).sched.heap.mem
              (after_send 4 ipc_boot 2 7 5000 0).sched.heap.heap.first_block l
          ∧ ∀ a, a ∈ l → (after_send 4 ipc_boot 2 7 5000 0).sched.heap.mem a
              = ipc_boot.sched.heap.mem a :=
  ⟨by rfl, send_failure_atomic 4 ipc_boot (after_send 4 ipc_boot 2 7 5000 0) 2 7 5000 0 [] []
    (Reach.init heap_zero) (by rfl) (fun x hx => by cases hx) (by rfl)⟩

/-! ### The identity map that `init_paging` builds -/

theorem table_index_identity (n : Nat) (hn : n < 1024) :
    table_index (mul32 n PAGE_SIZE) = n := by
  unfold table_index mul32 PAGE_SIZE
  rw [Nat.shiftRight_eq_div_pow]
  have e : (1023 : Nat) = 2 ^ 10 - 1 := by norm_num
  rw [e, Nat.and_pow_two_sub_one_eq_mod]
  have : (2:Nat) ^ 12 = 4096 := by norm_num
  rw [this]
  have : (2:Nat) ^ 10 = 1024 := by norm_num
  rw [this]
  omega

/-- The leaf entries written by the first `n` steps of the identity-mapping
loop. -/
theorem identity_map_leaf (s : PagingState) (hinv : VMInv s)
    (h0 : ∀ i, i < 1024 → s.vmm.page_tables i = 0)
    (hnz : (allocate_physical_page s.pmm).2 ≠ 0)
    (hsep : Apart (allocate_physical_page s.pmm).2 s.vmm.page_directory) :
    ∀ n, n ≤ 1024 → ∀ k, k < n →
      leaf_entry (identity_map s n) 0 k = mul32 k PAGE_SIZE ||| 0x03 := by
  intro n
  induction n with
  | zero => intro _ k hk; omega
  | succ n ih =>
    intro hn k hk
    have hdi := dir_index_identity n (by omega)
    have hti := table_index_identity n (by omega)
    by_cases hkn : k = n
    · subst hkn
      have h := map_page_leaf (identity_map s k) (mul32 k PAGE_SIZE) (mul32 k PAGE_SIZE) 0x03
      rw [hdi, hti] at h
      exact h
    · have hn1 : 1 ≤ n := by omega
      have hp := (identity_map_inv s hinv h0 hnz hsep n (by omega)).2.2.2 hn1
      have ht : table_for (identity_map s n) (mul32 n PAGE_SIZE)
          = (identity_map s n).vmm.page_tables 0 := by
        unfold table_for
        rw [hdi, hp, if_pos rfl]
      have hv := map_page_vmm (identity_map s n) (mul32 n PAGE_SIZE) (mul32 n PAGE_SIZE) 0x03
      rw [hdi] at hv
      show (map_page (identity_map s n) (mul32 n PAGE_SIZE) (mul32 n PAGE_SIZE) 0x03).ram
        (word_addr ((map_page (identity_map s n) (mul32 n PAGE_SIZE) (mul32 n PAGE_SIZE)
          0x03).vmm.page_tables 0) k) = _
      rw [hv.2.1, map_page_ram, hti, hdi, hp, if_pos rfl, ht,
        if_neg (fun e => hkn (word_addr_inj _ _ _ (by omega) (by omega) e))]
      exact ih (by omega) k (by omega)

/-- The page table that `init_paging` sets up holds the identity map of the
first 1024 pages, when its one allocation gives a non-null table apart from the
directory. -/
theorem init_paging_leaf (s : PagingState)
    (hnz : (allocate_physical_page s.pmm).2 ≠ 0)
    (hsep : Apart (allocate_physical_page s.pmm).2 s.early_malloc_ptr) :
    ∀ k, k < 1024 → leaf_entry (init_paging s) 0 k = mul32 k PAGE_SIZE ||| 0x03 := by
  rw [init_paging_eq]
  generalize hs1 : ({ ram := s.ram
                      vmm := { page_directory := s.early_malloc_ptr,
                               page_tables := s.vmm.page_tables }
                      pmm := s.pmm
                      early_malloc_ptr :=
                        add32 s.early_malloc_ptr (add32 PAGE_SIZE 3 &&& not32 3) }
                    : PagingState) = s1
  have hd1 : s1.vmm.page_directory = s.early_malloc_ptr := by rw [← hs1]
  have hp1 : s1.pmm = s.pmm := by rw [← hs1]
  obtain ⟨f1, f2, _⟩ := clear_directory_fields s1 1024
  exact identity_map_leaf (clear_directory s1 1024) (clear_directory_inv s1)
    (fun i hi => (clear_directory_entries s1 1024 (le_refl _) i hi).2)
    (by rw [f2, hp1]; exact hnz) (by rw [f2, f1, hp1, hd1]; exact hsep) 1024 (le_refl _)

/-- C34: after `init_physical_memory` and then `init_paging` (with
`early_malloc_ptr` at its initial value 0x300000), for every page-aligned
address `a < 0x400000` the leaf entry selected by `a` (directory index
`a >> 22`, table index `(a >> 12) & 0x3FF`) equals `a | 0x03`; directory entry 0
is the only present directory entry; and `init_paging` took exactly one frame
from the physical allocator: the allocator state is that after the single
allocation of frame 256 (address 0x100000, the page table of slot 0), with one
free page less and one used page more. -/
theorem boot_identity_map (s : PagingState) (pmm0 : PhysicalMemoryManager)
    (hp : s.pmm = init_physical_memory pmm0) (he : s.early_malloc_ptr = 0x300000) :
    (∀ a, a < 0x400000 → a % PAGE_SIZE = 0 →
        leaf_entry (init_paging s) (a >>> 22) ((a >>> 12) &&& 0x3FF) = a ||| 0x03)
      ∧ (∀ i, i < 1024 → (present (dir_entry (init_paging s) i) = true ↔ i = 0))
      ∧ allocate_physical_page s.pmm = (mark_used s.pmm 256, 0x100000)
      ∧ (init_paging s).pmm = (allocate_physical_page s.pmm).1
      ∧ (init_paging s).pmm.free_pages + 1 = s.pmm.free_pages
      ∧ (init_paging s).pmm.used_pages = s.pmm.used_pages + 1
      ∧ (init_paging s).vmm.page_tables 0 = 0x100000 := by
  obtain ⟨hf, ht⟩ := init_filled pmm0
  obtain ⟨h1, _⟩ := filled_step _ 256 hf (by rw [ht]; omega)
  have ha : allocate_physical_page s.pmm = (mark_used s.pmm 256, 0x100000) := by
    rw [hp, h1]
    rfl
  have hnz : (allocate_physical_page s.pmm).2 ≠ 0 := by
    rw [ha]
    show (1048576 : Nat) ≠ 0
    omega
  have hsep : Apart (allocate_physical_page s.pmm).2 s.early_malloc_ptr := by
    rw [ha, he]
    exact apart_of_le 1048576 3145728 (by omega) (by omega)
  obtain ⟨i1, i2, i3, i4⟩ := init_paging_inv s hnz hsep
  have hpm := init_paging_pmm s hnz hsep
  have hleaf := init_paging_leaf s hnz hsep
  have hcu := consistent_mark_used (init_physical_memory pmm0) 256 (init_consistent pmm0)
    (by rw [ht]; omega) (hf.2 256 (le_refl _) (by rw [ht]; omega))
  refine ⟨?_, ?_, ha, hpm, ?_, ?_, ?_⟩
  · intro a ha1 ha2
    have hPS : PAGE_SIZE = 4096 := rfl
    rw [hPS] at ha2
    obtain ⟨k, rfl⟩ : ∃ k, a = k * 4096 := ⟨a / 4096, by omega⟩
    have hk : k < 1024 := by omega
    have hm : mul32 k PAGE_SIZE = k * 4096 := by
      unfold mul32 PAGE_SIZE
      omega
    have hdi := dir_index_identity k hk
    have hti := table_index_identity k hk
    unfold dir_index at hdi
    unfold table_index at hti
    rw [hm] at hdi hti
    rw [hdi, hti, hleaf k hk, hm]
  · intro i hi
    constructor
    · intro hpr
      by_contra hne
      exact (i1.dir i hi).1 hpr (i3 i hi hne)
    · intro e
      rw [e]
      exact i4
  · rw [hpm, ha, hp]
    exact hcu.2.1
  · rw [hpm, ha, hp]
    exact hcu.2.2
  · rw [init_paging_table s hnz hsep, ha]

/-- C34 witness: the boot state, with zeroed memory, the allocator as
`init_physical_memory` leaves it and `early_malloc_ptr = 0x300000`. -/
theorem boot_identity_map_witness :
    boot_state.pmm = init_physical_memory pmm_zero
      ∧ boot_state.early_malloc_ptr = 0x300000
      ∧ (∀ a, a < 0x400000 → a % PAGE_SIZE = 0 →
          leaf_entry (init_paging boot_state) (a >>> 22) ((a >>> 12) &&& 0x3FF) = a ||| 0x03)
      ∧ (∀ i, i < 1024 → (present (dir_entry (init_paging boot_state) i) = true ↔ i = 0))
      ∧ allocate_physical_page boot_state.pmm = (mark_used boot_state.pmm 256, 0x100000)
      ∧ (init_paging boot_state).pmm = (allocate_physical_page boot_state.pmm).1
      ∧ (init_paging boot_state).pmm.free_pages + 1 = boot_state.pmm.free_pages
      ∧ (init_paging boot_state).pmm.used_pages = boot_state.pmm.used_pages + 1
      ∧ (init_paging boot_state).vmm.page_tables 0 = 0x100000 :=
  ⟨boot_state_pmm, rfl, boot_identity_map boot_state pmm_zero boot_state_pmm rfl⟩

/-! ### Which process runs after `create_process` and `schedule` -/

theorem creach_sreach (s : SchedState) (h : CReach s) : ∃ pids, SReach s pids := by
  induction h with
  | init hr hi => exact ⟨_, SReach.init hr hi⟩
  | @create s s1 fuel p entry name _ hb hn hc ih =>
    obtain ⟨pids, hs⟩ := ih
    by_cases hp : p = 0
    · subst hp
      exact ⟨_, SReach.create_null hs hb hn hc⟩
    · exact ⟨_, SReach.create_ptr hs hb hn hc hp⟩
  | schedule _ hc ih =>
    obtain ⟨pids, hs⟩ := ih
    exact ⟨_, SReach.schedule hs hc⟩

theorem sched_two_facts :
    create_process 4 sched_after_init [65] 0
        = some (after_create 4 sched_after_init [65] 0, 1048696)
      ∧ schedule 4 (after_create 4 sched_after_init [65] 0) = some sched_two
      ∧ sched_two.current_process = 1048696
      ∧ sched_two.process_list = 1048696
      ∧ IsProcList sched_two.procs sched_two.process_list [1048696, 1048592]
      ∧ (sched_two.procs 1048592).state = PROC_READY
      ∧ sched_two.next_pid = 3 :=
  ⟨by rfl, by rfl, by rfl, by rfl, by decide, by rfl, by rfl⟩

theorem creach_sched_two : CReach sched_two :=
  CReach.schedule
    (CReach.create
      (@CReach.init (init_heap heap_zero) [] procs_zero 2 sched_after_init
        (Reach.init heap_zero) (by rfl))
      (by decide) (by decide) sched_two_facts.1)
    sched_two_facts.2.1

/-- C35 counterexample: after boot, `create_process("A")` and `schedule`, process
A (at 1048696) is current and the kernel process (at 1048592), which follows
it in the list, is Ready.  `create_process("B")` succeeds and returns the new
control block at 1048800, and the `schedule` call right after it makes the
kernel process current, not the newly created one. -/
theorem newest_runs_next_counterexample :
    CReach sched_two
      ∧ sched_two.current_process = 1048696
      ∧ create_process 4 sched_two [66] 0 = some (after_create 4 sched_two [66] 0, 1048800)
      ∧ (1048800 : Nat) ≠ 0
      ∧ schedule 4 (after_create 4 sched_two [66] 0)
          = some (after_schedule 4 (after_create 4 sched_two [66] 0))
      ∧ (after_schedule 4 (after_create 4 sched_two [66] 0)).current_process = 1048592
      ∧ (after_schedule 4 (after_create 4 sched_two [66] 0)).current_process ≠ 1048800 :=
  ⟨creach_sched_two, by rfl, by rfl, by decide, by rfl, by rfl, by decide⟩

/-- C35 (amended): in every state reachable from `init_scheduler` by
`create_process` and `schedule` in which the current process is on the process
list and no process that follows it on the list is Ready, if `create_process`
succeeds (with `next_pid` below `INT_MAX`) and `schedule()` is called
immediately afterwards, that call returns and the process it makes current is
the newly created process, which is then Running. -/
theorem newest_runs_next (s s1 : SchedState) (pre post name : List Nat) (fuel entry p : Nat)
    (hr : CReach s) (hb : s.next_pid < 2147483647)
    (hl : IsProcList s.procs s.process_list (pre ++ s.current_process :: post))
    (hpost : ∀ x, x ∈ post → (s.procs x).state ≠ PROC_READY)
    (hc : create_process fuel s name entry = some (s1, p)) (hp : p ≠ 0) :
    ∀ fuel2, post.length + 1 ≤ fuel2 →
      ∃ s2, schedule fuel2 s1 = some s2 ∧ s2.current_process = p
        ∧ (s2.procs p).state = PROC_RUNNING := by
  intro fuel2 hf
  obtain ⟨pids, hs⟩ := creach_sreach s hr
  obtain ⟨ps, live, hinv⟩ := sreach_inv s pids hs
  have eps : ps = pre ++ s.current_process :: post := islist_unique _ _ _ _ hinv.list hl
  obtain ⟨h2, hm, _, e1⟩ := create_process_cases fuel s s1 name entry p hc
  have es := e1 hp
  have hinv1 := pidinv_create s pids ps live h2 name p fuel hinv hb hm hp
  rw [← es] at hinv1
  have hcur : s1.current_process = s.current_process := by rw [es]
  have hlist : s1.process_list = p := by rw [es]
  have hl1 : IsProcList s1.procs s1.process_list
      ((p :: pre) ++ s1.current_process :: post) := by
    rw [hcur, List.cons_append, ← eps]
    exact hinv1.list
  have hnd := islist_nodup _ _ _ hl1
  have hring := ring_of_list s1 (p :: pre) post hl1
  have h0 : s1.current_process ≠ 0 := ring_current_ne_zero s1 _ hring
  have hpc : p ≠ s1.current_process := by
    intro e
    rw [List.cons_append, List.nodup_cons] at hnd
    exact hnd.1 (by rw [e]; simp)
  have hother : ∀ x, x ≠ p → s1.procs x = s.procs x := by
    intro x hx
    rw [es]
    dsimp only
    rw [if_neg hx]
  have hready : (s1.procs p).state = PROC_READY := by
    rw [es]
    dsimp only
    rw [if_pos rfl]
  have hloop : schedule_loop fuel2 s1 (cyc_next s1 s1.current_process) = some p := by
    rw [← ring_headD s1 _ hring]
    have hsplit : post ++ ((p :: pre) ++ [s1.current_process])
        = post ++ p :: (pre ++ [s1.current_process]) := by simp
    rw [hsplit]
    apply schedule_loop_walk s1 p (pre ++ [s1.current_process]) (Or.inl hready) post fuel2
    · rw [← hsplit]
      exact hring.chain
    · intro x hx
      have hxr : x ∈ post ++ ((p :: pre) ++ [s1.current_process]) :=
        List.mem_append_left _ hx
      have hxp : x ≠ p := by
        intro e
        rw [List.cons_append, List.nodup_cons] at hnd
        exact hnd.1 (by rw [← e]; simp [hx])
      refine ⟨hring.nz x hxr, ?_, ?_⟩
      · rw [hother x hxp]
        exact hpost x hx
      · intro e
        have h3 := (List.nodup_append.1 hnd).2.1
        exact (List.nodup_cons.1 h3).1 (by rw [← e]; exact hx)
    · exact hf
  refine ⟨_, schedule_switch s1 fuel2 p h0 hring.list_nz hloop hp hpc, rfl, ?_⟩
  exact setProcState_same _ _ _

/-- C35 witness: right after `init_scheduler` the kernel process is current and
last in the list; `create_process("A")` returns the control block at 1048696
and the following `schedule` makes it current. -/
theorem newest_runs_next_witness :
    CReach sched_after_init
      ∧ IsProcList sched_after_init.procs sched_after_init.process_list
          ([] ++ sched_after_init.current_process :: [])
      ∧ create_process 4 sched_after_init [65] 0
          = some (after_create 4 sched_after_init [65] 0, 1048696)
      ∧ ∀ fuel2, ([] : List Nat).length + 1 ≤ fuel2 →
          ∃ s2, schedule fuel2 (after_create 4 sched_after_init [65] 0) = some s2
            ∧ s2.current_process = 1048696
            ∧ (s2.procs 1048696).state = PROC_RUNNING :=
  ⟨@CReach.init (init_heap heap_zero) [] procs_zero 2 sched_after_init
      (Reach.init heap_zero) (by rfl),
    by decide, sched_two_facts.1,
    newest_runs_next sched_after_init (after_create 4 sched_after_init [65] 0) [] [] [65] 4 0
      1048696
      (@CReach.init (init_heap heap_zero) [] procs_zero 2 sched_after_init
        (Reach.init heap_zero) (by rfl))
      (by decide) (by decide) (fun x hx => by cases hx) sched_two_facts.1 (by decide)⟩

/-! ### `strncpy` -/

theorem strncpy_pad_spec :
    ∀ (n : Nat) (bytes : Nat → Nat) (dest a : Nat),
      strncpy_pad bytes dest n a = if dest ≤ a ∧ a < dest + n then 0 else bytes a := by
  intro n
  induction n with
  | zero =>
    intro bytes dest a
    rw [strncpy_pad, if_neg (by omega)]
  | succ n ih =>
    intro bytes dest a
    rw [strncpy_pad, ih]
    by_cases h1 : a = dest
    · subst h1
      rw [if_neg (by omega), if_pos rfl, if_pos (by omega)]
    · by_cases h2 : dest + 1 ≤ a ∧ a < dest + 1 + n
      · rw [if_pos h2, if_pos (by omega)]
      · rw [if_neg h2, if_neg h1, if_neg (by omega)]

/-- The first loop of `strncpy` when the source string is shorter than `n`: it
copies the string with its terminator and leaves `n - L - 1` in the counter. -/
theorem strncpy_copy_short :
    ∀ (n : Nat) (bytes : Nat → Nat) (dest src L : Nat), L < n →
      (∀ i, i < L → bytes (src + i) ≠ 0) → bytes (src + L) = 0 →
      (src + L < dest ∨ dest + n ≤ src) →
      (strncpy_copy bytes dest src n).2.1 = dest + L + 1
        ∧ (strncpy_copy bytes dest src n).2.2 = n - L - 1
        ∧ ∀ a, (strncpy_copy bytes dest src n).1 a
            = if dest ≤ a ∧ a < dest + L + 1 then bytes (src + (a - dest)) else bytes a := by
  intro n
  induction n with
  | zero => intro _ _ _ L h; omega
  | succ n ih =>
    intro bytes dest src L hL hnz hz hsep
    rw [strncpy_copy]
    cases L with
    | zero =>
      rw [if_neg (by rw [Nat.add_zero] at hz; rw [hz]; exact fun h => h rfl)]
      refine ⟨rfl, by show n = n + 1 - 0 - 1; omega, ?_⟩
      intro a
      show (if a = dest then bytes src else bytes a) = _
      by_cases h1 : a = dest
      · subst h1
        rw [if_pos rfl, if_pos (by omega), Nat.sub_self, Nat.add_zero]
      · rw [if_neg h1, if_neg (by omega)]
    | succ L =>
      have h0 : bytes src ≠ 0 := by
        have := hnz 0 (by omega)
        rwa [Nat.add_zero] at this
      rw [if_pos h0]
      have hne : ∀ i, i ≤ L → src + 1 + i ≠ dest := by
        intro i hi
        omega
      obtain ⟨i1, i2, i3⟩ := ih (fun a => if a = dest then bytes src else bytes a) (dest + 1)
        (src + 1) L (by omega)
        (fun i hi => by
          show (if src + 1 + i = dest then bytes src else bytes (src + 1 + i)) ≠ 0
          rw [if_neg (hne i (by omega))]
          have := hnz (i + 1) (by omega)
          rwa [show src + (i + 1) = src + 1 + i by omega] at this)
        (by
          show (if src + 1 + L = dest then bytes src else bytes (src + 1 + L)) = 0
          rw [if_neg (hne L (le_refl _))]
          rwa [show src + (L + 1) = src + 1 + L by omega] at hz)
        (by omega)
      refine ⟨by rw [i1]; omega, by rw [i2]; omega, ?_⟩
      intro a
      rw [i3]
      by_cases h1 : a = dest
      · subst h1
        rw [if_neg (by omega), if_pos rfl, if_pos (by omega), Nat.sub_self, Nat.add_zero]
      · by_cases h2 : dest + 1 ≤ a ∧ a < dest + 1 + L + 1
        · have h3 : dest ≤ a ∧ a < dest + (L + 1) + 1 := by omega
          have h4 : src + 1 + (a - (dest + 1)) ≠ dest := by omega
          rw [if_pos h2, if_neg h4, if_pos h3,
            show src + 1 + (a - (dest + 1)) = src + (a - dest) by omega]
        · have h3 : ¬ (dest ≤ a ∧ a < dest + (L + 1) + 1) := by omega
          rw [if_neg h2, if_neg h1, if_neg h3]

/-- The first loop of `strncpy` when the first `n` bytes of the source are
non-zero: it copies them and ends with the counter wrapped to 2^32 - 1. -/
theorem strncpy_copy_long :
    ∀ (n : Nat) (bytes : Nat → Nat) (dest src : Nat),
      (∀ i, i < n → bytes (src + i) ≠ 0) → (src + n ≤ dest ∨ dest + n ≤ src) →
      (strncpy_copy bytes dest src n).2.1 = dest + n
        ∧ (strncpy_copy bytes dest src n).2.2 = 4294967295
        ∧ ∀ a, (strncpy_copy bytes dest src n).1 a
            = if dest ≤ a ∧ a < dest + n then bytes (src + (a - dest)) else bytes a := by
  intro n
  induction n with
  | zero =>
    intro bytes dest src _ _
    rw [strncpy_copy]
    refine ⟨rfl, rfl, fun a => ?_⟩
    rw [if_neg (by omega)]
  | succ n ih =>
    intro bytes dest src hnz hsep
    rw [strncpy_copy]
    have h0 : bytes src ≠ 0 := by
      have := hnz 0 (by omega)
      rwa [Nat.add_zero] at this
    rw [if_pos h0]
    obtain ⟨i1, i2, i3⟩ := ih (fun a => if a = dest then bytes src else bytes a) (dest + 1)
      (src + 1)
      (fun i hi => by
        show (if src + 1 + i = dest then bytes src else bytes (src + 1 + i)) ≠ 0
        rw [if_neg (by omega)]
        have := hnz (i + 1) (by omega)
        rwa [show src + (i + 1) = src + 1 + i by omega] at this)
      (by omega)
    refine ⟨by rw [i1]; omega, i2, ?_⟩
    intro a
    rw [i3]
    by_cases h1 : a = dest
    · subst h1
      rw [if_neg (by omega), if_pos rfl, if_pos (by omega), Nat.sub_self, Nat.add_zero]
    · by_cases h2 : dest + 1 ≤ a ∧ a < dest + 1 + n
      · have h3 : dest ≤ a ∧ a < dest + (n + 1) := by omega
        have h4 : src + 1 + (a - (dest + 1)) ≠ dest := by omega
        rw [if_pos h2, if_neg h4, if_pos h3,
          show src + 1 + (a - (dest + 1)) = src + (a - dest) by omega]
      · have h3 : ¬ (dest ≤ a ∧ a < dest + (n + 1)) := by omega
        rw [if_neg h2, if_neg h1, if_neg h3]

/-- C39 (fails on the code): let the source be a NUL-terminated string of length
`L` that lies apart from the `n` destination bytes.  When `L < n`,
`strncpy(dest, src, n)` writes `dest[0..n-1]` only: the `L` bytes of the string
followed by zero bytes up to index `n - 1`.  When `L >= n` (also for `n = 0`)
it copies the first `n` bytes of the string and then, because the counter has
wrapped to 2^32 - 1, writes a zero byte at every index from `n` up to
`n + 2^32 - 2`, beyond the `n` bytes it was given. -/
theorem strncpy_writes (bytes : Nat → Nat) (dest src n L : Nat)
    (hnz : ∀ i, i < L → bytes (src + i) ≠ 0) (hz : bytes (src + L) = 0)
    (hsep : src + L < dest ∨ dest + n ≤ src) :
    (L < n →
        (∀ i, i < L → strncpy bytes dest src n (dest + i) = bytes (src + i))
          ∧ (∀ i, L ≤ i → i < n → strncpy bytes dest src n (dest + i) = 0)
          ∧ (∀ a, a < dest ∨ dest + n ≤ a → strncpy bytes dest src n a = bytes a))
      ∧ (n ≤ L →
          (∀ i, i < n → strncpy bytes dest src n (dest + i) = bytes (src + i))
            ∧ (∀ j, n ≤ j → j < n + 4294967295 → strncpy bytes dest src n (dest + j) = 0)
            ∧ (∀ a, a < dest ∨ dest + n + 4294967295 ≤ a →
                strncpy bytes dest src n a = bytes a)) := by
  constructor
  · intro hL
    obtain ⟨e1, e2, e3⟩ := strncpy_copy_short n bytes dest src L hL hnz hz hsep
    have key : ∀ a, strncpy bytes dest src n a
        = if dest + L + 1 ≤ a ∧ a < dest + L + 1 + (n - L - 1) then 0
          else if dest ≤ a ∧ a < dest + L + 1 then bytes (src + (a - dest)) else bytes a := by
      intro a
      unfold strncpy
      rw [strncpy_pad_spec, e1, e2, e3]
    refine ⟨?_, ?_, ?_⟩
    · intro i hi
      rw [key, if_neg (by omega), if_pos (by omega), show dest + i - dest = i by omega]
    · intro i h1 h2
      rw [key]
      by_cases h3 : i = L
      · subst h3
        rw [if_neg (by omega), if_pos (by omega), show dest + i - dest = i by omega, hz]
      · rw [if_pos (by omega)]
    · intro a ha
      rw [key, if_neg (by omega), if_neg (by omega)]
  · intro hL
    obtain ⟨e1, e2, e3⟩ := strncpy_copy_long n bytes dest src
      (fun i hi => hnz i (by omega)) (by omega)
    have key : ∀ a, strncpy bytes dest src n a
        = if dest + n ≤ a ∧ a < dest + n + 4294967295 then 0
          else if dest ≤ a ∧ a < dest + n then bytes (src + (a - dest)) else bytes a := by
      intro a
      unfold strncpy
      rw [strncpy_pad_spec, e1, e2, e3]
    refine ⟨?_, ?_, ?_⟩
    · intro i hi
      rw [key, if_neg (by omega), if_pos (by omega), show dest + i - dest = i by omega]
    · intro j h1 h2
      rw [key, if_pos (by omega)]
    · intro a ha
      rw [key, if_neg (by omega), if_neg (by omega)]

/-- C39 failing input: `strncpy(dest, "ab", 2)` with `dest = 200` and the byte 7
at `dest[2]`: after the call `dest[2]` is 0. -/
theorem strncpy_writes_witness :
    (∀ i, i < 2 → bytes_ab (100 + i) ≠ 0) ∧ bytes_ab (100 + 2) = 0
      ∧ bytes_ab (200 + 2) = 7
      ∧ strncpy bytes_ab 200 100 2 (200 + 2) = 0 :=
  ⟨by decide, by decide, by decide,
    ((strncpy_writes bytes_ab 200 100 2 2 (by decide) (by decide) (by decide)).2
      (by decide)).2.1 2 (by decide) (by decide)⟩

/-! ### `itoa` and `atoi` -/

theorem wrap_int_id (x : Int) (h1 : -2147483648 ≤ x) (h2 : x < 2147483648) : wrap_int x = x := by
  unfold wrap_int
  omega

theorem itoa_table_digit : ∀ d, d < 10 → itoa_table.getD d 0 = 48 + d := by
  decide

/-- One iteration of the digit loop of `itoa` on a non-negative value in base
10. -/
theorem itoa_digits_step (fuel : Nat) (bytes : Nat → Nat) (n ptr : Nat) (hn : n < 2147483648) :
    itoa_digits (fuel + 1) bytes (n : Int) ptr 10
      = if n / 10 ≠ 0 then
          itoa_digits fuel (fun a => if a = ptr then 48 + n % 10 else bytes a)
            ((n / 10 : Nat) : Int) (ptr + 1) 10
        else some (Except.ok (fun a => if a = ptr then 48 + n % 10 else bytes a, ptr + 1)) := by
  have hd : Int.tdiv (n : Int) 10 = ((n / 10 : Nat) : Int) := by
    rw [Int.tdiv_eq_ediv (by omega) (by omega)]
    omega
  have hw : wrap_int (Int.tdiv (n : Int) 10) = ((n / 10 : Nat) : Int) := by
    rw [hd]
    exact wrap_int_id _ (by omega) (by omega)
  have hi : (n : Int) - ((n / 10 : Nat) : Int) * 10 = ((n % 10 : Nat) : Int) := by omega
  rw [itoa_digits]
  dsimp only
  rw [hw, hi, if_pos (by omega), Int.toNat_ofNat, itoa_table_digit _ (by omega)]
  by_cases h0 : n / 10 = 0
  · rw [if_neg (by rw [h0]; exact fun h => h rfl), if_neg (by rw [h0]; exact fun h => h rfl)]
  · rw [if_pos (by omega), if_pos h0]

/-- The digit loop of `itoa` on a non-negative value below `10^(k+1)`: it writes
at most `k + 1` decimal digits, least significant first. -/
theorem itoa_digits_nat :
    ∀ (k fuel n : Nat) (bytes : Nat → Nat) (ptr : Nat), n < 10 ^ (k + 1) → n < 2147483648 →
      k + 1 ≤ fuel →
      ∃ len bytes1, 1 ≤ len ∧ len ≤ k + 1 ∧ n < 10 ^ len
        ∧ itoa_digits fuel bytes (n : Int) ptr 10 = some (Except.ok (bytes1, ptr + len))
        ∧ (∀ i, i < len → bytes1 (ptr + i) = 48 + n / 10 ^ i % 10)
        ∧ (∀ a, a < ptr ∨ ptr + len ≤ a → bytes1 a = bytes a) := by
  have one : ∀ (f n : Nat) (bytes : Nat → Nat) (ptr : Nat), n < 2147483648 → n / 10 = 0 →
      ∃ len bytes1, 1 ≤ len ∧ len ≤ 1 ∧ n < 10 ^ len
        ∧ itoa_digits (f + 1) bytes (n : Int) ptr 10 = some (Except.ok (bytes1, ptr + len))
        ∧ (∀ i, i < len → bytes1 (ptr + i) = 48 + n / 10 ^ i % 10)
        ∧ (∀ a, a < ptr ∨ ptr + len ≤ a → bytes1 a = bytes a) := by
    intro f n bytes ptr hn h0
    refine ⟨1, fun a => if a = ptr then 48 + n % 10 else bytes a, le_refl _, le_refl _,
      by omega, ?_, ?_, ?_⟩
    · rw [itoa_digits_step f bytes n ptr hn, if_neg (by omega)]
    · intro i hi
      have : i = 0 := by omega
      subst this
      show (if ptr + 0 = ptr then 48 + n % 10 else _) = _
      rw [if_pos (Nat.add_zero ptr), pow_zero, Nat.div_one]
    · intro a ha
      show (if a = ptr then _ else bytes a) = _
      rw [if_neg (by omega)]
  intro k
  induction k with
  | zero =>
    intro fuel n bytes ptr h1 h2 hf
    obtain ⟨f, rfl⟩ : ∃ f, fuel = f + 1 := ⟨fuel - 1, by omega⟩
    exact one f n bytes ptr h2 (by omega)
  | succ k ih =>
    intro fuel n bytes ptr h1 h2 hf
    obtain ⟨f, rfl⟩ : ∃ f, fuel = f + 1 := ⟨fuel - 1, by omega⟩
    by_cases h0 : n / 10 = 0
    · obtain ⟨len, b1, a1, a2, a3, a4, a5, a6⟩ := one f n bytes ptr h2 h0
      exact ⟨len, b1, a1, by omega, a3, a4, a5, a6⟩
    · have hlt : n / 10 < 10 ^ (k + 1) := by
        rw [Nat.div_lt_iff_lt_mul (by omega)]
        rw [pow_succ] at h1
        exact h1
      obtain ⟨len, b1, a1, a2, a3, a4, a5, a6⟩ :=
        ih f (n / 10) (fun a => if a = ptr then 48 + n % 10 else bytes a) (ptr + 1) hlt
          (by omega) (by omega)
      refine ⟨len + 1, b1, by omega, by omega, ?_, ?_, ?_, ?_⟩
      · rw [pow_succ]
        rw [Nat.div_lt_iff_lt_mul (by omega)] at a3
        exact a3
      · rw [itoa_digits_step f bytes n ptr h2, if_pos h0, a4,
          show ptr + 1 + len = ptr + (len + 1) by omega]
      · intro i hi
        cases i with
        | zero =>
          rw [a6 (ptr + 0) (by omega)]
          show (if ptr + 0 = ptr then 48 + n % 10 else _) = _
          rw [if_pos (Nat.add_zero ptr), pow_zero, Nat.div_one]
        | succ i =>
          rw [show ptr + (i + 1) = ptr + 1 + i by omega, a5 i (by omega), pow_succ,
            Nat.div_div_eq_div_mul, Nat.mul_comm]
      · intro a ha
        rw [a6 a (by omega)]
        show (if a = ptr then _ else bytes a) = _
        rw [if_neg (by omega)]

/-- The reversal loop of `itoa` mirrors the bytes between `p` and `q` and leaves
the others alone. -/
theorem itoa_reverse_spec :
    ∀ (fuel : Nat) (bytes : Nat → Nat) (p q : Nat), p ≤ q + 1 → q + 2 ≤ p + 2 * fuel →
      ∃ bytes1, itoa_reverse fuel bytes p q = some bytes1
        ∧ (∀ i, p + i ≤ q → bytes1 (p + i) = bytes (q - i))
        ∧ (∀ a, a < p ∨ q < a → bytes1 a = bytes a) := by
  intro fuel
  induction fuel with
  | zero => intro bytes p q h1 h2; omega
  | succ f ih =>
    intro bytes p q h1 h2
    rw [itoa_reverse]
    by_cases hpq : p < q
    · rw [if_pos hpq]
      dsimp only
      obtain ⟨b1, e1, e2, e3⟩ := ih
        (fun a => if a = p then bytes q else if a = q then bytes p else bytes a)
        (p + 1) (q - 1) (by omega) (by omega)
      refine ⟨b1, e1, ?_, ?_⟩
      · intro i hi
        by_cases hi0 : i = 0
        · subst hi0
          rw [e3 (p + 0) (by omega), if_pos (Nat.add_zero p), Nat.sub_zero]
        · by_cases hiq : p + i = q
          · rw [hiq, e3 q (by omega), if_neg (by omega), if_pos rfl,
              show q - i = p by omega]
          · have := e2 (i - 1) (by omega)
            rw [show p + 1 + (i - 1) = p + i by omega] at this
            rw [this, if_neg (by omega), if_neg (by omega),
              show q - 1 - (i - 1) = q - i by omega]
      · intro a ha
        rw [e3 a (by omega), if_neg (by omega), if_neg (by omega)]
    · rw [if_neg hpq]
      refine ⟨bytes, rfl, ?_, fun _ _ => rfl⟩
      intro i hi
      have : i = 0 := by omega
      subst this
      rw [Nat.add_zero, Nat.sub_zero, show p = q by omega]

/-- The digit loop of `atoi` over the decimal digits of `n`, most significant
first, followed by a terminator. -/
theorem atoi_digits_nat (bytes : Nat → Nat) (s m n : Nat) (hn : n < 2147483648)
    (hd : ∀ j, j < m → bytes (s + j) = 48 + n / 10 ^ (m - 1 - j) % 10)
    (hz : bytes (s + m) = 0) :
    ∀ (r fuel : Nat), r ≤ m → r + 1 ≤ fuel →
      atoi_digits fuel bytes (s + (m - r)) ((n / 10 ^ r : Nat) : Int) = some (n : Int) := by
  intro r
  induction r with
  | zero =>
    intro fuel _ hf
    obtain ⟨f, rfl⟩ : ∃ f, fuel = f + 1 := ⟨fuel - 1, by omega⟩
    rw [atoi_digits, Nat.sub_zero, hz, if_neg (by omega), pow_zero, Nat.div_one]
  | succ r ih =>
    intro fuel hr hf
    obtain ⟨f, rfl⟩ : ∃ f, fuel = f + 1 := ⟨fuel - 1, by omega⟩
    have hb := hd (m - (r + 1)) (by omega)
    rw [show m - 1 - (m - (r + 1)) = r by omega] at hb
    have hdiv : n / 10 ^ (r + 1) = n / 10 ^ r / 10 := by
      rw [pow_succ, Nat.div_div_eq_div_mul]
    have hle : n / 10 ^ r ≤ n := Nat.div_le_self _ _
    have hacc : wrap_int (((n / 10 ^ (r + 1) : Nat) : Int) * 10
        + (((48 + n / 10 ^ r % 10 : Nat) : Int) - 48)) = ((n / 10 ^ r : Nat) : Int) := by
      rw [hdiv]
      generalize n / 10 ^ r = x at hle
      have e : ((x / 10 : Nat) : Int) * 10 + (((48 + x % 10 : Nat) : Int) - 48)
          = (x : Int) := by omega
      rw [e]
      exact wrap_int_id _ (by omega) (by omega)
    rw [atoi_digits, hb, if_pos (by omega), hacc,
      show s + (m - (r + 1)) + 1 = s + (m - r) by omega]
    exact ih f (by omega) (by omega)

/-- The conversion part of `itoa` on a non-negative value in base 10 leaves at
most ten decimal digits, most significant first, and the terminator. -/
theorem itoa_convert_nat (fuel : Nat) (bytes : Nat → Nat) (n start : Nat)
    (hn : n < 2147483648) (hf : 10 ≤ fuel) :
    ∃ len bytes3, 1 ≤ len ∧ len ≤ 10 ∧ n < 10 ^ len
      ∧ itoa_convert fuel bytes (n : Int) start start 10 = some (Except.ok bytes3)
      ∧ (∀ j, j < len → bytes3 (start + j) = 48 + n / 10 ^ (len - 1 - j) % 10)
      ∧ bytes3 (start + len) = 0
      ∧ (∀ a, a < start → bytes3 a = bytes a) := by
  have h10 : (10 : Nat) ^ (9 + 1) = 10000000000 := by norm_num
  obtain ⟨len, b1, a1, a2, a3, a4, a5, a6⟩ :=
    itoa_digits_nat 9 fuel n bytes start (by rw [h10]; omega) hn (by omega)
  obtain ⟨b3, e1, e2, e3⟩ := itoa_reverse_spec fuel
    (fun a => if a = start + len then 0 else b1 a) start (start + len - 1)
    (by omega) (by omega)
  refine ⟨len, b3, a1, a2, a3, ?_, ?_, ?_, ?_⟩
  · unfold itoa_convert
    rw [a4]
    dsimp only
    rw [e1]
  · intro j hj
    rw [e2 j (by omega), if_neg (by omega),
      show start + len - 1 - j = start + (len - 1 - j) by omega, a5 _ (by omega)]
  · rw [e3 _ (by omega), if_pos rfl]
  · intro a ha
    rw [e3 a (by omega), if_neg (by omega), a6 a (by omega)]

/-- The digit loop of `atoi` reads back what `itoa_convert` left. -/
theorem atoi_digits_back (fuel : Nat) (bytes : Nat → Nat) (s len n : Nat)
    (hn : n < 2147483648) (hlen : len + 1 ≤ fuel) (hlt : n < 10 ^ len)
    (hd : ∀ j, j < len → bytes (s + j) = 48 + n / 10 ^ (len - 1 - j) % 10)
    (hz : bytes (s + len) = 0) :
    atoi_digits fuel bytes s 0 = some (n : Int) := by
  have h := atoi_digits_nat bytes s len n hn hd hz len fuel (le_refl _) hlen
  rw [Nat.sub_self, Nat.add_zero, Nat.div_eq_of_lt hlt] at h
  exact h

/-- What `atoi` does on a string that starts with a minus sign. -/
theorem atoi_minus (fuel : Nat) (bytes : Nat → Nat) (str : Nat) (r : Int)
    (h : bytes str = 45) (hd : atoi_digits (fuel + 1) bytes (str + 1) 0 = some r) :
    atoi (fuel + 1) bytes str = some (wrap_int (r * -1)) := by
  unfold atoi
  rw [atoi_skip, if_neg (by omega)]
  dsimp only
  rw [if_pos h, if_pos h, hd]

/-- What `atoi` does on a string that starts with a digit. -/
theorem atoi_plain (fuel : Nat) (bytes : Nat → Nat) (str : Nat) (r : Int)
    (h1 : 48 ≤ bytes str) (hd : atoi_digits (fuel + 1) bytes str 0 = some r) :
    atoi (fuel + 1) bytes str = some (wrap_int (r * 1)) := by
  unfold atoi
  rw [atoi_skip, if_neg (by omega)]
  dsimp only
  rw [if_neg (by omega), if_neg (by omega), if_neg (by omega), hd]

/-- C40 (fails on the code): for every 32-bit signed integer `v` other than
`INT_MIN`, `itoa(v, buf, 10)` returns with every index into its digit table in
bounds and `atoi` applied to the resulting string returns `v`; for
`v = INT_MIN` the negation `-value` overflows, the value stays negative, and the
first index into the 17-byte digit table is -8, out of bounds. -/
theorem itoa_atoi_round_trip (bytes : Nat → Nat) (str : Nat) (v : Int)
    (hlo : -2147483648 ≤ v) (hhi : v ≤ 2147483647) :
    (v ≠ -2147483648 →
        ∀ fuel, 11 ≤ fuel →
          ∃ bytes1, itoa fuel bytes v str 10 = some (Except.ok bytes1)
            ∧ ∀ fuel2, 12 ≤ fuel2 → atoi fuel2 bytes1 str = some v)
      ∧ (v = -2147483648 →
          ∀ fuel, 1 ≤ fuel → itoa fuel bytes v str 10 = some (Except.error (-8))) := by
  constructor
  · intro hne fuel hf
    by_cases hv : 0 ≤ v
    · obtain ⟨n, rfl⟩ := Int.eq_ofNat_of_zero_le hv
      obtain ⟨len, b3, a1, a2, a3, a4, a5, a6, _⟩ :=
        itoa_convert_nat fuel bytes n str (by omega) (by omega)
      refine ⟨b3, ?_, ?_⟩
      · unfold itoa
        rw [if_neg (by omega), a4]
      · intro fuel2 hf2
        obtain ⟨f, rfl⟩ : ∃ f, fuel2 = f + 1 := ⟨fuel2 - 1, by omega⟩
        have hfirst := a5 0 a1
        rw [Nat.add_zero] at hfirst
        rw [atoi_plain f b3 str (n : Int) (by rw [hfirst]; omega)
          (atoi_digits_back (f + 1) b3 str len n (by omega) (by omega) a3 a5 a6)]
        rw [wrap_int_id _ (by omega) (by omega)]
        congr 1
        omega
    · obtain ⟨n, hn⟩ := Int.eq_ofNat_of_zero_le (show 0 ≤ -v by omega)
      have hvn : v = -(n : Int) := by omega
      subst hvn
      obtain ⟨len, b3, a1, a2, a3, a4, a5, a6, a7⟩ :=
        itoa_convert_nat fuel (fun a => if a = str then 45 else bytes a) n (str + 1)
          (by omega) (by omega)
      refine ⟨b3, ?_, ?_⟩
      · unfold itoa
        rw [if_pos ⟨by omega, rfl⟩, wrap_int_id _ (by omega) (by omega), neg_neg, a4]
      · intro fuel2 hf2
        obtain ⟨f, rfl⟩ : ∃ f, fuel2 = f + 1 := ⟨fuel2 - 1, by omega⟩
        have hsign : b3 str = 45 := by
          rw [a7 str (by omega), if_pos rfl]
        rw [atoi_minus f b3 str (n : Int) hsign
          (atoi_digits_back (f + 1) b3 (str + 1) len n (by omega) (by omega) a3 a5 a6)]
        rw [wrap_int_id _ (by omega) (by omega)]
        congr 1
        omega
  · intro hv fuel hf
    subst hv
    obtain ⟨f, rfl⟩ : ∃ f, fuel = f + 1 := ⟨fuel - 1, by omega⟩
    have hw : wrap_int (-(-2147483648)) = -2147483648 := by decide
    have hq : wrap_int (Int.tdiv (-2147483648) 10) = -214748364 := by decide
    unfold itoa
    rw [if_pos ⟨by decide, rfl⟩, hw]
    unfold itoa_convert
    rw [itoa_digits]
    dsimp only
    rw [hq, if_neg (by decide)]
    rfl

/-- C40 failing input: `itoa(-2147483648, buf, 10)` with `buf = 1000` indexes the
digit table at -8; the same theorem gives the round trip at `INT_MAX`. -/
theorem itoa_atoi_round_trip_witness :
    (-2147483648 : Int) ≤ -2147483648 ∧ (-2147483648 : Int) ≤ 2147483647
      ∧ (∀ fuel, 1 ≤ fuel →
          itoa fuel bytes_ab (-2147483648) 1000 10 = some (Except.error (-8)))
      ∧ ∀ fuel, 11 ≤ fuel →
          ∃ bytes1, itoa fuel bytes_ab 2147483647 1000 10 = some (Except.ok bytes1)
            ∧ ∀ fuel2, 12 ≤ fuel2 → atoi fuel2 bytes1 1000 = some 2147483647 :=
  ⟨by decide, by decide,
    (itoa_atoi_round_trip bytes_ab 1000 (-2147483648) (by decide) (by decide)).2 rfl,
    (itoa_atoi_round_trip bytes_ab 1000 2147483647 (by decide) (by decide)).1 (by decide)⟩

end MiniOS
